import Mathlib

/-!
# Process-Scheduler: resource manager, queues and round-robin scheduler

A shallow embedding of `src/manager.c`, `src/queue.c` and the data model of
`src/loader.h`.

The C program threads its resource table and the per-process lists of held
resources through `struct resourceList` nodes linked by `next` pointers, and
`add_resource_to_process` makes a held node point *into* the resource table
(`r->next = resource->next`).  To keep that aliasing, resource nodes live in an
explicit heap (`List resourceList`, an address is an index, `none` is `NULL`)
and every list walk of the source is a walk over that heap.  A walk carries a
fuel argument; `none` as a result stands for the C program not returning
(dereferencing `NULL` or a dangling pointer, or walking a cyclic list).

Process control blocks are kept in creation order (`procs`, the `next` chain of
`struct processControlBlock`, which the manager never changes); a pointer to a
PCB is its index.  The three scheduling queues are shared by all processes
(`ready_queue()`, `waiting_queue()`, `terminated_queue()` of `loader.c` hand
out one queue each), so they are fields of the state.  Every `printf` of the
manager appends one `Event` to `out`.
-/

namespace ProcSched

/-! ## Data model (`loader.h`, `queue.h`) -/

/-- The process NEW state. -/
def NEW : Nat := 0
/-- The process READY state. -/
def READY : Nat := 1
/-- The process RUNNING state. -/
def RUNNING : Nat := 2
/-- The process WAITING state. -/
def WAITING : Nat := 3
/-- The process TERMINATED state. -/
def TERMINATED : Nat := 4

/-- Value of `TRUE` in `manager.c`. -/
def TRUE : Nat := 1
/-- Value of `FALSE` in `manager.c`. -/
def FALSE : Nat := 0
/-- Default quantum `QUANTUM` of `manager.c`. -/
def QUANTUM : Nat := 1

/-- The instruction tags `REQ_V`, `REL_V`, `SEND_V`, `RECV_V`; the loader
produces no other tag, so the `default` branches of the schedulers are not
modelled. -/
inductive InstrType where
  | REQ_V
  | REL_V
  | SEND_V
  | RECV_V
  deriving DecidableEq, Repr

/-- One `struct instruction`; the `next` link is the tail of the list that
holds it. -/
structure instruction where
  type : InstrType
  resource : String
  msg : Option String
  deriving DecidableEq, Repr

/-- One `struct resourceList` node of the heap. -/
structure resourceList where
  name : String
  available : Nat
  next : Option Nat
  deriving DecidableEq, Repr

/-- One `struct mailbox`; the `next` link is the tail of the list that holds
it, `msg = none` is a `NULL` message pointer. -/
structure mailbox where
  name : String
  msg : Option String
  deriving DecidableEq, Repr

/-- One `struct processControlBlock` with the fields of its page.
`nextInstruction` is the list of instructions still to execute (`[]` is
`NULL`), `resourceListPtr` the head of the list of held resources. -/
structure processControlBlock where
  name : String
  number : Nat
  processState : Nat
  nextInstruction : List instruction
  resourceListPtr : Option Nat
  deriving DecidableEq, Repr

/-- The `struct queue` of `queue.h`: the linked items from `head` on, and the
counter `n`. -/
structure queue where
  items : List Nat
  n : Nat
  deriving DecidableEq, Repr

/-- What the manager prints, one constructor per output line:
* `req_waiting p r`       : `"%s req %s: waiting;\n"`
* `req_acquired p r av`   : `"%s req %s: acquired; "` then the available names
* `rel_released p r av`   : `"%s rel %s: released; "` then the available names
* `rel_error p r`         : `"%s rel %s: ERROR: Nothing to release\n"`
* `send p msg mbox`       : `"%s send: Message %s addede to %s\n"`
* `recv p msg mbox`       : `"%s recv: Message %s removed from %s\n"` -/
inductive Event where
  | req_waiting (proc res : String)
  | req_acquired (proc res : String) (avail : List String)
  | rel_released (proc res : String) (avail : List String)
  | rel_error (proc res : String)
  | send (proc : String) (msg : Option String) (mbox : String)
  | recv (proc : String) (msg : Option String) (mbox : String)
  deriving DecidableEq, Repr

/-- The whole memory of a run. -/
structure State where
  heap : List resourceList
  procs : List processControlBlock
  mail : List mailbox
  readyQueue : queue
  waitingQueue : queue
  terminatedQueue : queue
  out : List Event
  deriving DecidableEq, Repr

/-- Fuel that lets a walk visit every node of the heap once and reach `NULL`. -/
def walkFuel (h : List resourceList) : Nat := h.length + 1

/-- Assignment through a PCB pointer. -/
def State.setPcb (s : State) (p : Nat) (f : processControlBlock → processControlBlock) : State :=
  { s with procs := s.procs.modify f p }

/-! ## Queue (`queue.c`) -/

/-- The function `enqueue` of `queue.c`: counts the item and links it behind the tail. -/
def enqueue (q : queue) (pcb : Nat) : queue :=
  { items := q.items ++ [pcb], n := q.n + 1 }

/-- The function `dequeue` of `queue.c`: `none` is the `NULL` returned on an empty queue. -/
def dequeue (q : queue) : Option (Nat × queue) :=
  match q.items with
  | [] => none
  | head :: rest => some (head, { items := rest, n := q.n - 1 })

/-! ## Moving a process between queues -/

/-- The function `process_to_readyq`. -/
def process_to_readyq (proc : Nat) (s : State) : State :=
  let s1 := s.setPcb proc (fun b => { b with processState := READY })
  { s1 with readyQueue := enqueue s1.readyQueue proc }

/-- The function `process_to_waitingq`. -/
def process_to_waitingq (proc : Nat) (s : State) : State :=
  let s1 := s.setPcb proc (fun b => { b with processState := WAITING })
  { s1 with waitingQueue := enqueue s1.waitingQueue proc }

/-- The function `process_to_terminateq`. -/
def process_to_terminateq (proc : Nat) (s : State) : State :=
  let s1 := s.setPcb proc (fun b => { b with processState := TERMINATED })
  { s1 with terminatedQueue := enqueue s1.terminatedQueue proc }

/-! ## Resource manager -/

/-- The loop `while (proc_rsrc != NULL) proc_rsrc = proc_rsrc->next;` of
`add_resource_to_process`: it only has to come to an end. -/
def walk_to_end : Nat → List resourceList → Option Nat → Option Unit
  | 0, _, _ => none
  | _ + 1, _, none => some ()
  | fuel + 1, h, some a =>
    match h[a]? with
    | none => none
    | some node => walk_to_end fuel h node.next

/-- The function `add_resource_to_process`.  `r` is the freshly allocated
node, placed at the end of the heap.  With an empty held list the copy becomes
the head of the held list; otherwise the source walks `proc_rsrc` to `NULL`,
fills `r` and assigns it to the local `proc_rsrc` only, so the held list stays
as it was.  In both branches `resource->available` becomes 0. -/
def add_resource_to_process (current : Nat) (resource : Nat) (s : State) : Option State :=
  match s.procs[current]?, s.heap[resource]? with
  | some pcb, some node =>
    let r := s.heap.length
    let heap1 := (s.heap.set resource { node with available := 0 }) ++
      [{ name := node.name, available := 0, next := node.next }]
    match pcb.resourceListPtr with
    | none =>
      some ({ s with heap := heap1 }.setPcb current (fun b => { b with resourceListPtr := some r }))
    | some hd =>
      match walk_to_end (walkFuel s.heap) s.heap (some hd) with
      | none => none
      | some _ => some { s with heap := heap1 }
  | _, _ => none

/-- The function `acquire_resource`: recursion along `resource->next`. -/
def acquire_resource : Nat → String → Option Nat → Nat → State → Option (Nat × State)
  | 0, _, _, _, _ => none
  | _ + 1, _, none, _, s => some (FALSE, s)
  | fuel + 1, resourceName, some a, p, s =>
    match s.heap[a]? with
    | none => none
    | some node =>
      if node.name = resourceName then
        if node.available = 1 then
          match add_resource_to_process p a s with
          | none => none
          | some s1 => some (TRUE, s1)
        else
          acquire_resource fuel resourceName node.next p s
      else
        acquire_resource fuel resourceName node.next p s

/-- The loop of `release_resource_from_process` with its two cursors `cur`
and `prev`.  A match at the head (`prev == NULL`) only advances the local
`cur`; a later match unlinks the node with `prev->next = cur->next`. -/
def release_walk : Nat → String → Option Nat → Option Nat → List resourceList →
    Option (List resourceList)
  | 0, _, _, _, _ => none
  | _ + 1, _, none, _, h => some h
  | fuel + 1, nm, some c, prev, h =>
    match h[c]? with
    | none => none
    | some cn =>
      if cn.name = nm then
        match prev with
        | none => some h
        | some pv =>
          match h[pv]? with
          | none => none
          | some pn => some (h.set pv { pn with next := cn.next })
      else
        release_walk fuel nm cn.next (some c) h

/-- The function `release_resource_from_process`. -/
def release_resource_from_process (current : Nat) (resource : Nat) (s : State) : Option State :=
  match s.procs[current]?, s.heap[resource]? with
  | some pcb, some node =>
    match release_walk (walkFuel s.heap) node.name pcb.resourceListPtr none s.heap with
    | none => none
    | some h1 => some { s with heap := h1 }
  | _, _ => none

/-- The function `release_resource`: recursion along `resource->next`; the
first node of that name is set available, whatever its state and holder. -/
def release_resource : Nat → String → Option Nat → Nat → State → Option (Nat × State)
  | 0, _, _, _, _ => none
  | _ + 1, resourceName, none, p, s =>
    match s.procs[p]? with
    | none => none
    | some pcb => some (FALSE, { s with out := s.out ++ [Event.rel_error pcb.name resourceName] })
  | fuel + 1, resourceName, some a, p, s =>
    match s.heap[a]? with
    | none => none
    | some node =>
      if node.name = resourceName then
        match release_resource_from_process p a
            { s with heap := s.heap.set a { node with available := 1 } } with
        | none => none
        | some s1 => some (TRUE, s1)
      else
        release_resource fuel resourceName node.next p s

/-- The names printed by `print_available_resources`. -/
def print_available_resources : Nat → List resourceList → Option Nat → Option (List String)
  | 0, _, _ => none
  | _ + 1, _, none => some []
  | fuel + 1, h, some a =>
    match h[a]? with
    | none => none
    | some node =>
      match print_available_resources fuel h node.next with
      | none => none
      | some rest => some (if node.available = 1 then node.name :: rest else rest)

/-- The function `is_resource_available`. -/
def is_resource_available : Nat → String → Option Nat → List resourceList → Option Nat
  | 0, _, _, _ => none
  | _ + 1, _, none, _ => some FALSE
  | fuel + 1, resourceName, some a, h =>
    match h[a]? with
    | none => none
    | some node =>
      if node.name = resourceName then
        if node.available = 1 then some TRUE
        else is_resource_available fuel resourceName node.next h
      else
        is_resource_available fuel resourceName node.next h

/-- The loop of `release_all_resources_from_process`:
`release_resource(r->name, r, p); r = r->next;` starting at the held list. -/
def release_all_walk : Nat → Option Nat → Nat → State → Option State
  | 0, _, _, _ => none
  | _ + 1, none, _, s => some s
  | fuel + 1, some r, p, s =>
    match s.heap[r]? with
    | none => none
    | some node =>
      match release_resource (walkFuel s.heap) node.name (some r) p s with
      | none => none
      | some (_, s1) =>
        match s1.heap[r]? with
        | none => none
        | some node1 => release_all_walk fuel node1.next p s1

/-- The function `release_all_resources_from_process`. -/
def release_all_resources_from_process (p : Nat) (s : State) : Option State :=
  match s.procs[p]? with
  | none => none
  | some pcb => release_all_walk (walkFuel s.heap) pcb.resourceListPtr p s

/-- The loop of `send_processes_to_readyq`, `n` iterations. -/
def send_walk : Nat → Option Nat → State → Option State
  | 0, _, s => some s
  | n + 1, resource, s =>
    match dequeue s.waitingQueue with
    | none => none
    | some (q, w1) =>
      match s.procs[q]? with
      | none => none
      | some pcb =>
        match pcb.nextInstruction with
        | [] => none
        | i :: _ =>
          match is_resource_available (walkFuel s.heap) i.resource resource s.heap with
          | none => none
          | some b =>
            if b ≠ 0 then
              send_walk n resource (process_to_readyq q { s with waitingQueue := w1 })
            else
              send_walk n resource { s with waitingQueue := enqueue w1 q }

/-- The function `send_processes_to_readyq`, on the waiting queue of the state. -/
def send_processes_to_readyq (resource : Option Nat) (s : State) : Option State :=
  match s.waitingQueue.items with
  | [] => some s
  | _ :: _ => send_walk s.waitingQueue.n resource s

/-- The function `processes_deadlocked` on the PCB chain from `firstPCB` on. -/
def processes_deadlocked : List processControlBlock → Nat
  | [] => 1
  | pcb :: rest => if pcb.processState = WAITING then processes_deadlocked rest else 0

/-- The function `processes_finished` on the PCB chain from `firstPCB` on. -/
def processes_finished : List processControlBlock → Nat
  | [] => 1
  | pcb :: rest => if pcb.processState ≠ TERMINATED then 0 else processes_finished rest

/-! ## Instructions -/

/-- The assignment `current->nextInstruction = current->nextInstruction->next`
on a process that has a next instruction. -/
def advance (b : processControlBlock) : processControlBlock :=
  { b with nextInstruction := b.nextInstruction.tail }

/-- The function `process_request`.  The scheduler passes the next
instruction of `current` as `instruct`; on success the cursor moves on, which
reads `current->nextInstruction->next`. -/
def process_request (current : Nat) (instruct : instruction) (resource : Option Nat)
    (s : State) : Option State :=
  match s.procs[current]? with
  | none => none
  | some pcb =>
    let s1 := s.setPcb current (fun b => { b with processState := RUNNING })
    match acquire_resource (walkFuel s1.heap) instruct.resource resource current s1 with
    | none => none
    | some (acquired, s2) =>
      if acquired = 0 then
        some (process_to_waitingq current
          { s2 with out := s2.out ++ [Event.req_waiting pcb.name instruct.resource] })
      else
        match print_available_resources (walkFuel s2.heap) s2.heap resource with
        | none => none
        | some names =>
          match pcb.nextInstruction with
          | [] => none
          | _ :: _ =>
            some ({ s2 with
              out := s2.out ++ [Event.req_acquired pcb.name instruct.resource names] }.setPcb
              current advance)

/-- The function `process_release`.  After a release that succeeded the
process is terminated when `current->nextInstruction->next` is `NULL`; after
one that failed it is put on the waiting queue; in both cases the cursor moves
on. -/
def process_release (current : Nat) (instruct : instruction) (resource : Option Nat)
    (s : State) : Option State :=
  match s.procs[current]? with
  | none => none
  | some pcb =>
    let s1 := s.setPcb current (fun b => { b with processState := RUNNING })
    match release_resource (walkFuel s1.heap) instruct.resource resource current s1 with
    | none => none
    | some (released, s2) =>
      match pcb.nextInstruction with
      | [] => none
      | _ :: next =>
        if released ≠ 0 then
          match print_available_resources (walkFuel s2.heap) s2.heap resource with
          | none => none
          | some names =>
            let s3 := { s2 with
              out := s2.out ++ [Event.rel_released pcb.name instruct.resource names] }
            let s4 := if next = [] then process_to_terminateq current s3 else s3
            some (s4.setPcb current advance)
        else
          some ((process_to_waitingq current s2).setPcb current advance)

/-- The `do ... while` search of `process_send_message` and
`process_receive_message`: the position of the first mailbox of that name;
`none` when the search runs off the list (the source then dereferences `NULL`). -/
def find_mailbox (resourceName : String) : List mailbox → Option Nat
  | [] => none
  | m :: rest =>
    if m.name = resourceName then some 0
    else
      match find_mailbox resourceName rest with
      | none => none
      | some k => some (k + 1)

/-- The function `process_send_message`: the slot of the mailbox found is
overwritten with the message of the instruction. -/
def process_send_message (pcb : Nat) (instruct : instruction) (s : State) : Option State :=
  match s.procs[pcb]? with
  | none => none
  | some b =>
    let s1 := s.setPcb pcb (fun c => { c with processState := RUNNING })
    match find_mailbox instruct.resource s1.mail with
    | none => none
    | some k =>
      match s1.mail[k]?, b.nextInstruction with
      | some currentMbox, _ :: _ =>
        some ({ s1 with
          out := s1.out ++ [Event.send b.name instruct.msg currentMbox.name],
          mail := s1.mail.set k { currentMbox with msg := instruct.msg } }.setPcb pcb advance)
      | _, _ => none

/-- The function `process_receive_message`: the message pointer of the mailbox
found is printed, copied into the instruction and reset to `NULL`. -/
def process_receive_message (pcb : Nat) (instruct : instruction) (s : State) : Option State :=
  match s.procs[pcb]? with
  | none => none
  | some b =>
    let s1 := s.setPcb pcb (fun c => { c with processState := RUNNING })
    match find_mailbox instruct.resource s1.mail with
    | none => none
    | some k =>
      match s1.mail[k]?, b.nextInstruction with
      | some currentMbox, _ :: _ =>
        some ({ s1 with
          out := s1.out ++ [Event.recv b.name currentMbox.msg currentMbox.name],
          mail := s1.mail.set k { currentMbox with msg := none } }.setPcb pcb advance)
      | _, _ => none

/-- The `switch` on the type of the next instruction, shared by both schedulers. -/
def dispatch (p : Nat) (i : instruction) (resource : Option Nat) (s : State) : Option State :=
  match i.type with
  | InstrType.REQ_V => process_request p i resource s
  | InstrType.REL_V => process_release p i resource s
  | InstrType.SEND_V => process_send_message p i s
  | InstrType.RECV_V => process_receive_message p i s

/-! ## Round-robin scheduler -/

/-- The loop `while (tally < quantum)` of `schedule_processes_rr`; the first
argument is `quantum - tally`. -/
def quantum_walk : Nat → Nat → Option Nat → State → Option State
  | 0, _, _, s => some s
  | k + 1, p, resource, s =>
    match s.procs[p]? with
    | none => none
    | some pcb =>
      match pcb.nextInstruction with
      | [] => some s
      | i :: _ =>
        match dispatch p i resource s with
        | none => none
        | some s1 => quantum_walk k p resource s1

/-- The recovery loop `while (processes_deadlocked(firstPCB))` of
`schedule_processes_rr`; `copy` is `firstPCB_copy`. -/
def recover_walk : Nat → Nat → Option Nat → State → Option State
  | 0, _, _, _ => none
  | fuel + 1, copy, resource, s =>
    if processes_deadlocked s.procs ≠ 0 then
      match release_all_resources_from_process copy s with
      | none => none
      | some s1 =>
        match send_processes_to_readyq resource (process_to_terminateq copy s1) with
        | none => none
        | some s2 => recover_walk fuel (copy + 1) resource s2
    else some s

/-- The assignment `quantum = quantum == 0 ? QUANTUM : quantum`. -/
def effective_quantum (quantum : Int) : Int :=
  if quantum = 0 then QUANTUM else quantum

/-- One iteration of the outer loop of `schedule_processes_rr`: the turn of
the head of the ready queue, the drain of the waiting queue, the re-filing of
the process and the deadlock check with its recovery. -/
def rr_turn (quantum : Int) (resource : Option Nat) (s : State) : Option State :=
  match dequeue s.readyQueue with
  | none => none
  | some (p, rq) =>
    match quantum_walk (effective_quantum quantum).toNat p resource { s with readyQueue := rq } with
    | none => none
    | some s1 =>
      match send_processes_to_readyq resource s1 with
      | none => none
      | some s2 =>
        match s2.procs[p]? with
        | none => none
        | some pcb =>
          let s3 := if pcb.processState = RUNNING ∧ pcb.nextInstruction ≠ [] then
            process_to_readyq p s2 else s2
          if processes_deadlocked s3.procs ≠ 0 then
            recover_walk (s3.procs.length + 1) 0 resource s3
          else some s3

/-- The function `schedule_processes_rr`: turns until the ready queue is empty. -/
def schedule_processes_rr : Nat → Int → Option Nat → State → Option State
  | 0, _, _, _ => none
  | fuel + 1, quantum, resource, s =>
    match s.readyQueue.items with
    | [] => some s
    | _ :: _ =>
      match rr_turn quantum resource s with
      | none => none
      | some s1 => schedule_processes_rr fuel quantum resource s1

/-- The state after `k` turns of the round-robin loop (fewer when the ready
queue empties before). -/
def rr_turns : Nat → Int → Option Nat → State → Option State
  | 0, _, _, s => some s
  | k + 1, quantum, resource, s =>
    match s.readyQueue.items with
    | [] => some s
    | _ :: _ =>
      match rr_turn quantum resource s with
      | none => none
      | some s1 => rr_turns k quantum resource s1

/-! ## First come, first served -/

/-- The function `schedule_processes_fcfs`: the instructions of `pcb` until
none is left, then the same for the head of the ready queue. -/
def schedule_processes_fcfs : Nat → Nat → Option Nat → State → Option State
  | 0, _, _, _ => none
  | fuel + 1, pcb, resource, s =>
    match s.procs[pcb]? with
    | none => none
    | some b =>
      match b.nextInstruction with
      | i :: _ =>
        match dispatch pcb i resource s with
        | none => none
        | some s1 => schedule_processes_fcfs fuel pcb resource s1
      | [] =>
        match dequeue s.readyQueue with
        | none => some s
        | some (h, rq) => schedule_processes_fcfs fuel h resource { s with readyQueue := rq }

/-! ## Loaded model (`loader.c`) -/

/-- The resource table after `load_resource` for each name: node `i` is
available and points to node `i + 1`. -/
def load_resources (names : List String) : List resourceList :=
  names.enum.map (fun x =>
    { name := x.2, available := 1, next := if x.1 + 1 < names.length then some (x.1 + 1) else none })

/-- The pointer `firstResource`. -/
def firstResource (names : List String) : Option Nat :=
  if names = [] then none else some 0

/-- The state the scheduler is started in: every process is READY and in the
ready queue in creation order (`load_process`), holds nothing and points at
its first instruction; every resource is available (`load_resource`).  The
loader allocates the queues and the mailboxes without initialising them; the
queues are taken as empty with counter 0 and the message pointers as `NULL`.
Each process is paired with the instruction list that
`load_process_instruction` has attached to it.  That function attaches a block
of instructions only when the block names another process than the one
`currentPCB` points to, so the process created last keeps `nextInstruction ==
NULL`, the empty list here, when the first block of the file is its own.  The
scheduler is started on at least one process. -/
def load (processes : List (String × List instruction)) (resources : List String)
    (mailboxes : List String) : State :=
  { heap := load_resources resources,
    procs := processes.enum.map (fun x =>
      { name := x.2.1, number := x.1, processState := READY,
        nextInstruction := x.2.2, resourceListPtr := none }),
    mail := mailboxes.map (fun m => { name := m, msg := none }),
    readyQueue := { items := List.range processes.length, n := processes.length },
    waitingQueue := { items := [], n := 0 },
    terminatedQueue := { items := [], n := 0 },
    out := [] }

/-- The function `schedule_processes`: algorithm 0 is first come first
served started on `firstPCB`, algorithm 1 is round robin.  The function first
reads `num`, the number of the process at the tail of the ready queue, which
needs a loaded process; `num` is passed on and never used, and is left out. -/
def schedule_processes (fuel : Nat) (resource : Option Nat) (schedule_alg : Int) (quantum : Int)
    (s : State) : Option State :=
  if schedule_alg = 0 then schedule_processes_fcfs fuel 0 resource s
  else if schedule_alg = 1 then schedule_processes_rr fuel quantum resource s
  else some s

/-! ## Views of the heap used in the statements -/

/-- The addresses visited by a walk along `next` from `p` until `NULL`. -/
def chain : Nat → List resourceList → Option Nat → Option (List Nat)
  | 0, _, _ => none
  | _ + 1, _, none => some []
  | fuel + 1, h, some a =>
    match h[a]? with
    | none => none
    | some node =>
      match chain fuel h node.next with
      | none => none
      | some l => some (a :: l)

/-- The list `l` is the list of addresses linked from `p` to `NULL` in `h`. -/
def IsChain (h : List resourceList) : Option Nat → List Nat → Prop
  | p, [] => p = none
  | p, a :: l => p = some a ∧ ∃ node, h[a]? = some node ∧ IsChain h node.next l

/-- The held list of process `p`: the addresses linked from its `resourceListPtr`. -/
def held (s : State) (p : Nat) : Option (List Nat) :=
  match s.procs[p]? with
  | none => none
  | some pcb => chain (walkFuel s.heap) s.heap pcb.resourceListPtr

/-- The names of the nodes of a list of addresses. -/
def names (h : List resourceList) (l : List Nat) : List String :=
  l.filterMap (fun a => (h[a]?).map (fun node => node.name))

/-- The names in the held list of process `p`. -/
def held_names (s : State) (p : Nat) : Option (List String) :=
  (held s p).map (names s.heap)

/-- The availability flags along the resource table. -/
def flags (s : State) (resource : Option Nat) : Option (List (String × Nat)) :=
  (chain (walkFuel s.heap) s.heap resource).map
    (fun l => l.filterMap (fun a => (s.heap[a]?).map (fun node => (node.name, node.available))))

/-- The `resourceListPtr` of process `q`. -/
def ptr (s : State) (q : Nat) : Option (Option Nat) :=
  (s.procs[q]?).map (fun b => b.resourceListPtr)

/-- The instructions left to process `q`. -/
def instrs (s : State) (q : Nat) : Option (List instruction) :=
  (s.procs[q]?).map (fun b => b.nextInstruction)

/-- The node is an available instance of the name. -/
def freeNamed (r : String) (node : resourceList) : Prop :=
  node.name = r ∧ node.available = 1

/-- The heap after `add_resource_to_process`: the instance is marked, the
copy `r` is allocated behind the last node. -/
def heapAfterAdd (h : List resourceList) (a : Nat) (node : resourceList) : List resourceList :=
  (h.set a { node with available := 0 }) ++
    [{ name := node.name, available := 0, next := node.next }]

/-- The test of `send_processes_to_readyq` on the process `q`: the resource of
its next instruction is reported available. -/
def pending_available (s : State) (resource : Option Nat) (q : Nat) : Bool :=
  match s.procs[q]? with
  | none => false
  | some pcb =>
    match pcb.nextInstruction with
    | [] => false
    | i :: _ =>
      match is_resource_available (walkFuel s.heap) i.resource resource s.heap with
      | none => false
      | some b => decide (b ≠ 0)

/-- The drain can inspect process `q`: it has a next instruction and the
search for its resource returns. -/
def inspectable (s : State) (resource : Option Nat) (q : Nat) : Prop :=
  ∃ i rest b, instrs s q = some (i :: rest) ∧
    is_resource_available (walkFuel s.heap) i.resource resource s.heap = some b

/-! ## Inputs of the worked examples -/

/-- A request instruction. -/
def req (r : String) : instruction := { type := InstrType.REQ_V, resource := r, msg := none }

/-- A release instruction. -/
def rel (r : String) : instruction := { type := InstrType.REL_V, resource := r, msg := none }

/-- A table of two instances of `R`, the first one taken, and one process
that holds nothing. -/
def exTwoInstances : State :=
  { heap := [{ name := "R", available := 0, next := some 1 },
             { name := "R", available := 1, next := none }],
    procs := [{ name := "P1", number := 0, processState := RUNNING,
                nextInstruction := [], resourceListPtr := none }],
    mail := [],
    readyQueue := { items := [], n := 0 },
    waitingQueue := { items := [], n := 0 },
    terminatedQueue := { items := [], n := 0 },
    out := [] }

/-- The only process of `exTwoInstances`. -/
def exIdle : processControlBlock :=
  { name := "P1", number := 0, processState := RUNNING,
    nextInstruction := [], resourceListPtr := none }

/-- The first process requests `A` and then `B`, on the resource table `B, A`;
the second process requests `A`. -/
def exAB : State := load [("P1", [req "A", req "B"]), ("P2", [req "A"])] ["B", "A"] []

/-- Process 0 of `exAB` acquires `A` and then `B`. -/
def exABacquired : Option (Nat × Nat × State) :=
  match acquire_resource (walkFuel exAB.heap) "A" (some 0) 0 exAB with
  | none => none
  | some (r1, s1) =>
    match acquire_resource (walkFuel s1.heap) "B" (some 0) 0 s1 with
    | none => none
    | some (r2, s2) => some (r1, r2, s2)

/-- One free instance of `R`; the first process holds nothing and is about to
release `R`. -/
def exFree : State := load [("P1", [rel "R", req "R"]), ("P2", [req "R"])] ["R"] []

/-- The process `P1` of `exFree`. -/
def exFreeP1 : processControlBlock :=
  { name := "P1", number := 0, processState := READY,
    nextInstruction := [rel "R", req "R"], resourceListPtr := none }

/-- The first process starts with a release of `Q`, a name the resource table
`R` does not have. -/
def exAbsent : State := load [("P1", [rel "Q", req "R"]), ("P2", [req "R"])] ["R"] []

/-- The process `P1` of `exAbsent`. -/
def exAbsentP1 : processControlBlock :=
  { name := "P1", number := 0, processState := READY,
    nextInstruction := [rel "Q", req "R"], resourceListPtr := none }

/-- The resource `R` is requested by the first process; the second process
starts with a release of `R`. -/
def exOther : State := load [("P1", [req "R"]), ("P2", [rel "R", req "R"])] ["R"] []

/-- The state of `exOther` after the first process has acquired `R`. -/
def exHeldByOther : Option State := process_request 0 (req "R") (some 0) exOther

/-- The state after the second process has then executed its release of `R`. -/
def exReleasedByOther : Option State :=
  match exHeldByOther with
  | none => none
  | some s => process_release 1 (rel "R") (some 0) s

/-- Two processes compete for the one instance of `R`; the first requests,
releases and requests it again. -/
def exCompete : State := load [("P1", [req "R", rel "R", req "R"]), ("P2", [req "R"])] ["R"] []

/-- The state of `exCompete` after the first request of `R` by `P1`. -/
def exOwnAcquired : Option State := process_request 0 (req "R") (some 0) exCompete

/-- The state of `exCompete` after the request and the release of `R` by `P1`. -/
def exOwnReleased : Option State :=
  match exOwnAcquired with
  | none => none
  | some s => process_release 0 (rel "R") (some 0) s

/-- Two instances of `R`: the first process takes one and keeps it, the second
takes the other and releases it. -/
def exTwoUnits : State := load [("P1", [req "R"]), ("P2", [req "R", rel "R"])] ["R", "R"] []

/-- Three resources; the first process takes `A`, then takes and releases `R`;
the second process requests `A`. -/
def exTail : State :=
  load [("P1", [req "A", req "R", rel "R"]), ("P2", [req "A"])] ["A", "B", "R"] []

/-- Three processes wait, in the order `P2`, `P1`, `P3`: `P2` and `P3` for the
free resource `R`, `P1` for the taken resource `S`. -/
def exWaiting : State :=
  { heap := [{ name := "R", available := 1, next := some 1 },
             { name := "S", available := 0, next := none }],
    procs := [{ name := "P1", number := 0, processState := WAITING,
                nextInstruction := [req "S"], resourceListPtr := none },
              { name := "P2", number := 1, processState := WAITING,
                nextInstruction := [req "R", rel "R"], resourceListPtr := none },
              { name := "P3", number := 2, processState := WAITING,
                nextInstruction := [req "R"], resourceListPtr := none }],
    mail := [],
    readyQueue := { items := [], n := 0 },
    waitingQueue := { items := [1, 0, 2], n := 3 },
    terminatedQueue := { items := [], n := 0 },
    out := [] }

/-! ## Deadlock detection, recovery and queue membership -/

/-- A process control block in the given state, with nothing to execute and
nothing held. -/
def pcbIn (state : Nat) : processControlBlock :=
  { name := "P", number := 0, processState := state, nextInstruction := [],
    resourceListPtr := none }

/-- The deadlock of the specification: `P1` requests `R1` then `R2`, `P2`
requests `R2` then `R1`. -/
def exDeadlock : State :=
  load [("P1", [req "R1", req "R2"]), ("P2", [req "R2", req "R1"])] ["R1", "R2"] []

/-- The state of `exDeadlock` when the deadlock check of the fourth turn fires:
after three turns, the instruction of the fourth turn and the drain that
follows it. -/
def exDeadlocked : Option State :=
  match rr_turns 3 1 (some 0) exDeadlock with
  | none => none
  | some s =>
    match dequeue s.readyQueue with
    | none => none
    | some (p, rq) =>
      match quantum_walk 1 p (some 0) { s with readyQueue := rq } with
      | none => none
      | some s1 => send_processes_to_readyq (some 0) s1

/-- The state of `exDeadlocked` after `release_all_resources_from_process` on
the victim, the first process. -/
def exVictimReleased : Option State :=
  match exDeadlocked with
  | none => none
  | some s => release_all_resources_from_process 0 s

/-- The first scenario of the specification: two processes request and release
the one instance of `R`. -/
def exScenario1 : State :=
  load [("P1", [req "R", rel "R"]), ("P2", [req "R", rel "R"])] ["R"] []

/-- The state of `exScenario1` in its third turn after the instruction of `P1`
and before the drain. -/
def exScenario1Released : Option State :=
  match rr_turns 2 1 (some 0) exScenario1 with
  | none => none
  | some s =>
    match dequeue s.readyQueue with
    | none => none
    | some (p, rq) => quantum_walk 1 p (some 0) { s with readyQueue := rq }

/-- The state of `exScenario1` in its third turn after the drain. -/
def exScenario1Drained : Option State :=
  match exScenario1Released with
  | none => none
  | some s => send_processes_to_readyq (some 0) s

/-- The first process takes the one instance of `R` and keeps it; the second
process starts with a request of `R`. -/
def exBlocked : State := load [("P1", [req "R"]), ("P2", [req "R", rel "R"])] ["R"] []

/-- The states of the processes. -/
def states (s : State) : List Nat := s.procs.map (fun b => b.processState)

/-- The number of processes in state WAITING. -/
def waitingCount (ps : List processControlBlock) : Nat :=
  ps.countP (fun b => b.processState = WAITING)

/-- The two states have the same processes, queues and mailboxes: only the
heap and the output may differ. -/
def SameSched (s s1 : State) : Prop :=
  s1.procs = s.procs ∧ s1.readyQueue = s.readyQueue ∧ s1.waitingQueue = s.waitingQueue ∧
    s1.terminatedQueue = s.terminatedQueue ∧ s1.mail = s.mail

/-- The state `s1` can be the state `s` after a drain of the waiting queue:
heap, terminated queue, mailboxes and output are the same, no process changed
its instructions or its held list, a process changed at all only by becoming
READY on the ready queue, and no process left the ready and waiting queues. -/
def Drained (s s1 : State) : Prop :=
  s1.heap = s.heap ∧ s1.terminatedQueue = s.terminatedQueue ∧ s1.mail = s.mail ∧
    s1.out = s.out ∧ s1.procs.length = s.procs.length ∧
    (∀ q, instrs s1 q = instrs s q) ∧ (∀ q, ptr s1 q = ptr s q) ∧
    (∀ q b1, s1.procs[q]? = some b1 →
      s.procs[q]? = some b1 ∨ (b1.processState = READY ∧ q ∈ s1.readyQueue.items)) ∧
    (∀ x, x ∈ s.readyQueue.items → x ∈ s1.readyQueue.items) ∧
    (∀ x, x ∈ s.waitingQueue.items →
      x ∈ s1.readyQueue.items ∨ x ∈ s1.waitingQueue.items)

/-- The state of process `q`. -/
def stateOf (s : State) (q : Nat) : Option Nat :=
  (s.procs[q]?).map (fun b => b.processState)

/-- The process `x` is on the ready, the waiting or the terminated queue. -/
def inQueues (s : State) (x : Nat) : Prop :=
  x ∈ s.readyQueue.items ∨ x ∈ s.waitingQueue.items ∨ x ∈ s.terminatedQueue.items

/-- What instructions executed for process `p` keep: the ready queue, the
members of the waiting and terminated queues, the number of processes, and the
instructions of every other process. -/
def KeepsOthers (p : Nat) (s s1 : State) : Prop :=
  s1.readyQueue = s.readyQueue ∧
    (∀ x, x ∈ s.waitingQueue.items → x ∈ s1.waitingQueue.items) ∧
    (∀ x, x ∈ s.terminatedQueue.items → x ∈ s1.terminatedQueue.items) ∧
    s1.procs.length = s.procs.length ∧
    (∀ q, q ≠ p → instrs s1 q = instrs s q)

/-- The process `p` is accounted for after an instruction: it is on the
waiting or the terminated queue, or its state is RUNNING. -/
def Placed (p : Nat) (s : State) : Prop :=
  p ∈ s.waitingQueue.items ∨ p ∈ s.terminatedQueue.items ∨ stateOf s p = some RUNNING

/-- What `acquire_resource` keeps: the queues, and the state and instructions
of every process. -/
def KeepsSched (s s1 : State) : Prop :=
  s1.readyQueue = s.readyQueue ∧ s1.waitingQueue = s.waitingQueue ∧
    s1.terminatedQueue = s.terminatedQueue ∧ s1.procs.length = s.procs.length ∧
    (∀ q, instrs s1 q = instrs s q) ∧ (∀ q, stateOf s1 q = stateOf s q)

/-- Every process is on one of the three queues or has no instruction left. -/
def Covered (s : State) : Prop :=
  ∀ p, p < s.procs.length → inQueues s p ∨ instrs s p = some []

/-- What the drain, the re-filing and the recovery keep: the number of
processes, the instructions of every process, and that a process on a queue is
still on a queue. -/
def KeepsQueued (s s1 : State) : Prop :=
  s1.procs.length = s.procs.length ∧ (∀ q, instrs s1 q = instrs s q) ∧
    ∀ x, inQueues s x → inQueues s1 x

/-- The links of the heap descend along `rank`: every node has a rank below
the size of the heap, and every `next` pointer is the address of a node of
smaller rank.  A heap with such a ranking has no cycle and no dangling link. -/
def Ranked (rank : Nat → Nat) (h : List resourceList) : Prop :=
  ∀ a ∈ List.range h.length, ∀ node, h[a]? = some node →
    rank a < h.length ∧ ∀ b, node.next = some b → b < h.length ∧ rank b < rank a

/-- The pointer is `NULL` or the address of a node of the heap. -/
def ValidPtr (h : List resourceList) (p : Option Nat) : Prop :=
  ∀ a, p = some a → a < h.length

/-- The deadlocked state of `exDeadlock`, written out: both processes wait,
each holds a private copy of the instance it took. -/
def exCycle : State :=
  { heap := [{ name := "R1", available := 0, next := some 1 },
             { name := "R2", available := 0, next := none },
             { name := "R1", available := 0, next := some 1 },
             { name := "R2", available := 0, next := none }],
    procs := [{ name := "P1", number := 0, processState := WAITING,
                nextInstruction := [req "R2"], resourceListPtr := some 2 },
              { name := "P2", number := 1, processState := WAITING,
                nextInstruction := [req "R1"], resourceListPtr := some 3 }],
    mail := [],
    readyQueue := { items := [], n := 0 },
    waitingQueue := { items := [0, 1], n := 2 },
    terminatedQueue := { items := [], n := 0 },
    out := [Event.req_acquired "P1" "R1" ["R2"], Event.req_acquired "P2" "R2" [],
      Event.req_waiting "P1" "R2", Event.req_waiting "P2" "R1"] }

/-- A ranking of the heap of `exCycle`. -/
def exCycleRank (a : Nat) : Nat := if a = 0 ∨ a = 2 then 1 else 0

/-- The number of times the process `p` occurs on the ready, the waiting and
the terminated queue. -/
def occurrences (s : State) (p : Nat) : Nat :=
  s.readyQueue.items.count p + s.waitingQueue.items.count p + s.terminatedQueue.items.count p

/-! ## Mailboxes, instruction outcomes and turns -/

/-- A send instruction. -/
def snd (m : String) (x : String) : instruction :=
  { type := InstrType.SEND_V, resource := m, msg := some x }

/-- A receive instruction. -/
def rcv (m : String) : instruction := { type := InstrType.RECV_V, resource := m, msg := none }

/-- Two mailboxes of the same name `M` behind a mailbox `A`, and three
processes that use `M`. -/
def exMail : State :=
  load [("P1", [snd "M" "hello", snd "M" "bye"]), ("P2", [rcv "M", rcv "M"]), ("P3", [rcv "M"])]
    [] ["A", "M", "M"]

/-- The message slots of the mailboxes, in table order. -/
def slots (s : State) : List (String × Option String) := s.mail.map (fun m => (m.name, m.msg))

/-- The three processes of `exMail`. -/
def exMailP1 : processControlBlock :=
  { name := "P1", number := 0, processState := READY,
    nextInstruction := [snd "M" "hello", snd "M" "bye"], resourceListPtr := none }

/-- The second process of `exMail`. -/
def exMailP2 : processControlBlock :=
  { name := "P2", number := 1, processState := READY,
    nextInstruction := [rcv "M", rcv "M"], resourceListPtr := none }

/-- The third process of `exMail`. -/
def exMailP3 : processControlBlock :=
  { name := "P3", number := 2, processState := READY,
    nextInstruction := [rcv "M"], resourceListPtr := none }

/-- The first process of `exMail` after its first send. -/
def exMailP1Sent : processControlBlock :=
  { name := "P1", number := 0, processState := RUNNING,
    nextInstruction := [snd "M" "bye"], resourceListPtr := none }

/-- The event is one that the instruction `i` logs when the process named `nm`
executes it to its end: `acquired`, `released` or the release error, the send
or the receive line.  The `waiting` line of a request that is not satisfied is
not among them. -/
def Event.logs (nm : String) (i : instruction) : Event → Prop
  | Event.req_acquired pr r _ => pr = nm ∧ i.type = InstrType.REQ_V ∧ r = i.resource
  | Event.rel_released pr r _ => pr = nm ∧ i.type = InstrType.REL_V ∧ r = i.resource
  | Event.rel_error pr r => pr = nm ∧ i.type = InstrType.REL_V ∧ r = i.resource
  | Event.send pr m b => pr = nm ∧ i.type = InstrType.SEND_V ∧ m = i.msg ∧ b = i.resource
  | Event.recv pr _ b => pr = nm ∧ i.type = InstrType.RECV_V ∧ b = i.resource
  | Event.req_waiting _ _ => False

/-- What no instruction changes: the ready queue, the number of processes and
the control blocks of the other processes; and the name and number of the
process itself, whose control block becomes `pcb1`. -/
def StepFrame (p : Nat) (pcb pcb1 : processControlBlock) (s s1 : State) : Prop :=
  s1.readyQueue = s.readyQueue ∧ s1.procs.length = s.procs.length ∧
    (∀ q, q ≠ p → s1.procs[q]? = s.procs[q]?) ∧
    s1.procs[p]? = some pcb1 ∧ pcb1.name = pcb.name ∧ pcb1.number = pcb.number

/-- The instruction was executed and the process goes on: the cursor is on the
rest of the list, the state is RUNNING, the waiting and terminated queues are
unchanged and one event is logged. -/
def Ran (pcb pcb1 : processControlBlock) (i : instruction) (rest : List instruction)
    (s s1 : State) : Prop :=
  pcb1.nextInstruction = rest ∧ pcb1.processState = RUNNING ∧
    s1.waitingQueue = s.waitingQueue ∧ s1.terminatedQueue = s.terminatedQueue ∧
    (i.type = InstrType.REL_V → rest ≠ []) ∧
    ∃ e, s1.out = s.out ++ [e] ∧ Event.logs pcb.name i e ∧ e ≠ Event.rel_error pcb.name i.resource

/-- The instruction was a release that succeeded and was the last of the
list: the process is TERMINATED and appended to the terminated queue. -/
def Finished (p : Nat) (pcb pcb1 : processControlBlock) (i : instruction)
    (rest : List instruction) (s s1 : State) : Prop :=
  i.type = InstrType.REL_V ∧ rest = [] ∧ pcb1.nextInstruction = [] ∧
    pcb1.processState = TERMINATED ∧ s1.waitingQueue = s.waitingQueue ∧
    s1.terminatedQueue = enqueue s.terminatedQueue p ∧
    ∃ e, s1.out = s.out ++ [e] ∧ Event.logs pcb.name i e ∧ e ≠ Event.rel_error pcb.name i.resource

/-- The instruction was a request that was not satisfied: the cursor stays on
it, the process is WAITING and appended to the waiting queue, the heap is
unchanged. -/
def Blocked (p : Nat) (pcb pcb1 : processControlBlock) (i : instruction)
    (rest : List instruction) (s s1 : State) : Prop :=
  i.type = InstrType.REQ_V ∧ pcb1.nextInstruction = i :: rest ∧
    pcb1.processState = WAITING ∧ s1.waitingQueue = enqueue s.waitingQueue p ∧
    s1.terminatedQueue = s.terminatedQueue ∧ s1.heap = s.heap ∧ s1.mail = s.mail ∧
    s1.out = s.out ++ [Event.req_waiting pcb.name i.resource]

/-- The instruction was a release that failed: the cursor is on the rest of the
list, the process is WAITING and appended to the waiting queue, the heap is
unchanged and the error is logged. -/
def Failed (p : Nat) (pcb pcb1 : processControlBlock) (i : instruction)
    (rest : List instruction) (s s1 : State) : Prop :=
  i.type = InstrType.REL_V ∧ pcb1.nextInstruction = rest ∧
    pcb1.processState = WAITING ∧ s1.waitingQueue = enqueue s.waitingQueue p ∧
    s1.terminatedQueue = s.terminatedQueue ∧ s1.heap = s.heap ∧ s1.mail = s.mail ∧
    s1.out = s.out ++ [Event.rel_error pcb.name i.resource]

/-- The cursor of every process of `s1` is a suffix of its cursor in `s`: no
cursor has moved backwards and no instruction was skipped out of order. -/
def CursorsAhead (s s1 : State) : Prop :=
  ∀ x, ∃ n, instrs s1 x = (instrs s x).map (List.drop n)

/-- Between `s` and `s1` the process `x` has executed the last instruction of
its list, and that instruction is a release. -/
def FinalRelease (s s1 : State) (x : Nat) : Prop :=
  ∃ L i, instrs s x = some (L ++ [i]) ∧ i.type = InstrType.REL_V ∧ instrs s1 x = some []

/-- No cursor has moved backwards between `s` and `s1`, and a process that is
TERMINATED in `s1` was TERMINATED in `s`, or has executed a final release, or
is the process `v` (the victim of a recovery, if there was one). -/
def TerminatesByRelease (v : Option Nat) (s s1 : State) : Prop :=
  CursorsAhead s s1 ∧
    ∀ x, stateOf s1 x = some TERMINATED →
      stateOf s x = some TERMINATED ∨ FinalRelease s s1 x ∨ v = some x

/-- The re-filing step of a round-robin turn:
`if (p->processState == RUNNING && p->nextInstruction != NULL) process_to_readyq(p)`,
for the control block `pcb` of `p`. -/
def refile (p : Nat) (pcb : processControlBlock) (s : State) : State :=
  if pcb.processState = RUNNING ∧ pcb.nextInstruction ≠ [] then process_to_readyq p s else s

/-- The state in which the process at the head of the ready queue starts its
turn: the head is taken off the queue. -/
def afterDequeue (R : List Nat) (s : State) : State :=
  { s with readyQueue := { items := R, n := s.readyQueue.n - 1 } }

/-- The counter of the queue is the number of its items. -/
def Counted (q : queue) : Prop := q.n = q.items.length

/-- The processes that take the first `k` turns of the round-robin loop from
`s`, in the order of their turns (fewer when the ready queue empties before). -/
def dispatch_order : Nat → Int → Option Nat → State → Option (List Nat)
  | 0, _, _, _ => some []
  | k + 1, quantum, resource, s =>
    match s.readyQueue.items with
    | [] => some []
    | p :: _ =>
      match rr_turn quantum resource s with
      | none => none
      | some s1 => (dispatch_order k quantum resource s1).map (fun l => p :: l)

/-- The first process of `exScenario1`. -/
def exScenario1P1 : processControlBlock :=
  { name := "P1", number := 0, processState := READY,
    nextInstruction := [req "R", rel "R"], resourceListPtr := none }

/-- The state of `exScenario1` after the request of `R` by `P1`. -/
def exFirstStep : State := Option.get (dispatch 0 (req "R") (some 0) exScenario1) (by decide)

/-- The state of `exScenario1` after two turns with quantum 1: `P1` holds `R`
and is on the ready queue, `P2` is on the waiting queue. -/
def exThirdTurn : State := Option.get (rr_turns 2 1 (some 0) exScenario1) (by decide)

/-- The state after the third turn, in which `P1` releases `R`. -/
def exThirdTurnDone : State := Option.get (rr_turn 1 (some 0) exThirdTurn) (by decide)

/-! ## Well-formed states and the runs of the two schedulers -/

/-- The heap is well formed for a run: it has no cycle and no dangling link,
and the resource table and every held list start at a node of the heap or are
empty. -/
def HeapOK (resource : Option Nat) (s : State) : Prop :=
  (∃ rank, Ranked rank s.heap) ∧ ValidPtr s.heap resource ∧
    ∀ (q : Nat) (b : processControlBlock), s.procs[q]? = some b →
      ValidPtr s.heap b.resourceListPtr

/-- Every mailbox named by a send or a receive that is still to be executed is
in the mailbox table. -/
def MailOK (s : State) : Prop :=
  ∀ (q : Nat) (b : processControlBlock), s.procs[q]? = some b → ∀ i ∈ b.nextInstruction,
    (i.type = InstrType.SEND_V ∨ i.type = InstrType.RECV_V) → ∃ m ∈ s.mail, m.name = i.resource

/-- The number of instructions still to be executed, over all processes. -/
def remaining (s : State) : Nat := (s.procs.map (fun b => b.nextInstruction.length)).sum

/-- Every request that the first-come-first-served run attempts in its first
`fuel` steps is satisfied, that is, does not send its process to the waiting
queue.  The run is followed as in `schedule_processes_fcfs`. -/
def requests_satisfied : Nat → Nat → Option Nat → State → Bool
  | 0, _, _, _ => true
  | fuel + 1, pcb, resource, s =>
    match s.procs[pcb]? with
    | none => true
    | some b =>
      match b.nextInstruction with
      | i :: _ =>
        match dispatch pcb i resource s with
        | none => true
        | some s1 =>
          decide (i.type = InstrType.REQ_V → s1.waitingQueue = s.waitingQueue) &&
            requests_satisfied fuel pcb resource s1
      | [] =>
        match dequeue s.readyQueue with
        | none => true
        | some (h, rq) => requests_satisfied fuel h resource { s with readyQueue := rq }

/-- The process `p` is about to execute the request `i`, which
`acquire_resource` turns down. -/
def Stuck (p : Nat) (i : instruction) (resource : Option Nat) (s : State) : Prop :=
  ∃ pcb rest s1, s.procs[p]? = some pcb ∧ pcb.nextInstruction = i :: rest ∧
    i.type = InstrType.REQ_V ∧
    acquire_resource (walkFuel s.heap) i.resource resource p
      (s.setPcb p (fun b => { b with processState := RUNNING })) = some (0, s1)

/-- The block of events `blk` is what the process `x` of `s` logs when it
executes the instructions it has left, one event per instruction. -/
def RunsToEnd (s : State) (x : Nat) (blk : List Event) : Prop :=
  ∃ b, s.procs[x]? = some b ∧ List.Forall₂ (fun e i => Event.logs b.name i e) blk b.nextInstruction

/-- Two processes, the first of which sends to a mailbox `X` that is not in the
mailbox table; no process makes a request. -/
def exNoBox : State :=
  load [("P1", [snd "X" "hello"]), ("P2", [rcv "M"])] ["R1"] ["M"]

/-- Two processes that use the resource `R1` and the mailbox `M` one after the
other. -/
def exInTurn : List (String × List instruction) :=
  [("P1", [req "R1", snd "M" "hello", rel "R1"]), ("P2", [rcv "M", snd "M" "bye"])]

/-- The waiting queue is well formed: its counter is its length and every
process on it has a pending instruction. -/
def WaitingOK (s : State) : Prop :=
  Counted s.waitingQueue ∧ ∀ q ∈ s.waitingQueue.items, ∃ i rest, instrs s q = some (i :: rest)

/-- Five instructions that do not block when the process runs alongside
`exThree`: the last one releases the resource the first one acquires. -/
def exFive : List instruction := [req "R1", snd "M" "a", snd "M" "b", rcv "M", rel "R1"]

/-- Three instructions on the mailbox `M`. -/
def exThree : List instruction := [snd "M" "c", rcv "M", snd "M" "d"]

/-- The loaded model with the processes `P1 = exFive` and `P2 = exThree`. -/
def exQ0 : State := load [("P1", exFive), ("P2", exThree)] ["R1"] ["M"]

/-- The state after the first turn of the round-robin loop with quantum 2. -/
def exQ1 : State := Option.get (rr_turn 2 (firstResource ["R1"]) exQ0) (by decide)

/-- The state after the second turn. -/
def exQ2 : State := Option.get (rr_turn 2 (firstResource ["R1"]) exQ1) (by decide)

/-- The state after the third turn. -/
def exQ3 : State := Option.get (rr_turn 2 (firstResource ["R1"]) exQ2) (by decide)

/-- The state after the fourth turn. -/
def exQ4 : State := Option.get (rr_turn 2 (firstResource ["R1"]) exQ3) (by decide)

/-- The control block of `P1` at the start of its third turn. -/
def exQ4P1 : processControlBlock := Option.get exQ4.procs[0]? (by decide)

/-! ## Recovery record, linked queue of `queue.c` and further inputs -/

/-- The recovery loop `while (processes_deadlocked(firstPCB))` of
`schedule_processes_rr` with a record of its iterations: the list holds the
value of `firstPCB_copy` at each execution of the loop body, in order. -/
def recover_victims : Nat → Nat → Option Nat → State → Option (List Nat × State)
  | 0, _, _, _ => none
  | fuel + 1, copy, resource, s =>
    if processes_deadlocked s.procs ≠ 0 then
      match release_all_resources_from_process copy s with
      | none => none
      | some s1 =>
        match send_processes_to_readyq resource (process_to_terminateq copy s1) with
        | none => none
        | some s2 =>
          match recover_victims fuel (copy + 1) resource s2 with
          | none => none
          | some (vs, s3) => some (copy :: vs, s3)
    else some ([], s)

/-- Two processes request the one instance of `R` and never release it. -/
def exStarved : State := load [("P1", [req "R"]), ("P2", [req "R"])] ["R"] []

/-- The state in which the round-robin run of `exStarved` with quantum 1
returns. -/
def exStarvedEnd : State :=
  Option.get (schedule_processes_rr 3 1 (firstResource ["R"]) exStarved) (by decide)

/-- The first process starts with a request of `Q`, a name the resource table
`R` does not have. -/
def exUnknown : State := load [("P1", [req "Q", req "R"]), ("P2", [req "R"])] ["R"] []

/-- The only instruction of the first process releases `Q`, a name the
resource table `R` does not have. -/
def exLastRelease : State := load [("P1", [rel "Q"]), ("P2", [req "R"])] ["R"] []

/-- The first process acquires `A` and `C` and releases `C` twice; every name
is in the resource table `A`, `B`, `C`. -/
def exLostInstance : State :=
  load [("P1", [req "A", req "C", rel "C", rel "C"]), ("P2", [req "B"])] ["A", "B", "C"] []

/-- The `struct queueItem` of `queue.h`: the process it holds and the `next`
pointer (an address of the cell store, `none` for `NULL`). -/
structure queueItem where
  item : Nat
  next : Option Nat
  deriving DecidableEq, Repr

/-- The `struct queue` of `queue.h` with its pointers: the cells allocated so
far (address = position), `head`, `tail` and the counter `n`, an `int`. -/
structure Linked.queue where
  cells : List queueItem
  head : Option Nat
  tail : Option Nat
  n : Int
  deriving DecidableEq, Repr

/-- The function `enqueue` of `queue.c` on the linked queue.  The new cell is
allocated at the end of the store.  With `head == NULL` it becomes head and
tail; otherwise `q->tail->next` is written, which needs `tail` to point to a
cell (`none` when it does not). -/
def Linked.enqueue (q : Linked.queue) (pcb : Nat) : Option Linked.queue :=
  match q.head with
  | none =>
    some { cells := q.cells ++ [{ item := pcb, next := none }], head := some q.cells.length,
           tail := some q.cells.length, n := q.n + 1 }
  | some _ =>
    match q.tail with
    | none => none
    | some t =>
      match q.cells[t]? with
      | none => none
      | some tc =>
        some { cells := (q.cells ++ [({ item := pcb, next := none } : queueItem)]).set t
                 { tc with next := some q.cells.length },
               head := q.head, tail := some q.cells.length, n := q.n + 1 }

/-- The function `dequeue` of `queue.c` on the linked queue: the pointer it
returns (`none` for `NULL`) and the queue it leaves.  `tail` is not touched. -/
def Linked.dequeue (q : Linked.queue) : Option (Option Nat × Linked.queue) :=
  match q.head with
  | none => some (none, q)
  | some a =>
    match q.cells[a]? with
    | none => none
    | some c => some (some a, { q with head := c.next, n := q.n - 1 })

/-- The process read through the pointer that `dequeue` returned: `->item`. -/
def Linked.item (q : Linked.queue) (r : Option Nat) : Option Nat :=
  r.bind (fun a => (q.cells[a]?).map (fun c => c.item))

/-- An operation on a queue. -/
inductive QueueOp where
  | enq (pcb : Nat)
  | deq
  deriving DecidableEq, Repr

/-- A sequence of operations on the linked queue: the processes the dequeues
return, in order (`none` for a `NULL` result), and the queue that is left. -/
def Linked.run : List QueueOp → Linked.queue → Option (List (Option Nat) × Linked.queue)
  | [], q => some ([], q)
  | QueueOp.enq x :: ops, q =>
    match Linked.enqueue q x with
    | none => none
    | some q1 => Linked.run ops q1
  | QueueOp.deq :: ops, q =>
    match Linked.dequeue q with
    | none => none
    | some (r, q1) =>
      match Linked.run ops q1 with
      | none => none
      | some (rs, q2) => some (Linked.item q1 r :: rs, q2)

/-- The abstract FIFO list of the specification: `enqueue` appends the item,
`dequeue` pops the oldest item, or returns the empty result and changes
nothing when there is none. -/
def fifo_run : List QueueOp → List Nat → List (Option Nat) × List Nat
  | [], l => ([], l)
  | QueueOp.enq x :: ops, l => fifo_run ops (l ++ [x])
  | QueueOp.deq :: ops, [] => (none :: (fifo_run ops []).1, (fifo_run ops []).2)
  | QueueOp.deq :: ops, x :: l => (some x :: (fifo_run ops l).1, (fifo_run ops l).2)

/-- The items met on the walk along `next` from `p` to `NULL`. -/
def Linked.walk : Nat → List queueItem → Option Nat → Option (List Nat)
  | 0, _, _ => none
  | _ + 1, _, none => some []
  | fuel + 1, cells, some a =>
    match cells[a]? with
    | none => none
    | some c => (Linked.walk fuel cells c.next).map (fun l => c.item :: l)

/-- The items reachable from `head`, oldest first. -/
def Linked.items (q : Linked.queue) : Option (List Nat) :=
  Linked.walk (q.cells.length + 1) q.cells q.head

/-- The cells at the addresses of `l`, in order, are linked from `p` to
`NULL` and hold the items of `l`. -/
def Linked.Path (cells : List queueItem) : Option Nat → List (Nat × Nat) → Prop
  | p, [] => p = none
  | p, (a, x) :: l =>
    p = some a ∧ ∃ c, cells[a]? = some c ∧ c.item = x ∧ Linked.Path cells c.next l

/-- The linked queue represents the list `l` of addresses and items: the cells
are linked from `head`, no cell occurs twice, `tail` is the last cell when there
is one, and `n` is the number of cells. -/
def Linked.Inv (q : Linked.queue) (l : List (Nat × Nat)) : Prop :=
  Linked.Path q.cells q.head l ∧ (l.map Prod.fst).Nodup ∧
    (∀ ax, l.getLast? = some ax → q.tail = some ax.1) ∧ q.n = l.length

/-- The sequence of operations on the queue of the scheduler model. -/
def queue_run : List QueueOp → queue → List (Option Nat) × queue
  | [], q => ([], q)
  | QueueOp.enq x :: ops, q => queue_run ops (enqueue q x)
  | QueueOp.deq :: ops, q =>
    match dequeue q with
    | none => (none :: (queue_run ops q).1, (queue_run ops q).2)
    | some (x, q1) => (some x :: (queue_run ops q1).1, (queue_run ops q1).2)

/-- An initially empty linked queue: `head` is `NULL` and `n` is 0; `tail` is
whatever it was left as, and the store may hold cells allocated before. -/
def Linked.empty (cells : List queueItem) (tail : Option Nat) : Linked.queue :=
  { cells := cells, head := none, tail := tail, n := 0 }

/-- An emptied and refilled queue: two items in, three dequeues, one item in,
one dequeue. -/
def exRefill : List QueueOp :=
  [QueueOp.enq 1, QueueOp.enq 2, QueueOp.deq, QueueOp.deq, QueueOp.deq, QueueOp.enq 3,
    QueueOp.deq]

/-! ## Turns with a recovery and ready queues with duplicate entries -/

/-- The ready queue after the turn of the head `p` of the ready queue as the
specification words it: the remaining ready processes, then the processes that
the drain of the turn promotes, in waiting-queue order, then `p` if and only if
its state is RUNNING and it has an instruction left. -/
def ready_after_turn_spec (quantum : Int) (resource : Option Nat) (s : State) :
    Option (List Nat) :=
  match s.readyQueue.items with
  | [] => none
  | p :: R =>
    match quantum_walk (effective_quantum quantum).toNat p resource (afterDequeue R s) with
    | none => none
    | some sa =>
      match send_processes_to_readyq resource sa with
      | none => none
      | some sb =>
        match sb.procs[p]? with
        | none => none
        | some pcb =>
          some (R ++ sa.waitingQueue.items.filter (fun q => pending_available sa resource q) ++
            (if pcb.processState = RUNNING ∧ pcb.nextInstruction ≠ [] then [p] else []))

/-- The state of `exDeadlock` after three turns with quantum 1: `P2` is on
the ready queue and `P1` waits for `R2`. -/
def exDeadlockThree : State := Option.get (rr_turns 3 1 (some 0) exDeadlock) (by decide)

/-- The state of `exDeadlock` after the fourth turn, in which the deadlock
check fires. -/
def exDeadlockFour : State := Option.get (rr_turn 1 (some 0) exDeadlockThree) (by decide)

/-- Two processes and two resources; with quantum 2 the second process is
turned down twice in its first turn. -/
def exTwice : State :=
  load [("P1", [req "R", req "S", rel "R", rel "S", req "S"]),
        ("P2", [req "R", rel "R", req "R", rel "R"])] ["R", "S"] []

/-- The state of `exTwice` after three turns with quantum 2. -/
def exTwiceThree : State :=
  Option.get (rr_turns 3 2 (firstResource ["R", "S"]) exTwice) (by decide)

/-! ## Lists in the heap -/

theorem chain_sound (h : List resourceList) :
    ∀ (fuel : Nat) (p : Option Nat) (l : List Nat),
      chain fuel h p = some l → IsChain h p l ∧ l.length < fuel := by
  intro fuel
  induction fuel with
  | zero => intro p l hc; simp [chain] at hc
  | succ f ih =>
    intro p l hc
    cases p with
    | none =>
      simp [chain] at hc
      subst hc
      simp [IsChain]
    | some a =>
      simp only [chain] at hc
      cases hn : h[a]? with
      | none => simp [hn] at hc
      | some node =>
        simp only [hn] at hc
        cases hr : chain f h node.next with
        | none => simp [hr] at hc
        | some l1 =>
          simp only [hr, Option.some.injEq] at hc
          subst hc
          obtain ⟨h1, h2⟩ := ih _ _ hr
          exact ⟨⟨rfl, node, hn, h1⟩, by simpa using h2⟩

theorem chain_complete (h : List resourceList) :
    ∀ (l : List Nat) (p : Option Nat) (fuel : Nat),
      IsChain h p l → l.length < fuel → chain fuel h p = some l := by
  intro l
  induction l with
  | nil =>
    intro p fuel hc hf
    simp only [IsChain] at hc
    subst hc
    cases fuel with
    | zero => simp at hf
    | succ f => simp [chain]
  | cons a l ih =>
    intro p fuel hc hf
    obtain ⟨hp, node, hn, hrest⟩ := hc
    subst hp
    cases fuel with
    | zero => simp at hf
    | succ f =>
      have hf2 : l.length < f := by simpa using hf
      simp [chain, hn, ih _ _ hrest hf2]

theorem IsChain.transport {h h1 : List resourceList} :
    ∀ (l : List Nat) (p : Option Nat),
      (∀ a ∈ l, ∀ node, h[a]? = some node → ∃ node1, h1[a]? = some node1 ∧ node1.next = node.next) →
      IsChain h p l → IsChain h1 p l := by
  intro l
  induction l with
  | nil => intro p _ hc; exact hc
  | cons a l ih =>
    intro p hagree hc
    obtain ⟨hp, node, hn, hrest⟩ := hc
    obtain ⟨node1, hn1, hnext⟩ := hagree a (List.mem_cons_self a l) node hn
    refine ⟨hp, node1, hn1, ?_⟩
    rw [hnext]
    exact ih _ (fun b hb => hagree b (List.mem_cons_of_mem a hb)) hrest

theorem IsChain.lt_length {h : List resourceList} :
    ∀ (l : List Nat) (p : Option Nat), IsChain h p l → ∀ a ∈ l, a < h.length := by
  intro l
  induction l with
  | nil => intro p _ a ha; simp at ha
  | cons b l ih =>
    intro p hc a ha
    obtain ⟨_, node, hn, hrest⟩ := hc
    rcases List.mem_cons.mp ha with hab | hal
    · subst hab
      exact (List.getElem?_eq_some.mp hn).1
    · exact ih _ hrest a hal

theorem IsChain.unique {h : List resourceList} :
    ∀ (l l1 : List Nat) (p : Option Nat), IsChain h p l → IsChain h p l1 → l = l1 := by
  intro l
  induction l with
  | nil =>
    intro l1 p hc hc1
    simp only [IsChain] at hc
    subst hc
    cases l1 with
    | nil => rfl
    | cons b l1 => exact absurd hc1.1 (by simp)
  | cons a l ih =>
    intro l1 p hc hc1
    obtain ⟨hp, node, hn, hrest⟩ := hc
    subst hp
    cases l1 with
    | nil => simp [IsChain] at hc1
    | cons b l1 =>
      obtain ⟨hb, node1, hn1, hrest1⟩ := hc1
      cases hb
      rw [hn] at hn1
      cases hn1
      rw [ih l1 _ hrest hrest1]

theorem IsChain.suffix {h : List resourceList} (a : Nat) (post : List Nat) :
    ∀ (pre : List Nat) (p : Option Nat), IsChain h p (pre ++ a :: post) →
      IsChain h (some a) (a :: post) := by
  intro pre
  induction pre with
  | nil =>
    intro p hc
    obtain ⟨_, node, hn, hrest⟩ := hc
    exact ⟨rfl, node, hn, hrest⟩
  | cons b pre ih =>
    intro p hc
    obtain ⟨_, node, _, hrest⟩ := hc
    exact ih _ hrest

theorem IsChain.nodup {h : List resourceList} :
    ∀ (l : List Nat) (p : Option Nat), IsChain h p l → l.Nodup := by
  intro l
  induction l with
  | nil => intro p _; exact List.nodup_nil
  | cons a l ih =>
    intro p hc
    have hc0 := hc
    obtain ⟨hp, node, hn, hrest⟩ := hc
    subst hp
    refine List.nodup_cons.mpr ⟨?_, ih _ hrest⟩
    intro hmem
    obtain ⟨pre, post, hsplit⟩ := List.append_of_mem hmem
    have hsuf : IsChain h (some a) (a :: post) :=
      IsChain.suffix a post pre node.next (hsplit ▸ hrest)
    have heq := IsChain.unique _ _ _ hc0 hsuf
    have hlen := congrArg List.length heq
    rw [hsplit] at hlen
    simp at hlen
    omega

theorem IsChain.length_le {h : List resourceList} (l : List Nat) (p : Option Nat)
    (hc : IsChain h p l) : l.length ≤ h.length := by
  have hsub : l ⊆ List.range h.length := by
    intro a ha
    exact List.mem_range.mpr (IsChain.lt_length l p hc a ha)
  have := (List.Nodup.subperm (IsChain.nodup l p hc) hsub).length_le
  simpa using this

theorem chain_of_IsChain (h : List resourceList) (l : List Nat) (p : Option Nat)
    (hc : IsChain h p l) : chain (walkFuel h) h p = some l :=
  chain_complete h l p _ hc (by
    have := IsChain.length_le l p hc
    simp only [walkFuel]
    omega)

theorem chain_congr (h h1 : List resourceList)
    (hnext : ∀ b : Nat, (h1[b]?).map (fun n : resourceList => n.next) =
      (h[b]?).map (fun n : resourceList => n.next)) :
    ∀ (fuel : Nat) (p : Option Nat), chain fuel h1 p = chain fuel h p := by
  intro fuel
  induction fuel with
  | zero => intro p; simp [chain]
  | succ f ih =>
    intro p
    cases p with
    | none => simp [chain]
    | some a =>
      have ha := hnext a
      simp only [chain]
      cases hn : h[a]? with
      | none =>
        rw [hn] at ha
        simp only [Option.map_none', Option.map_eq_none'] at ha
        simp [ha]
      | some node =>
        rw [hn] at ha
        simp only [Option.map_some', Option.map_eq_some'] at ha
        obtain ⟨node1, hn1, hnx⟩ := ha
        simp [hn1, hnx, ih]

theorem exists_first (h : List resourceList) (P : resourceList → Prop) :
    ∀ (l : List Nat), (∃ a ∈ l, ∃ node, h[a]? = some node ∧ P node) →
      ∃ pre a post node, l = pre ++ a :: post ∧ h[a]? = some node ∧ P node ∧
        ∀ b ∈ pre, ∀ nb, h[b]? = some nb → ¬ P nb := by
  intro l
  induction l with
  | nil => rintro ⟨a, ha, _⟩; simp at ha
  | cons c l ih =>
    rintro ⟨a, ha, node, hn, hP⟩
    by_cases hc : ∃ nc, h[c]? = some nc ∧ P nc
    · obtain ⟨nc, hnc, hPc⟩ := hc
      exact ⟨[], c, l, nc, rfl, hnc, hPc, by simp⟩
    · have hal : a ∈ l := by
        rcases List.mem_cons.mp ha with hac | hal
        · subst hac; exact absurd ⟨node, hn, hP⟩ hc
        · exact hal
      obtain ⟨pre, a1, post, n1, hl, hn1, hP1, hpre⟩ := ih ⟨a, hal, node, hn, hP⟩
      refine ⟨c :: pre, a1, post, n1, by simp [hl], hn1, hP1, ?_⟩
      intro b hb nb hnb hPb
      rcases List.mem_cons.mp hb with hbc | hbp
      · subst hbc; exact hc ⟨nb, hnb, hPb⟩
      · exact hpre b hbp nb hnb hPb

theorem load_resources_length (names : List String) :
    (load_resources names).length = names.length := by
  simp [load_resources]

theorem load_resources_getElem? (names : List String) (i : Nat) (nm : String)
    (hi : names[i]? = some nm) :
    (load_resources names)[i]? = some
      { name := nm, available := 1,
        next := if i + 1 < names.length then some (i + 1) else none } := by
  simp [load_resources, List.getElem?_enum, hi]

theorem load_resources_chain_from (names : List String) :
    ∀ (k i : Nat), i + k = names.length →
      IsChain (load_resources names) (if i < names.length then some i else none)
        (List.range' i k) := by
  intro k
  induction k with
  | zero =>
    intro i hi
    have : ¬ i < names.length := by omega
    simp [this, IsChain]
  | succ k ih =>
    intro i hi
    have hlt : i < names.length := by omega
    obtain ⟨nm, hnm⟩ : ∃ nm, names[i]? = some nm :=
      ⟨names[i], List.getElem?_eq_getElem hlt⟩
    rw [if_pos hlt, List.range'_succ]
    exact ⟨rfl, _, load_resources_getElem? names i nm hnm, ih (i + 1) (by omega)⟩

theorem load_resources_chain (names : List String) :
    chain (walkFuel (load_resources names)) (load_resources names) (firstResource names) =
      some (List.range names.length) := by
  apply chain_of_IsChain
  have h := load_resources_chain_from names names.length 0 (by simp)
  rw [← List.range_eq_range']  at h
  cases names with
  | nil => simpa [firstResource] using h
  | cons nm rest => simpa [firstResource] using h

/-! ## State updates that keep the lists -/

@[simp] theorem setPcb_heap (s : State) (p : Nat) (f : processControlBlock → processControlBlock) :
    (s.setPcb p f).heap = s.heap := rfl

@[simp] theorem setPcb_out (s : State) (p : Nat) (f : processControlBlock → processControlBlock) :
    (s.setPcb p f).out = s.out := rfl

theorem setPcb_procs_self (s : State) (p : Nat) (f : processControlBlock → processControlBlock)
    (pcb : processControlBlock) (hp : s.procs[p]? = some pcb) :
    (s.setPcb p f).procs[p]? = some (f pcb) := by
  simp [State.setPcb, hp]

theorem ptr_setPcb (s : State) (p q : Nat) (f : processControlBlock → processControlBlock)
    (hf : ∀ b, (f b).resourceListPtr = b.resourceListPtr) :
    ptr (s.setPcb p f) q = ptr s q := by
  unfold ptr State.setPcb
  simp only [List.getElem?_modify]
  cases s.procs[q]? with
  | none => rfl
  | some b =>
    by_cases hpq : p = q
    · simp [hpq, hf]
    · simp [hpq]

theorem ptr_process_to_terminateq (s : State) (p q : Nat) :
    ptr (process_to_terminateq p s) q = ptr s q :=
  ptr_setPcb s p q _ (fun _ => rfl)

theorem ptr_process_to_waitingq (s : State) (p q : Nat) :
    ptr (process_to_waitingq p s) q = ptr s q :=
  ptr_setPcb s p q _ (fun _ => rfl)

theorem ptr_process_to_readyq (s : State) (p q : Nat) :
    ptr (process_to_readyq p s) q = ptr s q :=
  ptr_setPcb s p q _ (fun _ => rfl)

theorem instrs_setPcb (s : State) (p q : Nat) (f : processControlBlock → processControlBlock)
    (hf : ∀ b, (f b).nextInstruction = b.nextInstruction) :
    instrs (s.setPcb p f) q = instrs s q := by
  unfold instrs State.setPcb
  simp only [List.getElem?_modify]
  cases s.procs[q]? with
  | none => rfl
  | some b =>
    by_cases hpq : p = q
    · simp [hpq, hf]
    · simp [hpq]

theorem instrs_process_to_readyq (s : State) (p q : Nat) :
    instrs (process_to_readyq p s) q = instrs s q :=
  instrs_setPcb s p q _ (fun _ => rfl)

theorem held_congr (s s1 : State) (hlen : s1.heap.length = s.heap.length)
    (hnext : ∀ b : Nat, (s1.heap[b]?).map (fun n : resourceList => n.next) =
      (s.heap[b]?).map (fun n : resourceList => n.next))
    (hptr : ∀ q, ptr s1 q = ptr s q) (q : Nat) : held s1 q = held s q := by
  have hq := hptr q
  unfold ptr at hq
  unfold held
  have hfuel : walkFuel s1.heap = walkFuel s.heap := by simp [walkFuel, hlen]
  cases h0 : s.procs[q]? with
  | none =>
    rw [h0] at hq
    simp only [Option.map_none', Option.map_eq_none'] at hq
    simp [hq]
  | some b =>
    rw [h0] at hq
    simp only [Option.map_some', Option.map_eq_some'] at hq
    obtain ⟨b1, hb1, hbp⟩ := hq
    simp only [hb1, hbp, hfuel]
    exact chain_congr s.heap s1.heap hnext _ _

theorem flags_congr (s s2 : State) (resource : Option Nat) (addrs : List Nat)
    (h1 : chain (walkFuel s.heap) s.heap resource = some addrs)
    (h2 : chain (walkFuel s2.heap) s2.heap resource = some addrs)
    (hsame : ∀ b ∈ addrs, s2.heap[b]? = s.heap[b]?) :
    flags s2 resource = flags s resource := by
  unfold flags
  rw [h1, h2]
  simp only [Option.map_some', Option.some.injEq]
  apply List.filterMap_congr
  intro b hb
  rw [hsame b hb]

theorem set_available_fields (h : List resourceList) (a : Nat) (node : resourceList) (v : Nat)
    (hn : h[a]? = some node) (b : Nat) :
    ((h.set a { node with available := v })[b]?).map (fun n : resourceList => (n.name, n.next)) =
      (h[b]?).map (fun n : resourceList => (n.name, n.next)) := by
  have ha : a < h.length := (List.getElem?_eq_some.mp hn).1
  by_cases hba : a = b
  · subst hba
    simp [List.getElem?_set, ha, hn]
  · simp [List.getElem?_set, hba]

theorem IsChain.setAvailable {h : List resourceList} (a : Nat) (node : resourceList) (v : Nat)
    (hn : h[a]? = some node) (l : List Nat) (p : Option Nat) (hc : IsChain h p l) :
    IsChain (h.set a { node with available := v }) p l := by
  refine IsChain.transport l p ?_ hc
  intro b hb nb hnb
  have hbl : b < h.length := (List.getElem?_eq_some.mp hnb).1
  by_cases hba : b = a
  · subst hba
    rw [hn] at hnb
    cases hnb
    exact ⟨{ node with available := v }, by simp [List.getElem?_set, hbl], rfl⟩
  · exact ⟨nb, by simp [List.getElem?_set, Ne.symm hba, hnb], rfl⟩

/-! ## Acquiring a resource -/

theorem walk_to_end_of_chain (h : List resourceList) :
    ∀ (l : List Nat) (p : Option Nat) (fuel : Nat),
      IsChain h p l → l.length < fuel → walk_to_end fuel h p = some () := by
  intro l
  induction l with
  | nil =>
    intro p fuel hc hf
    simp only [IsChain] at hc
    subst hc
    cases fuel with
    | zero => simp at hf
    | succ f => simp [walk_to_end]
  | cons a l ih =>
    intro p fuel hc hf
    obtain ⟨hp, node, hn, hrest⟩ := hc
    subst hp
    cases fuel with
    | zero => simp at hf
    | succ f =>
      have hf2 : l.length < f := by simpa using hf
      simp [walk_to_end, hn, ih _ _ hrest hf2]

theorem heapAfterAdd_at (h : List resourceList) (a : Nat) (node : resourceList)
    (hn : h[a]? = some node) :
    (heapAfterAdd h a node)[a]? = some { node with available := 0 } := by
  have ha : a < h.length := (List.getElem?_eq_some.mp hn).1
  unfold heapAfterAdd
  rw [List.getElem?_append_left (by simpa using ha)]
  simp [List.getElem?_set, ha]

theorem heapAfterAdd_other (h : List resourceList) (a : Nat) (node : resourceList)
    (b : Nat) (hb : b < h.length) (hba : b ≠ a) :
    (heapAfterAdd h a node)[b]? = h[b]? := by
  unfold heapAfterAdd
  rw [List.getElem?_append_left (by simpa using hb)]
  simp [List.getElem?_set, Ne.symm hba]

theorem heapAfterAdd_length (h : List resourceList) (a : Nat) (node : resourceList) :
    (heapAfterAdd h a node).length = h.length + 1 := by
  simp [heapAfterAdd]

theorem IsChain.afterAdd {h : List resourceList} (a : Nat) (node : resourceList)
    (hn : h[a]? = some node) (l : List Nat) (p : Option Nat) (hc : IsChain h p l) :
    IsChain (heapAfterAdd h a node) p l := by
  refine IsChain.transport l p ?_ hc
  intro b hb nb hnb
  have hbl : b < h.length := (List.getElem?_eq_some.mp hnb).1
  by_cases hba : b = a
  · subst hba
    rw [hn] at hnb
    cases hnb
    exact ⟨_, heapAfterAdd_at h b node hn, rfl⟩
  · exact ⟨nb, by rw [heapAfterAdd_other h a node b hbl hba]; exact hnb, rfl⟩

theorem add_resource_to_process_eq (s : State) (p a : Nat) (pcb : processControlBlock)
    (node : resourceList) (held : List Nat)
    (hp : s.procs[p]? = some pcb) (hn : s.heap[a]? = some node)
    (hH : IsChain s.heap pcb.resourceListPtr held) (hlen : held.length < walkFuel s.heap) :
    add_resource_to_process p a s =
      some (match pcb.resourceListPtr with
        | none => { s with heap := heapAfterAdd s.heap a node }.setPcb p
            (fun b => { b with resourceListPtr := some s.heap.length })
        | some _ => { s with heap := heapAfterAdd s.heap a node }) := by
  unfold add_resource_to_process
  simp only [hp, hn]
  cases hr : pcb.resourceListPtr with
  | none => simp [heapAfterAdd]
  | some hd =>
    rw [hr] at hH
    simp [walk_to_end_of_chain s.heap held (some hd) _ hH hlen, heapAfterAdd]

theorem add_resource_to_process_heap (s : State) (p a : Nat) (pcb : processControlBlock)
    (node : resourceList) (held : List Nat)
    (hp : s.procs[p]? = some pcb) (hn : s.heap[a]? = some node)
    (hH : IsChain s.heap pcb.resourceListPtr held) (hlen : held.length < walkFuel s.heap) :
    ∃ s1, add_resource_to_process p a s = some s1 ∧ s1.heap = heapAfterAdd s.heap a node := by
  rw [add_resource_to_process_eq s p a pcb node held hp hn hH hlen]
  cases pcb.resourceListPtr with
  | none => exact ⟨_, rfl, rfl⟩
  | some _ => exact ⟨_, rfl, rfl⟩

theorem acquire_resource_none (s : State) (r : String) (p : Nat) :
    ∀ (l : List Nat) (p0 : Option Nat) (fuel : Nat),
      IsChain s.heap p0 l → l.length < fuel →
      (∀ a ∈ l, ∀ node, s.heap[a]? = some node → ¬ freeNamed r node) →
      acquire_resource fuel r p0 p s = some (FALSE, s) := by
  intro l
  induction l with
  | nil =>
    intro p0 fuel hc hf _
    simp only [IsChain] at hc
    subst hc
    cases fuel with
    | zero => simp at hf
    | succ f => simp [acquire_resource]
  | cons a l ih =>
    intro p0 fuel hc hf hno
    obtain ⟨hp, node, hn, hrest⟩ := hc
    subst hp
    cases fuel with
    | zero => simp at hf
    | succ f =>
      have hf2 : l.length < f := by simpa using hf
      have hrec := ih _ f hrest hf2 (fun b hb => hno b (List.mem_cons_of_mem a hb))
      have hna := hno a (List.mem_cons_self a l) node hn
      simp only [acquire_resource, hn]
      by_cases h1 : node.name = r
      · by_cases h2 : node.available = 1
        · exact absurd ⟨h1, h2⟩ hna
        · simp [h1, h2, hrec]
      · simp [h1, hrec]

theorem acquire_resource_first (s : State) (r : String) (p : Nat) (a : Nat) (node : resourceList)
    (post : List Nat) (hn : s.heap[a]? = some node) (hfree : freeNamed r node) :
    ∀ (pre : List Nat) (p0 : Option Nat) (fuel : Nat),
      IsChain s.heap p0 (pre ++ a :: post) → (pre ++ a :: post).length < fuel →
      (∀ b ∈ pre, ∀ nb, s.heap[b]? = some nb → ¬ freeNamed r nb) →
      acquire_resource fuel r p0 p s =
        (match add_resource_to_process p a s with
         | none => none
         | some s1 => some (TRUE, s1)) := by
  intro pre
  induction pre with
  | nil =>
    intro p0 fuel hc hf _
    obtain ⟨hp, node1, hn1, _⟩ := hc
    subst hp
    cases fuel with
    | zero => simp at hf
    | succ f =>
      simp [acquire_resource, hn, hfree.1, hfree.2]
  | cons b pre ih =>
    intro p0 fuel hc hf hno
    obtain ⟨hp, nb, hnb, hrest⟩ := hc
    subst hp
    cases fuel with
    | zero => simp at hf
    | succ f =>
      have hf2 : (pre ++ a :: post).length < f := by simpa using hf
      have hrec := ih _ f hrest hf2 (fun c hc1 => hno c (List.mem_cons_of_mem b hc1))
      have hna := hno b (List.mem_cons_self b pre) nb hnb
      simp only [acquire_resource, hnb]
      by_cases h1 : nb.name = r
      · by_cases h2 : nb.available = 1
        · exact absurd ⟨h1, h2⟩ hna
        · simp [h1, h2, hrec]
      · simp [h1, hrec]

/-- Claim C1: when some instance named `r` of a well-formed resource table is
available, `acquire_resource` called for a process with a well-formed held list
returns 1 and marks the first available instance named `r` in table order
(address `a`, behind a prefix `pre` with no available instance of that name) as
unavailable, leaving its name and link as they were; every other node of the
heap, so every other instance of the table, is unchanged and the table is still
the same list of nodes. -/
theorem acquire_resource_claims_first_available (s : State) (resource : Option Nat) (p : Nat)
    (r : String) (addrs held : List Nat) (pcb : processControlBlock)
    (hT : chain (walkFuel s.heap) s.heap resource = some addrs)
    (hp : s.procs[p]? = some pcb)
    (hH : chain (walkFuel s.heap) s.heap pcb.resourceListPtr = some held)
    (hfree : ∃ a ∈ addrs, ∃ node, s.heap[a]? = some node ∧ node.name = r ∧ node.available = 1) :
    ∃ s1 pre a post node,
      acquire_resource (walkFuel s.heap) r resource p s = some (1, s1) ∧
      addrs = pre ++ a :: post ∧
      (∀ b ∈ pre, ∀ nb, s.heap[b]? = some nb → ¬ (nb.name = r ∧ nb.available = 1)) ∧
      s.heap[a]? = some node ∧ node.name = r ∧ node.available = 1 ∧
      s1.heap[a]? = some { node with available := 0 } ∧
      (∀ b, b < s.heap.length → b ≠ a → s1.heap[b]? = s.heap[b]?) ∧
      chain (walkFuel s1.heap) s1.heap resource = some addrs := by
  obtain ⟨hTc, hTl⟩ := chain_sound _ _ _ _ hT
  obtain ⟨hHc, hHl⟩ := chain_sound _ _ _ _ hH
  obtain ⟨pre, a, post, node, hsplit, hn, hfn, hpre⟩ := exists_first s.heap (freeNamed r) addrs hfree
  obtain ⟨s1, hadd, hheap⟩ := add_resource_to_process_heap s p a pcb node held hp hn hHc hHl
  have hacq := acquire_resource_first s r p a node post hn hfn pre resource (walkFuel s.heap)
    (hsplit ▸ hTc) (hsplit ▸ hTl) hpre
  rw [hadd] at hacq
  refine ⟨s1, pre, a, post, node, hacq, hsplit, hpre, hn, hfn.1, hfn.2, ?_, ?_, ?_⟩
  · rw [hheap]; exact heapAfterAdd_at s.heap a node hn
  · intro b hb hba
    rw [hheap]; exact heapAfterAdd_other s.heap a node b hb hba
  · rw [hheap]
    apply chain_complete
    · exact IsChain.afterAdd a node hn addrs resource hTc
    · simp only [walkFuel, heapAfterAdd_length] at hTl ⊢
      omega

/-- Claim C1 at `exTwoInstances`: the first `R` is taken, the second one is
acquired. -/
theorem acquire_resource_claims_first_available_witness :
    (chain (walkFuel exTwoInstances.heap) exTwoInstances.heap (some 0) = some [0, 1] ∧
      exTwoInstances.procs[0]? = some exIdle ∧
      chain (walkFuel exTwoInstances.heap) exTwoInstances.heap exIdle.resourceListPtr = some [] ∧
      ∃ a ∈ [0, 1], ∃ node, exTwoInstances.heap[a]? = some node ∧ node.name = "R" ∧
        node.available = 1) ∧
    ∃ s1 pre a post node,
      acquire_resource (walkFuel exTwoInstances.heap) "R" (some 0) 0 exTwoInstances = some (1, s1) ∧
      [0, 1] = pre ++ a :: post ∧
      (∀ b ∈ pre, ∀ nb, exTwoInstances.heap[b]? = some nb → ¬ (nb.name = "R" ∧ nb.available = 1)) ∧
      exTwoInstances.heap[a]? = some node ∧ node.name = "R" ∧ node.available = 1 ∧
      s1.heap[a]? = some { node with available := 0 } ∧
      (∀ b, b < exTwoInstances.heap.length → b ≠ a → s1.heap[b]? = exTwoInstances.heap[b]?) ∧
      chain (walkFuel s1.heap) s1.heap (some 0) = some [0, 1] :=
  ⟨⟨by decide, by decide, by decide, 1, by decide, _, rfl, by decide, by decide⟩,
    acquire_resource_claims_first_available exTwoInstances (some 0) 0 "R" [0, 1] [] exIdle
      (by decide) (by decide) (by decide) ⟨1, by decide, _, rfl, by decide, by decide⟩⟩

/-- Claim C2: when no instance named `r` of a well-formed resource table is
available (in particular when the table has no instance of that name),
`acquire_resource` returns 0 and returns the state it was given: the table and
every held list are unchanged. -/
theorem acquire_resource_unavailable (s : State) (resource : Option Nat) (p : Nat) (r : String)
    (addrs : List Nat)
    (hT : chain (walkFuel s.heap) s.heap resource = some addrs)
    (hno : ∀ a ∈ addrs, ∀ node, s.heap[a]? = some node → ¬ (node.name = r ∧ node.available = 1)) :
    acquire_resource (walkFuel s.heap) r resource p s = some (0, s) := by
  obtain ⟨hTc, hTl⟩ := chain_sound _ _ _ _ hT
  exact acquire_resource_none s r p addrs resource _ hTc hTl hno

/-- Claim C2 at `exTwoInstances` and the name `Q`, which the table does not
have. -/
theorem acquire_resource_unavailable_witness :
    (chain (walkFuel exTwoInstances.heap) exTwoInstances.heap (some 0) = some [0, 1] ∧
      ∀ a ∈ [0, 1], ∀ node, exTwoInstances.heap[a]? = some node →
        ¬ (node.name = "Q" ∧ node.available = 1)) ∧
    acquire_resource (walkFuel exTwoInstances.heap) "Q" (some 0) 0 exTwoInstances =
      some (0, exTwoInstances) :=
  ⟨⟨by decide, by decide⟩,
    acquire_resource_unavailable exTwoInstances (some 0) 0 "Q" [0, 1] (by decide) (by decide)⟩

/-- Claim C3, evaluated: on the table `B, A` of `exAB` the process `P1`
acquires `A` and then `B`; both calls return 1 and both instances are marked unavailable, but the
held list of the process names `A` only: the second instance was not added. -/
theorem second_acquire_not_in_held_list :
    exABacquired.map (fun x => (x.1, x.2.1)) = some (1, 1) ∧
    exABacquired.map (fun x => flags x.2.2 (some 0)) = some (some [("B", 0), ("A", 0)]) ∧
    exABacquired.map (fun x => held_names x.2.2 0) = some (some ["A"]) := by
  decide

/-! ## Releasing a resource -/

theorem release_resource_absent (s : State) (r : String) (p : Nat) (pcb : processControlBlock)
    (hp : s.procs[p]? = some pcb) :
    ∀ (l : List Nat) (p0 : Option Nat) (fuel : Nat),
      IsChain s.heap p0 l → l.length < fuel →
      (∀ a ∈ l, ∀ node, s.heap[a]? = some node → node.name ≠ r) →
      release_resource fuel r p0 p s =
        some (FALSE, { s with out := s.out ++ [Event.rel_error pcb.name r] }) := by
  intro l
  induction l with
  | nil =>
    intro p0 fuel hc hf _
    simp only [IsChain] at hc
    subst hc
    cases fuel with
    | zero => simp at hf
    | succ f => simp [release_resource, hp]
  | cons a l ih =>
    intro p0 fuel hc hf hno
    obtain ⟨hp0, node, hn, hrest⟩ := hc
    subst hp0
    cases fuel with
    | zero => simp at hf
    | succ f =>
      have hf2 : l.length < f := by simpa using hf
      have hrec := ih _ f hrest hf2 (fun b hb => hno b (List.mem_cons_of_mem a hb))
      have hna := hno a (List.mem_cons_self a l) node hn
      simp [release_resource, hn, hna, hrec]

theorem release_resource_first (s : State) (r : String) (p : Nat) (a : Nat) (node : resourceList)
    (post : List Nat) (hn : s.heap[a]? = some node) (hname : node.name = r) :
    ∀ (pre : List Nat) (p0 : Option Nat) (fuel : Nat),
      IsChain s.heap p0 (pre ++ a :: post) → (pre ++ a :: post).length < fuel →
      (∀ b ∈ pre, ∀ nb, s.heap[b]? = some nb → nb.name ≠ r) →
      release_resource fuel r p0 p s =
        (match release_resource_from_process p a
            { s with heap := s.heap.set a { node with available := 1 } } with
         | none => none
         | some s1 => some (TRUE, s1)) := by
  intro pre
  induction pre with
  | nil =>
    intro p0 fuel hc hf _
    obtain ⟨hp0, _, _, _⟩ := hc
    subst hp0
    cases fuel with
    | zero => simp at hf
    | succ f => simp [release_resource, hn, hname]
  | cons b pre ih =>
    intro p0 fuel hc hf hno
    obtain ⟨hp0, nb, hnb, hrest⟩ := hc
    subst hp0
    cases fuel with
    | zero => simp at hf
    | succ f =>
      have hf2 : (pre ++ a :: post).length < f := by simpa using hf
      have hrec := ih _ f hrest hf2 (fun c hc1 => hno c (List.mem_cons_of_mem b hc1))
      have hna := hno b (List.mem_cons_self b pre) nb hnb
      simp [release_resource, hnb, hna, hrec]

theorem release_walk_absent (h : List resourceList) (nm : String) :
    ∀ (l : List Nat) (p0 prev : Option Nat) (fuel : Nat),
      IsChain h p0 l → l.length < fuel →
      (∀ c ∈ l, ∀ node, h[c]? = some node → node.name ≠ nm) →
      release_walk fuel nm p0 prev h = some h := by
  intro l
  induction l with
  | nil =>
    intro p0 prev fuel hc hf _
    simp only [IsChain] at hc
    subst hc
    cases fuel with
    | zero => simp at hf
    | succ f => simp [release_walk]
  | cons c l ih =>
    intro p0 prev fuel hc hf hno
    obtain ⟨hp0, node, hn, hrest⟩ := hc
    subst hp0
    cases fuel with
    | zero => simp at hf
    | succ f =>
      have hf2 : l.length < f := by simpa using hf
      have hrec := ih _ (some c) f hrest hf2 (fun b hb => hno b (List.mem_cons_of_mem c hb))
      have hna := hno c (List.mem_cons_self c l) node hn
      simp [release_walk, hn, hna, hrec]

theorem release_walk_total (h : List resourceList) (nm : String) :
    ∀ (l : List Nat) (p0 prev : Option Nat) (fuel : Nat),
      IsChain h p0 l → l.length < fuel →
      (∀ pv, prev = some pv → ∃ pn, h[pv]? = some pn) →
      ∃ h1, release_walk fuel nm p0 prev h = some h1 := by
  intro l
  induction l with
  | nil =>
    intro p0 prev fuel hc hf _
    simp only [IsChain] at hc
    subst hc
    cases fuel with
    | zero => simp at hf
    | succ f => exact ⟨h, by simp [release_walk]⟩
  | cons c l ih =>
    intro p0 prev fuel hc hf hprev
    obtain ⟨hp0, node, hn, hrest⟩ := hc
    subst hp0
    cases fuel with
    | zero => simp at hf
    | succ f =>
      have hf2 : l.length < f := by simpa using hf
      simp only [release_walk, hn]
      by_cases hname : node.name = nm
      · cases prev with
        | none => exact ⟨h, by simp [hname]⟩
        | some pv =>
          obtain ⟨pn, hpn⟩ := hprev pv rfl
          exact ⟨h.set pv { pn with next := node.next }, by simp [hname, hpn]⟩
      · simp only [hname, if_false]
        exact ih _ (some c) f hrest hf2 (fun pv hpv => by cases hpv; exact ⟨node, hn⟩)

theorem release_walk_tail_absent (h : List resourceList) (nm : String)
    (l : List Nat) (p0 : Option Nat) (fuel : Nat)
    (hc : IsChain h p0 l) (hf : l.length < fuel)
    (hno : ∀ c ∈ l.tail, ∀ n, h[c]? = some n → n.name ≠ nm) :
    release_walk fuel nm p0 none h = some h := by
  cases l with
  | nil => exact release_walk_absent h nm [] p0 none fuel hc hf (by simp)
  | cons c rest =>
    obtain ⟨hp0, node, hn, hrest⟩ := hc
    subst hp0
    cases fuel with
    | zero => simp at hf
    | succ f =>
      have hf2 : rest.length < f := by simpa using hf
      by_cases hname : node.name = nm
      · simp [release_walk, hn, hname]
      · simp only [release_walk, hn, hname, if_false]
        exact release_walk_absent h nm rest _ (some c) f hrest hf2 hno

theorem release_resource_from_process_total (s : State) (p a : Nat) (pcb : processControlBlock)
    (node : resourceList) (held : List Nat)
    (hp : s.procs[p]? = some pcb) (hn : s.heap[a]? = some node)
    (hH : IsChain s.heap pcb.resourceListPtr held) (hlen : held.length < walkFuel s.heap) :
    ∃ h1, release_resource_from_process p a s = some { s with heap := h1 } := by
  obtain ⟨h1, hw⟩ := release_walk_total s.heap node.name held pcb.resourceListPtr none
    (walkFuel s.heap) hH hlen (by intro pv hpv; cases hpv)
  exact ⟨h1, by simp [release_resource_from_process, hp, hn, hw]⟩

theorem release_resource_from_process_noop (s : State) (p a : Nat) (pcb : processControlBlock)
    (node : resourceList) (held : List Nat)
    (hp : s.procs[p]? = some pcb) (hn : s.heap[a]? = some node)
    (hH : IsChain s.heap pcb.resourceListPtr held) (hlen : held.length < walkFuel s.heap)
    (hno : ∀ c ∈ held.tail, ∀ n, s.heap[c]? = some n → n.name ≠ node.name) :
    release_resource_from_process p a s = some s := by
  have hw := release_walk_tail_absent s.heap node.name held pcb.resourceListPtr
    (walkFuel s.heap) hH hlen hno
  simp [release_resource_from_process, hp, hn, hw]

theorem print_available_resources_total (h : List resourceList) :
    ∀ (l : List Nat) (p : Option Nat) (fuel : Nat),
      IsChain h p l → l.length < fuel → ∃ ns, print_available_resources fuel h p = some ns := by
  intro l
  induction l with
  | nil =>
    intro p fuel hc hf
    simp only [IsChain] at hc
    subst hc
    cases fuel with
    | zero => simp at hf
    | succ f => exact ⟨[], by simp [print_available_resources]⟩
  | cons a l ih =>
    intro p fuel hc hf
    obtain ⟨hp, node, hn, hrest⟩ := hc
    subst hp
    cases fuel with
    | zero => simp at hf
    | succ f =>
      have hf2 : l.length < f := by simpa using hf
      obtain ⟨ns, hns⟩ := ih _ f hrest hf2
      exact ⟨if node.available = 1 then node.name :: ns else ns,
        by simp [print_available_resources, hn, hns]⟩

theorem process_release_absent (s : State) (resource : Option Nat) (p : Nat) (i : instruction)
    (rest : List instruction) (addrs : List Nat) (pcb : processControlBlock)
    (hTc : IsChain s.heap resource addrs) (hTl : addrs.length < walkFuel s.heap)
    (hp : s.procs[p]? = some pcb) (hnext : pcb.nextInstruction = i :: rest)
    (hall : ∀ a ∈ addrs, ∀ node, s.heap[a]? = some node → node.name ≠ i.resource) :
    process_release p i resource s =
      some ((process_to_waitingq p
        { s.setPcb p (fun b => { b with processState := RUNNING }) with
          out := s.out ++ [Event.rel_error pcb.name i.resource] }).setPcb p advance) := by
  have hp1 := setPcb_procs_self s p (fun b => { b with processState := RUNNING }) pcb hp
  have hrel1 := release_resource_absent
    (s.setPcb p (fun b => { b with processState := RUNNING })) i.resource p _ hp1 addrs resource
    (walkFuel s.heap) hTc hTl hall
  simp only [process_release, hp, setPcb_heap, hrel1, hnext]
  simp [FALSE]

theorem process_release_present (s : State) (resource : Option Nat) (p : Nat) (i : instruction)
    (rest : List instruction)
    (pre post held : List Nat) (a : Nat) (node : resourceList) (pcb : processControlBlock)
    (hTc : IsChain s.heap resource (pre ++ a :: post))
    (hTl : (pre ++ a :: post).length < walkFuel s.heap)
    (hp : s.procs[p]? = some pcb) (hnext : pcb.nextInstruction = i :: rest)
    (hHc : IsChain s.heap pcb.resourceListPtr held) (hHl : held.length < walkFuel s.heap)
    (hn : s.heap[a]? = some node) (hname : node.name = i.resource)
    (hpre : ∀ b ∈ pre, ∀ nb, s.heap[b]? = some nb → nb.name ≠ i.resource)
    (hnot : ∀ c ∈ held, ∀ n, s.heap[c]? = some n → n.name ≠ i.resource) :
    ∃ s1, process_release p i resource s = some s1 ∧
      s1.heap = s.heap.set a { node with available := 1 } ∧ ∀ q, ptr s1 q = ptr s q := by
  have ha : a < s.heap.length := (List.getElem?_eq_some.mp hn).1
  have hp1 := setPcb_procs_self s p (fun b => { b with processState := RUNNING }) pcb hp
  have hrel := release_resource_first
    (s.setPcb p (fun b => { b with processState := RUNNING })) i.resource p a node post hn hname pre
    resource (walkFuel s.heap) hTc hTl hpre
  have hHc1 : IsChain (s.heap.set a { node with available := 1 }) pcb.resourceListPtr held :=
    IsChain.setAvailable a node 1 hn held _ hHc
  have hwalk := release_walk_absent (s.heap.set a { node with available := 1 }) i.resource held
    pcb.resourceListPtr none (walkFuel s.heap) hHc1 hHl (by
      intro c hc n hcn
      have hf := set_available_fields s.heap a node 1 hn c
      rw [hcn] at hf
      cases hsc : s.heap[c]? with
      | none => rw [hsc] at hf; simp at hf
      | some n0 =>
        rw [hsc] at hf
        simp only [Option.map_some', Option.some.injEq, Prod.mk.injEq] at hf
        rw [hf.1]
        exact hnot c hc n0 hsc)
  have hfrom : release_resource_from_process p a
      { s.setPcb p (fun b => { b with processState := RUNNING }) with
        heap := s.heap.set a { node with available := 1 } } =
      some { s.setPcb p (fun b => { b with processState := RUNNING }) with
        heap := s.heap.set a { node with available := 1 } } := by
    simp only [release_resource_from_process, hp1, setPcb_heap]
    simp [List.getElem?_set, ha, hname, walkFuel] at hwalk ⊢
    simp [walkFuel, hwalk]
  rw [setPcb_heap, hfrom] at hrel
  obtain ⟨ns, hns⟩ := print_available_resources_total
    (s.heap.set a { node with available := 1 }) (pre ++ a :: post) resource (walkFuel s.heap)
    (IsChain.setAvailable a node 1 hn _ _ hTc) hTl
  have hfuel : walkFuel (s.heap.set a { node with available := 1 }) = walkFuel s.heap := by
    simp [walkFuel]
  have hq : ∀ q, ptr (s.setPcb p (fun b => { b with processState := RUNNING })) q = ptr s q :=
    fun q => ptr_setPcb s p q _ (fun _ => rfl)
  by_cases htail : rest = []
  · refine ⟨_, by simp only [process_release, hp, setPcb_heap, hrel, hnext]; simp [TRUE, hfuel, hns, htail]; rfl, rfl, ?_⟩
    intro q
    rw [ptr_setPcb _ p q advance (fun _ => rfl), ptr_process_to_terminateq]
    exact hq q
  · refine ⟨_, by simp only [process_release, hp, setPcb_heap, hrel, hnext]; simp [TRUE, hfuel, hns, htail]; rfl, rfl, ?_⟩
    intro q
    rw [ptr_setPcb _ p q advance (fun _ => rfl)]
    exact hq q

/-- Claim C4 fails as stated: in `exFree` the process holds nothing and the
only instance of `R` is free, yet `release_resource` returns 1 and
`process_release` logs the `released` event, not the error. -/
theorem release_of_free_resource_reports_released :
    held_names exFree 0 = some [] ∧
    flags exFree (some 0) = some [("R", 1)] ∧
    (release_resource (walkFuel exFree.heap) "R" (some 0) 0 exFree).map (fun x => x.1) = some 1 ∧
    (process_release 0 (rel "R") (some 0) exFree).map (fun s => s.out) =
      some [Event.rel_released "P1" "R" ["R"]] := by
  decide

/-- Claim C4, amended: `release_resource` returns 0 exactly when the resource
table has no instance named `r`; in that case it logs the
`ERROR: Nothing to release` event and nothing else, and that event is all
`process_release` logs.  When the table has an instance named `r`, whoever
holds it, the call returns 1 and logs no error. -/
theorem release_resource_error_iff_absent (s : State) (resource : Option Nat) (p : Nat)
    (i : instruction) (rest : List instruction) (addrs held : List Nat)
    (pcb : processControlBlock)
    (hT : chain (walkFuel s.heap) s.heap resource = some addrs)
    (hp : s.procs[p]? = some pcb) (hnext : pcb.nextInstruction = i :: rest)
    (hH : chain (walkFuel s.heap) s.heap pcb.resourceListPtr = some held) :
    ∃ ret s1, release_resource (walkFuel s.heap) i.resource resource p s = some (ret, s1) ∧
      (ret = 0 ↔ ∀ a ∈ addrs, ∀ node, s.heap[a]? = some node → node.name ≠ i.resource) ∧
      (ret = 0 → s1 = { s with out := s.out ++ [Event.rel_error pcb.name i.resource] } ∧
        ∃ s2, process_release p i resource s = some s2 ∧
          s2.out = s.out ++ [Event.rel_error pcb.name i.resource]) ∧
      (ret ≠ 0 → ret = 1 ∧ s1.out = s.out) := by
  obtain ⟨hTc, hTl⟩ := chain_sound _ _ _ _ hT
  obtain ⟨hHc, hHl⟩ := chain_sound _ _ _ _ hH
  by_cases hex : ∃ a ∈ addrs, ∃ node, s.heap[a]? = some node ∧ node.name = i.resource
  · obtain ⟨pre, a, post, node, hsplit, hn, hname, hpre⟩ :=
      exists_first s.heap (fun n => n.name = i.resource) addrs hex
    have hrel := release_resource_first s i.resource p a node post hn hname pre resource
      (walkFuel s.heap) (hsplit ▸ hTc) (hsplit ▸ hTl) hpre
    have ha : a < s.heap.length := (List.getElem?_eq_some.mp hn).1
    obtain ⟨h1, hfrom⟩ := release_resource_from_process_total
      { s with heap := s.heap.set a { node with available := 1 } } p a pcb
      { node with available := 1 } held hp (by simp [List.getElem?_set, ha])
      (IsChain.setAvailable a node 1 hn held _ hHc) (by simpa [walkFuel] using hHl)
    rw [hfrom] at hrel
    refine ⟨TRUE, _, hrel, ?_, ?_, ?_⟩
    · constructor
      · intro h0; simp [TRUE] at h0
      · intro hall
        obtain ⟨a1, ha1, n1, hn1, hname1⟩ := hex
        exact absurd hname1 (hall a1 ha1 n1 hn1)
    · intro h0; simp [TRUE] at h0
    · intro _; exact ⟨rfl, rfl⟩
  · have hall : ∀ a ∈ addrs, ∀ node, s.heap[a]? = some node → node.name ≠ i.resource := by
      intro a ha node hn hname
      exact hex ⟨a, ha, node, hn, hname⟩
    have hrel := release_resource_absent s i.resource p pcb hp addrs resource
      (walkFuel s.heap) hTc hTl hall
    refine ⟨FALSE, _, hrel, ?_, ?_, ?_⟩
    · constructor
      · intro _; exact hall
      · intro _; rfl
    · intro _
      refine ⟨rfl, ?_⟩
      exact ⟨_, process_release_absent s resource p i rest addrs pcb hTc hTl hp hnext hall,
        by simp [process_to_waitingq]⟩
    · intro h0; exact absurd rfl h0

/-- Claim C4, amended, at `exAbsent`: the release of `Q` on the table `R`. -/
theorem release_resource_error_iff_absent_witness :
    (chain (walkFuel exAbsent.heap) exAbsent.heap (some 0) = some [0] ∧
      exAbsent.procs[0]? = some exAbsentP1 ∧
      exAbsentP1.nextInstruction = rel "Q" :: [req "R"] ∧
      chain (walkFuel exAbsent.heap) exAbsent.heap exAbsentP1.resourceListPtr = some []) ∧
    ∃ ret s1, release_resource (walkFuel exAbsent.heap) (rel "Q").resource (some 0) 0
        exAbsent = some (ret, s1) ∧
      (ret = 0 ↔ ∀ a ∈ [0], ∀ node, exAbsent.heap[a]? = some node →
        node.name ≠ (rel "Q").resource) ∧
      (ret = 0 → s1 = { exAbsent with
          out := exAbsent.out ++ [Event.rel_error exAbsentP1.name (rel "Q").resource] } ∧
        ∃ s2, process_release 0 (rel "Q") (some 0) exAbsent = some s2 ∧
          s2.out = exAbsent.out ++ [Event.rel_error exAbsentP1.name (rel "Q").resource]) ∧
      (ret ≠ 0 → ret = 1 ∧ s1.out = exAbsent.out) :=
  ⟨⟨by decide, by decide, rfl, by decide⟩,
    release_resource_error_iff_absent exAbsent (some 0) 0 (rel "Q") [req "R"] [0] [] exAbsentP1
      (by decide) (by decide) rfl (by decide)⟩

/-- Claim C5 fails as stated: after the first process of `exOther` has acquired
the only instance of `R`, the second process, which holds nothing, executes
its release of `R`, and the instance is available again. -/
theorem release_by_other_process_frees_resource :
    exHeldByOther.map (fun s => held_names s 1) = some (some []) ∧
    exHeldByOther.map (fun s => held_names s 0) = some (some ["R"]) ∧
    exHeldByOther.map (fun s => flags s (some 0)) = some (some [("R", 0)]) ∧
    exReleasedByOther.map (fun s => flags s (some 0)) = some (some [("R", 1)]) := by
  decide

/-- Claim C5, amended: when process `p` executes a release of `r` while its
held list has no node named `r`, the held list of every process is the same
afterwards, no node changes its name or link, and either the table has no
instance named `r` and the heap is unchanged, or the first instance named `r`
in table order is set available and no other node changes. -/
theorem release_not_held_frame (s : State) (resource : Option Nat) (p : Nat) (i : instruction)
    (rest : List instruction) (addrs held : List Nat) (pcb : processControlBlock)
    (hT : chain (walkFuel s.heap) s.heap resource = some addrs)
    (hp : s.procs[p]? = some pcb) (hnext : pcb.nextInstruction = i :: rest)
    (hH : chain (walkFuel s.heap) s.heap pcb.resourceListPtr = some held)
    (hnot : ∀ c ∈ held, ∀ n, s.heap[c]? = some n → n.name ≠ i.resource) :
    ∃ s1, process_release p i resource s = some s1 ∧
      (∀ q, ProcSched.held s1 q = ProcSched.held s q) ∧
      (∀ b : Nat, (s1.heap[b]?).map (fun n : resourceList => (n.name, n.next)) =
        (s.heap[b]?).map (fun n : resourceList => (n.name, n.next))) ∧
      (((∀ a ∈ addrs, ∀ node, s.heap[a]? = some node → node.name ≠ i.resource) ∧
          s1.heap = s.heap) ∨
        ∃ pre a post node, addrs = pre ++ a :: post ∧ s.heap[a]? = some node ∧
          node.name = i.resource ∧
          (∀ b ∈ pre, ∀ nb, s.heap[b]? = some nb → nb.name ≠ i.resource) ∧
          s1.heap = s.heap.set a { node with available := 1 }) := by
  obtain ⟨hTc, hTl⟩ := chain_sound _ _ _ _ hT
  obtain ⟨hHc, hHl⟩ := chain_sound _ _ _ _ hH
  by_cases hex : ∃ a ∈ addrs, ∃ node, s.heap[a]? = some node ∧ node.name = i.resource
  · obtain ⟨pre, a, post, node, hsplit, hn, hname, hpre⟩ :=
      exists_first s.heap (fun n => n.name = i.resource) addrs hex
    obtain ⟨s1, hrel, hheap, hptr⟩ := process_release_present s resource p i rest pre post held a
      node pcb (hsplit ▸ hTc) (hsplit ▸ hTl) hp hnext hHc hHl hn hname hpre hnot
    have hfields := set_available_fields s.heap a node 1 hn
    refine ⟨s1, hrel, ?_, ?_, Or.inr ⟨pre, a, post, node, hsplit, hn, hname, hpre, hheap⟩⟩
    · refine held_congr s s1 (by simp [hheap]) ?_ hptr
      intro b
      have hb := congrArg (Option.map Prod.snd) (hfields b)
      simpa [hheap, Option.map_map, Function.comp_def] using hb
    · intro b
      rw [hheap]
      exact hfields b
  · have hall : ∀ a ∈ addrs, ∀ node, s.heap[a]? = some node → node.name ≠ i.resource := by
      intro a ha node hn hname
      exact hex ⟨a, ha, node, hn, hname⟩
    refine ⟨_, process_release_absent s resource p i rest addrs pcb hTc hTl hp hnext hall, ?_, ?_,
      Or.inl ⟨hall, rfl⟩⟩
    · refine held_congr s _ rfl (fun _ => rfl) ?_
      intro q
      rw [ptr_setPcb _ p q advance (fun _ => rfl), ptr_process_to_waitingq]
      exact ptr_setPcb s p q _ (fun _ => rfl)
    · intro b; rfl

/-- Claim C5, amended, at `exFree`. -/
theorem release_not_held_frame_witness :
    (chain (walkFuel exFree.heap) exFree.heap (some 0) = some [0] ∧
      exFree.procs[0]? = some exFreeP1 ∧
      exFreeP1.nextInstruction = rel "R" :: [req "R"] ∧
      chain (walkFuel exFree.heap) exFree.heap exFreeP1.resourceListPtr = some [] ∧
      ∀ c ∈ ([] : List Nat), ∀ n, exFree.heap[c]? = some n → n.name ≠ (rel "R").resource) ∧
    ∃ s1, process_release 0 (rel "R") (some 0) exFree = some s1 ∧
      (∀ q, held s1 q = held exFree q) ∧
      (∀ b : Nat, (s1.heap[b]?).map (fun n : resourceList => (n.name, n.next)) =
        (exFree.heap[b]?).map (fun n : resourceList => (n.name, n.next))) ∧
      (((∀ a ∈ [0], ∀ node, exFree.heap[a]? = some node → node.name ≠ (rel "R").resource) ∧
          s1.heap = exFree.heap) ∨
        ∃ pre a post node, [0] = pre ++ a :: post ∧ exFree.heap[a]? = some node ∧
          node.name = (rel "R").resource ∧
          (∀ b ∈ pre, ∀ nb, exFree.heap[b]? = some nb → nb.name ≠ (rel "R").resource) ∧
          s1.heap = exFree.heap.set a { node with available := 1 }) :=
  ⟨⟨by decide, by decide, rfl, by decide, by decide⟩,
    release_not_held_frame exFree (some 0) 0 (rel "R") [req "R"] [0] [] exFreeP1
      (by decide) (by decide) rfl (by decide) (by decide)⟩

/-- Claim C6, evaluated: in `exCompete` the process `P1` acquires `R` and
releases it;
the release is logged as `released` and the instance is available again, but
the held list of the process still names `R`. -/
theorem release_keeps_head_of_held_list :
    exOwnAcquired.map (fun s => held_names s 0) = some (some ["R"]) ∧
    exOwnReleased.map (fun s => s.out) =
      some [Event.req_acquired "P1" "R" [], Event.rel_released "P1" "R" ["R"]] ∧
    exOwnReleased.map (fun s => flags s (some 0)) = some (some [("R", 1)]) ∧
    exOwnReleased.map (fun s => held_names s 0) = some (some ["R"]) := by
  decide

/-! ## Held lists during a round-robin run -/

/-- Claim C7, evaluated: `exCompete` is loaded with one instance of `R`; after
four round-robin turns with quantum 1 (`P1` acquired and released `R`, then `P2`
acquired it) the held lists of both processes name `R`.  In `exOther`, also
loaded with one instance of `R`, `P1` acquires `R`, `P2` releases it without
holding it and acquires it: after three turns both held lists name `R` and
neither process has given it up. -/
theorem two_held_lists_name_single_instance :
    flags exCompete (some 0) = some [("R", 1)] ∧
    (rr_turns 4 1 (some 0) exCompete).map (fun s => s.out) =
      some [Event.req_acquired "P1" "R" [], Event.req_waiting "P2" "R",
        Event.rel_released "P1" "R" ["R"], Event.req_acquired "P2" "R" []] ∧
    (rr_turns 4 1 (some 0) exCompete).map (fun s => held_names s 0) = some (some ["R"]) ∧
    (rr_turns 4 1 (some 0) exCompete).map (fun s => held_names s 1) = some (some ["R"]) ∧
    flags exOther (some 0) = some [("R", 1)] ∧
    (rr_turns 3 1 (some 0) exOther).map (fun s => s.out) =
      some [Event.req_acquired "P1" "R" [], Event.rel_released "P2" "R" ["R"],
        Event.req_acquired "P2" "R" []] ∧
    (rr_turns 3 1 (some 0) exOther).map (fun s => held_names s 0) = some (some ["R"]) ∧
    (rr_turns 3 1 (some 0) exOther).map (fun s => held_names s 1) = some (some ["R"]) := by
  exact ⟨by decide, by decide, by decide, by decide, by decide, by decide, by decide,
    by decide⟩

/-- Claim C8, evaluated: after three round-robin turns of `exAB` with quantum 1
(`P1` acquired `A`, `P2` waits for `A`, `P1` acquired `B`) the instance `B`
(address 0) is unavailable, the held list of `P1` is the node at address 2,
named `A`, and the held list of `P2` is empty: no held list contains `B`. -/
theorem unavailable_instance_in_no_held_list :
    (rr_turns 3 1 (some 0) exAB).map (fun s => s.out) =
      some [Event.req_acquired "P1" "A" ["B"], Event.req_waiting "P2" "A",
        Event.req_acquired "P1" "B" []] ∧
    (rr_turns 3 1 (some 0) exAB).map (fun s => flags s (some 0)) =
      some (some [("B", 0), ("A", 0)]) ∧
    (rr_turns 3 1 (some 0) exAB).map (fun s => s.procs.length) = some 2 ∧
    (rr_turns 3 1 (some 0) exAB).map (fun s => held s 0) = some (some [2]) ∧
    (rr_turns 3 1 (some 0) exAB).map (fun s => held_names s 0) = some (some ["A"]) ∧
    (rr_turns 3 1 (some 0) exAB).map (fun s => held_names s 1) = some (some []) := by
  exact ⟨by decide, by decide, by decide, by decide, by decide, by decide⟩

/-! ## Acquire followed by release -/

theorem heap_restored (h : List resourceList) (a : Nat) (node : resourceList)
    (hn : h[a]? = some node) (b : Nat) (hb : b < h.length) :
    ((heapAfterAdd h a node).set a node)[b]? = h[b]? := by
  have ha : a < h.length := (List.getElem?_eq_some.mp hn).1
  by_cases hba : a = b
  · subst hba
    simp [List.getElem?_set, heapAfterAdd_length, hn]
    omega
  · rw [List.getElem?_set_ne hba]
    exact heapAfterAdd_other h a node b hb (Ne.symm hba)

theorem IsChain.restored {h : List resourceList} (a : Nat) (node : resourceList)
    (hn : h[a]? = some node) (l : List Nat) (p : Option Nat) (hc : IsChain h p l) :
    IsChain ((heapAfterAdd h a node).set a node) p l := by
  refine IsChain.transport l p ?_ hc
  intro b hb nb hnb
  have hbl : b < h.length := (List.getElem?_eq_some.mp hnb).1
  exact ⟨nb, by rw [heap_restored h a node hn b hbl]; exact hnb, rfl⟩

/-- Claim C9 fails as stated.  In `exTwoUnits` the second process acquires the
second instance of `R` while the first is taken, and its release frees the
first instance: the flags go from `0, 1` to `1, 0`.  In `exTail` the first
process holds `A`, acquires `R` and releases it (turns 3 and 4); the release
unlinks `R` from the resource table, which is left with `A, B`. -/
theorem release_frees_first_instance_of_name :
    (rr_turns 1 1 (some 0) exTwoUnits).map (fun s => flags s (some 0)) =
      some (some [("R", 0), ("R", 1)]) ∧
    (rr_turns 2 1 (some 0) exTwoUnits).map (fun s => flags s (some 0)) =
      some (some [("R", 0), ("R", 0)]) ∧
    (rr_turns 3 1 (some 0) exTwoUnits).map (fun s => s.out) =
      some [Event.req_acquired "P1" "R" ["R"], Event.req_acquired "P2" "R" [],
        Event.rel_released "P2" "R" ["R"]] ∧
    (rr_turns 3 1 (some 0) exTwoUnits).map (fun s => flags s (some 0)) =
      some (some [("R", 1), ("R", 0)]) ∧
    (rr_turns 1 1 (some 0) exTail).map (fun s => flags s (some 0)) =
      some (some [("A", 0), ("B", 1), ("R", 1)]) ∧
    (rr_turns 3 1 (some 0) exTail).map (fun s => flags s (some 0)) =
      some (some [("A", 0), ("B", 1), ("R", 0)]) ∧
    (rr_turns 4 1 (some 0) exTail).map (fun s => s.out) =
      some [Event.req_acquired "P1" "A" ["B", "R"], Event.req_waiting "P2" "A",
        Event.req_acquired "P1" "R" ["B"], Event.rel_released "P1" "R" ["B"]] ∧
    (rr_turns 4 1 (some 0) exTail).map (fun s => flags s (some 0)) =
      some (some [("A", 0), ("B", 1)]) := by
  exact ⟨by decide, by decide, by decide, by decide, by decide, by decide, by decide,
    by decide⟩

/-- Claim C9, amended: when the first instance named `r` in table order is
available and no node behind the head of the held list of `p` is named `r`,
`acquire_resource` succeeds, the `release_resource` that follows succeeds, and
afterwards every node of the heap before the acquire is as it was: the
resource table is the same list of nodes with the same availability flags. -/
theorem acquire_then_release_restores (s : State) (resource : Option Nat) (p : Nat) (r : String)
    (addrs held : List Nat) (pcb : processControlBlock)
    (hT : chain (walkFuel s.heap) s.heap resource = some addrs)
    (hp : s.procs[p]? = some pcb)
    (hH : chain (walkFuel s.heap) s.heap pcb.resourceListPtr = some held)
    (pre post : List Nat) (a : Nat) (node : resourceList)
    (hsplit : addrs = pre ++ a :: post)
    (hpre : ∀ b ∈ pre, ∀ nb, s.heap[b]? = some nb → nb.name ≠ r)
    (hn : s.heap[a]? = some node) (hname : node.name = r) (havail : node.available = 1)
    (hheld : ∀ c ∈ held.tail, ∀ n, s.heap[c]? = some n → n.name ≠ r) :
    ∃ s1 s2, acquire_resource (walkFuel s.heap) r resource p s = some (1, s1) ∧
      release_resource (walkFuel s1.heap) r resource p s1 = some (1, s2) ∧
      (∀ b, b < s.heap.length → s2.heap[b]? = s.heap[b]?) ∧
      chain (walkFuel s2.heap) s2.heap resource = some addrs ∧
      flags s2 resource = flags s resource := by
  obtain ⟨hTc, hTl⟩ := chain_sound _ _ _ _ hT
  obtain ⟨hHc, hHl⟩ := chain_sound _ _ _ _ hH
  subst hsplit
  have ha : a < s.heap.length := (List.getElem?_eq_some.mp hn).1
  have hnode : ({ name := node.name, available := 1, next := node.next } : resourceList) = node := by
    cases node; simp only at havail; subst havail; rfl
  -- the acquire
  have hacq := acquire_resource_first s r p a node post hn ⟨hname, havail⟩ pre resource
    (walkFuel s.heap) hTc hTl (fun b hb nb hnb hf => hpre b hb nb hnb hf.1)
  rw [add_resource_to_process_eq s p a pcb node held hp hn hHc hHl] at hacq
  -- the table in the heap after the acquire
  have hpre1 : ∀ b ∈ pre, ∀ nb, (heapAfterAdd s.heap a node)[b]? = some nb → nb.name ≠ r := by
    intro b hb nb hnb
    have hbl : b < s.heap.length :=
      IsChain.lt_length _ _ hTc b (List.mem_append_left _ hb)
    have hba : b ≠ a := by
      intro hba; subst hba
      exact hpre b hb node hn hname
    rw [heapAfterAdd_other s.heap a node b hbl hba] at hnb
    exact hpre b hb nb hnb
  have hTc1 : IsChain (heapAfterAdd s.heap a node) resource (pre ++ a :: post) :=
    IsChain.afterAdd a node hn _ _ hTc
  have hTl1 : (pre ++ a :: post).length < walkFuel (heapAfterAdd s.heap a node) := by
    simp only [walkFuel, heapAfterAdd_length] at hTl ⊢
    omega
  have hset : (heapAfterAdd s.heap a node).set a
      { ({ node with available := 0 } : resourceList) with available := 1 } =
      (heapAfterAdd s.heap a node).set a node := by
    simp only [hnode]
  have hfinal : ∀ s1 : State, s1.heap = heapAfterAdd s.heap a node →
      (∃ pcb1, s1.procs[p]? = some pcb1 ∧
        release_walk (walkFuel ((heapAfterAdd s.heap a node).set a node)) r
          pcb1.resourceListPtr none ((heapAfterAdd s.heap a node).set a node) =
          some ((heapAfterAdd s.heap a node).set a node)) →
      ∃ s2, release_resource (walkFuel s1.heap) r resource p s1 = some (1, s2) ∧
        (∀ b, b < s.heap.length → s2.heap[b]? = s.heap[b]?) ∧
        chain (walkFuel s2.heap) s2.heap resource = some (pre ++ a :: post) ∧
        flags s2 resource = flags s resource := by
    intro s1 hheap ⟨pcb1, hp1, hwalk⟩
    have hrel := release_resource_first s1 r p a { node with available := 0 } post
      (by rw [hheap]; exact heapAfterAdd_at s.heap a node hn) hname pre resource
      (walkFuel s1.heap) (by rw [hheap]; exact hTc1) (by rw [hheap]; exact hTl1)
      (by rw [hheap]; exact hpre1)
    have hat : ((heapAfterAdd s.heap a node).set a node)[a]? = some node := by
      have := heap_restored s.heap a node hn a ha
      rw [this]; exact hn
    have hnoop : release_resource_from_process p a
        { s1 with heap := (heapAfterAdd s.heap a node).set a node } =
        some { s1 with heap := (heapAfterAdd s.heap a node).set a node } := by
      simp only [release_resource_from_process, hp1, hat, hname, hwalk]
    rw [hheap, hset, hnoop] at hrel
    rw [hheap]
    have hchain : chain (walkFuel ((heapAfterAdd s.heap a node).set a node))
        ((heapAfterAdd s.heap a node).set a node) resource = some (pre ++ a :: post) := by
      apply chain_complete
      · exact IsChain.restored a node hn _ _ hTc
      · simp only [walkFuel, List.length_set, heapAfterAdd_length] at hTl ⊢
        omega
    refine ⟨{ s1 with heap := (heapAfterAdd s.heap a node).set a node }, hrel,
      fun b hb => heap_restored s.heap a node hn b hb, hchain, ?_⟩
    exact flags_congr s _ resource (pre ++ a :: post) hT hchain
      (fun b hb => heap_restored s.heap a node hn b (IsChain.lt_length _ _ hTc b hb))
  cases hr : pcb.resourceListPtr with
  | none =>
    rw [hr] at hacq
    simp only at hacq
    obtain ⟨s2, h1, h2, h3, h4⟩ := hfinal
      ({ s with heap := heapAfterAdd s.heap a node }.setPcb p
        (fun b => { b with resourceListPtr := some s.heap.length })) rfl
      ⟨{ pcb with resourceListPtr := some s.heap.length },
        setPcb_procs_self { s with heap := heapAfterAdd s.heap a node } p
          (fun b => { b with resourceListPtr := some s.heap.length }) pcb hp, by
        have hcopy : ((heapAfterAdd s.heap a node).set a node)[s.heap.length]? =
            some { name := node.name, available := 0, next := node.next } := by
          rw [List.getElem?_set_ne (Nat.ne_of_lt ha)]
          simp [heapAfterAdd, List.getElem?_append_right]
        simp [walkFuel, release_walk, hcopy, hname]⟩
    exact ⟨_, s2, hacq, h1, h2, h3, h4⟩
  | some hd =>
    rw [hr] at hacq
    simp only at hacq
    obtain ⟨s2, h1, h2, h3, h4⟩ := hfinal { s with heap := heapAfterAdd s.heap a node } rfl
        ⟨pcb, hp, by
      rw [hr]
      apply release_walk_tail_absent _ r held _ _ (IsChain.restored a node hn _ _ (hr ▸ hHc))
      · simp only [walkFuel, List.length_set, heapAfterAdd_length] at hHl ⊢
        omega
      · intro c hc n hcn
        have hcl : c < s.heap.length :=
          IsChain.lt_length _ _ hHc c (List.mem_of_mem_tail hc)
        rw [heap_restored s.heap a node hn c hcl] at hcn
        exact hheld c hc n hcn⟩
    exact ⟨_, s2, hacq, h1, h2, h3, h4⟩

/-- Claim C9, amended, at `exFree`. -/
theorem acquire_then_release_restores_witness :
    (chain (walkFuel exFree.heap) exFree.heap (some 0) = some [0] ∧
      exFree.procs[0]? = some exFreeP1 ∧
      chain (walkFuel exFree.heap) exFree.heap exFreeP1.resourceListPtr = some [] ∧
      [0] = [] ++ 0 :: [] ∧
      exFree.heap[0]? = some { name := "R", available := 1, next := none }) ∧
    ∃ s1 s2, acquire_resource (walkFuel exFree.heap) "R" (some 0) 0 exFree = some (1, s1) ∧
      release_resource (walkFuel s1.heap) "R" (some 0) 0 s1 = some (1, s2) ∧
      (∀ b, b < exFree.heap.length → s2.heap[b]? = exFree.heap[b]?) ∧
      chain (walkFuel s2.heap) s2.heap (some 0) = some [0] ∧
      flags s2 (some 0) = flags exFree (some 0) :=
  ⟨⟨by decide, by decide, by decide, rfl, by decide⟩,
    acquire_then_release_restores exFree (some 0) 0 "R" [0] [] exFreeP1
      (by decide) (by decide) (by decide) [] [] 0 { name := "R", available := 1, next := none }
      rfl (by decide) (by decide) rfl rfl (by decide)⟩

/-! ## Draining the waiting queue -/

theorem is_resource_available_spec (h : List resourceList) (r : String) :
    ∀ (l : List Nat) (p0 : Option Nat) (fuel : Nat),
      IsChain h p0 l → l.length < fuel →
      ∃ b, is_resource_available fuel r p0 h = some b ∧
        (b ≠ 0 ↔ ∃ a ∈ l, ∃ node, h[a]? = some node ∧ node.name = r ∧ node.available = 1) := by
  intro l
  induction l with
  | nil =>
    intro p0 fuel hc hf
    simp only [IsChain] at hc
    subst hc
    cases fuel with
    | zero => simp at hf
    | succ f => exact ⟨FALSE, by simp [is_resource_available], by simp [FALSE]⟩
  | cons a l ih =>
    intro p0 fuel hc hf
    obtain ⟨hp, node, hn, hrest⟩ := hc
    subst hp
    cases fuel with
    | zero => simp at hf
    | succ f =>
      have hf2 : l.length < f := by simpa using hf
      obtain ⟨b, hb, hiff⟩ := ih _ f hrest hf2
      by_cases hfree : node.name = r ∧ node.available = 1
      · refine ⟨TRUE, by simp [is_resource_available, hn, hfree.1, hfree.2], ?_⟩
        constructor
        · intro _
          exact ⟨a, List.mem_cons_self a l, node, hn, hfree.1, hfree.2⟩
        · intro _; simp [TRUE]
      · refine ⟨b, ?_, ?_⟩
        · simp only [is_resource_available, hn]
          by_cases h1 : node.name = r
          · have h2 : ¬ node.available = 1 := fun h2 => hfree ⟨h1, h2⟩
            simp [h1, h2, hb]
          · simp [h1, hb]
        · rw [hiff]
          constructor
          · rintro ⟨c, hc, nc, hnc, hcn⟩
            exact ⟨c, List.mem_cons_of_mem a hc, nc, hnc, hcn⟩
          · rintro ⟨c, hc, nc, hnc, hcn⟩
            rcases List.mem_cons.mp hc with hca | hcl
            · subst hca
              rw [hn] at hnc
              cases hnc
              exact absurd hcn hfree
            · exact ⟨c, hcl, nc, hnc, hcn⟩

theorem pending_available_congr (s s0 : State) (resource : Option Nat)
    (hheap : s.heap = s0.heap) (hinstr : ∀ q, instrs s q = instrs s0 q) (q : Nat) :
    pending_available s resource q = pending_available s0 resource q := by
  have hq := hinstr q
  unfold instrs at hq
  unfold pending_available
  rw [hheap]
  cases h0 : s0.procs[q]? with
  | none =>
    rw [h0] at hq
    simp only [Option.map_none', Option.map_eq_none'] at hq
    simp [hq]
  | some b0 =>
    rw [h0] at hq
    simp only [Option.map_some', Option.map_eq_some'] at hq
    obtain ⟨b1, hb1, hbi⟩ := hq
    simp only [hb1, hbi]

theorem send_walk_spec (s0 : State) (resource : Option Nat) :
    ∀ (todo : List Nat) (s : State) (kept : List Nat),
      s.heap = s0.heap → (∀ q, instrs s q = instrs s0 q) →
      s.waitingQueue.items = todo ++ kept →
      (∀ q ∈ todo, inspectable s0 resource q) →
      ∃ s1, send_walk todo.length resource s = some s1 ∧
        s1.heap = s0.heap ∧ (∀ q, instrs s1 q = instrs s0 q) ∧
        s1.readyQueue.items =
          s.readyQueue.items ++ todo.filter (fun q => pending_available s0 resource q) ∧
        s1.waitingQueue.items =
          kept ++ todo.filter (fun q => !pending_available s0 resource q) ∧
        s1.mail = s.mail ∧ s1.out = s.out ∧ s1.terminatedQueue = s.terminatedQueue ∧
        (∀ q, ptr s1 q = ptr s q) := by
  intro todo
  induction todo with
  | nil =>
    intro s kept hheap hinstr hw _
    exact ⟨s, rfl, hheap, hinstr, by simp, by simpa using hw, rfl, rfl, rfl, fun _ => rfl⟩
  | cons q todo ih =>
    intro s kept hheap hinstr hw hins
    obtain ⟨i, rest, b, hi, hb⟩ := hins q (List.mem_cons_self q todo)
    have hiq := hinstr q
    rw [hi] at hiq
    unfold instrs at hiq
    simp only [Option.map_eq_some'] at hiq
    obtain ⟨pcb, hpcb, hnext⟩ := hiq
    have hpa : pending_available s0 resource q = decide (b ≠ 0) := by
      unfold instrs at hi
      simp only [Option.map_eq_some'] at hi
      obtain ⟨pcb0, hpcb0, hnext0⟩ := hi
      simp [pending_available, hpcb0, hnext0, hb]
    have hdq : dequeue s.waitingQueue =
        some (q, { items := todo ++ kept, n := s.waitingQueue.n - 1 }) := by
      simp [dequeue, hw]
    have hins2 : ∀ q1 ∈ todo, inspectable s0 resource q1 :=
      fun q1 hq1 => hins q1 (List.mem_cons_of_mem q hq1)
    have hb1 : is_resource_available (walkFuel s.heap) i.resource resource s.heap = some b := by
      rw [hheap]; exact hb
    simp only [List.length_cons, send_walk, hdq, hpcb, hnext, hb1]
    by_cases hb0 : b ≠ 0
    · rw [if_pos hb0]
      obtain ⟨s1, h1, h2, h3, h4, h5, h6, h7, h8, h9⟩ := ih
        (process_to_readyq q { s with waitingQueue := { items := todo ++ kept, n := s.waitingQueue.n - 1 } })
        kept hheap
        (fun q1 => (instrs_process_to_readyq _ q q1).trans (hinstr q1)) rfl hins2
      refine ⟨s1, h1, h2, h3, ?_, ?_, h6, h7, h8, ?_⟩
      · rw [h4]
        simp [process_to_readyq, enqueue, State.setPcb, hpa, hb0]
      · rw [h5]
        simp [hpa, hb0]
      · intro q1
        rw [h9 q1]
        exact ptr_process_to_readyq _ q q1
    · rw [if_neg hb0]
      obtain ⟨s1, h1, h2, h3, h4, h5, h6, h7, h8, h9⟩ := ih
        { s with waitingQueue :=
            enqueue { items := todo ++ kept, n := s.waitingQueue.n - 1 } q }
        (kept ++ [q]) hheap hinstr (by simp [enqueue]) hins2
      refine ⟨s1, h1, h2, h3, ?_, ?_, h6, h7, h8, h9⟩
      · rw [h4]
        simp [hpa, hb0]
      · rw [h5]
        simp [hpa, hb0]

theorem exWaiting_pending :
    ∀ q ∈ exWaiting.waitingQueue.items, ∃ i rest, instrs exWaiting q = some (i :: rest) := by
  intro q hq
  have h : q = 1 ∨ q = 0 ∨ q = 2 := by simpa [exWaiting] using hq
  rcases h with rfl | rfl | rfl
  · exact ⟨req "R", [rel "R"], rfl⟩
  · exact ⟨req "S", [], rfl⟩
  · exact ⟨req "R", [], rfl⟩

/-- Claim C10: on a waiting queue whose counter is its length and whose
processes all have a next instruction, `send_processes_to_readyq` returns after
exactly one iteration per process of the queue, leaves the heap unchanged,
appends to the ready queue the waiting processes whose test succeeds, in their
order, and leaves the others on the waiting queue, in their order; the test of
a process succeeds exactly when the table has an available instance named
like the resource of its next instruction. -/
theorem send_processes_to_readyq_partitions (s : State) (resource : Option Nat)
    (addrs : List Nat)
    (hT : chain (walkFuel s.heap) s.heap resource = some addrs)
    (hn : s.waitingQueue.n = s.waitingQueue.items.length)
    (hpend : ∀ q ∈ s.waitingQueue.items, ∃ i rest, instrs s q = some (i :: rest)) :
    ∃ s1, send_processes_to_readyq resource s = some s1 ∧
      send_walk s.waitingQueue.items.length resource s = some s1 ∧
      s1.heap = s.heap ∧
      s1.readyQueue.items = s.readyQueue.items ++
        s.waitingQueue.items.filter (fun q => pending_available s resource q) ∧
      s1.waitingQueue.items =
        s.waitingQueue.items.filter (fun q => !pending_available s resource q) ∧
      (∀ q ∈ s.waitingQueue.items, ∀ i rest, instrs s q = some (i :: rest) →
        (pending_available s resource q = true ↔
          ∃ a ∈ addrs, ∃ node, s.heap[a]? = some node ∧ node.name = i.resource ∧
            node.available = 1)) := by
  obtain ⟨hTc, hTl⟩ := chain_sound _ _ _ _ hT
  have hins : ∀ q ∈ s.waitingQueue.items, inspectable s resource q := by
    intro q hq
    obtain ⟨i, rest, hi⟩ := hpend q hq
    obtain ⟨b, hb, _⟩ := is_resource_available_spec s.heap i.resource addrs resource _ hTc hTl
    exact ⟨i, rest, b, hi, hb⟩
  obtain ⟨s1, h1, h2, _, h4, h5, _⟩ := send_walk_spec s resource s.waitingQueue.items s []
    rfl (fun _ => rfl) (by simp) hins
  have hchar : ∀ q ∈ s.waitingQueue.items, ∀ i rest, instrs s q = some (i :: rest) →
      (pending_available s resource q = true ↔
        ∃ a ∈ addrs, ∃ node, s.heap[a]? = some node ∧ node.name = i.resource ∧
          node.available = 1) := by
    intro q _ i rest hi
    obtain ⟨b, hb, hiff⟩ := is_resource_available_spec s.heap i.resource addrs resource _ hTc hTl
    unfold instrs at hi
    simp only [Option.map_eq_some'] at hi
    obtain ⟨pcb, hpcb, hnext⟩ := hi
    rw [← hiff]
    simp [pending_available, hpcb, hnext, hb]
  refine ⟨s1, ?_, h1, h2, h4, by simpa using h5, hchar⟩
  unfold send_processes_to_readyq
  cases hw : s.waitingQueue.items with
  | nil =>
    rw [hw] at h1
    simpa [send_walk] using h1
  | cons q rest =>
    rw [hw] at h1
    simp only [hn, hw]
    exact h1

/-- Claim C10 at `exWaiting`. -/
theorem send_processes_to_readyq_partitions_witness :
    (chain (walkFuel exWaiting.heap) exWaiting.heap (some 0) = some [0, 1] ∧
      exWaiting.waitingQueue.n = exWaiting.waitingQueue.items.length ∧
      ∀ q ∈ exWaiting.waitingQueue.items, ∃ i rest, instrs exWaiting q = some (i :: rest)) ∧
    ∃ s1, send_processes_to_readyq (some 0) exWaiting = some s1 ∧
      send_walk exWaiting.waitingQueue.items.length (some 0) exWaiting = some s1 ∧
      s1.heap = exWaiting.heap ∧
      s1.readyQueue.items = exWaiting.readyQueue.items ++
        exWaiting.waitingQueue.items.filter (fun q => pending_available exWaiting (some 0) q) ∧
      s1.waitingQueue.items =
        exWaiting.waitingQueue.items.filter (fun q => !pending_available exWaiting (some 0) q) ∧
      (∀ q ∈ exWaiting.waitingQueue.items, ∀ i rest, instrs exWaiting q = some (i :: rest) →
        (pending_available exWaiting (some 0) q = true ↔
          ∃ a ∈ [0, 1], ∃ node, exWaiting.heap[a]? = some node ∧ node.name = i.resource ∧
            node.available = 1)) :=
  ⟨⟨by decide, by decide, exWaiting_pending⟩,
    send_processes_to_readyq_partitions exWaiting (some 0) [0, 1]
      (by decide) (by decide) exWaiting_pending⟩

/-! ## Deadlock detection and recovery -/

/-- Claim C11 fails as stated: a list of one TERMINATED and one WAITING process,
in which every process that is not TERMINATED is WAITING, is reported as not
deadlocked. -/
theorem terminated_process_blocks_deadlock_report :
    (∀ b ∈ [pcbIn TERMINATED, pcbIn WAITING],
      b.processState ≠ TERMINATED → b.processState = WAITING) ∧
    processes_deadlocked [pcbIn TERMINATED, pcbIn WAITING] = 0 ∧
    processes_deadlocked [pcbIn WAITING, pcbIn TERMINATED] = 0 := by
  decide

theorem processes_deadlocked_all_or_not (ps : List processControlBlock) :
    (processes_deadlocked ps = 1 ↔ ∀ b ∈ ps, b.processState = WAITING) ∧
    (processes_deadlocked ps = 0 ↔ ∃ b ∈ ps, b.processState ≠ WAITING) := by
  have h01 : processes_deadlocked ps = 0 ∨ processes_deadlocked ps = 1 := by
    induction ps with
    | nil => simp [processes_deadlocked]
    | cons b rest ih =>
      by_cases hb : b.processState = WAITING
      · simpa [processes_deadlocked, hb] using ih
      · simp [processes_deadlocked, hb]
  have h1 : processes_deadlocked ps = 1 ↔ ∀ b ∈ ps, b.processState = WAITING := by
    clear h01
    induction ps with
    | nil => simp [processes_deadlocked]
    | cons b rest ih =>
      by_cases hb : b.processState = WAITING
      · simp [processes_deadlocked, hb, ih]
      · simp [processes_deadlocked, hb]
  refine ⟨h1, ?_⟩
  constructor
  · intro hz
    by_contra hno
    push_neg at hno
    have := h1.mpr hno
    omega
  · rintro ⟨b, hb, hne⟩
    rcases h01 with h | h
    · exact h
    · exact absurd (h1.mp h b hb) hne

/-- Claim C11, amended: `processes_deadlocked` returns 1 when every process of
the list is in state WAITING and 0 otherwise; a TERMINATED process is not
ignored, a list that contains one is reported as not deadlocked. -/
theorem processes_deadlocked_iff_all_waiting (ps : List processControlBlock) :
    (processes_deadlocked ps = 1 ↔ ∀ b ∈ ps, b.processState = WAITING) ∧
    (processes_deadlocked ps = 0 ↔ ∃ b ∈ ps, b.processState ≠ WAITING) ∧
    ((∃ b ∈ ps, b.processState = TERMINATED) → processes_deadlocked ps = 0) := by
  have h := processes_deadlocked_all_or_not ps
  refine ⟨h.1, h.2, ?_⟩
  rintro ⟨b, hb, hT⟩
  exact h.2.mpr ⟨b, hb, by rw [hT]; decide⟩

/-- Claim C12: on a non-empty process list `processes_deadlocked` returns 1
when every process is WAITING, and returns 0 when at least one process is READY
or RUNNING, whatever the states of the others. -/
theorem processes_deadlocked_global_only (ps : List processControlBlock) (_hne : ps ≠ []) :
    ((∀ b ∈ ps, b.processState = WAITING) → processes_deadlocked ps = 1) ∧
    ((∃ b ∈ ps, b.processState = READY ∨ b.processState = RUNNING) →
      processes_deadlocked ps = 0) := by
  have h := processes_deadlocked_all_or_not ps
  refine ⟨fun hall => h.1.mpr hall, ?_⟩
  rintro ⟨b, hb, hs⟩
  refine h.2.mpr ⟨b, hb, ?_⟩
  rcases hs with hs | hs <;> rw [hs] <;> decide

/-- Claim C12 on two lists: two WAITING processes, and one WAITING process next
to a RUNNING one. -/
theorem processes_deadlocked_global_only_witness :
    ([pcbIn WAITING, pcbIn WAITING] ≠ [] ∧ [pcbIn WAITING, pcbIn RUNNING] ≠ []) ∧
    processes_deadlocked [pcbIn WAITING, pcbIn WAITING] = 1 ∧
    processes_deadlocked [pcbIn WAITING, pcbIn RUNNING] = 0 :=
  ⟨⟨by decide, by decide⟩,
    (processes_deadlocked_global_only [pcbIn WAITING, pcbIn WAITING] (by decide)).1 (by decide),
    (processes_deadlocked_global_only [pcbIn WAITING, pcbIn RUNNING] (by decide)).2
      ⟨pcbIn RUNNING, by decide, Or.inr rfl⟩⟩

/-- Claim C14, evaluated: when the deadlock check fires in `exDeadlock` both
instances are unavailable, `R1` acquired by the victim `P1` and `R2` by `P2`.
`release_all_resources_from_process` on the victim leaves `R1` unavailable in
the resource table and sets `R2`, the instance of `P2`, available; that is the
table after the whole fourth turn too. -/
theorem recovery_frees_wrong_instance :
    exDeadlocked.map states = some [WAITING, WAITING] ∧
    exDeadlocked.map (fun s => processes_deadlocked s.procs) = some 1 ∧
    exDeadlocked.map (fun s => flags s (some 0)) = some (some [("R1", 0), ("R2", 0)]) ∧
    exDeadlocked.map (fun s => s.out) =
      some [Event.req_acquired "P1" "R1" ["R2"], Event.req_acquired "P2" "R2" [],
        Event.req_waiting "P1" "R2", Event.req_waiting "P2" "R1"] ∧
    exVictimReleased.map (fun s => flags s (some 0)) = some (some [("R1", 0), ("R2", 1)]) ∧
    (rr_turns 4 1 (some 0) exDeadlock).map (fun s => flags s (some 0)) =
      some (some [("R1", 0), ("R2", 1)]) := by
  exact ⟨by decide, by decide, by decide, by decide, by decide, by decide⟩

/-- Claim C15, evaluated: after the fourth turn of `exDeadlock`, in which the
recovery chose `P1` and the drain followed, `P1` is in the terminated queue, its
state is READY and it is in the ready queue; in the fifth turn it executes its
request of `R2`. -/
theorem victim_is_made_ready_again :
    (rr_turns 4 1 (some 0) exDeadlock).map (fun s => s.terminatedQueue.items) = some [0] ∧
    (rr_turns 4 1 (some 0) exDeadlock).map states = some [READY, WAITING] ∧
    (rr_turns 4 1 (some 0) exDeadlock).map (fun s => s.readyQueue.items) = some [0] ∧
    (rr_turns 4 1 (some 0) exDeadlock).map (fun s => s.waitingQueue.items) = some [1] ∧
    (rr_turns 5 1 (some 0) exDeadlock).map (fun s => s.out) =
      some [Event.req_acquired "P1" "R1" ["R2"], Event.req_acquired "P2" "R2" [],
        Event.req_waiting "P1" "R2", Event.req_waiting "P2" "R1",
        Event.req_acquired "P1" "R2" []] := by
  exact ⟨by decide, by decide, by decide, by decide, by decide⟩

/-- Claim C16 fails as stated: the run of `exDeadlock` ends with `P2` in state
WAITING, and the terminated queue holds the one victim `P1`: the recovery was
applied once and not repeated. -/
theorem recovery_is_not_repeated :
    exDeadlocked.map states = some [WAITING, WAITING] ∧
    (rr_turns 4 1 (some 0) exDeadlock).map states = some [READY, WAITING] ∧
    (schedule_processes_rr 6 1 (some 0) exDeadlock).map states = some [RUNNING, WAITING] ∧
    (schedule_processes_rr 6 1 (some 0) exDeadlock).map (fun s => s.readyQueue.items) =
      some [] ∧
    (schedule_processes_rr 6 1 (some 0) exDeadlock).map (fun s => s.waitingQueue.items) =
      some [1] ∧
    (schedule_processes_rr 6 1 (some 0) exDeadlock).map (fun s => s.terminatedQueue.items) =
      some [0] := by
  exact ⟨by decide, by decide, by decide, by decide, by decide, by decide⟩

/-- Claim C17, evaluated: the round-robin run of `exDeadlock` with quantum 1
returns after five turns.  Both processes get to wait and the recovery puts
`P1` on the terminated queue, but afterwards `R1` is still unavailable, it is
`P1` that is promoted and acquires `R2`, and `P2` is left waiting for `R1`. -/
theorem deadlock_run_revives_victim :
    (schedule_processes_rr 6 1 (some 0) exDeadlock).map (fun s => s.out) =
      some [Event.req_acquired "P1" "R1" ["R2"], Event.req_acquired "P2" "R2" [],
        Event.req_waiting "P1" "R2", Event.req_waiting "P2" "R1",
        Event.req_acquired "P1" "R2" []] ∧
    exDeadlocked.map states = some [WAITING, WAITING] ∧
    (rr_turns 4 1 (some 0) exDeadlock).map (fun s => s.terminatedQueue.items) = some [0] ∧
    (rr_turns 4 1 (some 0) exDeadlock).map (fun s => flags s (some 0)) =
      some (some [("R1", 0), ("R2", 1)]) ∧
    (rr_turns 4 1 (some 0) exDeadlock).map (fun s => s.readyQueue.items) = some [0] ∧
    (schedule_processes_rr 6 1 (some 0) exDeadlock).map states = some [RUNNING, WAITING] ∧
    (schedule_processes_rr 6 1 (some 0) exDeadlock).map (fun s => instrs s 1) =
      some (some [req "R1"]) ∧
    (schedule_processes_rr 6 1 (some 0) exDeadlock).map (fun s => flags s (some 0)) =
      some (some [("R1", 0), ("R2", 0)]) := by
  exact ⟨by decide, by decide, by decide, by decide, by decide, by decide, by decide,
    by decide⟩

/-- Claim C18: the round-robin run of `exScenario1` with quantum 1 logs, in
this order, `P1 req R acquired`, `P2 req R waiting`, `P1 rel R released` and
`P2 req R acquired` (and then the release of `P2`, which ends the run).  After
the release of `P1` in the third turn `P2` is on the waiting queue; the drain of
that turn moves it to the ready queue, and that is the state between the third
and the fourth turn. -/
theorem scenario_one_event_order :
    (rr_turns 4 1 (some 0) exScenario1).map (fun s => s.out) =
      some [Event.req_acquired "P1" "R" [], Event.req_waiting "P2" "R",
        Event.rel_released "P1" "R" ["R"], Event.req_acquired "P2" "R" []] ∧
    exScenario1Released.map (fun s => s.out) =
      some [Event.req_acquired "P1" "R" [], Event.req_waiting "P2" "R",
        Event.rel_released "P1" "R" ["R"]] ∧
    exScenario1Released.map (fun s => (s.readyQueue.items, s.waitingQueue.items)) =
      some ([], [1]) ∧
    exScenario1Drained.map (fun s => (s.readyQueue.items, s.waitingQueue.items)) =
      some ([1], []) ∧
    rr_turns 3 1 (some 0) exScenario1 = exScenario1Drained ∧
    (schedule_processes_rr 6 1 (some 0) exScenario1).map (fun s => s.out) =
      some [Event.req_acquired "P1" "R" [], Event.req_waiting "P2" "R",
        Event.rel_released "P1" "R" ["R"], Event.req_acquired "P2" "R" [],
        Event.rel_released "P2" "R" ["R"]] := by
  exact ⟨by decide, by decide, by decide, by decide, by decide, by decide⟩

/-- Claim C20, evaluated: in `exBlocked` with quantum 3 the second turn is the
turn of `P2`, whose request of `R` is not satisfied; the turn makes three
attempts, logs three `waiting` events and leaves `P2` three times on the
waiting queue. -/
theorem blocked_request_repeats_within_turn :
    (rr_turns 1 3 (some 0) exBlocked).map (fun s => s.out) =
      some [Event.req_acquired "P1" "R" []] ∧
    (rr_turns 1 3 (some 0) exBlocked).map (fun s => s.waitingQueue) =
      some { items := [], n := 0 } ∧
    (rr_turns 2 3 (some 0) exBlocked).map (fun s => s.out) =
      some [Event.req_acquired "P1" "R" [], Event.req_waiting "P2" "R",
        Event.req_waiting "P2" "R", Event.req_waiting "P2" "R"] ∧
    (rr_turns 2 3 (some 0) exBlocked).map (fun s => s.waitingQueue) =
      some { items := [1, 1, 1], n := 3 } := by
  exact ⟨by decide, by decide, by decide, by decide⟩

/-! ## What the recovery and the drain keep -/

theorem sameSched_refl (s : State) : SameSched s s := ⟨rfl, rfl, rfl, rfl, rfl⟩

theorem sameSched_trans {s s1 s2 : State} (h1 : SameSched s s1) (h2 : SameSched s1 s2) :
    SameSched s s2 := by
  obtain ⟨a1, a2, a3, a4, a5⟩ := h1
  obtain ⟨b1, b2, b3, b4, b5⟩ := h2
  exact ⟨b1.trans a1, b2.trans a2, b3.trans a3, b4.trans a4, b5.trans a5⟩

theorem release_resource_from_process_frame (s s1 : State) (p a : Nat)
    (h : release_resource_from_process p a s = some s1) : SameSched s s1 := by
  unfold release_resource_from_process at h
  split at h
  · split at h
    · simp at h
    · simp only [Option.some.injEq] at h
      subst h
      exact ⟨rfl, rfl, rfl, rfl, rfl⟩
  · simp at h

theorem release_resource_frame (r : String) (p : Nat) :
    ∀ (fuel : Nat) (p0 : Option Nat) (s s1 : State) (b : Nat),
      release_resource fuel r p0 p s = some (b, s1) → SameSched s s1 := by
  intro fuel
  induction fuel with
  | zero => intro p0 s s1 b h; simp [release_resource] at h
  | succ f ih =>
    intro p0 s s1 b h
    cases p0 with
    | none =>
      simp only [release_resource] at h
      split at h
      · simp at h
      · simp only [Option.some.injEq, Prod.mk.injEq] at h
        obtain ⟨_, h2⟩ := h
        subst h2
        exact ⟨rfl, rfl, rfl, rfl, rfl⟩
    | some a =>
      simp only [release_resource] at h
      split at h
      · simp at h
      · split at h
        · split at h
          · simp at h
          · rename_i s2 hfrom
            simp only [Option.some.injEq, Prod.mk.injEq] at h
            obtain ⟨_, h2⟩ := h
            subst h2
            have hf := release_resource_from_process_frame _ _ p a hfrom
            exact ⟨hf.1, hf.2.1, hf.2.2.1, hf.2.2.2.1, hf.2.2.2.2⟩
        · exact ih _ _ _ _ h

theorem release_all_walk_frame (p : Nat) :
    ∀ (fuel : Nat) (r : Option Nat) (s s1 : State),
      release_all_walk fuel r p s = some s1 → SameSched s s1 := by
  intro fuel
  induction fuel with
  | zero => intro r s s1 h; simp [release_all_walk] at h
  | succ f ih =>
    intro r s s1 h
    cases r with
    | none =>
      simp only [release_all_walk, Option.some.injEq] at h
      subst h
      exact sameSched_refl s
    | some a =>
      simp only [release_all_walk] at h
      split at h
      · simp at h
      · split at h
        · simp at h
        · rename_i b s2 hrel
          split at h
          · simp at h
          · exact sameSched_trans (release_resource_frame _ p _ _ _ _ _ hrel) (ih _ _ _ h)

theorem release_all_resources_from_process_frame (p : Nat) (s s1 : State)
    (h : release_all_resources_from_process p s = some s1) : SameSched s s1 := by
  unfold release_all_resources_from_process at h
  split at h
  · simp at h
  · exact release_all_walk_frame p _ _ _ _ h

theorem drained_refl (s : State) : Drained s s :=
  ⟨rfl, rfl, rfl, rfl, rfl, fun _ => rfl, fun _ => rfl, fun _ _ h => Or.inl h,
    fun _ h => h, fun _ h => Or.inr h⟩

theorem send_walk_drained (resource : Option Nat) :
    ∀ (n : Nat) (s s1 : State), send_walk n resource s = some s1 →
      s1.heap = s.heap ∧ s1.terminatedQueue = s.terminatedQueue ∧ s1.mail = s.mail ∧
      s1.out = s.out ∧ s1.procs.length = s.procs.length ∧
      (∀ q, instrs s1 q = instrs s q) ∧ (∀ q, ptr s1 q = ptr s q) ∧
      (∀ q b1, s1.procs[q]? = some b1 →
        s.procs[q]? = some b1 ∨ (b1.processState = READY ∧ q ∈ s1.readyQueue.items)) ∧
      (∀ x, x ∈ s.readyQueue.items → x ∈ s1.readyQueue.items) ∧
      (∀ x, x ∈ s.waitingQueue.items →
        x ∈ s1.readyQueue.items ∨ x ∈ s1.waitingQueue.items) := by
  intro n
  induction n with
  | zero =>
    intro s s1 h
    simp only [send_walk, Option.some.injEq] at h
    subst h
    exact drained_refl s
  | succ n ih =>
    intro s s1 h
    simp only [send_walk] at h
    cases hw : s.waitingQueue.items with
    | nil => simp [dequeue, hw] at h
    | cons q0 rest =>
      simp only [dequeue, hw] at h
      split at h
      · simp at h
      · rename_i pcb hpcb
        split at h
        · simp at h
        · rename_i i irest hnext
          split at h
          · simp at h
          · rename_i b hb
            split at h
            · -- promoted
              obtain ⟨h1, h2, h3, h4, h5, h6, h7, h8, h9, h10⟩ := ih _ _ h
              refine ⟨h1, h2, h3, h4, ?_, ?_, ?_, ?_, ?_, ?_⟩
              · rw [h5]; simp [process_to_readyq, State.setPcb]
              · intro q
                rw [h6 q]
                exact instrs_process_to_readyq _ q0 q
              · intro q
                rw [h7 q]
                exact ptr_process_to_readyq _ q0 q
              · intro q b1 hq
                rcases h8 q b1 hq with hsame | hready
                · by_cases hq0 : q0 = q
                  · subst hq0
                    right
                    have hx : b1 = { pcb with processState := READY } := by
                      simp [process_to_readyq, State.setPcb, hpcb] at hsame
                      exact hsame.symm
                    refine ⟨by rw [hx], ?_⟩
                    apply h9
                    simp [process_to_readyq, enqueue]
                  · left
                    simpa [process_to_readyq, State.setPcb, hq0] using hsame
                · exact Or.inr hready
              · intro x hx
                apply h9
                simp [process_to_readyq, enqueue, State.setPcb, hx]
              · intro x hx
                rcases List.mem_cons.mp hx with hx0 | hxr
                · subst hx0
                  left
                  apply h9
                  simp [process_to_readyq, enqueue]
                · apply h10
                  simp [process_to_readyq, State.setPcb, hxr]
            · -- kept on the waiting queue
              obtain ⟨h1, h2, h3, h4, h5, h6, h7, h8, h9, h10⟩ := ih _ _ h
              refine ⟨h1, h2, h3, h4, h5, h6, h7, h8, h9, ?_⟩
              intro x hx
              apply h10
              rcases List.mem_cons.mp hx with hx0 | hxr
              · subst hx0; simp [enqueue]
              · simp [enqueue, hxr]

theorem send_processes_to_readyq_drained (resource : Option Nat) (s s1 : State)
    (h : send_processes_to_readyq resource s = some s1) : Drained s s1 := by
  unfold send_processes_to_readyq at h
  split at h
  · simp only [Option.some.injEq] at h
    subst h
    exact drained_refl s
  · exact send_walk_drained resource _ _ _ h

theorem processes_deadlocked_head (ps : List processControlBlock) (b : processControlBlock)
    (hb : ps[0]? = some b) (hs : b.processState ≠ WAITING) : processes_deadlocked ps = 0 := by
  cases ps with
  | nil => simp at hb
  | cons c rest =>
    simp only [List.getElem?_cons_zero, Option.some.injEq] at hb
    subst hb
    simp [processes_deadlocked, hs]

theorem first_not_waiting_after_recovery (resource : Option Nat) (s s1 s2 : State)
    (hne : s.procs ≠ [])
    (h1 : release_all_resources_from_process 0 s = some s1)
    (h2 : send_processes_to_readyq resource (process_to_terminateq 0 s1) = some s2) :
    s2.terminatedQueue.items = s.terminatedQueue.items ++ [0] ∧
    (∃ b2, s2.procs[0]? = some b2 ∧
      (b2.processState = TERMINATED ∨ b2.processState = READY)) ∧
    processes_deadlocked s2.procs = 0 := by
  obtain ⟨f1, _, _, f4, _⟩ := release_all_resources_from_process_frame 0 s s1 h1
  obtain ⟨_, d2, _, _, d5, _, _, d8, _, _⟩ := send_processes_to_readyq_drained resource _ _ h2
  have hlen : 0 < s2.procs.length := by
    rw [d5]
    simp only [process_to_terminateq, State.setPcb, List.length_modify, f1]
    exact List.length_pos.mpr hne
  obtain ⟨b2, hb2⟩ : ∃ b2, s2.procs[0]? = some b2 := ⟨s2.procs[0], List.getElem?_eq_getElem hlen⟩
  have hstate : b2.processState = TERMINATED ∨ b2.processState = READY := by
    rcases d8 0 b2 hb2 with hsame | hready
    · left
      cases hp : s.procs with
      | nil => exact absurd hp hne
      | cons c rest =>
        simp [process_to_terminateq, State.setPcb, f1, hp] at hsame
        rw [← hsame]
    · exact Or.inr hready.1
  refine ⟨?_, ⟨b2, hb2, hstate⟩, ?_⟩
  · rw [d2]
    simp [process_to_terminateq, enqueue, State.setPcb, f4]
  · apply processes_deadlocked_head _ b2 hb2
    rcases hstate with h | h <;> rw [h] <;> decide

/-- Claim C13: when the deadlock check fires, every process is WAITING, so the
first process in creation order is WAITING; the recovery loop, started as in
`schedule_processes_rr` with `firstPCB_copy = firstPCB`, makes exactly one
iteration, on that process: it is the one process added to the terminated
queue, and after the iteration the first process is no longer WAITING, so the
loop ends before any other process can be chosen. -/
theorem recovery_victim_is_first_waiting (fuel : Nat) (resource : Option Nat) (s : State)
    (hfire : processes_deadlocked s.procs ≠ 0) (hne : s.procs ≠ []) :
    (∀ b ∈ s.procs, b.processState = WAITING) ∧
    (∃ b, s.procs[0]? = some b ∧ b.processState = WAITING) ∧
    recover_walk (fuel + 2) 0 resource s =
      (match release_all_resources_from_process 0 s with
       | none => none
       | some s1 => send_processes_to_readyq resource (process_to_terminateq 0 s1)) ∧
    ∀ s2, recover_walk (fuel + 2) 0 resource s = some s2 →
      s2.terminatedQueue.items = s.terminatedQueue.items ++ [0] ∧
      processes_deadlocked s2.procs = 0 := by
  have hall : ∀ b ∈ s.procs, b.processState = WAITING := by
    have h := processes_deadlocked_all_or_not s.procs
    by_contra hno
    push_neg at hno
    exact hfire (h.2.mpr hno)
  have h0 : ∃ b, s.procs[0]? = some b ∧ b.processState = WAITING := by
    cases hp : s.procs with
    | nil => exact absurd hp hne
    | cons c rest =>
      exact ⟨c, List.getElem?_cons_zero, hall c (by rw [hp]; exact List.mem_cons_self c rest)⟩
  have heq : recover_walk (fuel + 2) 0 resource s =
      (match release_all_resources_from_process 0 s with
       | none => none
       | some s1 => send_processes_to_readyq resource (process_to_terminateq 0 s1)) := by
    simp only [recover_walk, hfire, ne_eq, not_false_eq_true, if_true]
    cases h1 : release_all_resources_from_process 0 s with
    | none => rfl
    | some s1 =>
      simp only []
      cases h2 : send_processes_to_readyq resource (process_to_terminateq 0 s1) with
      | none => rfl
      | some s2 =>
        have hz := (first_not_waiting_after_recovery resource s s1 s2 hne h1 h2).2.2
        simp [hz]
  refine ⟨hall, h0, heq, ?_⟩
  intro s2 hs2
  rw [heq] at hs2
  cases h1 : release_all_resources_from_process 0 s with
  | none => rw [h1] at hs2; simp at hs2
  | some s1 =>
    rw [h1] at hs2
    have h := first_not_waiting_after_recovery resource s s1 s2 hne h1 hs2
    exact ⟨h.1, h.2.2⟩

/-- Claim C13 at `exWaiting`, where all three processes are WAITING. -/
theorem recovery_victim_is_first_waiting_witness :
    (processes_deadlocked exWaiting.procs ≠ 0 ∧ exWaiting.procs ≠ []) ∧
    (∀ b ∈ exWaiting.procs, b.processState = WAITING) ∧
    (∃ b, exWaiting.procs[0]? = some b ∧ b.processState = WAITING) ∧
    recover_walk (2 + 2) 0 (some 0) exWaiting =
      (match release_all_resources_from_process 0 exWaiting with
       | none => none
       | some s1 => send_processes_to_readyq (some 0) (process_to_terminateq 0 s1)) ∧
    ∀ s2, recover_walk (2 + 2) 0 (some 0) exWaiting = some s2 →
      s2.terminatedQueue.items = exWaiting.terminatedQueue.items ++ [0] ∧
      processes_deadlocked s2.procs = 0 :=
  ⟨⟨by decide, by decide⟩,
    recovery_victim_is_first_waiting 2 (some 0) exWaiting (by decide) (by decide)⟩

/-! ## Queue membership during a round-robin run -/

theorem keepsOthers_refl (p : Nat) (s : State) : KeepsOthers p s s :=
  ⟨rfl, fun _ h => h, fun _ h => h, rfl, fun _ _ => rfl⟩

theorem KeepsOthers.andThen {p : Nat} {s s1 s2 : State} (h1 : KeepsOthers p s s1)
    (h2 : KeepsOthers p s1 s2) : KeepsOthers p s s2 := by
  obtain ⟨a1, a2, a3, a4, a5⟩ := h1
  obtain ⟨b1, b2, b3, b4, b5⟩ := h2
  exact ⟨b1.trans a1, fun x hx => b2 x (a2 x hx), fun x hx => b3 x (a3 x hx), b4.trans a4,
    fun q hq => (b5 q hq).trans (a5 q hq)⟩

theorem instrs_setPcb_ne (s : State) (p q : Nat) (f : processControlBlock → processControlBlock)
    (hq : q ≠ p) : instrs (s.setPcb p f) q = instrs s q := by
  unfold instrs State.setPcb
  simp [List.getElem?_modify, Ne.symm hq]

theorem stateOf_setPcb_self (s : State) (p : Nat) (f : processControlBlock → processControlBlock) :
    stateOf (s.setPcb p f) p = (s.procs[p]?).map (fun b => (f b).processState) := by
  unfold stateOf State.setPcb
  simp [List.getElem?_modify]
  cases s.procs[p]? <;> rfl

theorem length_setPcb (s : State) (p : Nat) (f : processControlBlock → processControlBlock) :
    (s.setPcb p f).procs.length = s.procs.length := by
  simp [State.setPcb]

theorem add_resource_to_process_keeps (p a : Nat) (s s1 : State)
    (h : add_resource_to_process p a s = some s1) : KeepsSched s s1 := by
  unfold add_resource_to_process at h
  split at h
  · split at h
    · simp only [Option.some.injEq] at h
      subst h
      refine ⟨rfl, rfl, rfl, by simp [State.setPcb], ?_, ?_⟩
      · intro q
        exact instrs_setPcb _ p q _ (fun _ => rfl)
      · intro q
        unfold stateOf State.setPcb
        simp only [List.getElem?_modify]
        cases s.procs[q]? with
        | none => rfl
        | some b => by_cases hpq : p = q <;> simp [hpq]
    · split at h
      · simp at h
      · simp only [Option.some.injEq] at h
        subst h
        exact ⟨rfl, rfl, rfl, rfl, fun _ => rfl, fun _ => rfl⟩
  · simp at h

theorem acquire_resource_keeps (r : String) (p : Nat) :
    ∀ (fuel : Nat) (p0 : Option Nat) (s s1 : State) (b : Nat),
      acquire_resource fuel r p0 p s = some (b, s1) → KeepsSched s s1 := by
  intro fuel
  induction fuel with
  | zero => intro p0 s s1 b h; simp [acquire_resource] at h
  | succ f ih =>
    intro p0 s s1 b h
    cases p0 with
    | none =>
      simp only [acquire_resource, Option.some.injEq, Prod.mk.injEq] at h
      obtain ⟨_, h2⟩ := h
      subst h2
      exact ⟨rfl, rfl, rfl, rfl, fun _ => rfl, fun _ => rfl⟩
    | some a =>
      simp only [acquire_resource] at h
      split at h
      · simp at h
      · split at h
        · split at h
          · split at h
            · simp at h
            · rename_i s2 hadd
              simp only [Option.some.injEq, Prod.mk.injEq] at h
              obtain ⟨_, h2⟩ := h
              subst h2
              exact add_resource_to_process_keeps p a s _ hadd
          · exact ih _ _ _ _ h
        · exact ih _ _ _ _ h

theorem KeepsOthers.setPcb (p : Nat) (s : State) (f : processControlBlock → processControlBlock) :
    KeepsOthers p s (s.setPcb p f) :=
  ⟨rfl, fun _ h => h, fun _ h => h, length_setPcb s p f, fun q hq => instrs_setPcb_ne s p q f hq⟩

theorem KeepsOthers.of_keepsSched (p : Nat) {s s1 : State} (h : KeepsSched s s1) :
    KeepsOthers p s s1 :=
  ⟨h.1, fun _ hx => h.2.1 ▸ hx, fun _ hx => h.2.2.1 ▸ hx, h.2.2.2.1, fun q _ => h.2.2.2.2.1 q⟩

theorem KeepsOthers.others_of_sameSched (p : Nat) {s s1 : State} (h : SameSched s s1) :
    KeepsOthers p s s1 := by
  obtain ⟨h1, h2, h3, h4, _⟩ := h
  refine ⟨h2, fun _ hx => h3 ▸ hx, fun _ hx => h4 ▸ hx, by rw [h1], fun q _ => ?_⟩
  unfold instrs
  rw [h1]

theorem KeepsOthers.out (p : Nat) (s : State) (o : List Event) :
    KeepsOthers p s { s with out := o } :=
  ⟨rfl, fun _ h => h, fun _ h => h, rfl, fun _ _ => rfl⟩

theorem KeepsOthers.others_waitingq (p : Nat) (s : State) :
    KeepsOthers p s (process_to_waitingq p s) := by
  refine ⟨rfl, fun x hx => ?_, fun _ h => h, ?_, fun q hq => ?_⟩
  · simp only [ProcSched.process_to_waitingq, enqueue, State.setPcb, List.mem_append]
    exact Or.inl hx
  · simp [ProcSched.process_to_waitingq, State.setPcb]
  · exact instrs_setPcb_ne s p q _ hq

theorem KeepsOthers.others_terminateq (p : Nat) (s : State) :
    KeepsOthers p s (process_to_terminateq p s) := by
  refine ⟨rfl, fun _ h => h, fun x hx => ?_, ?_, fun q hq => ?_⟩
  · simp only [ProcSched.process_to_terminateq, enqueue, State.setPcb, List.mem_append]
    exact Or.inl hx
  · simp [ProcSched.process_to_terminateq, State.setPcb]
  · exact instrs_setPcb_ne s p q _ hq

theorem mem_waiting_process_to_waitingq (p : Nat) (s : State) :
    p ∈ (process_to_waitingq p s).waitingQueue.items := by
  simp [process_to_waitingq, enqueue, State.setPcb]

theorem mem_terminated_process_to_terminateq (p : Nat) (s : State) :
    p ∈ (process_to_terminateq p s).terminatedQueue.items := by
  simp [process_to_terminateq, enqueue, State.setPcb]

theorem stateOf_set_running (s : State) (p : Nat) (pcb : processControlBlock)
    (hp : s.procs[p]? = some pcb) :
    stateOf (s.setPcb p (fun b => { b with processState := RUNNING })) p = some RUNNING := by
  rw [stateOf_setPcb_self, hp]
  rfl

theorem stateOf_advance (s : State) (p : Nat) :
    stateOf (s.setPcb p advance) p = stateOf s p := by
  rw [stateOf_setPcb_self]
  unfold stateOf
  cases s.procs[p]? <;> rfl

theorem Placed.advance {p : Nat} {s : State} (h : Placed p s) : Placed p (s.setPcb p advance) := by
  rcases h with h | h | h
  · exact Or.inl h
  · exact Or.inr (Or.inl h)
  · exact Or.inr (Or.inr ((stateOf_advance s p).trans h))

/-- The function `process_request` keeps the other processes and leaves the
process on the waiting queue or RUNNING. -/
theorem process_request_placed (p : Nat) (i : instruction) (resource : Option Nat) (s s1 : State)
    (h : process_request p i resource s = some s1) : KeepsOthers p s s1 ∧ Placed p s1 := by
  unfold process_request at h
  split at h
  · simp at h
  · rename_i pcb hp
    simp only at h
    split at h
    · simp at h
    · rename_i acquired s2 hacq
      have hk := acquire_resource_keeps _ _ _ _ _ _ _ hacq
      have hrun := (hk.2.2.2.2.2 p).trans (stateOf_set_running s p pcb hp)
      have hko : KeepsOthers p s s2 :=
        (KeepsOthers.setPcb p s _).andThen (KeepsOthers.of_keepsSched p hk)
      split at h
      · simp only [Option.some.injEq] at h
        subst h
        exact ⟨(hko.andThen (KeepsOthers.out p s2 _)).andThen (KeepsOthers.others_waitingq p _),
          Or.inl (mem_waiting_process_to_waitingq p _)⟩
      · split at h
        · simp at h
        · split at h
          · simp at h
          · simp only [Option.some.injEq] at h
            subst h
            refine ⟨(hko.andThen (KeepsOthers.out p s2 _)).andThen (KeepsOthers.setPcb p _ _), ?_⟩
            exact Placed.advance (Or.inr (Or.inr hrun))

/-- The function `process_release` keeps the other processes and leaves the
process on the waiting queue, on the terminated queue or RUNNING. -/
theorem process_release_placed (p : Nat) (i : instruction) (resource : Option Nat) (s s1 : State)
    (h : process_release p i resource s = some s1) : KeepsOthers p s s1 ∧ Placed p s1 := by
  unfold process_release at h
  split at h
  · simp at h
  · rename_i pcb hp
    simp only at h
    split at h
    · simp at h
    · rename_i released s2 hrel
      have hk := release_resource_frame _ _ _ _ _ _ _ hrel
      have hrun : stateOf s2 p = some RUNNING := by
        have := stateOf_set_running s p pcb hp
        unfold stateOf at this ⊢
        rw [hk.1]
        exact this
      have hko : KeepsOthers p s s2 :=
        (KeepsOthers.setPcb p s _).andThen (KeepsOthers.others_of_sameSched p hk)
      split at h
      · simp at h
      · rename_i next _
        split at h
        · split at h
          · simp at h
          · simp only [Option.some.injEq] at h
            subst h
            by_cases hnext : next = []
            · simp only [hnext, if_true]
              refine ⟨((hko.andThen (KeepsOthers.out p s2 _)).andThen
                (KeepsOthers.others_terminateq p _)).andThen (KeepsOthers.setPcb p _ _), ?_⟩
              exact Placed.advance (Or.inr (Or.inl (mem_terminated_process_to_terminateq p _)))
            · simp only [hnext, if_false]
              refine ⟨(hko.andThen (KeepsOthers.out p s2 _)).andThen (KeepsOthers.setPcb p _ _), ?_⟩
              exact Placed.advance (Or.inr (Or.inr hrun))
        · simp only [Option.some.injEq] at h
          subst h
          refine ⟨(hko.andThen (KeepsOthers.others_waitingq p _)).andThen
            (KeepsOthers.setPcb p _ _), ?_⟩
          exact Placed.advance (Or.inl (mem_waiting_process_to_waitingq p _))

theorem KeepsOthers.mail_out (p : Nat) (s : State) (o : List Event) (m : List mailbox) :
    KeepsOthers p s { s with out := o, mail := m } :=
  ⟨rfl, fun _ h => h, fun _ h => h, rfl, fun _ _ => rfl⟩

/-- The function `process_send_message` keeps the other processes and leaves
the process RUNNING. -/
theorem process_send_message_placed (p : Nat) (i : instruction) (s s1 : State)
    (h : process_send_message p i s = some s1) : KeepsOthers p s s1 ∧ Placed p s1 := by
  unfold process_send_message at h
  split at h
  · simp at h
  · rename_i pcb hp
    simp only at h
    split at h
    · simp at h
    · split at h
      · simp only [Option.some.injEq] at h
        subst h
        have hrun := stateOf_set_running s p pcb hp
        refine ⟨((KeepsOthers.setPcb p s _).andThen (KeepsOthers.mail_out p _ _ _)).andThen
          (KeepsOthers.setPcb p _ _), ?_⟩
        exact Placed.advance (Or.inr (Or.inr hrun))
      · simp at h

/-- The function `process_receive_message` keeps the other processes and
leaves the process RUNNING. -/
theorem process_receive_message_placed (p : Nat) (i : instruction) (s s1 : State)
    (h : process_receive_message p i s = some s1) : KeepsOthers p s s1 ∧ Placed p s1 := by
  unfold process_receive_message at h
  split at h
  · simp at h
  · rename_i pcb hp
    simp only at h
    split at h
    · simp at h
    · split at h
      · simp only [Option.some.injEq] at h
        subst h
        have hrun := stateOf_set_running s p pcb hp
        refine ⟨((KeepsOthers.setPcb p s _).andThen (KeepsOthers.mail_out p _ _ _)).andThen
          (KeepsOthers.setPcb p _ _), ?_⟩
        exact Placed.advance (Or.inr (Or.inr hrun))
      · simp at h

/-- Every instruction keeps the other processes and leaves its process on the
waiting queue, on the terminated queue or RUNNING. -/
theorem dispatch_placed (p : Nat) (i : instruction) (resource : Option Nat) (s s1 : State)
    (h : dispatch p i resource s = some s1) : KeepsOthers p s s1 ∧ Placed p s1 := by
  unfold dispatch at h
  split at h
  · exact process_request_placed p i resource s s1 h
  · exact process_release_placed p i resource s s1 h
  · exact process_send_message_placed p i s s1 h
  · exact process_receive_message_placed p i s s1 h

/-- The quantum loop keeps the other processes; when it makes at least one
iteration the process has no instruction left or is placed. -/
theorem quantum_walk_placed (p : Nat) (resource : Option Nat) :
    ∀ (k : Nat) (s s1 : State), quantum_walk k p resource s = some s1 →
      KeepsOthers p s s1 ∧ (0 < k → instrs s1 p = some [] ∨ Placed p s1) := by
  intro k
  induction k with
  | zero =>
    intro s s1 h
    simp only [quantum_walk, Option.some.injEq] at h
    subst h
    exact ⟨keepsOthers_refl p s, fun h => absurd h (Nat.lt_irrefl 0)⟩
  | succ k ih =>
    intro s s1 h
    simp only [quantum_walk] at h
    split at h
    · simp at h
    · rename_i pcb hp
      split at h
      · rename_i hnil
        simp only [Option.some.injEq] at h
        subst h
        refine ⟨keepsOthers_refl p s, fun _ => Or.inl ?_⟩
        unfold instrs
        rw [hp]
        simp [hnil]
      · split at h
        · simp at h
        · rename_i s2 hd
          obtain ⟨hk, hpl⟩ := dispatch_placed p _ resource s s2 hd
          obtain ⟨hk2, hpl2⟩ := ih s2 s1 h
          refine ⟨hk.andThen hk2, fun _ => ?_⟩
          cases k with
          | zero =>
            simp only [quantum_walk, Option.some.injEq] at h
            subst h
            exact Or.inr hpl
          | succ k => exact hpl2 (Nat.succ_pos k)

theorem keepsQueued_refl (s : State) : KeepsQueued s s := ⟨rfl, fun _ => rfl, fun _ h => h⟩

theorem KeepsQueued.followedBy {s s1 s2 : State} (h1 : KeepsQueued s s1) (h2 : KeepsQueued s1 s2) :
    KeepsQueued s s2 :=
  ⟨h2.1.trans h1.1, fun q => (h2.2.1 q).trans (h1.2.1 q), fun x hx => h2.2.2 x (h1.2.2 x hx)⟩

theorem KeepsQueued.covered {s s1 : State} (h : KeepsQueued s s1) (hc : Covered s) :
    Covered s1 := by
  intro p hp
  rw [h.1] at hp
  rcases hc p hp with hq | hi
  · exact Or.inl (h.2.2 p hq)
  · exact Or.inr ((h.2.1 p).trans hi)

theorem KeepsQueued.of_drained {s s1 : State} (h : Drained s s1) : KeepsQueued s s1 := by
  obtain ⟨_, hT, _, _, hlen, hins, _, _, hR, hW⟩ := h
  refine ⟨hlen, hins, fun x hx => ?_⟩
  rcases hx with hx | hx | hx
  · exact Or.inl (hR x hx)
  · rcases hW x hx with h1 | h1
    · exact Or.inl h1
    · exact Or.inr (Or.inl h1)
  · exact Or.inr (Or.inr (hT ▸ hx))

theorem KeepsQueued.queued_of_sameSched {s s1 : State} (h : SameSched s s1) : KeepsQueued s s1 := by
  obtain ⟨h1, h2, h3, h4, _⟩ := h
  refine ⟨by rw [h1], fun q => by unfold instrs; rw [h1], fun x hx => ?_⟩
  unfold inQueues at hx ⊢
  rw [h2, h3, h4]
  exact hx

theorem KeepsQueued.queued_terminateq (p : Nat) (s : State) :
    KeepsQueued s (process_to_terminateq p s) := by
  refine ⟨by simp [ProcSched.process_to_terminateq, State.setPcb], fun q => ?_, fun x hx => ?_⟩
  · exact instrs_setPcb s p q _ (fun _ => rfl)
  · rcases hx with hx | hx | hx
    · exact Or.inl hx
    · exact Or.inr (Or.inl hx)
    · refine Or.inr (Or.inr ?_)
      simp only [ProcSched.process_to_terminateq, enqueue, State.setPcb, List.mem_append]
      exact Or.inl hx

theorem KeepsQueued.queued_readyq (p : Nat) (s : State) :
    KeepsQueued s (process_to_readyq p s) := by
  refine ⟨by simp [ProcSched.process_to_readyq, State.setPcb], fun q => ?_, fun x hx => ?_⟩
  · exact instrs_setPcb s p q _ (fun _ => rfl)
  · rcases hx with hx | hx | hx
    · refine Or.inl ?_
      simp only [ProcSched.process_to_readyq, enqueue, State.setPcb, List.mem_append]
      exact Or.inl hx
    · exact Or.inr (Or.inl hx)
    · exact Or.inr (Or.inr hx)

/-- The recovery loop keeps every process on a queue and every instruction list. -/
theorem recover_walk_keeps (resource : Option Nat) :
    ∀ (fuel copy : Nat) (s s1 : State), recover_walk fuel copy resource s = some s1 →
      KeepsQueued s s1 := by
  intro fuel
  induction fuel with
  | zero => intro copy s s1 h; simp [recover_walk] at h
  | succ f ih =>
    intro copy s s1 h
    simp only [recover_walk] at h
    split at h
    · split at h
      · simp at h
      · rename_i sa ha
        split at h
        · simp at h
        · rename_i sb hb
          have h1 := KeepsQueued.queued_of_sameSched (release_all_resources_from_process_frame _ _ _ ha)
          have h2 := KeepsQueued.queued_terminateq copy sa
          have h3 := KeepsQueued.of_drained (send_processes_to_readyq_drained _ _ _ hb)
          exact ((h1.followedBy h2).followedBy h3).followedBy (ih _ _ _ h)
    · simp only [Option.some.injEq] at h
      subst h
      exact keepsQueued_refl s

theorem effective_quantum_pos (quantum : Int) (hq : 0 ≤ quantum) :
    0 < (effective_quantum quantum).toNat := by
  unfold effective_quantum QUANTUM
  split
  · decide
  · rename_i hne
    have : 0 < quantum := lt_of_le_of_ne hq (Ne.symm hne)
    omega

/-- One turn of the round-robin loop with a quantum that is not negative keeps
the number of processes, and every process on a queue or without instructions. -/
theorem rr_turn_covered (quantum : Int) (resource : Option Nat) (s s1 : State)
    (hq : 0 ≤ quantum) (hc : Covered s) (h : rr_turn quantum resource s = some s1) :
    s1.procs.length = s.procs.length ∧ Covered s1 := by
  unfold rr_turn at h
  split at h
  · simp at h
  · rename_i p rq hdq
    have hR : s.readyQueue.items = p :: rq.items := by
      unfold dequeue at hdq
      split at hdq
      · simp at hdq
      · rename_i head rest hitems
        simp only [Option.some.injEq, Prod.mk.injEq] at hdq
        obtain ⟨h1, h2⟩ := hdq
        subst h1
        subst h2
        exact hitems
    split at h
    · simp at h
    · rename_i sa ha
      obtain ⟨hko, hpl⟩ := quantum_walk_placed p resource _ _ _ ha
      have hpl := hpl (effective_quantum_pos quantum hq)
      obtain ⟨k1, k2, k3, k4, k5⟩ := hko
      simp only at k1 k2 k3 k4 k5
      split at h
      · simp at h
      · rename_i sb hb
        have hdr := send_processes_to_readyq_drained _ _ _ hb
        have hkq := KeepsQueued.of_drained hdr
        split at h
        · simp at h
        · rename_i pcb hpcb
          -- the state after the re-filing is covered
          have hcov : Covered (if pcb.processState = RUNNING ∧ pcb.nextInstruction ≠ [] then
              process_to_readyq p sb else sb) := by
            have hsb : ∀ x, x < sb.procs.length → x ≠ p → inQueues sb x ∨ instrs sb x = some [] := by
              intro x hx hxp
              rw [hkq.1, k4] at hx
              rcases hc x hx with hin | hi
              · refine Or.inl (hkq.2.2 x ?_)
                rcases hin with hin | hin | hin
                · rw [hR] at hin
                  rcases List.mem_cons.1 hin with hin | hin
                  · exact absurd hin hxp
                  · exact Or.inl (k1 ▸ hin)
                · exact Or.inr (Or.inl (k2 x hin))
                · exact Or.inr (Or.inr (k3 x hin))
              · exact Or.inr (((hkq.2.1 x).trans (k5 x hxp)).trans hi)
            by_cases hrun : pcb.processState = RUNNING ∧ pcb.nextInstruction ≠ []
            · rw [if_pos hrun]
              have hk := KeepsQueued.queued_readyq p sb
              intro x hx
              by_cases hxp : x = p
              · subst hxp
                refine Or.inl (Or.inl ?_)
                simp [process_to_readyq, enqueue, State.setPcb]
              · rw [hk.1] at hx
                rcases hsb x hx hxp with h1 | h1
                · exact Or.inl (hk.2.2 x h1)
                · exact Or.inr ((hk.2.1 x).trans h1)
            · rw [if_neg hrun]
              intro x hx
              by_cases hxp : x = p
              · subst hxp
                rcases hpl with hi | hw | ht | hst
                · exact Or.inr ((hkq.2.1 x).trans hi)
                · exact Or.inl (hkq.2.2 x (Or.inr (Or.inl hw)))
                · exact Or.inl (hkq.2.2 x (Or.inr (Or.inr ht)))
                · rcases hdr.2.2.2.2.2.2.2.1 x pcb hpcb with hsame | ⟨_, hin⟩
                  · have hst2 : pcb.processState = RUNNING := by
                      unfold stateOf at hst
                      rw [hsame] at hst
                      simpa using hst
                    have hnil : pcb.nextInstruction = [] := by
                      by_contra hne
                      exact hrun ⟨hst2, hne⟩
                    refine Or.inr ?_
                    unfold instrs
                    rw [hpcb]
                    simp [hnil]
                  · exact Or.inl (Or.inl hin)
              · exact hsb x hx hxp
          have hlen : (if pcb.processState = RUNNING ∧ pcb.nextInstruction ≠ [] then
              process_to_readyq p sb else sb).procs.length = s.procs.length := by
            split
            · rw [(KeepsQueued.queued_readyq p sb).1, hkq.1, k4]
            · rw [hkq.1, k4]
          dsimp only at h
          generalize (if pcb.processState = RUNNING ∧ pcb.nextInstruction ≠ [] then
              process_to_readyq p sb else sb) = s3 at h hcov hlen
          split at h
          · have hk := recover_walk_keeps resource _ _ _ _ h
            exact ⟨hk.1.trans hlen, hk.covered hcov⟩
          · simp only [Option.some.injEq] at h
            subst h
            exact ⟨hlen, hcov⟩

/-- Turns of the round-robin loop with a quantum that is not negative keep
the number of processes, and every process on a queue or without instructions. -/
theorem rr_turns_covered (quantum : Int) (resource : Option Nat) (hq : 0 ≤ quantum) :
    ∀ (k : Nat) (s s1 : State), Covered s → rr_turns k quantum resource s = some s1 →
      s1.procs.length = s.procs.length ∧ Covered s1 := by
  intro k
  induction k with
  | zero =>
    intro s s1 hc h
    simp only [rr_turns, Option.some.injEq] at h
    subst h
    exact ⟨rfl, hc⟩
  | succ k ih =>
    intro s s1 hc h
    simp only [rr_turns] at h
    split at h
    · simp only [Option.some.injEq] at h
      subst h
      exact ⟨rfl, hc⟩
    · split at h
      · simp at h
      · rename_i s2 h2
        obtain ⟨hl2, hc2⟩ := rr_turn_covered quantum resource s s2 hq hc h2
        obtain ⟨hl1, hc1⟩ := ih s2 s1 hc2 h
        exact ⟨hl1.trans hl2, hc1⟩

theorem load_covered (processes : List (String × List instruction)) (resources : List String)
    (mailboxes : List String) : Covered (load processes resources mailboxes) := by
  intro p hp
  refine Or.inl (Or.inl ?_)
  simp only [load, List.length_map, List.enum_length] at hp
  simp only [load, List.mem_range]
  exact hp

/-! ## The recovery step on a well-formed heap -/

theorem Ranked.node {rank : Nat → Nat} {h : List resourceList} (hr : Ranked rank h)
    {a : Nat} {node : resourceList} (hn : h[a]? = some node) :
    rank a < h.length ∧ ∀ b, node.next = some b → b < h.length ∧ rank b < rank a :=
  hr a (List.mem_range.2 (List.getElem?_eq_some.mp hn).1) node hn

theorem Ranked.ranked_setAvailable {rank : Nat → Nat} {h : List resourceList} (hr : Ranked rank h)
    (a : Nat) (node : resourceList) (v : Nat) (hn : h[a]? = some node) :
    Ranked rank (h.set a { node with available := v }) := by
  intro b hb nb hnb
  rw [List.length_set] at hb ⊢
  have hbl : b < h.length := List.mem_range.1 hb
  by_cases hba : a = b
  · subst hba
    rw [List.getElem?_set] at hnb
    simp only [hbl, if_true, Option.some.injEq] at hnb
    subst hnb
    exact hr _ (List.mem_range.2 hbl) node hn
  · rw [List.getElem?_set_ne hba] at hnb
    exact hr.node hnb

theorem Ranked.unlink {rank : Nat → Nat} {h : List resourceList} (hr : Ranked rank h)
    (pv c : Nat) (pn cn : resourceList) (hpn : h[pv]? = some pn) (hlink : pn.next = some c)
    (hcn : h[c]? = some cn) : Ranked rank (h.set pv { pn with next := cn.next }) := by
  intro b hb nb hnb
  rw [List.length_set] at hb ⊢
  have hbl : b < h.length := List.mem_range.1 hb
  by_cases hba : pv = b
  · subst hba
    rw [List.getElem?_set] at hnb
    simp only [hbl, if_true, Option.some.injEq] at hnb
    subst hnb
    refine ⟨(hr.node hpn).1, fun d hd => ?_⟩
    have h1 := (hr.node hcn).2 d hd
    have h2 := (hr.node hpn).2 c hlink
    exact ⟨h1.1, lt_trans h1.2 h2.2⟩
  · rw [List.getElem?_set_ne hba] at hnb
    exact hr.node hnb

theorem Ranked.exists_chain_of_rank {rank : Nat → Nat} {h : List resourceList}
    (hr : Ranked rank h) :
    ∀ (n a : Nat), rank a < n → a < h.length → ∃ l, IsChain h (some a) l := by
  intro n
  induction n with
  | zero => intro a ha; exact absurd ha (Nat.not_lt_zero _)
  | succ n ih =>
    intro a ha hal
    have hn : h[a]? = some (h.get ⟨a, hal⟩) := List.getElem?_eq_getElem hal
    cases hnext : (h.get ⟨a, hal⟩).next with
    | none =>
      refine ⟨[a], rfl, _, hn, ?_⟩
      rw [hnext]
      rfl
    | some b =>
      obtain ⟨hb1, hb2⟩ := (hr.node hn).2 b hnext
      obtain ⟨l, hl⟩ := ih b (by omega) hb1
      refine ⟨a :: l, rfl, _, hn, ?_⟩
      rw [hnext]
      exact hl

/-- In a ranked heap every valid pointer heads a list that ends in `NULL`. -/
theorem Ranked.exists_chain {rank : Nat → Nat} {h : List resourceList} (hr : Ranked rank h)
    (p : Option Nat) (hp : ValidPtr h p) : ∃ l, IsChain h p l ∧ l.length < walkFuel h := by
  have hex : ∃ l, IsChain h p l := by
    cases p with
    | none => exact ⟨[], rfl⟩
    | some a => exact hr.exists_chain_of_rank (rank a + 1) a (Nat.lt_succ_self _) (hp a rfl)
  obtain ⟨l, hl⟩ := hex
  refine ⟨l, hl, ?_⟩
  have := IsChain.length_le l p hl
  simp only [walkFuel]
  omega

/-- The loop of `release_resource_from_process` keeps a ranked heap ranked. -/
theorem release_walk_ranked (rank : Nat → Nat) (nm : String) :
    ∀ (fuel : Nat) (c prev : Option Nat) (h h1 : List resourceList),
      Ranked rank h → (∀ pv, prev = some pv → ∃ pn, h[pv]? = some pn ∧ pn.next = c) →
      release_walk fuel nm c prev h = some h1 → Ranked rank h1 ∧ h1.length = h.length := by
  intro fuel
  induction fuel with
  | zero => intro c prev h h1 _ _ hw; simp [release_walk] at hw
  | succ f ih =>
    intro c prev h h1 hr hprev hw
    cases c with
    | none =>
      simp only [release_walk, Option.some.injEq] at hw
      subst hw
      exact ⟨hr, rfl⟩
    | some c =>
      simp only [release_walk] at hw
      split at hw
      · simp at hw
      · rename_i cn hcn
        split at hw
        · split at hw
          · simp only [Option.some.injEq] at hw
            subst hw
            exact ⟨hr, rfl⟩
          · rename_i pv
            obtain ⟨pn, hpn, hlink⟩ := hprev pv rfl
            simp only [hpn, Option.some.injEq] at hw
            subst hw
            exact ⟨hr.unlink pv c pn cn hpn hlink hcn, by simp⟩
        · exact ih _ _ _ _ hr (fun pv hpv => by cases hpv; exact ⟨cn, hcn, rfl⟩) hw

/-- One step of `release_all_resources_from_process`: called on a node of the
heap with the name of that node, `release_resource` returns and keeps the heap
ranked. -/
theorem release_resource_self (rank : Nat → Nat) (s : State) (p r : Nat)
    (pcb : processControlBlock) (node : resourceList)
    (hr : Ranked rank s.heap) (hp : s.procs[p]? = some pcb)
    (hptr : ValidPtr s.heap pcb.resourceListPtr) (hn : s.heap[r]? = some node) :
    ∃ h1, release_resource (walkFuel s.heap) node.name (some r) p s =
        some (TRUE, { s with heap := h1 }) ∧
      Ranked rank h1 ∧ h1.length = s.heap.length ∧
      ∃ node1, h1[r]? = some node1 := by
  have hr1 := hr.ranked_setAvailable r node 1 hn
  have hlen1 : (s.heap.set r { node with available := 1 }).length = s.heap.length :=
    List.length_set _ _ _
  have hrl : r < s.heap.length := (List.getElem?_eq_some.mp hn).1
  have hn1 : (s.heap.set r { node with available := 1 })[r]? = some { node with available := 1 } := by
    simp [List.getElem?_set, hrl]
  have hptr1 : ValidPtr (s.heap.set r { node with available := 1 }) pcb.resourceListPtr := by
    intro a ha
    rw [hlen1]
    exact hptr a ha
  obtain ⟨l, hl, hll⟩ := hr1.exists_chain pcb.resourceListPtr hptr1
  obtain ⟨h1, hw⟩ := release_walk_total _ node.name l pcb.resourceListPtr none _ hl hll
    (by intro pv hpv; cases hpv)
  obtain ⟨hr2, hlen2⟩ := release_walk_ranked rank node.name _ _ _ _ _ hr1
    (by intro pv hpv; cases hpv) hw
  refine ⟨h1, ?_, hr2, hlen2.trans hlen1, ?_⟩
  · simp only [walkFuel, release_resource, hn, if_true, release_resource_from_process, hp, hn1]
    simp only [walkFuel] at hw
    rw [hw]
  · have : r < h1.length := by rw [hlen2, hlen1]; exact hrl
    exact ⟨_, List.getElem?_eq_getElem this⟩

/-- The loop of `release_all_resources_from_process` returns on a ranked heap
and keeps it ranked. -/
theorem release_all_walk_total (rank : Nat → Nat) (p : Nat) (pcb : processControlBlock) :
    ∀ (fuel : Nat) (r : Option Nat) (s : State),
      Ranked rank s.heap → s.procs[p]? = some pcb → ValidPtr s.heap pcb.resourceListPtr →
      (∀ a, r = some a → a < s.heap.length ∧ rank a + 1 < fuel) → 0 < fuel →
      ∃ s1, release_all_walk fuel r p s = some s1 ∧ Ranked rank s1.heap ∧
        s1.heap.length = s.heap.length := by
  intro fuel
  induction fuel with
  | zero => intro r s _ _ _ _ h0; exact absurd h0 (Nat.lt_irrefl 0)
  | succ f ih =>
    intro r s hr hp hptr hfuel _
    cases r with
    | none => exact ⟨s, by simp [release_all_walk], hr, rfl⟩
    | some r =>
      obtain ⟨hrl, hrk⟩ := hfuel r rfl
      have hn : s.heap[r]? = some (s.heap.get ⟨r, hrl⟩) := List.getElem?_eq_getElem hrl
      obtain ⟨h1, hrel, hr1, hlen1, node1, hn1⟩ :=
        release_resource_self rank s p r pcb _ hr hp hptr hn
      have hf : 0 < f := by omega
      obtain ⟨s2, hs2, hr2, hlen2⟩ := ih node1.next { s with heap := h1 } hr1 hp
        (by intro a ha; rw [hlen1]; exact hptr a ha)
        (by
          intro a ha
          have := (hr1.node hn1).2 a ha
          exact ⟨this.1, by omega⟩) hf
      refine ⟨s2, ?_, hr2, hlen2.trans hlen1⟩
      simp only [release_all_walk, hn, hrel, hn1]
      exact hs2

/-- The function `release_all_resources_from_process` returns on a ranked heap. -/
theorem release_all_resources_from_process_total (rank : Nat → Nat) (p : Nat)
    (pcb : processControlBlock) (s : State)
    (hr : Ranked rank s.heap) (hp : s.procs[p]? = some pcb)
    (hptr : ValidPtr s.heap pcb.resourceListPtr) :
    ∃ s1, release_all_resources_from_process p s = some s1 ∧ Ranked rank s1.heap ∧
      s1.heap.length = s.heap.length := by
  obtain ⟨s1, h1, h2, h3⟩ := release_all_walk_total rank p pcb (walkFuel s.heap)
    pcb.resourceListPtr s hr hp hptr
    (by
      intro a ha
      have hal := hptr a ha
      have := (hr.node (List.getElem?_eq_getElem hal)).1
      exact ⟨hal, by simp only [walkFuel]; omega⟩)
    (by simp [walkFuel])
  exact ⟨s1, by simp only [release_all_resources_from_process, hp]; exact h1, h2, h3⟩

/-- The function `send_processes_to_readyq` returns when the counter of the
waiting queue is its length, every waiting process has a next instruction and
the table is a list of a ranked heap. -/
theorem send_processes_to_readyq_total (rank : Nat → Nat) (s : State) (resource : Option Nat)
    (hr : Ranked rank s.heap) (hres : ValidPtr s.heap resource)
    (hn : s.waitingQueue.n = s.waitingQueue.items.length)
    (hpend : ∀ q ∈ s.waitingQueue.items, ∃ i rest, instrs s q = some (i :: rest)) :
    ∃ s1, send_processes_to_readyq resource s = some s1 := by
  obtain ⟨addrs, hTc, hTl⟩ := hr.exists_chain resource hres
  have hins : ∀ q ∈ s.waitingQueue.items, inspectable s resource q := by
    intro q hq
    obtain ⟨i, rest, hi⟩ := hpend q hq
    obtain ⟨b, hb, _⟩ := is_resource_available_spec s.heap i.resource addrs resource _ hTc hTl
    exact ⟨i, rest, b, hi, hb⟩
  obtain ⟨s1, h1, _⟩ := send_walk_spec s resource s.waitingQueue.items s []
    rfl (fun _ => rfl) (by simp) hins
  refine ⟨s1, ?_⟩
  unfold send_processes_to_readyq
  cases hw : s.waitingQueue.items with
  | nil =>
    rw [hw] at h1
    simpa [send_walk] using h1
  | cons q rest =>
    rw [hw] at h1
    simp only [hn, hw]
    exact h1

theorem waitingCount_lt_of_head (ps : List processControlBlock) (b : processControlBlock)
    (hb : ps[0]? = some b) (hs : b.processState ≠ WAITING) : waitingCount ps < ps.length := by
  cases ps with
  | nil => simp at hb
  | cons c rest =>
    simp only [List.getElem?_cons_zero, Option.some.injEq] at hb
    subst hb
    unfold waitingCount
    rw [List.countP_cons_of_neg _ _ (by simpa using hs)]
    exact Nat.lt_succ_of_le (List.countP_le_length _)

theorem waitingCount_all (ps : List processControlBlock)
    (hall : ∀ b ∈ ps, b.processState = WAITING) : waitingCount ps = ps.length := by
  unfold waitingCount
  rw [List.countP_eq_length]
  intro b hb
  simpa using hall b hb

/-- Claim C16, amended: in a state in which every process is WAITING, with a
well-formed heap and waiting queue, the recovery loop of the round-robin
scheduler returns after exactly one application of the recovery step (release
of what the first process holds, termination of the first process, drain);
that application strictly decreases the number of WAITING processes, and the
loop then stops because the deadlock check no longer fires, whatever the
states of the other processes. -/
theorem recovery_step_decreases_waiting (rank : Nat → Nat) (resource : Option Nat) (s : State)
    (hall : ∀ b ∈ s.procs, b.processState = WAITING) (hne : s.procs ≠ [])
    (hr : Ranked rank s.heap) (hres : ValidPtr s.heap resource)
    (hptr : ∀ b, s.procs[0]? = some b → ValidPtr s.heap b.resourceListPtr)
    (hn : s.waitingQueue.n = s.waitingQueue.items.length)
    (hpend : ∀ q ∈ s.waitingQueue.items, ∃ i rest, instrs s q = some (i :: rest)) :
    ∃ s1 s2, release_all_resources_from_process 0 s = some s1 ∧
      send_processes_to_readyq resource (process_to_terminateq 0 s1) = some s2 ∧
      recover_walk (s.procs.length + 1) 0 resource s = some s2 ∧
      waitingCount s2.procs < waitingCount s.procs ∧
      processes_deadlocked s2.procs = 0 := by
  have hlen0 : 0 < s.procs.length := List.length_pos.2 hne
  have hp : s.procs[0]? = some (s.procs.get ⟨0, hlen0⟩) := List.getElem?_eq_getElem hlen0
  obtain ⟨s1, h1, hr1, hl1⟩ := release_all_resources_from_process_total rank 0 _ s hr hp
    (hptr _ hp)
  obtain ⟨f1, _, f3, _, _⟩ := release_all_resources_from_process_frame 0 s s1 h1
  have hins : ∀ q, instrs (process_to_terminateq 0 s1) q = instrs s q := by
    intro q
    rw [show instrs s q = instrs s1 q by unfold instrs; rw [f1]]
    exact instrs_setPcb s1 0 q _ (fun _ => rfl)
  obtain ⟨s2, h2⟩ := send_processes_to_readyq_total rank (process_to_terminateq 0 s1) resource
    hr1 (by intro a ha; exact hl1 ▸ hres a ha)
    (by
      show s1.waitingQueue.n = s1.waitingQueue.items.length
      rw [f3]
      exact hn)
    (by
      intro q hq
      have hq1 : q ∈ s.waitingQueue.items := by
        rw [← f3]
        exact hq
      obtain ⟨i, rest, hi⟩ := hpend q hq1
      exact ⟨i, rest, (hins q).trans hi⟩)
  obtain ⟨_, ⟨b2, hb2, hst⟩, hdl⟩ := first_not_waiting_after_recovery resource s s1 s2 hne h1 h2
  have hfire : processes_deadlocked s.procs ≠ 0 := by
    rw [((processes_deadlocked_all_or_not s.procs).1).2 hall]
    decide
  have hlen2 : s2.procs.length = s.procs.length := by
    have hd := send_processes_to_readyq_drained resource _ _ h2
    rw [hd.2.2.2.2.1]
    simp [process_to_terminateq, State.setPcb, f1]
  refine ⟨s1, s2, h1, h2, ?_, ?_, hdl⟩
  · obtain ⟨k, hk⟩ : ∃ k, s.procs.length = k + 1 := ⟨s.procs.length - 1, by omega⟩
    rw [hk]
    simp only [recover_walk, hfire, ne_eq, not_false_eq_true, if_true, h1, h2, hdl,
      not_true_eq_false, if_false]
  · rw [waitingCount_all s.procs hall, ← hlen2]
    refine waitingCount_lt_of_head s2.procs b2 hb2 ?_
    rcases hst with hst | hst <;> rw [hst] <;> decide

theorem exCycle_ranked : Ranked exCycleRank exCycle.heap := by
  intro a ha node hn
  have ha4 : a < 4 := List.mem_range.1 ha
  interval_cases a
  · have hnode : node = { name := "R1", available := 0, next := some 1 } := by
      simpa [exCycle] using hn.symm
    subst hnode
    refine ⟨by decide, fun b hb => ?_⟩
    cases hb
    decide
  · have hnode : node = { name := "R2", available := 0, next := none } := by
      simpa [exCycle] using hn.symm
    subst hnode
    exact ⟨by decide, fun b hb => by cases hb⟩
  · have hnode : node = { name := "R1", available := 0, next := some 1 } := by
      simpa [exCycle] using hn.symm
    subst hnode
    refine ⟨by decide, fun b hb => ?_⟩
    cases hb
    decide
  · have hnode : node = { name := "R2", available := 0, next := none } := by
      simpa [exCycle] using hn.symm
    subst hnode
    exact ⟨by decide, fun b hb => by cases hb⟩

theorem exCycle_first_ptr :
    ∀ b, exCycle.procs[0]? = some b → ValidPtr exCycle.heap b.resourceListPtr := by
  intro b hb
  have hb2 : b.resourceListPtr = some 2 := by
    simp only [exCycle, List.getElem?_cons_zero, Option.some.injEq] at hb
    rw [← hb]
  intro a ha
  rw [hb2] at ha
  cases ha
  decide

theorem exCycle_pending :
    ∀ q ∈ exCycle.waitingQueue.items, ∃ i rest, instrs exCycle q = some (i :: rest) := by
  intro q hq
  have h : q = 0 ∨ q = 1 := by simpa [exCycle] using hq
  rcases h with rfl | rfl
  · exact ⟨req "R2", [], rfl⟩
  · exact ⟨req "R1", [], rfl⟩

/-- Claim C16, amended, at `exCycle`, the deadlocked state of `exDeadlock`. -/
theorem recovery_step_decreases_waiting_witness :
    (exDeadlocked = some exCycle ∧ (∀ b ∈ exCycle.procs, b.processState = WAITING) ∧
      exCycle.procs ≠ [] ∧ Ranked exCycleRank exCycle.heap ∧
      exCycle.waitingQueue.n = exCycle.waitingQueue.items.length) ∧
    ∃ s1 s2, release_all_resources_from_process 0 exCycle = some s1 ∧
      send_processes_to_readyq (some 0) (process_to_terminateq 0 s1) = some s2 ∧
      recover_walk (exCycle.procs.length + 1) 0 (some 0) exCycle = some s2 ∧
      waitingCount s2.procs < waitingCount exCycle.procs ∧
      processes_deadlocked s2.procs = 0 :=
  ⟨⟨by decide, by decide, by decide, exCycle_ranked, by decide⟩,
   recovery_step_decreases_waiting exCycleRank (some 0) exCycle (by decide) (by decide)
    exCycle_ranked (by intro a ha; cases ha; decide) exCycle_first_ptr (by decide)
    exCycle_pending⟩

/-! ## Occurrences on the queues -/

theorem occurrences_pos_iff (s : State) (p : Nat) : 0 < occurrences s p ↔ inQueues s p := by
  unfold occurrences inQueues
  rw [← List.count_pos_iff, ← List.count_pos_iff, ← List.count_pos_iff]
  omega

/-- Claim C19 fails as stated.  With quantum 1, after the first turn of
`exBlocked` the process `P1`, which has executed its only instruction, is on no
queue; after four turns of `exDeadlock` the victim `P1` is on the ready and on
the terminated queue.  With quantum 3, after two turns of `exBlocked` the
process `P2` is three times on the waiting queue. -/
theorem process_not_on_exactly_one_queue :
    (rr_turns 1 1 (some 0) exBlocked).map (fun s => occurrences s 0) = some 0 ∧
    (rr_turns 1 1 (some 0) exBlocked).map (fun s => instrs s 0) = some (some []) ∧
    (rr_turns 4 1 (some 0) exDeadlock).map (fun s => s.readyQueue.items) = some [0] ∧
    (rr_turns 4 1 (some 0) exDeadlock).map (fun s => s.terminatedQueue.items) = some [0] ∧
    (rr_turns 4 1 (some 0) exDeadlock).map (fun s => occurrences s 0) = some 2 ∧
    (rr_turns 2 3 (some 0) exBlocked).map (fun s => s.waitingQueue.items) = some [1, 1, 1] ∧
    (rr_turns 2 3 (some 0) exBlocked).map (fun s => occurrences s 1) = some 3 := by
  exact ⟨by decide, by decide, by decide, by decide, by decide, by decide, by decide⟩

/-- Claim C19, amended: take a state in which every process is on the ready
queue, where `load_process` puts each process it creates, whatever instruction
list the loader has attached to it.  In every state reached from it by turns
of the round-robin loop, with a quantum that is not negative, each process is
on at least one of the ready, waiting and terminated queues, or has no
instruction left. -/
theorem process_on_some_queue_or_finished (quantum : Int) (resource : Option Nat) (k : Nat)
    (s0 s : State) (p : Nat)
    (hq : 0 ≤ quantum)
    (hstart : ∀ x, x < s0.procs.length → x ∈ s0.readyQueue.items)
    (hrun : rr_turns k quantum resource s0 = some s)
    (hp : p < s0.procs.length) :
    0 < occurrences s p ∨ instrs s p = some [] := by
  have hc0 : Covered s0 := fun x hx => Or.inl (Or.inl (hstart x hx))
  obtain ⟨hl, hc⟩ := rr_turns_covered quantum resource hq k s0 s hc0 hrun
  rcases hc p (hl ▸ hp) with h | h
  · exact Or.inl ((occurrences_pos_iff s p).2 h)
  · exact Or.inr h

/-- Claim C19, amended, at `exBlocked` after one turn with quantum 1: its
first process has no instruction left and its second process is on the ready
queue. -/
theorem process_on_some_queue_or_finished_witness :
    ((0 : Int) ≤ 1 ∧
      (∀ x, x < exBlocked.procs.length → x ∈ exBlocked.readyQueue.items) ∧
      exBlocked.procs.length = 2) ∧
    ∃ s, rr_turns 1 1 (firstResource ["R"]) exBlocked = some s ∧
      (0 < occurrences s 0 ∨ instrs s 0 = some []) ∧
      (0 < occurrences s 1 ∨ instrs s 1 = some []) :=
  have hsome : (rr_turns 1 1 (firstResource ["R"]) exBlocked).isSome = true := by decide
  ⟨⟨by decide, by decide, by decide⟩, Option.get _ hsome, (Option.some_get hsome).symm,
    process_on_some_queue_or_finished 1 (firstResource ["R"]) 1 exBlocked _ 0 (by decide)
      (by decide) (Option.some_get hsome).symm (by decide),
    process_on_some_queue_or_finished 1 (firstResource ["R"]) 1 exBlocked _ 1 (by decide)
      (by decide) (Option.some_get hsome).symm (by decide)⟩

/-! ## Quantum zero -/

theorem rr_turn_quantum_zero (resource : Option Nat) (s : State) :
    rr_turn 0 resource s = rr_turn 1 resource s := by
  unfold rr_turn
  rfl

/-- Claim C22: `schedule_processes_rr` called with quantum 0 returns exactly
when it returns with quantum 1, and then with the same state: the same event
log, processes (states and cursors), heap, mailboxes and queues.  The same
holds for `schedule_processes` with the round-robin algorithm selected. -/
theorem quantum_zero_runs_as_quantum_one (fuel : Nat) (resource : Option Nat) (s : State) :
    effective_quantum 0 = 1 ∧
    schedule_processes_rr fuel 0 resource s = schedule_processes_rr fuel 1 resource s ∧
    schedule_processes fuel resource 1 0 s = schedule_processes fuel resource 1 1 s := by
  have h : ∀ (fuel : Nat) (s : State),
      schedule_processes_rr fuel 0 resource s = schedule_processes_rr fuel 1 resource s := by
    intro fuel
    induction fuel with
    | zero => intro s; rfl
    | succ f ih =>
      intro s
      simp only [schedule_processes_rr, rr_turn_quantum_zero]
      split
      · rfl
      · split
        · rfl
        · exact ih _
  refine ⟨by decide, h fuel s, ?_⟩
  simp only [schedule_processes, h fuel s]

/-! ## Mailboxes -/

theorem find_mailbox_spec (r : String) :
    ∀ (ms : List mailbox) (k : Nat), find_mailbox r ms = some k →
      (∃ m, ms[k]? = some m ∧ m.name = r) ∧ ∀ j, j < k → ∀ mj, ms[j]? = some mj → mj.name ≠ r := by
  intro ms
  induction ms with
  | nil => intro k h; simp [find_mailbox] at h
  | cons m rest ih =>
    intro k h
    simp only [find_mailbox] at h
    split at h
    · rename_i hname
      simp only [Option.some.injEq] at h
      subst h
      exact ⟨⟨m, List.getElem?_cons_zero, hname⟩, fun j hj => absurd hj (Nat.not_lt_zero j)⟩
    · rename_i hname
      split at h
      · simp at h
      · rename_i k1 hk1
        simp only [Option.some.injEq] at h
        subst h
        obtain ⟨⟨m1, hm1, hn1⟩, hbefore⟩ := ih k1 hk1
        refine ⟨⟨m1, by simpa using hm1, hn1⟩, ?_⟩
        intro j hj mj hmj
        cases j with
        | zero =>
          simp only [List.getElem?_cons_zero, Option.some.injEq] at hmj
          subst hmj
          exact hname
        | succ j =>
          simp only [List.getElem?_cons_succ] at hmj
          exact hbefore j (by omega) mj hmj

theorem find_mailbox_of_mem (r : String) :
    ∀ (ms : List mailbox), (∃ m ∈ ms, m.name = r) → ∃ k, find_mailbox r ms = some k := by
  intro ms
  induction ms with
  | nil => rintro ⟨m, hm, _⟩; simp at hm
  | cons m rest ih =>
    rintro ⟨m1, hm1, hn1⟩
    by_cases hname : m.name = r
    · exact ⟨0, by simp [find_mailbox, hname]⟩
    · have hrest : ∃ m ∈ rest, m.name = r := by
        rcases List.mem_cons.1 hm1 with h | h
        · subst h
          exact absurd hn1 hname
        · exact ⟨m1, h, hn1⟩
      obtain ⟨k, hk⟩ := ih hrest
      exact ⟨k + 1, by simp [find_mailbox, hname, hk]⟩

theorem find_mailbox_names (r : String) :
    ∀ (ms ms1 : List mailbox), ms1.map (fun m => m.name) = ms.map (fun m => m.name) →
      find_mailbox r ms1 = find_mailbox r ms := by
  intro ms
  induction ms with
  | nil =>
    intro ms1 h
    cases ms1 with
    | nil => rfl
    | cons a l => simp at h
  | cons m rest ih =>
    intro ms1 h
    cases ms1 with
    | nil => simp at h
    | cons a l =>
      simp only [List.map_cons, List.cons.injEq] at h
      simp only [find_mailbox, h.1, ih l h.2]

theorem set_msg_names (ms : List mailbox) (k : Nat) (m : mailbox) (x : Option String)
    (hm : ms[k]? = some m) :
    (ms.set k { m with msg := x }).map (fun m => m.name) = ms.map (fun m => m.name) := by
  apply List.ext_getElem?
  intro j
  simp only [List.getElem?_map, List.getElem?_set]
  by_cases hkj : k = j
  · subst hkj
    have hk : k < ms.length := (List.getElem?_eq_some.mp hm).1
    simp [hk, hm]
  · simp [hkj]

/-- The result of `process_send_message` when the mailbox search stops at
position `k`. -/
theorem process_send_message_eq (p : Nat) (i : instruction) (s : State)
    (b : processControlBlock) (k : Nat) (m : mailbox)
    (hp : s.procs[p]? = some b) (hnext : b.nextInstruction ≠ [])
    (hk : find_mailbox i.resource s.mail = some k) (hm : s.mail[k]? = some m) :
    process_send_message p i s =
      some ({ s.setPcb p (fun c => { c with processState := RUNNING }) with
        out := s.out ++ [Event.send b.name i.msg m.name],
        mail := s.mail.set k { m with msg := i.msg } }.setPcb p advance) := by
  cases hb : b.nextInstruction with
  | nil => exact absurd hb hnext
  | cons i0 rest =>
    simp only [process_send_message, hp]
    have hk1 : find_mailbox i.resource
        (s.setPcb p (fun c => { c with processState := RUNNING })).mail = some k := hk
    have hm1 : (s.setPcb p (fun c => { c with processState := RUNNING })).mail[k]? = some m := hm
    simp only [hk1, hm1, hb]
    rfl

/-- The result of `process_receive_message` when the mailbox search stops at
position `k`. -/
theorem process_receive_message_eq (p : Nat) (i : instruction) (s : State)
    (b : processControlBlock) (k : Nat) (m : mailbox)
    (hp : s.procs[p]? = some b) (hnext : b.nextInstruction ≠ [])
    (hk : find_mailbox i.resource s.mail = some k) (hm : s.mail[k]? = some m) :
    process_receive_message p i s =
      some ({ s.setPcb p (fun c => { c with processState := RUNNING }) with
        out := s.out ++ [Event.recv b.name m.msg m.name],
        mail := s.mail.set k { m with msg := none } }.setPcb p advance) := by
  cases hb : b.nextInstruction with
  | nil => exact absurd hb hnext
  | cons i0 rest =>
    simp only [process_receive_message, hp]
    have hk1 : find_mailbox i.resource
        (s.setPcb p (fun c => { c with processState := RUNNING })).mail = some k := hk
    have hm1 : (s.setPcb p (fun c => { c with processState := RUNNING })).mail[k]? = some m := hm
    simp only [hk1, hm1, hb]
    rfl

theorem mailbox_lookup (ms : List mailbox) (M : String) (hM : ∃ m ∈ ms, m.name = M) :
    ∃ k m, find_mailbox M ms = some k ∧ ms[k]? = some m ∧ m.name = M ∧
      ∀ j, j < k → ∀ mj, ms[j]? = some mj → mj.name ≠ M := by
  obtain ⟨k, hk⟩ := find_mailbox_of_mem M ms hM
  obtain ⟨⟨m, hm, hn⟩, hfirst⟩ := find_mailbox_spec M ms k hk
  exact ⟨k, m, hk, hm, hn, hfirst⟩

theorem mailbox_lookup_set (ms : List mailbox) (M : String) (k : Nat) (m : mailbox)
    (x : Option String) (hk : find_mailbox M ms = some k) (hm : ms[k]? = some m) :
    find_mailbox M (ms.set k { m with msg := x }) = some k ∧
      (ms.set k { m with msg := x })[k]? = some { m with msg := x } := by
  refine ⟨?_, ?_⟩
  · rw [find_mailbox_names M ms _ (set_msg_names ms k m x hm)]
    exact hk
  · have hlt : k < ms.length := (List.getElem?_eq_some.mp hm).1
    simp [List.getElem?_set, hlt]

/-- What a send to `M` does to the mailbox table: the first mailbox named `M`
gets the message of the instruction, the other slots are unchanged. -/
theorem send_writes_first_named (s : State) (M : String) (p : Nat) (b : processControlBlock)
    (i : instruction) (k : Nat) (m : mailbox)
    (hk : find_mailbox M s.mail = some k) (hm : s.mail[k]? = some m)
    (hi : i.resource = M) (hp : s.procs[p]? = some b) (hn : b.nextInstruction ≠ []) :
    ∃ s1, process_send_message p i s = some s1 ∧
      s1.mail = s.mail.set k { m with msg := i.msg } ∧
      s1.out = s.out ++ [Event.send b.name i.msg m.name] ∧
      ∀ j, j ≠ k → s1.mail[j]? = s.mail[j]? := by
  subst hi
  refine ⟨_, process_send_message_eq p i s b k m hp hn hk hm, rfl, rfl, ?_⟩
  intro j hj
  exact List.getElem?_set_ne (Ne.symm hj)

/-- What a receive from `M` does: the slot of the first mailbox named `M` is
logged and cleared. -/
theorem receive_clears_first_named (s : State) (M : String) (p : Nat) (b : processControlBlock)
    (i : instruction) (k : Nat) (m : mailbox)
    (hk : find_mailbox M s.mail = some k) (hm : s.mail[k]? = some m)
    (hi : i.resource = M) (hp : s.procs[p]? = some b) (hn : b.nextInstruction ≠ []) :
    ∃ s1, process_receive_message p i s = some s1 ∧
      s1.mail = s.mail.set k { m with msg := none } ∧
      s1.out = s.out ++ [Event.recv b.name m.msg m.name] := by
  subst hi
  exact ⟨_, process_receive_message_eq p i s b k m hp hn hk hm, rfl, rfl⟩

/-- Claim C26: for every mailbox table that has a mailbox named `M`, a send to
`M` returns; a receive from `M` that finds the table as the send left it logs
the message sent and returns; and a receive from `M` that finds the table as
the first receive left it logs the empty slot (`none`, the `NULL` message
pointer).  Sender and receivers are any processes that have a next
instruction. -/
theorem mailbox_round_trip (s : State) (M : String) (p1 : Nat) (b1 : processControlBlock)
    (i1 : instruction) (hM : ∃ m ∈ s.mail, m.name = M) (h1 : i1.resource = M)
    (hp1 : s.procs[p1]? = some b1) (hn1 : b1.nextInstruction ≠ []) :
    ∃ s1, process_send_message p1 i1 s = some s1 ∧
      ∀ (t1 : State) (p2 : Nat) (b2 : processControlBlock) (i2 : instruction),
        t1.mail = s1.mail → i2.resource = M → t1.procs[p2]? = some b2 →
        b2.nextInstruction ≠ [] →
        ∃ s2, process_receive_message p2 i2 t1 = some s2 ∧
          s2.out = t1.out ++ [Event.recv b2.name i1.msg M] ∧
          ∀ (t2 : State) (p3 : Nat) (b3 : processControlBlock) (i3 : instruction),
            t2.mail = s2.mail → i3.resource = M → t2.procs[p3]? = some b3 →
            b3.nextInstruction ≠ [] →
            ∃ s3, process_receive_message p3 i3 t2 = some s3 ∧
              s3.out = t2.out ++ [Event.recv b3.name none M] := by
  obtain ⟨k, m, hk, hm, hname, _⟩ := mailbox_lookup s.mail M hM
  obtain ⟨s1, hs1, hmail1, _, _⟩ := send_writes_first_named s M p1 b1 i1 k m hk hm h1 hp1 hn1
  refine ⟨s1, hs1, ?_⟩
  intro t1 p2 b2 i2 ht1 h2 hp2 hn2
  obtain ⟨hk1, hm1⟩ := mailbox_lookup_set s.mail M k m i1.msg hk hm
  rw [← hmail1, ← ht1] at hk1 hm1
  obtain ⟨s2, hs2, hmail2, hout2⟩ :=
    receive_clears_first_named t1 M p2 b2 i2 k _ hk1 hm1 h2 hp2 hn2
  refine ⟨s2, hs2, by rw [hout2, hname], ?_⟩
  intro t2 p3 b3 i3 ht2 h3 hp3 hn3
  obtain ⟨hk2, hm2⟩ := mailbox_lookup_set t1.mail M k _ none hk1 hm1
  rw [← hmail2, ← ht2] at hk2 hm2
  obtain ⟨s3, hs3, _, hout3⟩ :=
    receive_clears_first_named t2 M p3 b3 i3 k _ hk2 hm2 h3 hp3 hn3
  exact ⟨s3, hs3, by rw [hout3, hname]⟩

/-- Claim C27: for every mailbox table that has a mailbox named `M`, a send to
`M` writes the message into the first mailbox named `M` in table order and
leaves every other slot as it was; a second send to `M` that finds the table
as the first left it replaces the message, so that the table is the original
one with the second message in that slot; and the receive from `M` that
follows logs the second message. -/
theorem send_overwrites_slot (s : State) (M : String) (p1 : Nat) (b1 : processControlBlock)
    (i1 : instruction) (hM : ∃ m ∈ s.mail, m.name = M) (h1 : i1.resource = M)
    (hp1 : s.procs[p1]? = some b1) (hn1 : b1.nextInstruction ≠ []) :
    ∃ k m s1, s.mail[k]? = some m ∧ m.name = M ∧
      (∀ j, j < k → ∀ mj, s.mail[j]? = some mj → mj.name ≠ M) ∧
      process_send_message p1 i1 s = some s1 ∧
      s1.mail = s.mail.set k { m with msg := i1.msg } ∧
      (∀ j, j ≠ k → s1.mail[j]? = s.mail[j]?) ∧
      ∀ (t1 : State) (p2 : Nat) (b2 : processControlBlock) (i2 : instruction),
        t1.mail = s1.mail → i2.resource = M → t1.procs[p2]? = some b2 →
        b2.nextInstruction ≠ [] →
        ∃ s2, process_send_message p2 i2 t1 = some s2 ∧
          s2.mail = s.mail.set k { m with msg := i2.msg } ∧
          ∀ (t2 : State) (p3 : Nat) (b3 : processControlBlock) (i3 : instruction),
            t2.mail = s2.mail → i3.resource = M → t2.procs[p3]? = some b3 →
            b3.nextInstruction ≠ [] →
            ∃ s3, process_receive_message p3 i3 t2 = some s3 ∧
              s3.out = t2.out ++ [Event.recv b3.name i2.msg M] := by
  obtain ⟨k, m, hk, hm, hname, hfirst⟩ := mailbox_lookup s.mail M hM
  obtain ⟨s1, hs1, hmail1, _, hother⟩ :=
    send_writes_first_named s M p1 b1 i1 k m hk hm h1 hp1 hn1
  refine ⟨k, m, s1, hm, hname, hfirst, hs1, hmail1, hother, ?_⟩
  intro t1 p2 b2 i2 ht1 h2 hp2 hn2
  obtain ⟨hk1, hm1⟩ := mailbox_lookup_set s.mail M k m i1.msg hk hm
  rw [← hmail1, ← ht1] at hk1 hm1
  obtain ⟨s2, hs2, hmail2, _, _⟩ :=
    send_writes_first_named t1 M p2 b2 i2 k _ hk1 hm1 h2 hp2 hn2
  have hmail2' : s2.mail = s.mail.set k { m with msg := i2.msg } := by
    rw [hmail2, ht1, hmail1, List.set_set]
  refine ⟨s2, hs2, hmail2', ?_⟩
  intro t2 p3 b3 i3 ht2 h3 hp3 hn3
  obtain ⟨hk2, hm2⟩ := mailbox_lookup_set s.mail M k m i2.msg hk hm
  rw [← hmail2', ← ht2] at hk2 hm2
  obtain ⟨s3, hs3, _, hout3⟩ :=
    receive_clears_first_named t2 M p3 b3 i3 k _ hk2 hm2 h3 hp3 hn3
  exact ⟨s3, hs3, by rw [hout3, hname]⟩

theorem exMail_has_M : ∃ m ∈ exMail.mail, m.name = "M" :=
  ⟨{ name := "M", msg := none }, by decide, rfl⟩

/-- Claim C26 at `exMail`: `P1` sends `hello` to `M`, `P2` receives `hello`,
`P3` receives the empty slot. -/
theorem mailbox_round_trip_witness :
    (∃ m ∈ exMail.mail, m.name = "M") ∧
    ∃ s1 s2 s3, process_send_message 0 (snd "M" "hello") exMail = some s1 ∧
      process_receive_message 1 (rcv "M") s1 = some s2 ∧
      s2.out = s1.out ++ [Event.recv "P2" (some "hello") "M"] ∧
      process_receive_message 2 (rcv "M") s2 = some s3 ∧
      s3.out = s2.out ++ [Event.recv "P3" none "M"] := by
  refine ⟨exMail_has_M, ?_⟩
  obtain ⟨s1, hs1, h⟩ := mailbox_round_trip exMail "M" 0 exMailP1 (snd "M" "hello")
    exMail_has_M rfl (by decide) (by decide)
  have e1 : (process_send_message 0 (snd "M" "hello") exMail).map (fun s => s.procs[1]?) =
      some (some exMailP2) := by decide
  rw [hs1] at e1
  obtain ⟨s2, hs2, hout2, h2⟩ := h s1 1 exMailP2 (rcv "M") rfl rfl (by simpa using e1)
    (by decide)
  have e2 : ((process_send_message 0 (snd "M" "hello") exMail).bind
      (process_receive_message 1 (rcv "M"))).map (fun s => s.procs[2]?) =
      some (some exMailP3) := by decide
  rw [hs1, Option.some_bind, hs2] at e2
  obtain ⟨s3, hs3, hout3⟩ := h2 s2 2 exMailP3 (rcv "M") rfl rfl (by simpa using e2)
    (by decide)
  exact ⟨s1, s2, s3, hs1, hs2, hout2, hs3, hout3⟩

/-- Claim C27 at `exMail`, whose table is `A`, `M`, `M`: `P1` sends `hello` and
then `bye` to `M`; the slots are then empty, `bye`, empty, and `P2` receives
`bye`. -/
theorem send_overwrites_slot_witness :
    (∃ m ∈ exMail.mail, m.name = "M") ∧
    ∃ s1 s2 s3, process_send_message 0 (snd "M" "hello") exMail = some s1 ∧
      slots s1 = [("A", none), ("M", some "hello"), ("M", none)] ∧
      process_send_message 0 (snd "M" "bye") s1 = some s2 ∧
      slots s2 = [("A", none), ("M", some "bye"), ("M", none)] ∧
      process_receive_message 1 (rcv "M") s2 = some s3 ∧
      s3.out = s2.out ++ [Event.recv "P2" (some "bye") "M"] := by
  refine ⟨exMail_has_M, ?_⟩
  obtain ⟨k, m, s1, hm, hname, hfirst, hs1, hmail1, _, h⟩ :=
    send_overwrites_slot exMail "M" 0 exMailP1 (snd "M" "hello")
      exMail_has_M rfl (by decide) (by decide)
  have e0 : (process_send_message 0 (snd "M" "hello") exMail).map slots =
      some [("A", none), ("M", some "hello"), ("M", none)] := by decide
  have e1 : (process_send_message 0 (snd "M" "hello") exMail).map (fun s => s.procs[0]?) =
      some (some exMailP1Sent) := by decide
  rw [hs1] at e0 e1
  obtain ⟨s2, hs2, _, h2⟩ := h s1 0 exMailP1Sent (snd "M" "bye") rfl rfl (by simpa using e1) (by decide)
  have e2 : ((process_send_message 0 (snd "M" "hello") exMail).bind
      (process_send_message 0 (snd "M" "bye"))).map slots =
      some [("A", none), ("M", some "bye"), ("M", none)] := by decide
  have e3 : ((process_send_message 0 (snd "M" "hello") exMail).bind
      (process_send_message 0 (snd "M" "bye"))).map (fun s => s.procs[1]?) =
      some (some exMailP2) := by decide
  rw [hs1, Option.some_bind, hs2] at e2 e3
  obtain ⟨s3, hs3, hout3⟩ := h2 s2 1 exMailP2 (rcv "M") rfl rfl (by simpa using e3)
    (by decide)
  exact ⟨s1, s2, s3, hs1, by simpa using e0, hs2, by simpa using e2, hs3, hout3⟩

/-! ## A release that fails -/

/-- Claim C30 fails as stated: the release of `Q`, a name absent from the
resource table, by the first process of `exAbsent` logs the error, appends the
process to the waiting queue and sets its state to WAITING. -/
theorem failed_release_enters_waiting_queue :
    (release_resource (walkFuel exAbsent.heap) "Q" (some 0) 0 exAbsent).map (fun x => x.1) =
      some 0 ∧
    (process_release 0 (rel "Q") (some 0) exAbsent).map (fun s => s.out) =
      some [Event.rel_error "P1" "Q"] ∧
    (process_release 0 (rel "Q") (some 0) exAbsent).map (fun s => s.waitingQueue) =
      some { items := [0], n := 1 } ∧
    (process_release 0 (rel "Q") (some 0) exAbsent).map states = some [WAITING, READY] ∧
    (process_release 0 (rel "Q") (some 0) exAbsent).map (fun s => instrs s 0) =
      some (some [req "R"]) := by
  exact ⟨by decide, by decide, by decide, by decide, by decide⟩

/-- Claim C30, amended: when `release_resource` returns 0 for the release that
a process executes, `process_release` returns; the process is appended to the
waiting queue, its state is WAITING and its cursor has moved to the next
instruction; the other queues are unchanged.  The quantum loop of the
round-robin scheduler then goes on with that next instruction in the same
turn. -/
theorem failed_release_waits_and_advances (s s2 : State) (resource : Option Nat) (p : Nat)
    (pcb : processControlBlock) (i : instruction) (rest : List instruction) (released : Nat)
    (hp : s.procs[p]? = some pcb) (hnext : pcb.nextInstruction = i :: rest)
    (htype : i.type = InstrType.REL_V)
    (hrel : release_resource (walkFuel s.heap) i.resource resource p
      (s.setPcb p (fun b => { b with processState := RUNNING })) = some (released, s2))
    (h0 : released = 0) :
    ∃ s1, process_release p i resource s = some s1 ∧
      s1.waitingQueue.items = s.waitingQueue.items ++ [p] ∧
      s1.waitingQueue.n = s.waitingQueue.n + 1 ∧
      stateOf s1 p = some WAITING ∧
      instrs s1 p = some rest ∧
      s1.readyQueue = s.readyQueue ∧ s1.terminatedQueue = s.terminatedQueue ∧
      s1.out = s2.out ∧
      ∀ k, quantum_walk (k + 1) p resource s = quantum_walk k p resource s1 := by
  subst h0
  obtain ⟨f1, f2, f3, f4, _⟩ := release_resource_frame _ _ _ _ _ _ _ hrel
  have hrel1 : release_resource
      (walkFuel (s.setPcb p (fun b => { b with processState := RUNNING })).heap) i.resource
      resource p (s.setPcb p (fun b => { b with processState := RUNNING })) = some (0, s2) := hrel
  have hrun : process_release p i resource s =
      some ((process_to_waitingq p s2).setPcb p advance) := by
    simp only [process_release, hp, hrel1, hnext]
    simp
  have hp2 : s2.procs[p]? = some { pcb with processState := RUNNING } := by
    rw [f1]
    exact setPcb_procs_self s p _ pcb hp
  refine ⟨_, hrun, ?_, ?_, ?_, ?_, ?_, ?_, rfl, ?_⟩
  · simp only [process_to_waitingq, enqueue, State.setPcb, f3]
  · simp only [process_to_waitingq, enqueue, State.setPcb, f3]
  · rw [stateOf_advance]
    simp only [process_to_waitingq, stateOf, State.setPcb, List.getElem?_modify, hp2]
    simp
  · simp only [instrs, process_to_waitingq, State.setPcb, List.getElem?_modify, hp2]
    simp [advance, hnext]
  · simp only [process_to_waitingq, State.setPcb, f2]
  · simp only [process_to_waitingq, State.setPcb, f4]
  · intro k
    simp only [quantum_walk, hp, hnext, dispatch, htype, hrun]

theorem exAbsent_release_returns :
    (release_resource (walkFuel exAbsent.heap) "Q" (some 0) 0
      (exAbsent.setPcb 0 (fun b => { b with processState := RUNNING }))).isSome = true := by
  decide

/-- Claim C30, amended, at the first process of `exAbsent`, which starts with
the release of the absent name `Q`. -/
theorem failed_release_waits_and_advances_witness :
    ∃ s1, process_release 0 (rel "Q") (some 0) exAbsent = some s1 ∧
      s1.waitingQueue.items = exAbsent.waitingQueue.items ++ [0] ∧
      s1.waitingQueue.n = exAbsent.waitingQueue.n + 1 ∧
      stateOf s1 0 = some WAITING ∧
      instrs s1 0 = some [req "R"] :=
  match failed_release_waits_and_advances exAbsent (Option.get _ exAbsent_release_returns).2
      (some 0) 0 exAbsentP1 (rel "Q") [req "R"] (Option.get _ exAbsent_release_returns).1
      (by decide) rfl rfl (Option.some_get exAbsent_release_returns).symm (by decide) with
  | ⟨s1, h1, h2, h3, h4, h5, _⟩ => ⟨s1, h1, h2, h3, h4, h5⟩

/-! ## Outcomes of an instruction -/

theorem getElem?_setPcb_ne (s : State) (p q : Nat) (f : processControlBlock → processControlBlock)
    (hq : q ≠ p) : (s.setPcb p f).procs[q]? = s.procs[q]? := by
  simp [State.setPcb, List.getElem?_modify, Ne.symm hq]

/-- What `add_resource_to_process` keeps. -/
theorem add_resource_to_process_effect (p a : Nat) (s s1 : State)
    (h : add_resource_to_process p a s = some s1) :
    s1.readyQueue = s.readyQueue ∧ s1.waitingQueue = s.waitingQueue ∧
    s1.terminatedQueue = s.terminatedQueue ∧ s1.mail = s.mail ∧ s1.out = s.out ∧
    (∀ q, q ≠ p → s1.procs[q]? = s.procs[q]?) ∧
    (∀ c, s.procs[p]? = some c → ∃ c1, s1.procs[p]? = some c1 ∧ c1.name = c.name ∧
      c1.number = c.number ∧ c1.processState = c.processState ∧
      c1.nextInstruction = c.nextInstruction) := by
  unfold add_resource_to_process at h
  split at h
  · split at h
    · simp only [Option.some.injEq] at h
      subst h
      refine ⟨rfl, rfl, rfl, rfl, rfl, ?_, ?_⟩
      · intro q hq
        exact getElem?_setPcb_ne _ p q _ hq
      · intro c hc
        exact ⟨_, setPcb_procs_self _ p _ c hc, rfl, rfl, rfl, rfl⟩
    · split at h
      · simp at h
      · simp only [Option.some.injEq] at h
        subst h
        exact ⟨rfl, rfl, rfl, rfl, rfl, fun _ _ => rfl, fun c hc => ⟨c, hc, rfl, rfl, rfl, rfl⟩⟩
  · simp at h

/-- What `acquire_resource` keeps; when it returns 0 the state is unchanged. -/
theorem acquire_resource_effect (r : String) (p : Nat) :
    ∀ (fuel : Nat) (p0 : Option Nat) (s s1 : State) (b : Nat),
      acquire_resource fuel r p0 p s = some (b, s1) →
      (s1.readyQueue = s.readyQueue ∧ s1.waitingQueue = s.waitingQueue ∧
        s1.terminatedQueue = s.terminatedQueue ∧ s1.mail = s.mail ∧ s1.out = s.out ∧
        (∀ q, q ≠ p → s1.procs[q]? = s.procs[q]?) ∧
        (∀ c, s.procs[p]? = some c → ∃ c1, s1.procs[p]? = some c1 ∧ c1.name = c.name ∧
          c1.number = c.number ∧ c1.processState = c.processState ∧
          c1.nextInstruction = c.nextInstruction)) ∧
      ((b = 0 ∧ s1 = s) ∨ b = 1) := by
  intro fuel
  induction fuel with
  | zero => intro p0 s s1 b h; simp [acquire_resource] at h
  | succ f ih =>
    intro p0 s s1 b h
    cases p0 with
    | none =>
      simp only [acquire_resource, Option.some.injEq, Prod.mk.injEq] at h
      obtain ⟨h1, h2⟩ := h
      subst h1
      subst h2
      exact ⟨⟨rfl, rfl, rfl, rfl, rfl, fun _ _ => rfl, fun c hc => ⟨c, hc, rfl, rfl, rfl, rfl⟩⟩,
        Or.inl ⟨rfl, rfl⟩⟩
    | some a =>
      simp only [acquire_resource] at h
      split at h
      · simp at h
      · split at h
        · split at h
          · split at h
            · simp at h
            · rename_i s2 hadd
              simp only [Option.some.injEq, Prod.mk.injEq] at h
              obtain ⟨h1, h2⟩ := h
              subst h1
              subst h2
              exact ⟨add_resource_to_process_effect p a s _ hadd, Or.inr rfl⟩
          · exact ih _ _ _ _ h
        · exact ih _ _ _ _ h

/-- What `release_resource` changes besides the heap: the error line when it
returns 0, nothing when it returns 1. -/
theorem release_resource_effect (r : String) (p : Nat) :
    ∀ (fuel : Nat) (p0 : Option Nat) (s s1 : State) (b : Nat),
      release_resource fuel r p0 p s = some (b, s1) →
      (b = 0 ∧ ∃ c, s.procs[p]? = some c ∧
        s1 = { s with out := s.out ++ [Event.rel_error c.name r] }) ∨
      (b = 1 ∧ s1.out = s.out) := by
  intro fuel
  induction fuel with
  | zero => intro p0 s s1 b h; simp [release_resource] at h
  | succ f ih =>
    intro p0 s s1 b h
    cases p0 with
    | none =>
      simp only [release_resource] at h
      split at h
      · simp at h
      · rename_i c hc
        simp only [Option.some.injEq, Prod.mk.injEq] at h
        obtain ⟨h1, h2⟩ := h
        subst h1
        subst h2
        exact Or.inl ⟨rfl, c, hc, rfl⟩
    | some a =>
      simp only [release_resource] at h
      split at h
      · simp at h
      · split at h
        · split at h
          · simp at h
          · rename_i s2 hfrom
            simp only [Option.some.injEq, Prod.mk.injEq] at h
            obtain ⟨h1, h2⟩ := h
            subst h1
            subst h2
            refine Or.inr ⟨rfl, ?_⟩
            unfold release_resource_from_process at hfrom
            split at hfrom
            · split at hfrom
              · simp at hfrom
              · simp only [Option.some.injEq] at hfrom
                subst hfrom
                rfl
            · simp at hfrom
        · exact ih _ _ _ _ h

theorem procs_process_to_waitingq_ne (s : State) (p q : Nat) (hq : q ≠ p) :
    (process_to_waitingq p s).procs[q]? = s.procs[q]? :=
  getElem?_setPcb_ne s p q _ hq

theorem procs_process_to_terminateq_ne (s : State) (p q : Nat) (hq : q ≠ p) :
    (process_to_terminateq p s).procs[q]? = s.procs[q]? :=
  getElem?_setPcb_ne s p q _ hq

theorem procs_process_to_readyq_ne (s : State) (p q : Nat) (hq : q ≠ p) :
    (process_to_readyq p s).procs[q]? = s.procs[q]? :=
  getElem?_setPcb_ne s p q _ hq

theorem procs_process_to_waitingq_self (s : State) (p : Nat) (pcb : processControlBlock)
    (hp : s.procs[p]? = some pcb) :
    (process_to_waitingq p s).procs[p]? = some { pcb with processState := WAITING } :=
  setPcb_procs_self s p _ pcb hp

theorem procs_process_to_terminateq_self (s : State) (p : Nat) (pcb : processControlBlock)
    (hp : s.procs[p]? = some pcb) :
    (process_to_terminateq p s).procs[p]? = some { pcb with processState := TERMINATED } :=
  setPcb_procs_self s p _ pcb hp

theorem procs_process_to_readyq_self (s : State) (p : Nat) (pcb : processControlBlock)
    (hp : s.procs[p]? = some pcb) :
    (process_to_readyq p s).procs[p]? = some { pcb with processState := READY } :=
  setPcb_procs_self s p _ pcb hp

/-- The outcomes of `process_request`: the request is satisfied and the
process goes on, or it is not and the process waits. -/
theorem process_request_outcome (p : Nat) (i : instruction) (resource : Option Nat)
    (s s1 : State) (pcb : processControlBlock) (rest : List instruction)
    (hp : s.procs[p]? = some pcb) (hnext : pcb.nextInstruction = i :: rest)
    (htype : i.type = InstrType.REQ_V)
    (h : process_request p i resource s = some s1) :
    ∃ acquired s2 pcb1,
      acquire_resource (walkFuel s.heap) i.resource resource p
        (s.setPcb p (fun b => { b with processState := RUNNING })) = some (acquired, s2) ∧
      StepFrame p pcb pcb1 s s1 ∧
      ((acquired ≠ 0 ∧ Ran pcb pcb1 i rest s s1) ∨
        (acquired = 0 ∧ Blocked p pcb pcb1 i rest s s1)) := by
  unfold process_request at h
  simp only [hp] at h
  split at h
  · simp at h
  · rename_i acquired s2 hacq
    obtain ⟨⟨e1, e2, e3, e4, e5, e6, e7⟩, hb⟩ := acquire_resource_effect _ _ _ _ _ _ _ hacq
    have hp0 := setPcb_procs_self s p (fun b => { b with processState := RUNNING }) pcb hp
    obtain ⟨c1, hc1, n1, n2, n3, n4⟩ := e7 _ hp0
    have hlen : s2.procs.length = s.procs.length := by
      have := (acquire_resource_keeps _ _ _ _ _ _ _ hacq).2.2.2.1
      rw [this]
      exact length_setPcb s p _
    split at h
    · rename_i hz
      simp only [Option.some.injEq] at h
      subst h
      rcases hb with ⟨_, hs2⟩ | hb1
      · subst hs2
        refine ⟨acquired, _, { pcb with processState := WAITING }, hacq,
          ⟨rfl, ?_, ?_, ?_, rfl, rfl⟩,
          Or.inr ⟨hz, htype, hnext, rfl, rfl, rfl, rfl, rfl, rfl⟩⟩
        · simp [process_to_waitingq, State.setPcb]
        · intro q hq
          simp [process_to_waitingq, State.setPcb, List.getElem?_modify, Ne.symm hq]
        · simp [process_to_waitingq, State.setPcb, List.getElem?_modify, hp]
      · exact absurd hz (by rw [hb1]; decide)
    · rename_i hnz
      split at h
      · simp at h
      · rename_i names hnames
        split at h
        · simp at h
        · simp only [Option.some.injEq] at h
          subst h
          refine ⟨acquired, s2, advance c1, hacq, ⟨e1, ?_, ?_, ?_, n1, n2⟩,
            Or.inl ⟨hnz, ?_, n3, e2, e3, ?_, ?_⟩⟩
          · simp only [State.setPcb, List.length_modify]
            exact hlen
          · intro q hq
            rw [getElem?_setPcb_ne _ p q _ hq]
            exact (e6 q hq).trans (getElem?_setPcb_ne s p q _ hq)
          · exact setPcb_procs_self _ p advance c1 hc1
          · simp only [advance, n4, hnext, List.tail_cons]
          · intro hrel
            rw [htype] at hrel
            cases hrel
          · refine ⟨Event.req_acquired pcb.name i.resource names, ?_, ⟨rfl, htype, rfl⟩, ?_⟩
            · show s2.out ++ _ = s.out ++ _
              rw [e5]
              rfl
            · intro hne
              cases hne

/-- The outcomes of `process_release`: the release succeeds and the process
goes on or is terminated, or it fails and the process waits. -/
theorem process_release_outcome (p : Nat) (i : instruction) (resource : Option Nat)
    (s s1 : State) (pcb : processControlBlock) (rest : List instruction)
    (hp : s.procs[p]? = some pcb) (hnext : pcb.nextInstruction = i :: rest)
    (htype : i.type = InstrType.REL_V)
    (h : process_release p i resource s = some s1) :
    ∃ pcb1, StepFrame p pcb pcb1 s s1 ∧
      (Ran pcb pcb1 i rest s s1 ∨ Finished p pcb pcb1 i rest s s1 ∨
        Failed p pcb pcb1 i rest s s1) := by
  unfold process_release at h
  simp only [hp] at h
  split at h
  · simp at h
  · rename_i released s2 hrel
    obtain ⟨f1, f2, f3, f4, f5⟩ := release_resource_frame _ _ _ _ _ _ _ hrel
    have heff := release_resource_effect _ _ _ _ _ _ _ hrel
    have hp0 := setPcb_procs_self s p (fun b => { b with processState := RUNNING }) pcb hp
    have hp2 : s2.procs[p]? = some { pcb with processState := RUNNING } := by
      rw [f1]
      exact hp0
    have hothers : ∀ q, q ≠ p → s2.procs[q]? = s.procs[q]? := by
      intro q hq
      rw [f1]
      exact getElem?_setPcb_ne s p q _ hq
    have hlen : s2.procs.length = s.procs.length := by
      rw [f1]
      exact length_setPcb s p _
    simp only [hnext] at h
    split at h
    · rename_i hnz
      split at h
      · simp at h
      · rename_i names hnames
        simp only [Option.some.injEq] at h
        subst h
        have hout : s2.out = s.out := by
          rcases heff with ⟨hz, _⟩ | ⟨_, ho⟩
          · exact absurd hz hnz
          · exact ho
        have hev : ∃ e, s2.out ++ [Event.rel_released pcb.name i.resource names] = s.out ++ [e] ∧
            Event.logs pcb.name i e ∧ e ≠ Event.rel_error pcb.name i.resource :=
          ⟨Event.rel_released pcb.name i.resource names, by rw [hout], ⟨rfl, htype, rfl⟩,
            fun hne => by cases hne⟩
        by_cases hrest : rest = []
        · subst hrest
          simp only [if_true]
          refine ⟨advance { pcb with processState := TERMINATED },
            ⟨f2, ?_, ?_, ?_, rfl, rfl⟩, Or.inr (Or.inl ⟨htype, rfl, ?_, rfl, f3, ?_, hev⟩)⟩
          · simp only [process_to_terminateq, State.setPcb, List.length_modify]
            exact hlen
          · intro q hq
            rw [getElem?_setPcb_ne _ p q _ hq, procs_process_to_terminateq_ne _ p q hq]
            exact hothers q hq
          · exact setPcb_procs_self _ p advance _
              (procs_process_to_terminateq_self _ p { pcb with processState := RUNNING } hp2)
          · simp only [advance, hnext, List.tail_cons]
          · simp only [process_to_terminateq, State.setPcb, f4]
        · simp only [hrest, if_false]
          refine ⟨advance { pcb with processState := RUNNING },
            ⟨f2, ?_, ?_, ?_, rfl, rfl⟩, Or.inl ⟨?_, rfl, f3, f4, fun _ => hrest, hev⟩⟩
          · simp only [State.setPcb, List.length_modify]
            exact hlen
          · intro q hq
            rw [getElem?_setPcb_ne _ p q _ hq]
            exact hothers q hq
          · exact setPcb_procs_self _ p advance _ hp2
          · simp only [advance, hnext, List.tail_cons]
    · rename_i hz
      simp only [ne_eq, not_not] at hz
      simp only [Option.some.injEq] at h
      subst h
      have hs2 : s2 = { s.setPcb p (fun b => { b with processState := RUNNING }) with
          out := s.out ++ [Event.rel_error pcb.name i.resource] } := by
        rcases heff with ⟨_, c, hc, hs2⟩ | ⟨h1, _⟩
        · rw [hp0] at hc
          cases hc
          exact hs2
        · rw [hz] at h1
          cases h1
      refine ⟨advance { pcb with processState := WAITING },
        ⟨f2, ?_, ?_, ?_, rfl, rfl⟩, Or.inr (Or.inr ⟨htype, ?_, rfl, ?_, f4, ?_, f5, ?_⟩)⟩
      · simp only [process_to_waitingq, State.setPcb, List.length_modify]
        exact hlen
      · intro q hq
        rw [getElem?_setPcb_ne _ p q _ hq, procs_process_to_waitingq_ne _ p q hq]
        exact hothers q hq
      · exact setPcb_procs_self _ p advance _ (procs_process_to_waitingq_self _ p { pcb with processState := RUNNING } hp2)
      · simp only [advance, hnext, List.tail_cons]
      · simp only [process_to_waitingq, State.setPcb, f3]
      · rw [hs2]
        rfl
      · rw [hs2]
        rfl

/-- The outcome of `process_send_message`: the process goes on. -/
theorem process_send_message_outcome (p : Nat) (i : instruction) (s s1 : State)
    (pcb : processControlBlock) (rest : List instruction)
    (hp : s.procs[p]? = some pcb) (hnext : pcb.nextInstruction = i :: rest)
    (htype : i.type = InstrType.SEND_V)
    (h : process_send_message p i s = some s1) :
    ∃ pcb1, StepFrame p pcb pcb1 s s1 ∧ Ran pcb pcb1 i rest s s1 := by
  unfold process_send_message at h
  simp only [hp] at h
  split at h
  · simp at h
  · rename_i k hk
    obtain ⟨⟨m, hm, hname⟩, _⟩ := find_mailbox_spec _ _ k hk
    simp only [hm, hnext, Option.some.injEq] at h
    subst h
    refine ⟨advance { pcb with processState := RUNNING }, ⟨rfl, ?_, ?_, ?_, rfl, rfl⟩,
      ⟨?_, rfl, rfl, rfl, ?_, Event.send pcb.name i.msg m.name, rfl, ⟨rfl, htype, rfl, hname⟩, ?_⟩⟩
    · simp [State.setPcb]
    · intro q hq
      simp [State.setPcb, List.getElem?_modify, Ne.symm hq]
    · simp [State.setPcb, List.getElem?_modify, hp]
    · simp only [advance, hnext, List.tail_cons]
    · intro hrel
      rw [htype] at hrel
      cases hrel
    · intro hne
      cases hne

/-- The outcome of `process_receive_message`: the process goes on. -/
theorem process_receive_message_outcome (p : Nat) (i : instruction) (s s1 : State)
    (pcb : processControlBlock) (rest : List instruction)
    (hp : s.procs[p]? = some pcb) (hnext : pcb.nextInstruction = i :: rest)
    (htype : i.type = InstrType.RECV_V)
    (h : process_receive_message p i s = some s1) :
    ∃ pcb1, StepFrame p pcb pcb1 s s1 ∧ Ran pcb pcb1 i rest s s1 := by
  unfold process_receive_message at h
  simp only [hp] at h
  split at h
  · simp at h
  · rename_i k hk
    obtain ⟨⟨m, hm, hname⟩, _⟩ := find_mailbox_spec _ _ k hk
    simp only [hm, hnext, Option.some.injEq] at h
    subst h
    refine ⟨advance { pcb with processState := RUNNING }, ⟨rfl, ?_, ?_, ?_, rfl, rfl⟩,
      ⟨?_, rfl, rfl, rfl, ?_, Event.recv pcb.name m.msg m.name, rfl, ⟨rfl, htype, hname⟩, ?_⟩⟩
    · simp [State.setPcb]
    · intro q hq
      simp [State.setPcb, List.getElem?_modify, Ne.symm hq]
    · simp [State.setPcb, List.getElem?_modify, hp]
    · simp only [advance, hnext, List.tail_cons]
    · intro hrel
      rw [htype] at hrel
      cases hrel
    · intro hne
      cases hne

/-- The four outcomes of an instruction. -/
theorem dispatch_outcome (p : Nat) (i : instruction) (resource : Option Nat) (s s1 : State)
    (pcb : processControlBlock) (rest : List instruction)
    (hp : s.procs[p]? = some pcb) (hnext : pcb.nextInstruction = i :: rest)
    (h : dispatch p i resource s = some s1) :
    ∃ pcb1, StepFrame p pcb pcb1 s s1 ∧
      (Ran pcb pcb1 i rest s s1 ∨ Finished p pcb pcb1 i rest s s1 ∨
        Blocked p pcb pcb1 i rest s s1 ∨ Failed p pcb pcb1 i rest s s1) := by
  unfold dispatch at h
  split at h
  · rename_i htype
    obtain ⟨_, _, pcb1, _, hf, ho⟩ :=
      process_request_outcome p i resource s s1 pcb rest hp hnext htype h
    refine ⟨pcb1, hf, ?_⟩
    rcases ho with ⟨_, ho⟩ | ⟨_, ho⟩
    · exact Or.inl ho
    · exact Or.inr (Or.inr (Or.inl ho))
  · rename_i htype
    obtain ⟨pcb1, hf, ho⟩ := process_release_outcome p i resource s s1 pcb rest hp hnext htype h
    refine ⟨pcb1, hf, ?_⟩
    rcases ho with ho | ho | ho
    · exact Or.inl ho
    · exact Or.inr (Or.inl ho)
    · exact Or.inr (Or.inr (Or.inr ho))
  · rename_i htype
    obtain ⟨pcb1, hf, ho⟩ := process_send_message_outcome p i s s1 pcb rest hp hnext htype h
    exact ⟨pcb1, hf, Or.inl ho⟩
  · rename_i htype
    obtain ⟨pcb1, hf, ho⟩ := process_receive_message_outcome p i s s1 pcb rest hp hnext htype h
    exact ⟨pcb1, hf, Or.inl ho⟩

/-! ## Cursors -/

theorem cursorsAhead_refl (s : State) : CursorsAhead s s := by
  intro x
  refine ⟨0, ?_⟩
  cases instrs s x <;> simp

theorem CursorsAhead.then_ahead {s s1 s2 : State} (h1 : CursorsAhead s s1)
    (h2 : CursorsAhead s1 s2) : CursorsAhead s s2 := by
  intro x
  obtain ⟨n, hn⟩ := h1 x
  obtain ⟨m, hm⟩ := h2 x
  refine ⟨n + m, ?_⟩
  rw [hm, hn]
  cases instrs s x with
  | none => rfl
  | some l => simp [List.drop_drop, Nat.add_comm]

theorem cursorsAhead_of_instrs {s s1 : State} (h : ∀ q, instrs s1 q = instrs s q) :
    CursorsAhead s s1 := by
  intro x
  refine ⟨0, ?_⟩
  rw [h x]
  cases instrs s x <;> simp

theorem instrs_of_getElem? {s s1 : State} {q : Nat} (h : s1.procs[q]? = s.procs[q]?) :
    instrs s1 q = instrs s q := by
  unfold instrs
  rw [h]

/-- One instruction moves the cursor of its process by one position or leaves
it, and keeps the other cursors. -/
theorem dispatch_cursor (p : Nat) (i : instruction) (resource : Option Nat) (s s1 : State)
    (pcb : processControlBlock) (rest : List instruction)
    (hp : s.procs[p]? = some pcb) (hnext : pcb.nextInstruction = i :: rest)
    (h : dispatch p i resource s = some s1) :
    (instrs s1 p = some rest ∨ instrs s1 p = some (i :: rest)) ∧
      ∀ q, q ≠ p → instrs s1 q = instrs s q := by
  obtain ⟨pcb1, ⟨_, _, hothers, hp1, _, _⟩, ho⟩ := dispatch_outcome p i resource s s1 pcb rest hp hnext h
  refine ⟨?_, fun q hq => instrs_of_getElem? (hothers q hq)⟩
  unfold instrs
  rw [hp1]
  rcases ho with ho | ho | ho | ho
  · exact Or.inl (by simp [ho.1])
  · exact Or.inl (by simp [ho.2.2.1, ho.2.1])
  · exact Or.inr (by simp [ho.2.1])
  · exact Or.inl (by simp [ho.2.1])

theorem dispatch_cursorsAhead (p : Nat) (i : instruction) (resource : Option Nat) (s s1 : State)
    (pcb : processControlBlock) (rest : List instruction)
    (hp : s.procs[p]? = some pcb) (hnext : pcb.nextInstruction = i :: rest)
    (h : dispatch p i resource s = some s1) : CursorsAhead s s1 := by
  obtain ⟨hself, hothers⟩ := dispatch_cursor p i resource s s1 pcb rest hp hnext h
  intro x
  by_cases hx : x = p
  · subst hx
    have hi : instrs s x = some (i :: rest) := by
      unfold instrs
      rw [hp]
      simp [hnext]
    rcases hself with h1 | h1
    · exact ⟨1, by rw [h1, hi]; rfl⟩
    · exact ⟨0, by rw [h1, hi]; rfl⟩
  · exact ⟨0, by rw [hothers x hx]; cases instrs s x <;> simp⟩

theorem quantum_walk_cursorsAhead (p : Nat) (resource : Option Nat) :
    ∀ (k : Nat) (s s1 : State), quantum_walk k p resource s = some s1 → CursorsAhead s s1 := by
  intro k
  induction k with
  | zero =>
    intro s s1 h
    simp only [quantum_walk, Option.some.injEq] at h
    subst h
    exact cursorsAhead_refl s
  | succ k ih =>
    intro s s1 h
    simp only [quantum_walk] at h
    split at h
    · simp at h
    · rename_i pcb hp
      split at h
      · simp only [Option.some.injEq] at h
        subst h
        exact cursorsAhead_refl s
      · rename_i i rest hnext
        split at h
        · simp at h
        · rename_i s2 hd
          exact (dispatch_cursorsAhead p i resource s s2 pcb rest hp hnext hd).then_ahead
            (ih s2 s1 h)

theorem rr_turn_cursorsAhead (quantum : Int) (resource : Option Nat) (s s1 : State)
    (h : rr_turn quantum resource s = some s1) : CursorsAhead s s1 := by
  unfold rr_turn at h
  split at h
  · simp at h
  · rename_i p rq _
    split at h
    · simp at h
    · rename_i sa ha
      have h1 : CursorsAhead s sa :=
        quantum_walk_cursorsAhead p resource _ { s with readyQueue := rq } sa ha
      split at h
      · simp at h
      · rename_i sb hb
        have h2 : CursorsAhead sa sb :=
          cursorsAhead_of_instrs (send_processes_to_readyq_drained _ _ _ hb).2.2.2.2.2.1
        split at h
        · simp at h
        · rename_i pcb _
          have h3 : CursorsAhead sb (if pcb.processState = RUNNING ∧ pcb.nextInstruction ≠ [] then
              process_to_readyq p sb else sb) := by
            split
            · exact cursorsAhead_of_instrs (KeepsQueued.queued_readyq p sb).2.1
            · exact cursorsAhead_refl sb
          dsimp only at h
          generalize (if pcb.processState = RUNNING ∧ pcb.nextInstruction ≠ [] then
              process_to_readyq p sb else sb) = s3 at h h3
          split at h
          · exact ((h1.then_ahead h2).then_ahead h3).then_ahead
              (cursorsAhead_of_instrs (recover_walk_keeps resource _ _ _ _ h).2.1)
          · simp only [Option.some.injEq] at h
            subst h
            exact (h1.then_ahead h2).then_ahead h3

theorem rr_turns_cursorsAhead (quantum : Int) (resource : Option Nat) :
    ∀ (k : Nat) (s s1 : State), rr_turns k quantum resource s = some s1 → CursorsAhead s s1 := by
  intro k
  induction k with
  | zero =>
    intro s s1 h
    simp only [rr_turns, Option.some.injEq] at h
    subst h
    exact cursorsAhead_refl s
  | succ k ih =>
    intro s s1 h
    simp only [rr_turns] at h
    split at h
    · simp only [Option.some.injEq] at h
      subst h
      exact cursorsAhead_refl s
    · split at h
      · simp at h
      · rename_i s2 h2
        exact (rr_turn_cursorsAhead quantum resource s s2 h2).then_ahead (ih s2 s1 h)

theorem schedule_processes_rr_cursorsAhead (quantum : Int) (resource : Option Nat) :
    ∀ (fuel : Nat) (s s1 : State), schedule_processes_rr fuel quantum resource s = some s1 →
      CursorsAhead s s1 := by
  intro fuel
  induction fuel with
  | zero => intro s s1 h; simp [schedule_processes_rr] at h
  | succ f ih =>
    intro s s1 h
    simp only [schedule_processes_rr] at h
    split at h
    · simp only [Option.some.injEq] at h
      subst h
      exact cursorsAhead_refl s
    · split at h
      · simp at h
      · rename_i s2 h2
        exact (rr_turn_cursorsAhead quantum resource s s2 h2).then_ahead (ih s2 s1 h)

theorem schedule_processes_fcfs_cursorsAhead (resource : Option Nat) :
    ∀ (fuel pcb : Nat) (s s1 : State), schedule_processes_fcfs fuel pcb resource s = some s1 →
      CursorsAhead s s1 := by
  intro fuel
  induction fuel with
  | zero => intro pcb s s1 h; simp [schedule_processes_fcfs] at h
  | succ f ih =>
    intro pcb s s1 h
    simp only [schedule_processes_fcfs] at h
    split at h
    · simp at h
    · rename_i b hb
      split at h
      · rename_i i rest hnext
        split at h
        · simp at h
        · rename_i s2 hd
          exact (dispatch_cursorsAhead pcb i resource s s2 b rest hb hnext hd).then_ahead
            (ih pcb s2 s1 h)
      · split at h
        · simp only [Option.some.injEq] at h
          subst h
          exact cursorsAhead_refl s
        · rename_i hd rq _
          have h1 : CursorsAhead s s1 := ih hd { s with readyQueue := rq } s1 h
          exact h1

/-- Claim C28: an instruction that returns leaves the cursor of its process
one position further, on the rest of the list, or unchanged; it is unchanged
exactly when the instruction is a request for which `acquire_resource` returns
0; the cursor of every other process is unchanged.  Hence in every run of the
round-robin or the first-come-first-served scheduler the cursor of each process
is at all times a suffix of its earlier cursor. -/
theorem cursor_advances_by_one (p : Nat) (i : instruction) (resource : Option Nat)
    (s s1 : State) (pcb : processControlBlock) (rest : List instruction)
    (hp : s.procs[p]? = some pcb) (hnext : pcb.nextInstruction = i :: rest)
    (h : dispatch p i resource s = some s1) :
    (instrs s1 p = some rest ∨ instrs s1 p = some (i :: rest)) ∧
    (instrs s1 p = some (i :: rest) ↔
      i.type = InstrType.REQ_V ∧
        ∃ s2, acquire_resource (walkFuel s.heap) i.resource resource p
          (s.setPcb p (fun b => { b with processState := RUNNING })) = some (0, s2)) ∧
    (∀ q, q ≠ p → instrs s1 q = instrs s q) ∧
    (∀ (k : Nat) (quantum : Int) (t t1 : State),
      rr_turns k quantum resource t = some t1 → CursorsAhead t t1) ∧
    (∀ (fuel : Nat) (quantum : Int) (t t1 : State),
      schedule_processes_rr fuel quantum resource t = some t1 → CursorsAhead t t1) ∧
    (∀ (fuel first : Nat) (t t1 : State),
      schedule_processes_fcfs fuel first resource t = some t1 → CursorsAhead t t1) := by
  obtain ⟨hself, hothers⟩ := dispatch_cursor p i resource s s1 pcb rest hp hnext h
  refine ⟨hself, ?_, hothers, fun k quantum => rr_turns_cursorsAhead quantum resource k,
    fun fuel quantum => schedule_processes_rr_cursorsAhead quantum resource fuel,
    fun fuel first => schedule_processes_fcfs_cursorsAhead resource fuel first⟩
  obtain ⟨pcb1, ⟨_, _, _, hp1, _, _⟩, ho⟩ := dispatch_outcome p i resource s s1 pcb rest hp hnext h
  have hcur : instrs s1 p = some pcb1.nextInstruction := by
    unfold instrs
    rw [hp1]
    rfl
  have hne : rest ≠ i :: rest := fun he => by
    have := congrArg List.length he
    simp at this
  constructor
  · intro hstay
    rw [hcur, Option.some.injEq] at hstay
    have htype : i.type = InstrType.REQ_V := by
      rcases ho with ho | ho | ho | ho
      · exact absurd (ho.1.symm.trans hstay) hne
      · exact absurd ((ho.2.1.trans ho.2.2.1.symm).trans hstay) hne
      · exact ho.1
      · exact absurd (ho.2.1.symm.trans hstay) hne
    refine ⟨htype, ?_⟩
    have h' : process_request p i resource s = some s1 := by
      simpa only [dispatch, htype] using h
    obtain ⟨acquired, s2, pcb2, hacq, ⟨_, _, _, hp2, _, _⟩, hcase⟩ :=
      process_request_outcome p i resource s s1 pcb rest hp hnext htype h'
    rcases hcase with ⟨_, hran⟩ | ⟨hz, _⟩
    · rw [hp1, Option.some.injEq] at hp2
      subst hp2
      exact absurd (hran.1.symm.trans hstay) hne
    · subst hz
      exact ⟨s2, hacq⟩
  · rintro ⟨htype, s2, hacq⟩
    have h' : process_request p i resource s = some s1 := by
      simpa only [dispatch, htype] using h
    obtain ⟨acquired, s3, pcb2, hacq2, ⟨_, _, _, hp2, _, _⟩, hcase⟩ :=
      process_request_outcome p i resource s s1 pcb rest hp hnext htype h'
    rw [hacq, Option.some.injEq, Prod.mk.injEq] at hacq2
    rw [hp1, Option.some.injEq] at hp2
    subst hp2
    rcases hcase with ⟨hnz, _⟩ | ⟨_, hb⟩
    · exact absurd hacq2.1.symm hnz
    · rw [hcur, hb.2.1]

/-! ## Termination of a process -/

theorem terminatesByRelease_refl (v : Option Nat) (s : State) : TerminatesByRelease v s s :=
  ⟨cursorsAhead_refl s, fun _ h => Or.inl h⟩

theorem TerminatesByRelease.then_terminates {v : Option Nat} {s s1 s2 : State}
    (h1 : TerminatesByRelease v s s1) (h2 : TerminatesByRelease v s1 s2) :
    TerminatesByRelease v s s2 := by
  refine ⟨h1.1.then_ahead h2.1, ?_⟩
  intro x hx
  rcases h2.2 x hx with hT | ⟨L, i, hL, hi, hend⟩ | hv
  · rcases h1.2 x hT with hT0 | ⟨L, i, hL, hi, hend⟩ | hv
    · exact Or.inl hT0
    · refine Or.inr (Or.inl ⟨L, i, hL, hi, ?_⟩)
      obtain ⟨n, hn⟩ := h2.1 x
      rw [hn, hend]
      simp
    · exact Or.inr (Or.inr hv)
  · refine Or.inr (Or.inl ?_)
    obtain ⟨n, hn⟩ := h1.1 x
    rw [hL] at hn
    cases hM : instrs s x with
    | none => rw [hM] at hn; simp at hn
    | some M =>
      rw [hM] at hn
      simp only [Option.map_some', Option.some.injEq] at hn
      refine ⟨M.take n ++ L, i, ?_, hi, hend⟩
      rw [List.append_assoc, hn, List.take_append_drop]
      exact hM
  · exact Or.inr (Or.inr hv)

/-- A step that keeps every control block or makes it READY, and keeps the
cursors, terminates nothing. -/
theorem terminatesByRelease_of_ready (v : Option Nat) {s s1 : State}
    (hins : ∀ q, instrs s1 q = instrs s q)
    (hblk : ∀ (q : Nat) (b1 : processControlBlock), s1.procs[q]? = some b1 →
      s.procs[q]? = some b1 ∨ b1.processState = READY) :
    TerminatesByRelease v s s1 := by
  refine ⟨cursorsAhead_of_instrs hins, fun x hx => Or.inl ?_⟩
  unfold stateOf at hx ⊢
  cases hb : s1.procs[x]? with
  | none => rw [hb] at hx; simp at hx
  | some b1 =>
    rw [hb] at hx
    simp only [Option.map_some', Option.some.injEq] at hx
    rcases hblk x b1 hb with h | h
    · rw [h]
      simp [hx]
    · rw [h] at hx
      exact absurd hx (by decide)

theorem dispatch_terminatesByRelease (v : Option Nat) (p : Nat) (i : instruction)
    (resource : Option Nat) (s s1 : State) (pcb : processControlBlock) (rest : List instruction)
    (hp : s.procs[p]? = some pcb) (hnext : pcb.nextInstruction = i :: rest)
    (h : dispatch p i resource s = some s1) : TerminatesByRelease v s s1 := by
  refine ⟨dispatch_cursorsAhead p i resource s s1 pcb rest hp hnext h, ?_⟩
  obtain ⟨pcb1, ⟨_, _, hothers, hp1, _, _⟩, ho⟩ :=
    dispatch_outcome p i resource s s1 pcb rest hp hnext h
  intro x hx
  by_cases hxp : x = p
  · subst hxp
    have hst : pcb1.processState = TERMINATED := by
      unfold stateOf at hx
      rw [hp1] at hx
      simpa using hx
    refine Or.inr (Or.inl ?_)
    rcases ho with ho | ho | ho | ho
    · rw [ho.2.1] at hst
      exact absurd hst (by decide)
    · refine ⟨[], i, ?_, ho.1, ?_⟩
      · unfold instrs
        rw [hp]
        simp [hnext, ho.2.1]
      · unfold instrs
        rw [hp1]
        simp [ho.2.2.1]
    · rw [ho.2.2.1] at hst
      exact absurd hst (by decide)
    · rw [ho.2.2.1] at hst
      exact absurd hst (by decide)
  · refine Or.inl ?_
    unfold stateOf at hx ⊢
    rw [← hothers x hxp]
    exact hx

theorem quantum_walk_terminatesByRelease (v : Option Nat) (p : Nat) (resource : Option Nat) :
    ∀ (k : Nat) (s s1 : State), quantum_walk k p resource s = some s1 →
      TerminatesByRelease v s s1 := by
  intro k
  induction k with
  | zero =>
    intro s s1 h
    simp only [quantum_walk, Option.some.injEq] at h
    subst h
    exact terminatesByRelease_refl v s
  | succ k ih =>
    intro s s1 h
    simp only [quantum_walk] at h
    split at h
    · simp at h
    · rename_i pcb hp
      split at h
      · simp only [Option.some.injEq] at h
        subst h
        exact terminatesByRelease_refl v s
      · rename_i i rest hnext
        split at h
        · simp at h
        · rename_i s2 hd
          exact (dispatch_terminatesByRelease v p i resource s s2 pcb rest hp hnext
            hd).then_terminates (ih s2 s1 h)

theorem send_processes_to_readyq_terminatesByRelease (v : Option Nat) (resource : Option Nat)
    (s s1 : State) (h : send_processes_to_readyq resource s = some s1) :
    TerminatesByRelease v s s1 := by
  obtain ⟨_, _, _, _, _, hins, _, hblk, _, _⟩ := send_processes_to_readyq_drained resource s s1 h
  refine terminatesByRelease_of_ready v hins ?_
  intro q b1 hb
  rcases hblk q b1 hb with h1 | ⟨h1, _⟩
  · exact Or.inl h1
  · exact Or.inr h1

theorem process_to_readyq_terminatesByRelease (v : Option Nat) (p : Nat) (s : State) :
    TerminatesByRelease v s (process_to_readyq p s) := by
  refine terminatesByRelease_of_ready v (KeepsQueued.queued_readyq p s).2.1 ?_
  intro q b1 hb
  by_cases hq : q = p
  · subst hq
    cases hc : s.procs[q]? with
    | none =>
      have hlen : (process_to_readyq q s).procs.length = s.procs.length :=
        (KeepsQueued.queued_readyq q s).1
      have h1 := (List.getElem?_eq_some.mp hb).1
      have h2 := List.getElem?_eq_none_iff.mp hc
      omega
    | some c =>
      rw [procs_process_to_readyq_self s q c hc, Option.some.injEq] at hb
      subst hb
      exact Or.inr rfl
  · rw [procs_process_to_readyq_ne s p q hq] at hb
    exact Or.inl hb

/-- When the deadlock check fires the recovery loop is one release of the
held list of the first process, its termination and one drain. -/
theorem recover_walk_once (resource : Option Nat) (s s1 : State)
    (hfire : processes_deadlocked s.procs ≠ 0) (hne : s.procs ≠ [])
    (h : recover_walk (s.procs.length + 1) 0 resource s = some s1) :
    ∃ s4, release_all_resources_from_process 0 s = some s4 ∧
      send_processes_to_readyq resource (process_to_terminateq 0 s4) = some s1 := by
  obtain ⟨k, hk⟩ : ∃ k, s.procs.length = k + 1 :=
    ⟨s.procs.length - 1, by have := List.length_pos.2 hne; omega⟩
  rw [hk] at h
  simp only [recover_walk, hfire, ne_eq, not_false_eq_true, if_true] at h
  split at h
  · simp at h
  · rename_i s4 h4
    split at h
    · simp at h
    · rename_i s5 h5
      have hdl := (first_not_waiting_after_recovery resource s s4 s5 hne h4 h5).2.2
      simp only [hdl, not_true_eq_false, if_false, Option.some.injEq] at h
      subst h
      exact ⟨s4, h4, h5⟩

theorem all_waiting_of_deadlocked (ps : List processControlBlock)
    (h : processes_deadlocked ps ≠ 0) : ∀ b ∈ ps, b.processState = WAITING := by
  have h2 := processes_deadlocked_all_or_not ps
  by_contra hno
  push_neg at hno
  exact h (h2.2.2 hno)

/-- The recovery keeps every cursor and leaves no process but the first in
state TERMINATED. -/
theorem recovery_terminates_first_only (resource : Option Nat) (s s4 s1 : State)
    (hfire : processes_deadlocked s.procs ≠ 0)
    (h4 : release_all_resources_from_process 0 s = some s4)
    (h5 : send_processes_to_readyq resource (process_to_terminateq 0 s4) = some s1) :
    (∀ q, instrs s1 q = instrs s q) ∧ ∀ x, stateOf s1 x = some TERMINATED → x = 0 := by
  obtain ⟨f1, _, _, _, _⟩ := release_all_resources_from_process_frame 0 s s4 h4
  obtain ⟨_, _, _, _, _, hins, _, hblk, _, _⟩ := send_processes_to_readyq_drained resource _ _ h5
  have hall := all_waiting_of_deadlocked s.procs hfire
  refine ⟨?_, ?_⟩
  · intro q
    rw [hins q]
    have : instrs s q = instrs s4 q := by
      unfold instrs
      rw [f1]
    rw [this]
    exact instrs_setPcb s4 0 q _ (fun _ => rfl)
  · intro x hx
    by_contra hx0
    unfold stateOf at hx
    cases hb : s1.procs[x]? with
    | none => rw [hb] at hx; simp at hx
    | some b1 =>
      rw [hb] at hx
      simp only [Option.map_some', Option.some.injEq] at hx
      rcases hblk x b1 hb with h | ⟨h, _⟩
      · rw [procs_process_to_terminateq_ne s4 0 x hx0, f1] at h
        have := hall b1 (List.getElem?_mem h)
        rw [this] at hx
        exact absurd hx (by decide)
      · rw [h] at hx
        exact absurd hx (by decide)

/-! ## Stages of a turn -/

theorem refile_length (p : Nat) (pcb : processControlBlock) (s : State) :
    (refile p pcb s).procs.length = s.procs.length := by
  unfold refile
  split
  · exact (KeepsQueued.queued_readyq p s).1
  · rfl

/-- The stages of a turn of the round-robin loop: the quantum loop of the head
`p` of the ready queue, the drain, the re-filing of `p`, and the deadlock check,
which either does not fire or is followed by one recovery step. -/
theorem rr_turn_stages (quantum : Int) (resource : Option Nat) (s s1 : State) (p : Nat)
    (R : List Nat) (hR : s.readyQueue.items = p :: R)
    (h : rr_turn quantum resource s = some s1) :
    ∃ sa sb pcb,
      quantum_walk (effective_quantum quantum).toNat p resource (afterDequeue R s) = some sa ∧
      send_processes_to_readyq resource sa = some sb ∧
      sb.procs[p]? = some pcb ∧
      ((processes_deadlocked (refile p pcb sb).procs = 0 ∧ s1 = refile p pcb sb) ∨
       (processes_deadlocked (refile p pcb sb).procs ≠ 0 ∧
        ∃ s4, release_all_resources_from_process 0 (refile p pcb sb) = some s4 ∧
          send_processes_to_readyq resource (process_to_terminateq 0 s4) = some s1)) := by
  unfold rr_turn at h
  have hdq : dequeue s.readyQueue = some (p, { items := R, n := s.readyQueue.n - 1 }) := by
    simp [dequeue, hR]
  simp only [hdq] at h
  split at h
  · simp at h
  · rename_i sa ha
    split at h
    · simp at h
    · rename_i sb hb
      split at h
      · simp at h
      · rename_i pcb hpcb
        refine ⟨sa, sb, pcb, ha, hb, hpcb, ?_⟩
        have h' : (if processes_deadlocked (refile p pcb sb).procs ≠ 0 then
            recover_walk ((refile p pcb sb).procs.length + 1) 0 resource (refile p pcb sb)
            else some (refile p pcb sb)) = some s1 := h
        by_cases hfire : processes_deadlocked (refile p pcb sb).procs = 0
        · rw [if_neg (by simpa using hfire)] at h'
          simp only [Option.some.injEq] at h'
          exact Or.inl ⟨hfire, h'.symm⟩
        · rw [if_pos hfire] at h'
          have hne : (refile p pcb sb).procs ≠ [] := by
            intro hnil
            have h1 : (refile p pcb sb).procs.length = 0 := by rw [hnil]; rfl
            rw [refile_length] at h1
            have h2 := (List.getElem?_eq_some.mp hpcb).1
            omega
          exact Or.inr ⟨hfire, recover_walk_once resource _ s1 hfire hne h'⟩

/-- The turn up to the deadlock check terminates a process only by a final
release, and changes the cursor of the dispatched process only. -/
theorem rr_turn_before_check (v : Option Nat) (quantum : Int) (resource : Option Nat)
    (s sa sb : State) (p : Nat) (R : List Nat) (pcb : processControlBlock)
    (ha : quantum_walk (effective_quantum quantum).toNat p resource (afterDequeue R s) = some sa)
    (hb : send_processes_to_readyq resource sa = some sb) :
    TerminatesByRelease v s (refile p pcb sb) ∧
      ∀ q, q ≠ p → instrs (refile p pcb sb) q = instrs s q := by
  have h1 : TerminatesByRelease v s sa :=
    quantum_walk_terminatesByRelease v p resource _ (afterDequeue R s) sa ha
  have h2 := send_processes_to_readyq_terminatesByRelease v resource sa sb hb
  have h3 : TerminatesByRelease v sb (refile p pcb sb) := by
    unfold refile
    split
    · exact process_to_readyq_terminatesByRelease v p sb
    · exact terminatesByRelease_refl v sb
  refine ⟨(h1.then_terminates h2).then_terminates h3, ?_⟩
  intro q hq
  have e1 : instrs sa q = instrs s q :=
    (quantum_walk_placed p resource _ (afterDequeue R s) sa ha).1.2.2.2.2 q hq
  have e2 : instrs sb q = instrs sa q :=
    (send_processes_to_readyq_drained resource sa sb hb).2.2.2.2.2.1 q
  have e3 : instrs (refile p pcb sb) q = instrs sb q := by
    unfold refile
    split
    · exact (KeepsQueued.queued_readyq p sb).2.1 q
    · rfl
  exact e3.trans (e2.trans e1)

theorem rr_turn_terminatesByRelease (quantum : Int) (resource : Option Nat) (s s1 : State)
    (h : rr_turn quantum resource s = some s1) : TerminatesByRelease (some 0) s s1 := by
  cases hR : s.readyQueue.items with
  | nil => simp [rr_turn, dequeue, hR] at h
  | cons p R =>
    obtain ⟨sa, sb, pcb, ha, hb, _, hcase⟩ := rr_turn_stages quantum resource s s1 p R hR h
    obtain ⟨h123, _⟩ := rr_turn_before_check (some 0) quantum resource s sa sb p R pcb ha hb
    rcases hcase with ⟨_, hs1⟩ | ⟨hfire, s4, h4, h5⟩
    · rw [hs1]
      exact h123
    · obtain ⟨hins, hfirst⟩ := recovery_terminates_first_only resource _ s4 s1 hfire h4 h5
      refine h123.then_terminates ⟨cursorsAhead_of_instrs hins, fun x hx => ?_⟩
      exact Or.inr (Or.inr (by rw [hfirst x hx]))

theorem rr_turns_terminatesByRelease (quantum : Int) (resource : Option Nat) :
    ∀ (k : Nat) (s s1 : State), rr_turns k quantum resource s = some s1 →
      TerminatesByRelease (some 0) s s1 := by
  intro k
  induction k with
  | zero =>
    intro s s1 h
    simp only [rr_turns, Option.some.injEq] at h
    subst h
    exact terminatesByRelease_refl _ s
  | succ k ih =>
    intro s s1 h
    simp only [rr_turns] at h
    split at h
    · simp only [Option.some.injEq] at h
      subst h
      exact terminatesByRelease_refl _ s
    · split at h
      · simp at h
      · rename_i s2 h2
        exact (rr_turn_terminatesByRelease quantum resource s s2 h2).then_terminates
          (ih s2 s1 h)

theorem schedule_processes_fcfs_terminatesByRelease (resource : Option Nat) :
    ∀ (fuel pcb : Nat) (s s1 : State), schedule_processes_fcfs fuel pcb resource s = some s1 →
      TerminatesByRelease none s s1 := by
  intro fuel
  induction fuel with
  | zero => intro pcb s s1 h; simp [schedule_processes_fcfs] at h
  | succ f ih =>
    intro pcb s s1 h
    simp only [schedule_processes_fcfs] at h
    split at h
    · simp at h
    · rename_i b hb
      split at h
      · rename_i i rest hnext
        split at h
        · simp at h
        · rename_i s2 hd
          exact (dispatch_terminatesByRelease none pcb i resource s s2 b rest hb hnext
            hd).then_terminates (ih pcb s2 s1 h)
      · split at h
        · simp only [Option.some.injEq] at h
          subst h
          exact terminatesByRelease_refl _ s
        · rename_i hd rq _
          have h1 : TerminatesByRelease none s s1 := ih hd { s with readyQueue := rq } s1 h
          exact h1

/-- Claim C29: a process that is TERMINATED after a turn of the round-robin
loop was TERMINATED before the turn, or is the process of the turn and has
executed the last instruction of its list, a release, or is the first process
and the recovery ran in this turn with it as victim.  In particular a process
whose list ends with a request, a send or a receive is not TERMINATED by
finishing its list.  The same holds along any number of turns, and, without the
recovery, along a first-come-first-served run. -/
theorem terminated_only_by_release_or_recovery (quantum : Int) (resource : Option Nat)
    (s s1 : State) (p : Nat) (R : List Nat) (x : Nat)
    (hR : s.readyQueue.items = p :: R) (hturn : rr_turn quantum resource s = some s1)
    (hx : stateOf s1 x = some TERMINATED) :
    (stateOf s x = some TERMINATED ∨
      (x = p ∧ ∃ L i, instrs s p = some (L ++ [i]) ∧ i.type = InstrType.REL_V ∧
        instrs s1 p = some []) ∨
      (x = 0 ∧ ∃ s3 s4, processes_deadlocked s3.procs ≠ 0 ∧
        release_all_resources_from_process 0 s3 = some s4 ∧
        send_processes_to_readyq resource (process_to_terminateq 0 s4) = some s1)) ∧
    (∀ (k : Nat) (q : Int) (t t1 : State), rr_turns k q resource t = some t1 →
      ∀ y, stateOf t1 y = some TERMINATED →
        stateOf t y = some TERMINATED ∨ FinalRelease t t1 y ∨ y = 0) ∧
    (∀ (fuel first : Nat) (t t1 : State),
      schedule_processes_fcfs fuel first resource t = some t1 →
      ∀ y, stateOf t1 y = some TERMINATED →
        stateOf t y = some TERMINATED ∨ FinalRelease t t1 y) := by
  refine ⟨?_, ?_, ?_⟩
  · obtain ⟨sa, sb, pcb, ha, hb, _, hcase⟩ := rr_turn_stages quantum resource s s1 p R hR hturn
    obtain ⟨h123, hothers⟩ := rr_turn_before_check none quantum resource s sa sb p R pcb ha hb
    have hbefore : ∀ s3, TerminatesByRelease none s s3 →
        (∀ q, q ≠ p → instrs s3 q = instrs s q) → stateOf s3 x = some TERMINATED →
        stateOf s x = some TERMINATED ∨ (x = p ∧ FinalRelease s s3 x) := by
      intro s3 ht ho h3
      rcases ht.2 x h3 with hT | hF | hv
      · exact Or.inl hT
      · by_cases hxp : x = p
        · exact Or.inr ⟨hxp, hF⟩
        · obtain ⟨L, i, hL, _, hend⟩ := hF
          rw [ho x hxp, hL] at hend
          simp at hend
      · cases hv
    rcases hcase with ⟨_, hs1⟩ | ⟨hfire, s4, h4, h5⟩
    · subst hs1
      rcases hbefore _ h123 hothers hx with h | ⟨hxp, hF⟩
      · exact Or.inl h
      · subst hxp
        exact Or.inr (Or.inl ⟨rfl, hF⟩)
    · have hx0 := (recovery_terminates_first_only resource _ s4 s1 hfire h4 h5).2 x hx
      exact Or.inr (Or.inr ⟨hx0, _, s4, hfire, h4, h5⟩)
  · intro k q t t1 h y hy
    rcases (rr_turns_terminatesByRelease q resource k t t1 h).2 y hy with h1 | h1 | h1
    · exact Or.inl h1
    · exact Or.inr (Or.inl h1)
    · exact Or.inr (Or.inr (by cases h1; rfl))
  · intro fuel first t t1 h y hy
    rcases (schedule_processes_fcfs_terminatesByRelease resource fuel first t t1 h).2 y hy
      with h1 | h1 | h1
    · exact Or.inl h1
    · exact Or.inr h1
    · cases h1

/-! ## Ready queue after a turn -/

/-- The loop of the drain appends to the ready queue and leaves alone every
process that is not on the waiting queue. -/
theorem send_walk_effect (resource : Option Nat) :
    ∀ (n : Nat) (s s1 : State), send_walk n resource s = some s1 →
      (∃ X, s1.readyQueue.items = s.readyQueue.items ++ X) ∧
      (∀ q, q ∉ s.waitingQueue.items → s1.procs[q]? = s.procs[q]?) := by
  intro n
  induction n with
  | zero =>
    intro s s1 h
    simp only [send_walk, Option.some.injEq] at h
    subst h
    exact ⟨⟨[], by simp⟩, fun _ _ => rfl⟩
  | succ n ih =>
    intro s s1 h
    simp only [send_walk] at h
    cases hw : s.waitingQueue.items with
    | nil => simp [dequeue, hw] at h
    | cons q0 rest =>
      simp only [dequeue, hw] at h
      split at h
      · simp at h
      · split at h
        · simp at h
        · split at h
          · simp at h
          · split at h
            · obtain ⟨⟨X, hX⟩, hkeep⟩ := ih _ _ h
              refine ⟨⟨q0 :: X, ?_⟩, ?_⟩
              · rw [hX]
                simp [process_to_readyq, enqueue, State.setPcb]
              · intro q hq
                have hq0 : q ≠ q0 := fun e => hq (by rw [e]; exact List.mem_cons_self _ _)
                have hqr : q ∉ rest := fun e => hq (List.mem_cons_of_mem _ e)
                rw [hkeep q (by simpa [process_to_readyq, State.setPcb] using hqr)]
                exact procs_process_to_readyq_ne _ q0 q hq0
            · obtain ⟨⟨X, hX⟩, hkeep⟩ := ih _ _ h
              refine ⟨⟨X, hX⟩, ?_⟩
              intro q hq
              have hq0 : q ≠ q0 := fun e => hq (by rw [e]; exact List.mem_cons_self _ _)
              have hqr : q ∉ rest := fun e => hq (List.mem_cons_of_mem _ e)
              exact hkeep q (by simp [enqueue, hqr, hq0])

theorem send_processes_to_readyq_effect (resource : Option Nat) (s s1 : State)
    (h : send_processes_to_readyq resource s = some s1) :
    (∃ X, s1.readyQueue.items = s.readyQueue.items ++ X) ∧
      (∀ q, q ∉ s.waitingQueue.items → s1.procs[q]? = s.procs[q]?) := by
  unfold send_processes_to_readyq at h
  split at h
  · simp only [Option.some.injEq] at h
    subst h
    exact ⟨⟨[], by simp⟩, fun _ _ => rfl⟩
  · exact send_walk_effect resource _ _ _ h

/-- A drain that returns has found a next instruction for every process it
inspected, and the search for its resource has returned. -/
theorem send_walk_inspects (resource : Option Nat) :
    ∀ (todo : List Nat) (s s1 : State) (kept : List Nat),
      s.waitingQueue.items = todo ++ kept → send_walk todo.length resource s = some s1 →
      ∀ q ∈ todo, inspectable s resource q := by
  intro todo
  induction todo with
  | nil => intro s s1 kept _ _ q hq; simp at hq
  | cons q0 todo ih =>
    intro s s1 kept hitems h q hq
    simp only [List.length_cons, send_walk, dequeue, hitems, List.cons_append] at h
    split at h
    · simp at h
    · rename_i pcb hpcb
      split at h
      · simp at h
      · rename_i i irest hnext
        split at h
        · simp at h
        · rename_i b hb
          have h0 : inspectable s resource q0 := by
            refine ⟨i, irest, b, ?_, hb⟩
            unfold instrs
            rw [hpcb]
            simp [hnext]
          rcases List.mem_cons.1 hq with hq0 | hqt
          · rw [hq0]
            exact h0
          · split at h
            · have := ih _ s1 kept (by simp [process_to_readyq, State.setPcb]) h q hqt
              obtain ⟨i1, r1, b1, hi1, hb1⟩ := this
              refine ⟨i1, r1, b1, ?_, hb1⟩
              rw [← hi1]
              exact (instrs_process_to_readyq _ q0 q).symm
            · have := ih _ s1 (kept ++ [q0]) (by simp [enqueue]) h q hqt
              exact this

/-- The ready queue after a drain that returns, on a waiting queue whose
counter is its length: the processes whose test succeeds are appended in the
order of the waiting queue. -/
theorem send_processes_to_readyq_ready (resource : Option Nat) (s s1 : State)
    (hn : Counted s.waitingQueue)
    (h : send_processes_to_readyq resource s = some s1) :
    s1.readyQueue.items = s.readyQueue.items ++
      s.waitingQueue.items.filter (fun q => pending_available s resource q) ∧
    s1.waitingQueue.items =
      s.waitingQueue.items.filter (fun q => !pending_available s resource q) := by
  unfold send_processes_to_readyq at h
  cases hw : s.waitingQueue.items with
  | nil =>
    simp only [hw, Option.some.injEq] at h
    subst h
    simp [hw]
  | cons q0 rest =>
    simp only [hw] at h
    have hlen : s.waitingQueue.n = (q0 :: rest).length := by
      rw [← hw]
      exact hn
    rw [hlen] at h
    have hins := send_walk_inspects resource (q0 :: rest) s s1 [] (by simp [hw]) h
    obtain ⟨s2, h2, _, _, hr, hwq, _⟩ := send_walk_spec s resource (q0 :: rest) s []
      rfl (fun _ => rfl) (by simp [hw]) hins
    rw [h, Option.some.injEq] at h2
    subst h2
    exact ⟨hr, by simpa using hwq⟩

theorem dispatch_waiting (p : Nat) (i : instruction) (resource : Option Nat) (s s1 : State)
    (pcb : processControlBlock) (rest : List instruction)
    (hp : s.procs[p]? = some pcb) (hnext : pcb.nextInstruction = i :: rest)
    (h : dispatch p i resource s = some s1) :
    s1.waitingQueue = s.waitingQueue ∨ s1.waitingQueue = enqueue s.waitingQueue p := by
  obtain ⟨pcb1, _, ho⟩ := dispatch_outcome p i resource s s1 pcb rest hp hnext h
  rcases ho with ho | ho | ho | ho
  · exact Or.inl ho.2.2.1
  · exact Or.inl ho.2.2.2.2.1
  · exact Or.inr ho.2.2.2.1
  · exact Or.inr ho.2.2.2.1

/-- The quantum loop only appends its process to the waiting queue, and keeps
the counter of the waiting queue equal to its length. -/
theorem quantum_walk_waiting (p : Nat) (resource : Option Nat) :
    ∀ (k : Nat) (s s1 : State), quantum_walk k p resource s = some s1 →
      (∃ m, s1.waitingQueue.items = s.waitingQueue.items ++ List.replicate m p) ∧
      (Counted s.waitingQueue → Counted s1.waitingQueue) := by
  intro k
  induction k with
  | zero =>
    intro s s1 h
    simp only [quantum_walk, Option.some.injEq] at h
    subst h
    exact ⟨⟨0, by simp⟩, fun hc => hc⟩
  | succ k ih =>
    intro s s1 h
    simp only [quantum_walk] at h
    split at h
    · simp at h
    · rename_i pcb hp
      split at h
      · simp only [Option.some.injEq] at h
        subst h
        exact ⟨⟨0, by simp⟩, fun hc => hc⟩
      · rename_i i rest hnext
        split at h
        · simp at h
        · rename_i s2 hd
          obtain ⟨⟨m, hm⟩, hcount⟩ := ih s2 s1 h
          rcases dispatch_waiting p i resource s s2 pcb rest hp hnext hd with hw | hw
          · exact ⟨⟨m, by rw [hm, hw]⟩, fun hc => hcount (by rw [hw]; exact hc)⟩
          · refine ⟨⟨m + 1, ?_⟩, fun hc => hcount ?_⟩
            · rw [hm, hw]
              simp [enqueue, List.replicate_succ]
            · rw [hw]
              unfold Counted at hc ⊢
              simp [enqueue, hc]

/-- The loop of the drain keeps the counter of the waiting queue equal to its
length. -/
theorem send_walk_counted (resource : Option Nat) :
    ∀ (n : Nat) (s s1 : State), send_walk n resource s = some s1 →
      Counted s.waitingQueue → Counted s1.waitingQueue := by
  intro n
  induction n with
  | zero =>
    intro s s1 h hc
    simp only [send_walk, Option.some.injEq] at h
    subst h
    exact hc
  | succ n ih =>
    intro s s1 h hc
    simp only [send_walk] at h
    cases hw : s.waitingQueue.items with
    | nil => simp [dequeue, hw] at h
    | cons q0 rest =>
      have hdq : dequeue s.waitingQueue
          = some (q0, { items := rest, n := s.waitingQueue.n - 1 }) := by
        simp [dequeue, hw]
      have hc1 : s.waitingQueue.n - 1 = rest.length := by
        unfold Counted at hc
        rw [hc, hw]
        simp
      rw [hdq] at h
      simp only at h
      split at h
      · simp at h
      · split at h
        · simp at h
        · split at h
          · simp at h
          · split at h
            · exact ih _ s1 h (by
                show Counted { items := rest, n := s.waitingQueue.n - 1 }
                exact hc1)
            · exact ih _ s1 h (by
                show Counted (enqueue { items := rest, n := s.waitingQueue.n - 1 } q0)
                unfold Counted
                simp [enqueue, hc1])

theorem send_processes_to_readyq_counted (resource : Option Nat) (s s1 : State)
    (h : send_processes_to_readyq resource s = some s1) (hc : Counted s.waitingQueue) :
    Counted s1.waitingQueue := by
  unfold send_processes_to_readyq at h
  split at h
  · simp only [Option.some.injEq] at h
    subst h
    exact hc
  · exact send_walk_counted resource _ _ _ h hc

/-- Claim C23 fails as stated: in the fourth turn of `exDeadlock` with quantum
1 the process of the turn, `P2`, is alone on the ready queue; its request is
turned down, the drain of the turn promotes nobody and `P2`, WAITING, is not
re-filed, so that the ready queue the claim states is empty.  But the deadlock
check fires in the same turn and the drain of the recovery puts `P1` on the
ready queue: after the turn the ready queue is `P1`. -/
theorem recovery_drain_appends_to_ready_queue :
    exDeadlockThree.readyQueue.items = [1] ∧
    exDeadlocked.map (fun s => s.readyQueue.items) = some [] ∧
    exDeadlocked.map states = some [WAITING, WAITING] ∧
    ready_after_turn_spec 1 (some 0) exDeadlockThree = some [] ∧
    rr_turn 1 (some 0) exDeadlockThree = some exDeadlockFour ∧
    exDeadlockFour.readyQueue.items = [0] :=
  ⟨by decide, by decide, by decide, by decide, (Option.some_get _).symm, by decide⟩

/-- Claim C23, amended: in a turn of the round-robin loop that returns, on a
waiting queue whose counter is its length, the drain comes before the
re-filing: after the re-filing the ready queue is the rest of the ready queue,
followed by the processes that the drain has promoted, in the order of the
waiting queue, followed by the process of the turn if and only if, after the
drain, its state is RUNNING and it has an instruction left.  That is the ready
queue after the turn when the deadlock check does not fire.  When it fires, the
recovery runs in the same turn, and the ready queue after the turn is that
queue followed by the processes that the drain of the recovery promotes, in the
order of the waiting queue. -/
theorem ready_queue_after_turn (quantum : Int) (resource : Option Nat) (s s1 : State)
    (p : Nat) (R : List Nat) (hR : s.readyQueue.items = p :: R)
    (hn : Counted s.waitingQueue) (hturn : rr_turn quantum resource s = some s1) :
    ∃ sa sb pcb,
      quantum_walk (effective_quantum quantum).toNat p resource (afterDequeue R s) = some sa ∧
      send_processes_to_readyq resource sa = some sb ∧
      sb.procs[p]? = some pcb ∧
      sb.readyQueue.items =
        R ++ sa.waitingQueue.items.filter (fun q => pending_available sa resource q) ∧
      (refile p pcb sb).readyQueue.items =
        R ++ sa.waitingQueue.items.filter (fun q => pending_available sa resource q) ++
          (if pcb.processState = RUNNING ∧ pcb.nextInstruction ≠ [] then [p] else []) ∧
      ready_after_turn_spec quantum resource s = some (refile p pcb sb).readyQueue.items ∧
      (processes_deadlocked (refile p pcb sb).procs = 0 → s1 = refile p pcb sb) ∧
      (processes_deadlocked (refile p pcb sb).procs ≠ 0 →
        ∃ s4, release_all_resources_from_process 0 (refile p pcb sb) = some s4 ∧
          s1.readyQueue.items = (refile p pcb sb).readyQueue.items ++
            (refile p pcb sb).waitingQueue.items.filter
              (fun q => pending_available (process_to_terminateq 0 s4) resource q)) := by
  obtain ⟨sa, sb, pcb, ha, hb, hpcb, hcase⟩ := rr_turn_stages quantum resource s s1 p R hR hturn
  have hra : sa.readyQueue.items = R := by
    have := (quantum_walk_placed p resource _ (afterDequeue R s) sa ha).1.1
    rw [this]
    rfl
  have hca : Counted sa.waitingQueue :=
    (quantum_walk_waiting p resource _ (afterDequeue R s) sa ha).2 hn
  obtain ⟨hrb, _⟩ := send_processes_to_readyq_ready resource sa sb hca hb
  rw [hra] at hrb
  have hcb : Counted sb.waitingQueue := send_processes_to_readyq_counted resource sa sb hb hca
  have href : (refile p pcb sb).readyQueue.items = sb.readyQueue.items ++
      (if pcb.processState = RUNNING ∧ pcb.nextInstruction ≠ [] then [p] else []) := by
    unfold refile
    split
    · simp [process_to_readyq, enqueue, State.setPcb]
    · simp
  have hrefw : (refile p pcb sb).waitingQueue = sb.waitingQueue := by
    unfold refile
    split
    · rfl
    · rfl
  have hspec : ready_after_turn_spec quantum resource s =
      some (refile p pcb sb).readyQueue.items := by
    have ha' : quantum_walk (effective_quantum quantum).toNat p resource
        (afterDequeue R s) = some sa := ha
    unfold ready_after_turn_spec
    simp only [hR]
    rw [ha']
    simp only [hb, hpcb]
    rw [href, hrb]
  refine ⟨sa, sb, pcb, ha, hb, hpcb, hrb, by rw [href, hrb], hspec, ?_, ?_⟩
  · intro hz
    rcases hcase with ⟨_, hs1⟩ | ⟨hfire, _⟩
    · exact hs1
    · exact absurd hz hfire
  · intro hfire
    rcases hcase with ⟨hz, _⟩ | ⟨_, s4, h4, h5⟩
    · exact absurd hz hfire
    · obtain ⟨_, f2, f3, _, _⟩ := release_all_resources_from_process_frame 0 _ s4 h4
      have hwt : (process_to_terminateq 0 s4).waitingQueue = (refile p pcb sb).waitingQueue :=
        f3
      have hrt : (process_to_terminateq 0 s4).readyQueue = (refile p pcb sb).readyQueue := f2
      obtain ⟨hr1, _⟩ := send_processes_to_readyq_ready resource _ s1
        (by
          show Counted (process_to_terminateq 0 s4).waitingQueue
          rw [hwt, hrefw]
          exact hcb) h5
      refine ⟨s4, h4, ?_⟩
      rw [hr1, hrt, hwt]

/-! ## Order of the turns -/

/-- A turn of the round-robin loop takes the head off the ready queue and
only appends to the rest. -/
theorem rr_turn_ready_appends (quantum : Int) (resource : Option Nat) (s s1 : State)
    (p : Nat) (R : List Nat) (hR : s.readyQueue.items = p :: R)
    (hturn : rr_turn quantum resource s = some s1) :
    ∃ X, s1.readyQueue.items = R ++ X := by
  obtain ⟨sa, sb, pcb, ha, hb, _, hcase⟩ := rr_turn_stages quantum resource s s1 p R hR hturn
  have hra : sa.readyQueue.items = R := by
    have := (quantum_walk_placed p resource _ (afterDequeue R s) sa ha).1.1
    rw [this]
    rfl
  obtain ⟨⟨X1, hX1⟩, _⟩ := send_processes_to_readyq_effect resource sa sb hb
  rw [hra] at hX1
  have href : ∃ X2, (refile p pcb sb).readyQueue.items = sb.readyQueue.items ++ X2 := by
    unfold refile
    split
    · exact ⟨[p], by simp [process_to_readyq, enqueue, State.setPcb]⟩
    · exact ⟨[], by simp⟩
  obtain ⟨X2, hX2⟩ := href
  rcases hcase with ⟨_, hs1⟩ | ⟨_, s4, h4, h5⟩
  · exact ⟨X1 ++ X2, by rw [hs1, hX2, hX1, List.append_assoc]⟩
  · obtain ⟨_, f2, _, _, _⟩ := release_all_resources_from_process_frame 0 _ s4 h4
    obtain ⟨⟨X3, hX3⟩, _⟩ := send_processes_to_readyq_effect resource _ s1 h5
    refine ⟨X1 ++ X2 ++ X3, ?_⟩
    rw [hX3]
    simp only [process_to_terminateq, State.setPcb, f2, hX2, hX1, List.append_assoc]

theorem dispatch_order_served (quantum : Int) (resource : Option Nat) :
    ∀ (k : Nat) (s s1 : State) (R Y : List Nat), s.readyQueue.items = R ++ Y →
      rr_turns k quantum resource s = some s1 →
      ∃ D, dispatch_order k quantum resource s = some D ∧ D.take R.length = R.take k := by
  intro k
  induction k with
  | zero => intro s s1 R Y _ _; exact ⟨[], rfl, by simp⟩
  | succ k ih =>
    intro s s1 R Y hitems h
    cases R with
    | nil =>
      simp only [rr_turns, dispatch_order] at h ⊢
      split at h
      · exact ⟨[], rfl, by simp⟩
      · split at h
        · simp at h
        · rename_i s2 h2
          obtain ⟨D, hD, _⟩ := ih s2 s1 [] s2.readyQueue.items (by simp) h
          exact ⟨_, by rw [hD]; rfl, by simp⟩
    | cons p R =>
      have hitems' : s.readyQueue.items = p :: (R ++ Y) := by simpa using hitems
      simp only [rr_turns, dispatch_order, hitems'] at h ⊢
      split at h
      · simp at h
      · rename_i s2 h2
        obtain ⟨X, hX⟩ := rr_turn_ready_appends quantum resource s s2 p (R ++ Y) hitems' h2
        obtain ⟨D, hD, htake⟩ := ih s2 s1 R (Y ++ X) (by rw [hX, List.append_assoc]) h
        refine ⟨p :: D, by rw [hD]; rfl, ?_⟩
        simp [htake]

/-- The entries of the ready queue are served first in, first out.  When `k`
turns of the round-robin loop return, from a state whose ready queue is `R`,
the turns are taken, as far as the length of `R` goes, by the first `k` entries
of `R` in their order: an entry ahead of another takes its turn first, and no
entry that is enqueued later comes before the entries of `R` have had their
turn.  After a turn the ready queue is the rest of the queue followed by what
the turn has appended.  A process that is on the ready queue twice takes two
of these turns. -/
theorem ready_queue_is_served_in_order (quantum : Int) (resource : Option Nat) (k : Nat)
    (s s1 : State) (h : rr_turns k quantum resource s = some s1) :
    (∃ D, dispatch_order k quantum resource s = some D ∧
      D.take s.readyQueue.items.length = s.readyQueue.items.take k) ∧
    (k ≤ s.readyQueue.items.length →
      dispatch_order k quantum resource s = some (s.readyQueue.items.take k)) ∧
    ∀ (t t1 : State) (p : Nat) (R : List Nat), t.readyQueue.items = p :: R →
      rr_turn quantum resource t = some t1 → ∃ X, t1.readyQueue.items = R ++ X := by
  obtain ⟨D, hD, htake⟩ :=
    dispatch_order_served quantum resource k s s1 s.readyQueue.items [] (by simp) h
  refine ⟨⟨D, hD, htake⟩, ?_, fun t t1 p R hR ht => rr_turn_ready_appends quantum resource t t1 p R hR ht⟩
  intro hk
  have hlen : ∀ (k : Nat) (s s1 : State), rr_turns k quantum resource s = some s1 →
      ∀ D, dispatch_order k quantum resource s = some D → D.length ≤ k := by
    intro k
    induction k with
    | zero =>
      intro s s1 _ D hD
      simp only [dispatch_order, Option.some.injEq] at hD
      subst hD
      simp
    | succ k ih =>
      intro s s1 h D hD
      simp only [rr_turns, dispatch_order] at h hD
      split at h
      · rename_i hnil
        simp only [hnil, Option.some.injEq] at hD
        subst hD
        simp
      · rename_i p R hitems
        simp only [hitems] at hD
        split at h
        · simp at h
        · rename_i s2 h2
          simp only [h2, Option.map_eq_some'] at hD
          obtain ⟨D1, hD1, hcons⟩ := hD
          subst hcons
          have := ih s2 s1 h D1 hD1
          simp
          omega
  have hDk := hlen k s s1 h D hD
  rw [hD]
  congr 1
  rw [← htake]
  exact (List.take_of_length_le (by omega)).symm

/-- Claim C23, amended, at the third turn of `exScenario1`, in which `P1`
executes its last instruction and the drain promotes `P2`, and at the fourth
turn of `exDeadlock`, in which the deadlock check fires and the drain of the
recovery promotes `P1`. -/
theorem ready_queue_after_turn_witness :
    (exThirdTurn.readyQueue.items = [0] ∧ exThirdTurn.waitingQueue.items = [1] ∧
      Counted exThirdTurn.waitingQueue ∧
      rr_turn 1 (some 0) exThirdTurn = some exThirdTurnDone ∧
      exThirdTurnDone.readyQueue.items = [1]) ∧
    (∃ sa sb pcb,
      quantum_walk (effective_quantum 1).toNat 0 (some 0) (afterDequeue [] exThirdTurn) =
        some sa ∧
      send_processes_to_readyq (some 0) sa = some sb ∧
      sb.procs[0]? = some pcb ∧
      sb.readyQueue.items =
        [] ++ sa.waitingQueue.items.filter (fun q => pending_available sa (some 0) q) ∧
      (refile 0 pcb sb).readyQueue.items =
        [] ++ sa.waitingQueue.items.filter (fun q => pending_available sa (some 0) q) ++
          (if pcb.processState = RUNNING ∧ pcb.nextInstruction ≠ [] then [0] else []) ∧
      ready_after_turn_spec 1 (some 0) exThirdTurn = some (refile 0 pcb sb).readyQueue.items ∧
      (processes_deadlocked (refile 0 pcb sb).procs = 0 → exThirdTurnDone = refile 0 pcb sb) ∧
      (processes_deadlocked (refile 0 pcb sb).procs ≠ 0 →
        ∃ s4, release_all_resources_from_process 0 (refile 0 pcb sb) = some s4 ∧
          exThirdTurnDone.readyQueue.items = (refile 0 pcb sb).readyQueue.items ++
            (refile 0 pcb sb).waitingQueue.items.filter
              (fun q => pending_available (process_to_terminateq 0 s4) (some 0) q))) ∧
    (exDeadlockThree.readyQueue.items = [1] ∧ exDeadlockThree.waitingQueue.items = [0] ∧
      Counted exDeadlockThree.waitingQueue ∧
      rr_turn 1 (some 0) exDeadlockThree = some exDeadlockFour ∧
      exDeadlockFour.readyQueue.items = [0]) ∧
    (∃ sa sb pcb,
      quantum_walk (effective_quantum 1).toNat 1 (some 0) (afterDequeue [] exDeadlockThree) =
        some sa ∧
      send_processes_to_readyq (some 0) sa = some sb ∧
      sb.procs[1]? = some pcb ∧
      sb.readyQueue.items =
        [] ++ sa.waitingQueue.items.filter (fun q => pending_available sa (some 0) q) ∧
      (refile 1 pcb sb).readyQueue.items =
        [] ++ sa.waitingQueue.items.filter (fun q => pending_available sa (some 0) q) ++
          (if pcb.processState = RUNNING ∧ pcb.nextInstruction ≠ [] then [1] else []) ∧
      ready_after_turn_spec 1 (some 0) exDeadlockThree =
        some (refile 1 pcb sb).readyQueue.items ∧
      (processes_deadlocked (refile 1 pcb sb).procs = 0 → exDeadlockFour = refile 1 pcb sb) ∧
      (processes_deadlocked (refile 1 pcb sb).procs ≠ 0 →
        ∃ s4, release_all_resources_from_process 0 (refile 1 pcb sb) = some s4 ∧
          exDeadlockFour.readyQueue.items = (refile 1 pcb sb).readyQueue.items ++
            (refile 1 pcb sb).waitingQueue.items.filter
              (fun q => pending_available (process_to_terminateq 0 s4) (some 0) q))) :=
  ⟨⟨by decide, by decide,
      (by decide : exThirdTurn.waitingQueue.n = exThirdTurn.waitingQueue.items.length),
      (Option.some_get _).symm, by decide⟩,
    ready_queue_after_turn 1 (some 0) exThirdTurn exThirdTurnDone 0 [] (by decide)
      (by decide : exThirdTurn.waitingQueue.n = exThirdTurn.waitingQueue.items.length)
      (Option.some_get _).symm,
    ⟨by decide, by decide,
      (by decide : exDeadlockThree.waitingQueue.n = exDeadlockThree.waitingQueue.items.length),
      (Option.some_get _).symm, by decide⟩,
    ready_queue_after_turn 1 (some 0) exDeadlockThree exDeadlockFour 1 [] (by decide)
      (by decide : exDeadlockThree.waitingQueue.n = exDeadlockThree.waitingQueue.items.length)
      (Option.some_get _).symm⟩

/-- Claim C24, evaluated on `exTwice` with quantum 2.  In the second turn the
request of `P2` is turned down twice and `P2` is put on the waiting queue
twice; the drain of the third turn promotes both entries before `P1` is
re-filed, so that the ready queue is `P2`, `P2`, `P1`.  The next three turns
are taken by `P2`, `P2`, `P1`: `P2` has a second turn, and executes all four of
its instructions, before `P1`, which is on the ready queue with it, has its
turn. -/
theorem duplicate_entry_takes_second_turn_first :
    (rr_turns 2 2 (firstResource ["R", "S"]) exTwice).map (fun s => s.waitingQueue.items) =
      some [1, 1] ∧
    exTwiceThree.readyQueue.items = [1, 1, 0] ∧
    instrs exTwiceThree 0 = some [req "S"] ∧
    instrs exTwiceThree 1 = some [req "R", rel "R", req "R", rel "R"] ∧
    dispatch_order 3 2 (firstResource ["R", "S"]) exTwiceThree = some [1, 1, 0] ∧
    (rr_turns 2 2 (firstResource ["R", "S"]) exTwiceThree).map (fun s => instrs s 0) =
      some (some [req "S"]) ∧
    (rr_turns 2 2 (firstResource ["R", "S"]) exTwiceThree).map (fun s => instrs s 1) =
      some (some []) ∧
    (rr_turns 2 2 (firstResource ["R", "S"]) exTwiceThree).map
        (fun s => s.out.drop exTwiceThree.out.length) =
      some [Event.req_acquired "P2" "R" ["S"], Event.rel_released "P2" "R" ["R", "S"],
        Event.req_acquired "P2" "R" ["S"], Event.rel_released "P2" "R" ["R", "S"]] :=
  ⟨by decide, by decide, by decide, by decide, by decide, by decide, by decide, by decide⟩

/-- The order of the turns at `exScenario1`, whose ready queue is `P1`, `P2`:
the first two turns are the turn of `P1` and then the turn of `P2`. -/
theorem ready_queue_is_served_in_order_witness :
    rr_turns 2 1 (some 0) exScenario1 = some exThirdTurn ∧
    exScenario1.readyQueue.items = [0, 1] ∧
    dispatch_order 2 1 (some 0) exScenario1 = some [0, 1] :=
  ⟨(Option.some_get _).symm, by decide,
    (ready_queue_is_served_in_order 1 (some 0) 2 exScenario1 exThirdTurn
      (Option.some_get _).symm).2.1 (by decide)⟩

/-- Claim C28 at the first instruction of `exScenario1`: the request of `R` by
`P1` is satisfied, the cursor of `P1` moves to its release and the cursor of
`P2` stays. -/
theorem cursor_advances_by_one_witness :
    (dispatch 0 (req "R") (some 0) exScenario1 = some exFirstStep ∧
      instrs exScenario1 0 = some [req "R", rel "R"] ∧
      instrs exFirstStep 0 = some [rel "R"]) ∧
    (instrs exFirstStep 0 = some [rel "R"] ∨ instrs exFirstStep 0 = some [req "R", rel "R"]) ∧
    ∀ q, q ≠ 0 → instrs exFirstStep q = instrs exScenario1 q :=
  ⟨⟨(Option.some_get _).symm, by decide, by decide⟩,
    (cursor_advances_by_one 0 (req "R") (some 0) exScenario1 exFirstStep exScenario1P1
      [rel "R"] (by decide) rfl (Option.some_get _).symm).1,
    (cursor_advances_by_one 0 (req "R") (some 0) exScenario1 exFirstStep exScenario1P1
      [rel "R"] (by decide) rfl (Option.some_get _).symm).2.2.1⟩

/-- Claim C29 at the third turn of `exScenario1`: `P1` is TERMINATED after the
turn, in which it executes its last instruction, the release of `R`. -/
theorem terminated_only_by_release_or_recovery_witness :
    (exThirdTurn.readyQueue.items = [0] ∧
      rr_turn 1 (some 0) exThirdTurn = some exThirdTurnDone ∧
      stateOf exThirdTurn 0 = some READY ∧ instrs exThirdTurn 0 = some [rel "R"] ∧
      stateOf exThirdTurnDone 0 = some TERMINATED) ∧
    (stateOf exThirdTurn 0 = some TERMINATED ∨
      (0 = 0 ∧ ∃ L i, instrs exThirdTurn 0 = some (L ++ [i]) ∧ i.type = InstrType.REL_V ∧
        instrs exThirdTurnDone 0 = some []) ∨
      (0 = 0 ∧ ∃ s3 s4, processes_deadlocked s3.procs ≠ 0 ∧
        release_all_resources_from_process 0 s3 = some s4 ∧
        send_processes_to_readyq (some 0) (process_to_terminateq 0 s4) =
          some exThirdTurnDone)) :=
  ⟨⟨by decide, (Option.some_get _).symm, by decide, by decide, by decide⟩,
    (terminated_only_by_release_or_recovery 1 (some 0) exThirdTurn exThirdTurnDone 0 [] 0
      (by decide) (Option.some_get _).symm (by decide)).1⟩

/-! ## Well-formed states -/

theorem ValidPtr.longer {h h1 : List resourceList} {p : Option Nat} (hp : ValidPtr h p)
    (hlen : h.length ≤ h1.length) : ValidPtr h1 p :=
  fun a ha => Nat.lt_of_lt_of_le (hp a ha) hlen

/-- The heap after `add_resource_to_process` is ranked: the copy gets the rank
of the instance it copies. -/
theorem Ranked.ranked_afterAdd {rank : Nat → Nat} {h : List resourceList} (hr : Ranked rank h)
    (a : Nat) (node : resourceList) (hn : h[a]? = some node) :
    Ranked (fun x => if x = h.length then rank a else rank x) (heapAfterAdd h a node) := by
  have hal : a < h.length := (List.getElem?_eq_some.mp hn).1
  obtain ⟨hra, hnexta⟩ := hr.node hn
  intro b hb nb hnb
  rw [heapAfterAdd_length] at hb ⊢
  have hbl : b < h.length + 1 := List.mem_range.1 hb
  have hrank_lt : ∀ d, d < h.length → (fun x => if x = h.length then rank a else rank x) d = rank d := by
    intro d hd
    simp [Nat.ne_of_lt hd]
  by_cases hbnew : b = h.length
  · subst hbnew
    have hnew : (heapAfterAdd h a node)[h.length]? =
        some { name := node.name, available := 0, next := node.next } := by
      unfold heapAfterAdd
      rw [List.getElem?_append_right (by simp)]
      simp
    rw [hnew, Option.some.injEq] at hnb
    subst hnb
    refine ⟨by simp; omega, fun d hd => ?_⟩
    obtain ⟨hd1, hd2⟩ := hnexta d hd
    refine ⟨by omega, ?_⟩
    rw [hrank_lt d hd1]
    simpa using hd2
  · have hbl2 : b < h.length := by omega
    rw [hrank_lt b hbl2]
    by_cases hba : b = a
    · subst hba
      rw [heapAfterAdd_at h b node hn, Option.some.injEq] at hnb
      subst hnb
      refine ⟨by omega, fun d hd => ?_⟩
      obtain ⟨hd1, hd2⟩ := hnexta d hd
      exact ⟨by omega, by rw [hrank_lt d hd1]; exact hd2⟩
    · rw [heapAfterAdd_other h a node b hbl2 hba] at hnb
      obtain ⟨h1, h2⟩ := hr.node hnb
      refine ⟨by omega, fun d hd => ?_⟩
      obtain ⟨hd1, hd2⟩ := h2 d hd
      exact ⟨by omega, by rw [hrank_lt d hd1]; exact hd2⟩

/-- A state with the same heap, whose control blocks have the
`resourceListPtr` they had, is as well formed. -/
theorem HeapOK.of_same (resource : Option Nat) {s s1 : State} (hok : HeapOK resource s)
    (hheap : s1.heap = s.heap)
    (hptr : ∀ (q : Nat) (b1 : processControlBlock), s1.procs[q]? = some b1 →
      ∃ b, s.procs[q]? = some b ∧ b1.resourceListPtr = b.resourceListPtr) :
    HeapOK resource s1 := by
  obtain ⟨hr, hres, hp⟩ := hok
  refine ⟨by rw [hheap]; exact hr, by rw [hheap]; exact hres, ?_⟩
  intro q b1 hb1
  obtain ⟨b, hb, he⟩ := hptr q b1 hb1
  rw [hheap, he]
  exact hp q b hb

theorem HeapOK.same_procs (resource : Option Nat) {s : State} (hok : HeapOK resource s)
    (s1 : State) (hheap : s1.heap = s.heap) (hprocs : s1.procs = s.procs) :
    HeapOK resource s1 :=
  hok.of_same resource hheap (fun q b1 h => ⟨b1, by rw [← hprocs]; exact h, rfl⟩)

theorem setPcb_ptrs (s : State) (p : Nat) (f : processControlBlock → processControlBlock)
    (hf : ∀ b, (f b).resourceListPtr = b.resourceListPtr) :
    ∀ (q : Nat) (b1 : processControlBlock), (s.setPcb p f).procs[q]? = some b1 →
      ∃ b, s.procs[q]? = some b ∧ b1.resourceListPtr = b.resourceListPtr := by
  intro q b1 hb1
  by_cases hq : q = p
  · subst hq
    cases hb : s.procs[q]? with
    | none =>
      have h1 := (List.getElem?_eq_some.mp hb1).1
      rw [length_setPcb] at h1
      have h2 := List.getElem?_eq_none_iff.mp hb
      omega
    | some b =>
      rw [setPcb_procs_self s q f b hb, Option.some.injEq] at hb1
      subst hb1
      exact ⟨b, rfl, hf b⟩
  · rw [getElem?_setPcb_ne s p q f hq] at hb1
    exact ⟨b1, hb1, rfl⟩

theorem HeapOK.ok_setPcb (resource : Option Nat) {s : State} (hok : HeapOK resource s) (p : Nat)
    (f : processControlBlock → processControlBlock)
    (hf : ∀ b, (f b).resourceListPtr = b.resourceListPtr) : HeapOK resource (s.setPcb p f) :=
  hok.of_same resource rfl (setPcb_ptrs s p f hf)

theorem HeapOK.ok_running (resource : Option Nat) {s : State} (hok : HeapOK resource s)
    (p : Nat) : HeapOK resource (s.setPcb p (fun b => { b with processState := RUNNING })) :=
  hok.ok_setPcb resource p _ (fun _ => rfl)

theorem HeapOK.ok_advance (resource : Option Nat) {s : State} (hok : HeapOK resource s)
    (p : Nat) : HeapOK resource (s.setPcb p advance) :=
  hok.ok_setPcb resource p _ (fun _ => rfl)

theorem HeapOK.ok_waitingq (resource : Option Nat) {s : State} (hok : HeapOK resource s)
    (p : Nat) : HeapOK resource (process_to_waitingq p s) :=
  hok.of_same resource rfl (setPcb_ptrs s p _ (fun _ => rfl))

theorem HeapOK.ok_terminateq (resource : Option Nat) {s : State} (hok : HeapOK resource s)
    (p : Nat) : HeapOK resource (process_to_terminateq p s) :=
  hok.of_same resource rfl (setPcb_ptrs s p _ (fun _ => rfl))

theorem HeapOK.ok_readyq (resource : Option Nat) {s : State} (hok : HeapOK resource s)
    (p : Nat) : HeapOK resource (process_to_readyq p s) :=
  hok.of_same resource rfl (setPcb_ptrs s p _ (fun _ => rfl))

theorem HeapOK.ok_out (resource : Option Nat) {s : State} (hok : HeapOK resource s)
    (o : List Event) : HeapOK resource { s with out := o } :=
  hok.same_procs resource _ rfl rfl

theorem HeapOK.ok_out_mail (resource : Option Nat) {s : State} (hok : HeapOK resource s)
    (o : List Event) (m : List mailbox) : HeapOK resource { s with out := o, mail := m } :=
  hok.same_procs resource _ rfl rfl

/-- On a well-formed heap `acquire_resource` returns and leaves the heap well
formed. -/
theorem acquire_resource_total (nm : String) (resource : Option Nat) (p : Nat) (s : State)
    (pcb : processControlBlock) (hok : HeapOK resource s) (hp : s.procs[p]? = some pcb) :
    ∃ b s1, acquire_resource (walkFuel s.heap) nm resource p s = some (b, s1) ∧
      HeapOK resource s1 := by
  obtain ⟨⟨rank, hr⟩, hres, hptrs⟩ := hok
  obtain ⟨l, hl, hll⟩ := hr.exists_chain resource hres
  by_cases hfree : ∃ a ∈ l, ∃ node, s.heap[a]? = some node ∧ freeNamed nm node
  · obtain ⟨pre, a, post, node, hsplit, hn, hfn, hpre⟩ := exists_first s.heap (freeNamed nm) l hfree
    subst hsplit
    have hacq := acquire_resource_first s nm p a node post hn hfn pre resource _ hl hll hpre
    obtain ⟨held, hH, hHl⟩ := hr.exists_chain pcb.resourceListPtr (hptrs p pcb hp)
    have hadd := add_resource_to_process_eq s p a pcb node held hp hn hH hHl
    have hlen := heapAfterAdd_length s.heap a node
    cases hptr : pcb.resourceListPtr with
    | none =>
      rw [hptr] at hadd
      dsimp only at hadd
      rw [hadd] at hacq
      dsimp only at hacq
      refine ⟨TRUE, _, hacq, ⟨_, hr.ranked_afterAdd a node hn⟩, ?_, ?_⟩
      · exact hres.longer (by simp only [setPcb_heap]; omega)
      · intro q b1 hb1
        by_cases hq : q = p
        · subst hq
          rw [setPcb_procs_self { s with heap := heapAfterAdd s.heap a node } q _ pcb hp,
            Option.some.injEq] at hb1
          subst hb1
          intro x hx
          simp only [Option.some.injEq] at hx
          subst hx
          simp only [setPcb_heap]
          omega
        · rw [getElem?_setPcb_ne _ p q _ hq] at hb1
          exact (hptrs q b1 hb1).longer (by simp only [setPcb_heap]; omega)
    | some hd =>
      rw [hptr] at hadd
      dsimp only at hadd
      rw [hadd] at hacq
      dsimp only at hacq
      refine ⟨TRUE, _, hacq, ⟨_, hr.ranked_afterAdd a node hn⟩,
        hres.longer (by show _ ≤ (heapAfterAdd _ _ _).length; omega), ?_⟩
      intro q b1 hb1
      exact (hptrs q b1 hb1).longer (by show _ ≤ (heapAfterAdd _ _ _).length; omega)
  · push_neg at hfree
    have hnone := acquire_resource_none s nm p l resource _ hl hll
      (fun a ha node hn hf => hfree a ha node hn hf)
    exact ⟨FALSE, s, hnone, ⟨rank, hr⟩, hres, hptrs⟩

/-! ## Every instruction returns on a well-formed state -/

/-- On a well-formed heap `release_resource` returns and leaves the heap well
formed. -/
theorem release_resource_total (nm : String) (resource : Option Nat) (p : Nat) (s : State)
    (pcb : processControlBlock) (hok : HeapOK resource s) (hp : s.procs[p]? = some pcb) :
    ∃ b s1, release_resource (walkFuel s.heap) nm resource p s = some (b, s1) ∧
      HeapOK resource s1 := by
  obtain ⟨⟨rank, hr⟩, hres, hptrs⟩ := hok
  obtain ⟨l, hl, hll⟩ := hr.exists_chain resource hres
  by_cases hnm : ∃ a ∈ l, ∃ node, s.heap[a]? = some node ∧ node.name = nm
  · obtain ⟨pre, a, post, node, hsplit, hn, hname, hpre⟩ :=
      exists_first s.heap (fun n => n.name = nm) l hnm
    subst hsplit
    have hrel := release_resource_first s nm p a node post hn hname pre resource _ hl hll hpre
    have hr1 := hr.ranked_setAvailable a node 1 hn
    have hlen1 : (s.heap.set a { node with available := 1 }).length = s.heap.length :=
      List.length_set _ _ _
    have hal : a < s.heap.length := (List.getElem?_eq_some.mp hn).1
    have hn1 : (s.heap.set a { node with available := 1 })[a]? =
        some { node with available := 1 } := by
      simp [List.getElem?_set, hal]
    obtain ⟨held, hH, hHl⟩ := hr1.exists_chain pcb.resourceListPtr
      ((hptrs p pcb hp).longer (by rw [hlen1]))
    obtain ⟨h1, hw⟩ := release_walk_total _ node.name held pcb.resourceListPtr none _ hH hHl
      (by intro pv hpv; cases hpv)
    obtain ⟨hr2, hlen2⟩ := release_walk_ranked rank node.name _ _ _ _ _ hr1
      (by intro pv hpv; cases hpv) hw
    have hfrom : release_resource_from_process p a
        { s with heap := s.heap.set a { node with available := 1 } } =
        some { s with heap := h1 } := by
      simp only [release_resource_from_process, hp, hn1]
      simp only [walkFuel] at hw
      simp only [walkFuel, hw]
    rw [hfrom] at hrel
    refine ⟨TRUE, _, hrel, ⟨rank, hr2⟩, hres.longer (by show _ ≤ h1.length; omega), ?_⟩
    intro q b hb
    exact (hptrs q b hb).longer (by show _ ≤ h1.length; omega)
  · push_neg at hnm
    have habs := release_resource_absent s nm p pcb hp l resource _ hl hll
      (fun a ha node hn => hnm a ha node hn)
    exact ⟨FALSE, _, habs, ⟨rank, hr⟩, hres, hptrs⟩

/-- On a well-formed heap `print_available_resources` returns. -/
theorem print_available_resources_returns (resource : Option Nat) (s : State)
    (hok : HeapOK resource s) :
    ∃ ns, print_available_resources (walkFuel s.heap) s.heap resource = some ns := by
  obtain ⟨⟨rank, hr⟩, hres, _⟩ := hok
  obtain ⟨l, hl, hll⟩ := hr.exists_chain resource hres
  exact print_available_resources_total s.heap l resource _ hl hll

/-- On a well-formed heap `process_request` returns and leaves the heap well
formed. -/
theorem process_request_total (p : Nat) (i : instruction) (resource : Option Nat) (s : State)
    (pcb : processControlBlock) (rest : List instruction) (hok : HeapOK resource s)
    (hp : s.procs[p]? = some pcb) (hnext : pcb.nextInstruction = i :: rest) :
    ∃ s1, process_request p i resource s = some s1 ∧ HeapOK resource s1 ∧
      s1.mail = s.mail := by
  have hok0 := hok.ok_running resource p
  have hp0 := setPcb_procs_self s p (fun b => { b with processState := RUNNING }) pcb hp
  obtain ⟨b, s2, hacq, hok2⟩ := acquire_resource_total i.resource resource p _ _ hok0 hp0
  have hmail : s2.mail = s.mail := (acquire_resource_effect _ _ _ _ _ _ _ hacq).1.2.2.2.1
  have hacq' : acquire_resource (walkFuel s.heap) i.resource resource p
      (s.setPcb p (fun b => { b with processState := RUNNING })) = some (b, s2) := hacq
  by_cases hb : b = 0
  · have hrun : process_request p i resource s = some (process_to_waitingq p
        { s2 with out := s2.out ++ [Event.req_waiting pcb.name i.resource] }) := by
      simp only [process_request, hp, hacq]
      simp [hb]
    refine ⟨_, hrun, ?_, hmail⟩
    exact (hok2.ok_out resource _).ok_waitingq resource p
  · obtain ⟨ns, hns⟩ := print_available_resources_returns resource s2 hok2
    have hrun : process_request p i resource s = some ({ s2 with
        out := s2.out ++ [Event.req_acquired pcb.name i.resource ns] }.setPcb p advance) := by
      simp only [process_request, hp, hacq]
      simp [hb, hns, hnext]
    refine ⟨_, hrun, ?_, hmail⟩
    exact (hok2.ok_out resource _).ok_advance resource p

/-- On a well-formed heap `process_release` returns and leaves the heap well
formed. -/
theorem process_release_total (p : Nat) (i : instruction) (resource : Option Nat) (s : State)
    (pcb : processControlBlock) (rest : List instruction) (hok : HeapOK resource s)
    (hp : s.procs[p]? = some pcb) (hnext : pcb.nextInstruction = i :: rest) :
    ∃ s1, process_release p i resource s = some s1 ∧ HeapOK resource s1 ∧
      s1.mail = s.mail := by
  have hok0 := hok.ok_running resource p
  have hp0 := setPcb_procs_self s p (fun b => { b with processState := RUNNING }) pcb hp
  obtain ⟨b, s2, hrel, hok2⟩ := release_resource_total i.resource resource p _ _ hok0 hp0
  have hmail : s2.mail = s.mail := (release_resource_frame _ _ _ _ _ _ _ hrel).2.2.2.2
  by_cases hb : b = 0
  · have hrun : process_release p i resource s =
        some ((process_to_waitingq p s2).setPcb p advance) := by
      simp only [process_release, hp, hrel, hnext]
      simp [hb]
    refine ⟨_, hrun, ?_, hmail⟩
    exact (hok2.ok_waitingq resource p).ok_advance resource p
  · obtain ⟨ns, hns⟩ := print_available_resources_returns resource s2 hok2
    by_cases hrest : rest = []
    · have hrun : process_release p i resource s = some ((process_to_terminateq p { s2 with
          out := s2.out ++ [Event.rel_released pcb.name i.resource ns] }).setPcb p advance) := by
        simp only [process_release, hp, hrel, hnext]
        simp [hb, hns, hrest]
      refine ⟨_, hrun, ?_, hmail⟩
      exact ((hok2.ok_out resource _).ok_terminateq resource p).ok_advance resource p
    · have hrun : process_release p i resource s = some ({ s2 with
          out := s2.out ++ [Event.rel_released pcb.name i.resource ns] }.setPcb p advance) := by
        simp only [process_release, hp, hrel, hnext]
        simp [hb, hns, hrest]
      refine ⟨_, hrun, ?_, hmail⟩
      exact (hok2.ok_out resource _).ok_advance resource p

/-- A send to a mailbox of the table returns, keeps the heap and the names of
the mailboxes. -/
theorem process_send_message_total (p : Nat) (i : instruction) (resource : Option Nat)
    (s : State) (pcb : processControlBlock) (rest : List instruction) (hok : HeapOK resource s)
    (hp : s.procs[p]? = some pcb) (hnext : pcb.nextInstruction = i :: rest)
    (hm : ∃ m ∈ s.mail, m.name = i.resource) :
    ∃ s1, process_send_message p i s = some s1 ∧ HeapOK resource s1 ∧
      s1.mail.map (fun m => m.name) = s.mail.map (fun m => m.name) := by
  obtain ⟨k, m, hk, hmk, _, _⟩ := mailbox_lookup s.mail i.resource hm
  have hne : pcb.nextInstruction ≠ [] := by rw [hnext]; simp
  refine ⟨_, process_send_message_eq p i s pcb k m hp hne hk hmk, ?_, ?_⟩
  · exact ((hok.ok_running resource p).ok_out_mail resource _ _).ok_advance resource p
  · exact set_msg_names s.mail k m i.msg hmk

/-- A receive from a mailbox of the table returns, keeps the heap and the names
of the mailboxes. -/
theorem process_receive_message_total (p : Nat) (i : instruction) (resource : Option Nat)
    (s : State) (pcb : processControlBlock) (rest : List instruction) (hok : HeapOK resource s)
    (hp : s.procs[p]? = some pcb) (hnext : pcb.nextInstruction = i :: rest)
    (hm : ∃ m ∈ s.mail, m.name = i.resource) :
    ∃ s1, process_receive_message p i s = some s1 ∧ HeapOK resource s1 ∧
      s1.mail.map (fun m => m.name) = s.mail.map (fun m => m.name) := by
  obtain ⟨k, m, hk, hmk, _, _⟩ := mailbox_lookup s.mail i.resource hm
  have hne : pcb.nextInstruction ≠ [] := by rw [hnext]; simp
  refine ⟨_, process_receive_message_eq p i s pcb k m hp hne hk hmk, ?_, ?_⟩
  · exact ((hok.ok_running resource p).ok_out_mail resource _ _).ok_advance resource p
  · exact set_msg_names s.mail k m none hmk

/-- On a well-formed state every instruction returns and leaves the state well
formed. -/
theorem dispatch_total (p : Nat) (i : instruction) (resource : Option Nat) (s : State)
    (pcb : processControlBlock) (rest : List instruction)
    (hok : HeapOK resource s) (hmail : MailOK s)
    (hp : s.procs[p]? = some pcb) (hnext : pcb.nextInstruction = i :: rest) :
    ∃ s1, dispatch p i resource s = some s1 ∧ HeapOK resource s1 ∧ MailOK s1 := by
  have hmem : i ∈ pcb.nextInstruction := by rw [hnext]; exact List.mem_cons_self _ _
  have hex : ∃ s1, dispatch p i resource s = some s1 ∧ HeapOK resource s1 ∧
      s1.mail.map (fun m => m.name) = s.mail.map (fun m => m.name) := by
    unfold dispatch
    split
    · obtain ⟨s1, h1, h2, h3⟩ := process_request_total p i resource s pcb rest hok hp hnext
      exact ⟨s1, h1, h2, by rw [h3]⟩
    · obtain ⟨s1, h1, h2, h3⟩ := process_release_total p i resource s pcb rest hok hp hnext
      exact ⟨s1, h1, h2, by rw [h3]⟩
    · rename_i htype
      exact process_send_message_total p i resource s pcb rest hok hp hnext
        (hmail p pcb hp i hmem (Or.inl htype))
    · rename_i htype
      exact process_receive_message_total p i resource s pcb rest hok hp hnext
        (hmail p pcb hp i hmem (Or.inr htype))
  obtain ⟨s1, h1, h2, hnames⟩ := hex
  refine ⟨s1, h1, h2, ?_⟩
  obtain ⟨pcb1, ⟨_, _, hothers, hp1, _, _⟩, ho⟩ :=
    dispatch_outcome p i resource s s1 pcb rest hp hnext h1
  have hsub : ∀ j ∈ pcb1.nextInstruction, j ∈ pcb.nextInstruction := by
    intro j hj
    rw [hnext]
    rcases ho with ho | ho | ho | ho
    · rw [ho.1] at hj
      exact List.mem_cons_of_mem _ hj
    · rw [ho.2.2.1] at hj
      simp at hj
    · rw [ho.2.1] at hj
      exact hj
    · rw [ho.2.1] at hj
      exact List.mem_cons_of_mem _ hj
  have hmailmem : ∀ r, (∃ m ∈ s.mail, m.name = r) → ∃ m ∈ s1.mail, m.name = r := by
    intro r ⟨m, hm, hr⟩
    have : r ∈ s1.mail.map (fun m => m.name) := by
      rw [hnames]
      exact List.mem_map.2 ⟨m, hm, hr⟩
    obtain ⟨m1, hm1, hr1⟩ := List.mem_map.1 this
    exact ⟨m1, hm1, hr1⟩
  intro q b hb j hj hty
  by_cases hq : q = p
  · subst hq
    rw [hp1, Option.some.injEq] at hb
    subst hb
    exact hmailmem _ (hmail q pcb hp j (hsub j hj) hty)
  · rw [hothers q hq] at hb
    exact hmailmem _ (hmail q b hb j hj hty)

/-! ## The loaded model is well formed -/

/-- The loaded heap is ranked by the distance to the end of the table. -/
theorem load_resources_ranked (names : List String) :
    Ranked (fun a => names.length - 1 - a) (load_resources names) := by
  intro a ha node hn
  rw [load_resources_length] at ha ⊢
  have hal : a < names.length := List.mem_range.1 ha
  have hnm : names[a]? = some (names.get ⟨a, hal⟩) := List.getElem?_eq_getElem hal
  rw [load_resources_getElem? names a _ hnm, Option.some.injEq] at hn
  subst hn
  refine ⟨by show names.length - 1 - a < names.length; omega, fun b hb => ?_⟩
  by_cases hlt : a + 1 < names.length
  · simp only [hlt, if_true, Option.some.injEq] at hb
    subst hb
    exact ⟨hlt, by show names.length - 1 - (a + 1) < names.length - 1 - a; omega⟩
  · simp [hlt] at hb

theorem load_procs_getElem? (processes : List (String × List instruction))
    (resources mailboxes : List String) (q : Nat) (b : processControlBlock)
    (hb : (load processes resources mailboxes).procs[q]? = some b) :
    ∃ pr, processes[q]? = some pr ∧ b.name = pr.1 ∧ b.processState = READY ∧
      b.nextInstruction = pr.2 ∧ b.resourceListPtr = none := by
  simp only [load, List.getElem?_map, List.getElem?_enum, Option.map_eq_some'] at hb
  obtain ⟨x, ⟨pr, hpr, hx⟩, hbx⟩ := hb
  subst hx
  subst hbx
  exact ⟨pr, hpr, rfl, rfl, rfl, rfl⟩

/-- The loaded state has a well-formed heap. -/
theorem load_heapOK (processes : List (String × List instruction))
    (resources mailboxes : List String) :
    HeapOK (firstResource resources) (load processes resources mailboxes) := by
  refine ⟨⟨_, load_resources_ranked resources⟩, ?_, ?_⟩
  · intro a ha
    unfold firstResource at ha
    split at ha
    · cases ha
    · rename_i hne
      simp only [Option.some.injEq] at ha
      subst ha
      show 0 < (load_resources resources).length
      rw [load_resources_length]
      exact List.length_pos.2 hne
  · intro q b hb
    obtain ⟨pr, _, _, _, _, hbe⟩ := load_procs_getElem? processes resources mailboxes q b hb
    rw [hbe]
    intro a ha
    cases ha

/-- The loaded state names only mailboxes of the table when the instruction
lists do. -/
theorem load_mailOK (processes : List (String × List instruction))
    (resources mailboxes : List String)
    (hm : ∀ pr ∈ processes, ∀ i ∈ pr.2,
      (i.type = InstrType.SEND_V ∨ i.type = InstrType.RECV_V) → i.resource ∈ mailboxes) :
    MailOK (load processes resources mailboxes) := by
  intro q b hb i hi hty
  obtain ⟨pr, hpr, _, _, hbe, _⟩ := load_procs_getElem? processes resources mailboxes q b hb
  rw [hbe] at hi
  have hmem := hm pr (List.getElem?_mem hpr) i hi hty
  exact ⟨{ name := i.resource, msg := none }, by
    simp only [load, List.mem_map]
    exact ⟨i.resource, hmem, rfl⟩, rfl⟩

theorem sum_map_set (f : processControlBlock → Nat) :
    ∀ (l : List processControlBlock) (p : Nat) (b b1 : processControlBlock),
      l[p]? = some b → ((l.set p b1).map f).sum + f b = (l.map f).sum + f b1 := by
  intro l
  induction l with
  | nil => intro p b b1 h; simp at h
  | cons c l ih =>
    intro p b b1 h
    cases p with
    | zero =>
      simp only [List.getElem?_cons_zero, Option.some.injEq] at h
      subst h
      simp only [List.set_cons_zero, List.map_cons, List.sum_cons]
      omega
    | succ p =>
      simp only [List.getElem?_cons_succ] at h
      have := ih p b b1 h
      simp only [List.set_cons_succ, List.map_cons, List.sum_cons]
      omega

/-- An instruction that changes the control block of `p` only changes the
number of remaining instructions by the change of the cursor of `p`. -/
theorem remaining_step (s s1 : State) (p : Nat) (b b1 : processControlBlock)
    (hothers : ∀ q, q ≠ p → s1.procs[q]? = s.procs[q]?)
    (hp : s.procs[p]? = some b) (hp1 : s1.procs[p]? = some b1) :
    remaining s1 + b.nextInstruction.length = remaining s + b1.nextInstruction.length := by
  have hset : s1.procs = s.procs.set p b1 := by
    apply List.ext_getElem?
    intro q
    by_cases hq : q = p
    · subst hq
      have hql : q < s.procs.length := (List.getElem?_eq_some.mp hp).1
      rw [hp1]
      simp [List.getElem?_set, hql]
    · rw [hothers q hq, List.getElem?_set_ne (Ne.symm hq)]
  unfold remaining
  rw [hset]
  exact sum_map_set _ s.procs p b b1 hp

/-! ## First come, first served: the run returns -/

theorem enqueue_ne (q : queue) (p : Nat) : enqueue q p ≠ q := by
  intro h
  have := congrArg (fun x => x.items.length) h
  simp [enqueue] at this

/-- An instruction that is not a request that waits consumes one instruction. -/
theorem dispatch_consumes (p : Nat) (i : instruction) (resource : Option Nat) (s s1 : State)
    (pcb : processControlBlock) (rest : List instruction)
    (hp : s.procs[p]? = some pcb) (hnext : pcb.nextInstruction = i :: rest)
    (h : dispatch p i resource s = some s1)
    (hsat : i.type = InstrType.REQ_V → s1.waitingQueue = s.waitingQueue) :
    remaining s1 + 1 = remaining s ∧ s1.readyQueue = s.readyQueue ∧
      s1.procs.length = s.procs.length := by
  obtain ⟨pcb1, ⟨hrq, hlen, hothers, hp1, _, _⟩, ho⟩ :=
    dispatch_outcome p i resource s s1 pcb rest hp hnext h
  have hstep := remaining_step s s1 p pcb pcb1 hothers hp hp1
  rw [hnext] at hstep
  have hcur : pcb1.nextInstruction = rest := by
    rcases ho with ho | ho | ho | ho
    · exact ho.1
    · rw [ho.2.2.1, ho.2.1]
    · exact absurd ((hsat ho.1).symm.trans ho.2.2.2.1) (Ne.symm (enqueue_ne _ _))
    · exact ho.2.1
  rw [hcur] at hstep
  simp only [List.length_cons] at hstep
  exact ⟨by omega, hrq, hlen⟩

/-- The first-come-first-served run returns: on a well-formed state, when
every request it attempts is satisfied, fuel beyond the number of remaining
instructions plus the length of the ready queue is enough. -/
theorem schedule_processes_fcfs_total (resource : Option Nat) :
    ∀ (fuel p : Nat) (s : State), HeapOK resource s → MailOK s → p < s.procs.length →
      (∀ x ∈ s.readyQueue.items, x < s.procs.length) →
      remaining s + s.readyQueue.items.length < fuel →
      requests_satisfied fuel p resource s = true →
      ∃ s1, schedule_processes_fcfs fuel p resource s = some s1 := by
  intro fuel
  induction fuel with
  | zero => intro p s _ _ _ _ hf _; exact absurd hf (Nat.not_lt_zero _)
  | succ f ih =>
    intro p s hok hmail hpl hready hf hsat
    obtain ⟨b, hp⟩ : ∃ b, s.procs[p]? = some b := ⟨_, List.getElem?_eq_getElem hpl⟩
    cases hnext : b.nextInstruction with
    | cons i rest =>
      obtain ⟨s1, hd, hok1, hmail1⟩ := dispatch_total p i resource s _ rest hok hmail hp hnext
      simp only [requests_satisfied, hp, hnext, hd, Bool.and_eq_true, decide_eq_true_eq] at hsat
      obtain ⟨hrem, hrq, hlen⟩ := dispatch_consumes p i resource s s1 _ rest hp hnext hd hsat.1
      obtain ⟨s2, h2⟩ := ih p s1 hok1 hmail1 (by omega) (by rw [hrq, hlen]; exact hready)
        (by rw [hrq]; omega) hsat.2
      exact ⟨s2, by simp only [schedule_processes_fcfs, hp, hnext, hd]; exact h2⟩
    | nil =>
      cases hitems : s.readyQueue.items with
      | nil => exact ⟨s, by simp [schedule_processes_fcfs, hp, hnext, dequeue, hitems]⟩
      | cons h R =>
        have hdq : dequeue s.readyQueue = some (h, { items := R, n := s.readyQueue.n - 1 }) := by
          simp [dequeue, hitems]
        simp only [requests_satisfied, hp, hnext, hdq] at hsat
        obtain ⟨s2, h2⟩ := ih h { s with readyQueue := { items := R, n := s.readyQueue.n - 1 } }
          (hok.same_procs resource _ rfl rfl) hmail
          (hready h (by rw [hitems]; exact List.mem_cons_self _ _))
          (fun x hx => hready x (by rw [hitems]; exact List.mem_cons_of_mem _ hx))
          (by
            have : remaining { s with readyQueue := { items := R, n := s.readyQueue.n - 1 } } =
                remaining s := rfl
            rw [this]
            rw [hitems] at hf
            simp only [List.length_cons] at hf
            show remaining s + R.length < f
            omega)
          hsat
        exact ⟨s2, by simp only [schedule_processes_fcfs, hp, hnext, hdq]; exact h2⟩

/-! ## First come, first served: one process after the other -/

/-- A request that `acquire_resource` turns down is turned down in every state
with the same heap. -/
theorem acquire_resource_zero_heap (nm : String) (p : Nat) :
    ∀ (fuel : Nat) (p0 : Option Nat) (s s1 t : State),
      acquire_resource fuel nm p0 p s = some (0, s1) → t.heap = s.heap →
      acquire_resource fuel nm p0 p t = some (0, t) := by
  intro fuel
  induction fuel with
  | zero => intro p0 s s1 t h _; simp [acquire_resource] at h
  | succ f ih =>
    intro p0 s s1 t h ht
    cases p0 with
    | none => simp [acquire_resource, FALSE]
    | some a =>
      simp only [acquire_resource] at h ⊢
      rw [ht]
      cases hn : s.heap[a]? with
      | none => rw [hn] at h; simp at h
      | some node =>
        rw [hn] at h
        simp only at h ⊢
        by_cases hname : node.name = nm
        · by_cases hav : node.available = 1
          · simp only [hname, hav, if_true] at h
            cases hadd : add_resource_to_process p a s with
            | none => rw [hadd] at h; simp at h
            | some s2 => rw [hadd] at h; simp [TRUE] at h
          · simp only [hname, hav, if_true, if_false] at h ⊢
            exact ih _ _ _ t h ht
        · simp only [hname, if_false] at h ⊢
          exact ih _ _ _ t h ht

/-- A request that is turned down leaves its process stuck on it. -/
theorem stuck_of_blocked (p : Nat) (i : instruction) (resource : Option Nat) (s s1 : State)
    (pcb : processControlBlock) (rest : List instruction)
    (hp : s.procs[p]? = some pcb) (hnext : pcb.nextInstruction = i :: rest)
    (htype : i.type = InstrType.REQ_V)
    (h : process_request p i resource s = some s1)
    (hw : s1.waitingQueue ≠ s.waitingQueue) : Stuck p i resource s1 := by
  obtain ⟨acquired, s2, pcb1, hacq, ⟨_, _, _, hp1, _, _⟩, hcase⟩ :=
    process_request_outcome p i resource s s1 pcb rest hp hnext htype h
  rcases hcase with ⟨_, hran⟩ | ⟨hz, hb⟩
  · exact absurd hran.2.2.1 hw
  · subst hz
    refine ⟨pcb1, rest, s1.setPcb p (fun b => { b with processState := RUNNING }), hp1,
      hb.2.1, htype, ?_⟩
    have hheap : s1.heap = s.heap := hb.2.2.2.2.2.1
    rw [show walkFuel s1.heap = walkFuel s.heap by rw [hheap]]
    exact acquire_resource_zero_heap _ _ _ _ _ _ _ hacq hheap

/-- The first-come-first-served run of a process that is stuck on a request
does not return: the request is attempted again and again. -/
theorem schedule_processes_fcfs_stuck (p : Nat) (i : instruction) (resource : Option Nat) :
    ∀ (fuel : Nat) (s : State), Stuck p i resource s →
      schedule_processes_fcfs fuel p resource s = none := by
  intro fuel
  induction fuel with
  | zero => intro s _; rfl
  | succ f ih =>
    intro s hs
    obtain ⟨pcb, rest, s2, hp, hnext, htype, hacq⟩ := hs
    simp only [schedule_processes_fcfs, hp, hnext]
    cases hd : dispatch p i resource s with
    | none => rfl
    | some s1 =>
      simp only
      apply ih
      have h' : process_request p i resource s = some s1 := by
        simpa only [dispatch, htype] using hd
      obtain ⟨acquired, s3, pcb1, hacq3, _, hcase⟩ :=
        process_request_outcome p i resource s s1 pcb rest hp hnext htype h'
      rw [hacq, Option.some.injEq, Prod.mk.injEq] at hacq3
      rcases hcase with ⟨hnz, _⟩ | ⟨_, hb⟩
      · exact absurd hacq3.1.symm hnz
      · exact stuck_of_blocked p i resource s s1 pcb rest hp hnext htype h'
          (by rw [hb.2.2.2.1]; exact enqueue_ne _ _)

/-- The `while` loop of `schedule_processes_fcfs` on the process `p`, when the
run returns: the loop ends in a state `sm` in which `p` has no instruction
left; it has logged one event per instruction of `p`, in order, and changed no
other control block; the run goes on with the head of the ready queue. -/
theorem schedule_processes_fcfs_loop (resource : Option Nat) :
    ∀ (fuel p : Nat) (s s1 : State) (b : processControlBlock),
      schedule_processes_fcfs fuel p resource s = some s1 → s.procs[p]? = some b →
      ∃ sm bm blk f1, sm.procs[p]? = some bm ∧ bm.nextInstruction = [] ∧
        bm.name = b.name ∧ (∀ q, q ≠ p → sm.procs[q]? = s.procs[q]?) ∧
        sm.procs.length = s.procs.length ∧
        sm.readyQueue = s.readyQueue ∧ sm.out = s.out ++ blk ∧
        List.Forall₂ (fun e i => Event.logs b.name i e) blk b.nextInstruction ∧
        (match dequeue sm.readyQueue with
         | none => s1 = sm
         | some (h, rq) =>
           schedule_processes_fcfs f1 h resource { sm with readyQueue := rq } = some s1) := by
  intro fuel
  induction fuel with
  | zero => intro p s s1 b h _; simp [schedule_processes_fcfs] at h
  | succ f ih =>
    intro p s s1 b h hp
    simp only [schedule_processes_fcfs, hp] at h
    cases hnext : b.nextInstruction with
    | nil =>
      simp only [hnext] at h
      refine ⟨s, b, [], f, hp, hnext, rfl, fun _ _ => rfl, rfl, rfl, by simp, List.Forall₂.nil, ?_⟩
      cases hdq : dequeue s.readyQueue with
      | none =>
        simp only [hdq, Option.some.injEq] at h
        exact h.symm
      | some x =>
        obtain ⟨hd, rq⟩ := x
        simp only [hdq] at h
        exact h
    | cons i rest =>
      simp only [hnext] at h
      cases hd : dispatch p i resource s with
      | none => simp [hd] at h
      | some s2 =>
        simp only [hd] at h
        obtain ⟨pcb1, ⟨hrq, hlen, hothers, hp1, hname, _⟩, ho⟩ :=
          dispatch_outcome p i resource s s2 b rest hp hnext hd
        have hprog : pcb1.nextInstruction = rest ∧
            ∃ e, s2.out = s.out ++ [e] ∧ Event.logs b.name i e := by
          rcases ho with ho | ho | ho | ho
          · obtain ⟨e, he, hl, _⟩ := ho.2.2.2.2.2
            exact ⟨ho.1, e, he, hl⟩
          · obtain ⟨e, he, hl, _⟩ := ho.2.2.2.2.2.2
            exact ⟨by rw [ho.2.2.1, ho.2.1], e, he, hl⟩
          · exfalso
            have h' : process_request p i resource s = some s2 := by
              simpa only [dispatch, ho.1] using hd
            have hst := stuck_of_blocked p i resource s s2 b rest hp hnext ho.1 h'
              (by rw [ho.2.2.2.1]; exact enqueue_ne _ _)
            rw [schedule_processes_fcfs_stuck p i resource f s2 hst] at h
            cases h
          · exact ⟨ho.2.1, _, ho.2.2.2.2.2.2.2, ⟨rfl, ho.1, rfl⟩⟩
        obtain ⟨hcur, e, hout, hlog⟩ := hprog
        obtain ⟨sm, bm, blk, f1, h1, h2, h3, h4, h5, h6, h7, h8, h9⟩ := ih p s2 s1 pcb1 h hp1
        refine ⟨sm, bm, e :: blk, f1, h1, h2, h3.trans hname, ?_, h5.trans hlen, h6.trans hrq,
          ?_, ?_, h9⟩
        · intro q hq
          exact (h4 q hq).trans (hothers q hq)
        · rw [h7, hout]
          simp
        · rw [hcur, hname] at h8
          exact List.Forall₂.cons hlog h8

theorem forall2_imp_mem {α β : Type} {R S : α → β → Prop} :
    ∀ (l : List α) (l1 : List β), (∀ a b, a ∈ l → R a b → S a b) →
      List.Forall₂ R l l1 → List.Forall₂ S l l1 := by
  intro l
  induction l with
  | nil =>
    intro l1 _ h
    cases h
    exact List.Forall₂.nil
  | cons a l ih =>
    intro l1 himp h
    cases h with
    | cons hab hrest =>
      exact List.Forall₂.cons (himp a _ (List.mem_cons_self a l) hab)
        (ih _ (fun a1 b1 ha1 => himp a1 b1 (List.mem_cons_of_mem a ha1)) hrest)

/-- A first-come-first-served run that returns, started on `p` with the ready
queue `R`, no process twice: the log grows by one block of events per process,
in the order `p`, `R`; each block is the events of the instructions of its
process; at the end these processes have no instruction left and the ready
queue is empty. -/
theorem schedule_processes_fcfs_blocks (resource : Option Nat) :
    ∀ (R : List Nat) (fuel p : Nat) (s s1 : State),
      s.readyQueue.items = R → (p :: R).Nodup → p < s.procs.length →
      (∀ x ∈ R, x < s.procs.length) →
      schedule_processes_fcfs fuel p resource s = some s1 →
      ∃ blocks, s1.out = s.out ++ blocks.flatten ∧
        List.Forall₂ (RunsToEnd s) (p :: R) blocks ∧
        (∀ x ∈ p :: R, instrs s1 x = some []) ∧
        (∀ x, x ∉ p :: R → s1.procs[x]? = s.procs[x]?) ∧
        s1.readyQueue.items = [] ∧ s1.procs.length = s.procs.length := by
  intro R
  induction R with
  | nil =>
    intro fuel p s s1 hR _ hpl _ h
    obtain ⟨b, hp⟩ : ∃ b, s.procs[p]? = some b := ⟨_, List.getElem?_eq_getElem hpl⟩
    obtain ⟨sm, bm, blk, f1, h1, h2, _, h4, h5, h6, h7, h8, h9⟩ :=
      schedule_processes_fcfs_loop resource fuel p s s1 b h hp
    have hdq : dequeue sm.readyQueue = none := by
      rw [h6]
      simp [dequeue, hR]
    rw [hdq] at h9
    subst h9
    refine ⟨[blk], by simpa using h7, List.Forall₂.cons ⟨b, hp, h8⟩ List.Forall₂.nil, ?_, ?_,
      by rw [h6]; exact hR, h5⟩
    · intro x hx
      simp only [List.mem_singleton] at hx
      subst hx
      unfold instrs
      rw [h1]
      simp [h2]
    · intro x hx
      exact h4 x (fun e => hx (by rw [e]; exact List.mem_cons_self _ _))
  | cons hd R ih =>
    intro fuel p s s1 hR hnd hpl hRl h
    obtain ⟨b, hp⟩ : ∃ b, s.procs[p]? = some b := ⟨_, List.getElem?_eq_getElem hpl⟩
    obtain ⟨sm, bm, blk, f1, h1, h2, _, h4, h5, h6, h7, h8, h9⟩ :=
      schedule_processes_fcfs_loop resource fuel p s s1 b h hp
    have hdq : dequeue sm.readyQueue =
        some (hd, { items := R, n := sm.readyQueue.n - 1 }) := by
      rw [h6]
      simp [dequeue, hR]
    rw [hdq] at h9
    simp only at h9
    have hnd' : (hd :: R).Nodup := (List.nodup_cons.1 hnd).2
    have hpn : p ∉ hd :: R := (List.nodup_cons.1 hnd).1
    obtain ⟨blocks, g1, g2, g3, g4, g5, g6⟩ :=
      ih f1 hd { sm with readyQueue := { items := R, n := sm.readyQueue.n - 1 } } s1 rfl hnd'
        (by show hd < sm.procs.length; rw [h5]; exact hRl hd (List.mem_cons_self _ _))
        (fun x hx => by
          show x < sm.procs.length
          rw [h5]
          exact hRl x (List.mem_cons_of_mem _ hx)) h9
    refine ⟨blk :: blocks, ?_, List.Forall₂.cons ⟨b, hp, h8⟩ ?_, ?_, ?_, g5, g6.trans h5⟩
    · rw [g1]
      show sm.out ++ blocks.flatten = _
      rw [h7]
      simp
    · refine forall2_imp_mem _ _ ?_ g2
      intro x bl hx hrun
      obtain ⟨bx, hbx, hfx⟩ := hrun
      have hxp : x ≠ p := fun e => hpn (e ▸ hx)
      exact ⟨bx, by rw [← h4 x hxp]; exact hbx, hfx⟩
    · intro x hx
      rcases List.mem_cons.1 hx with hxp | hxr
      · subst hxp
        unfold instrs
        rw [g4 x hpn]
        show Option.map _ sm.procs[x]? = _
        rw [h1]
        simp [h2]
      · exact g3 x hxr
    · intro x hx
      have hxp : x ≠ p := fun e => hx (by rw [e]; exact List.mem_cons_self _ _)
      have hxr : x ∉ hd :: R := fun e => hx (List.mem_cons_of_mem _ e)
      rw [g4 x hxr]
      exact h4 x hxp

/-- The blocks of the processes `k`, `k + 1`, ... of a loaded model are blocks
of the declared instruction lists. -/
theorem load_blocks (processes : List (String × List instruction))
    (resources mailboxes : List String) :
    ∀ (l : List (String × List instruction)) (k : Nat) (bl : List (List Event)),
      (∀ j pr, l[j]? = some pr → processes[k + j]? = some pr) →
      List.Forall₂ (RunsToEnd (load processes resources mailboxes)) (List.range' k l.length) bl →
      List.Forall₂ (fun pr blk => List.Forall₂ (fun e i => Event.logs pr.1 i e) blk pr.2) l bl := by
  intro l
  induction l with
  | nil =>
    intro k bl _ h
    cases h
    exact List.Forall₂.nil
  | cons pr l ih =>
    intro k bl hl h
    rw [List.length_cons, List.range'_succ] at h
    cases h with
    | cons hhead hrest =>
      obtain ⟨b, hb, hlog⟩ := hhead
      obtain ⟨pr1, hpr1, hname, _, hcur, _⟩ :=
        load_procs_getElem? processes resources mailboxes k b hb
      have hk : processes[k]? = some pr := hl 0 pr (List.getElem?_cons_zero)
      rw [hk, Option.some.injEq] at hpr1
      subst hpr1
      rw [hname, hcur] at hlog
      refine List.Forall₂.cons hlog (ih (k + 1) _ (fun j pr2 hj => ?_) hrest)
      have := hl (j + 1) pr2 (by rw [List.getElem?_cons_succ]; exact hj)
      rw [← this]
      congr 1
      omega

/-- The first-come-first-served run of a loaded model with at least one
process, in which every send and receive names a mailbox of the table and
every request is satisfied when it is attempted, returns with enough fuel;
its log is one block of events per process, in creation order, each block the
events of the complete instruction list of its process; every cursor is at the
end of its list and the ready queue is empty. -/
theorem fcfs_runs_in_creation_order (processes : List (String × List instruction))
    (resources mailboxes : List String) (fuel : Nat) (quantum : Int)
    (hne : processes ≠ [])
    (hmbox : ∀ pr ∈ processes, ∀ i ∈ pr.2,
      (i.type = InstrType.SEND_V ∨ i.type = InstrType.RECV_V) → i.resource ∈ mailboxes)
    (hfuel : remaining (load processes resources mailboxes) + processes.length < fuel)
    (hsat : requests_satisfied fuel 0 (firstResource resources)
      (load processes resources mailboxes) = true) :
    ∃ s1 blocks,
      schedule_processes fuel (firstResource resources) 0 quantum
        (load processes resources mailboxes) = some s1 ∧
      s1.out = blocks.flatten ∧
      List.Forall₂ (fun pr blk => List.Forall₂ (fun e i => Event.logs pr.1 i e) blk pr.2)
        processes blocks ∧
      (∀ x, x < processes.length → instrs s1 x = some []) ∧
      s1.readyQueue.items = [] := by
  obtain ⟨pr0, prs, hps⟩ : ∃ pr0 prs, processes = pr0 :: prs := by
    cases processes with
    | nil => exact absurd rfl hne
    | cons a l => exact ⟨a, l, rfl⟩
  have hlen : (load processes resources mailboxes).procs.length = processes.length := by
    simp [load]
  have hready : (load processes resources mailboxes).readyQueue.items
      = 0 :: List.range' 1 prs.length := by
    show List.range processes.length = _
    rw [hps, List.length_cons, List.range_eq_range', List.range'_succ]
  have hpos : 0 < processes.length := by rw [hps]; simp
  obtain ⟨s1, hrun⟩ := schedule_processes_fcfs_total (firstResource resources) fuel 0
    (load processes resources mailboxes) (load_heapOK processes resources mailboxes)
    (load_mailOK processes resources mailboxes hmbox) (by rw [hlen]; exact hpos)
    (fun x hx => by
      rw [hlen]
      have : x ∈ List.range processes.length := hx
      exact List.mem_range.1 this)
    (by
      have : (load processes resources mailboxes).readyQueue.items.length = processes.length := by
        show (List.range processes.length).length = _
        simp
      rw [this]
      exact hfuel) hsat
  obtain ⟨b0, hb0⟩ : ∃ b, (load processes resources mailboxes).procs[0]? = some b :=
    ⟨_, List.getElem?_eq_getElem (by rw [hlen]; exact hpos)⟩
  obtain ⟨pr, hpr, hname0, _, hcur0, _⟩ :=
    load_procs_getElem? processes resources mailboxes 0 b0 hb0
  have hpr0 : pr = pr0 := by
    rw [hps, List.getElem?_cons_zero, Option.some.injEq] at hpr
    exact hpr.symm
  subst hpr0
  obtain ⟨sm, bm, blk, f1, h1, h2, _, h4, h5, h6, h7, h8, h9⟩ :=
    schedule_processes_fcfs_loop (firstResource resources) fuel 0
      (load processes resources mailboxes) s1 b0 hrun hb0
  have hdq : dequeue sm.readyQueue =
      some (0, { items := List.range' 1 prs.length, n := sm.readyQueue.n - 1 }) := by
    rw [h6]
    simp [dequeue, hready]
  rw [hdq] at h9
  simp only at h9
  have hnd : (0 :: List.range' 1 prs.length).Nodup := by
    have := List.nodup_range' 0 (prs.length + 1)
    rw [List.range'_succ] at this
    exact this
  obtain ⟨blocks, g1, g2, g3, _, g5, _⟩ :=
    schedule_processes_fcfs_blocks (firstResource resources) (List.range' 1 prs.length) f1 0
      { sm with readyQueue := { items := List.range' 1 prs.length, n := sm.readyQueue.n - 1 } }
      s1 rfl hnd
      (by show 0 < sm.procs.length; rw [h5, hlen]; exact hpos)
      (fun x hx => by
        show x < sm.procs.length
        rw [h5, hlen, hps, List.length_cons]
        have := List.mem_range'_1.1 hx
        omega) h9
  cases g2 with
  | cons hhead hrest =>
    rename_i blk0 rest
    obtain ⟨bx, hbx, hlogx⟩ := hhead
    have hbx' : sm.procs[0]? = some bx := hbx
    rw [h1, Option.some.injEq] at hbx'
    subst hbx'
    rw [h2] at hlogx
    cases hlogx
    have hrest' : List.Forall₂ (RunsToEnd (load processes resources mailboxes))
        (List.range' 1 prs.length) rest := by
      refine forall2_imp_mem _ _ ?_ hrest
      intro x bl hx hrun1
      obtain ⟨by1, hby1, hfy⟩ := hrun1
      have hx0 : x ≠ 0 := by
        have := List.mem_range'_1.1 hx
        omega
      exact ⟨by1, by rw [← h4 x hx0]; exact hby1, hfy⟩
    have htail := load_blocks processes resources mailboxes prs 1 rest
      (fun j pr2 hj => by
        rw [hps, Nat.add_comm, List.getElem?_cons_succ]
        exact hj) hrest'
    rw [hname0, hcur0] at h8
    refine ⟨s1, blk :: rest, ?_, ?_, ?_, ?_, g5⟩
    · unfold schedule_processes
      rw [if_pos rfl]
      exact hrun
    · rw [g1]
      show sm.out ++ _ = _
      rw [h7]
      simp [load]
    · rw [hps]
      exact List.Forall₂.cons h8 htail
    · intro x hx
      refine g3 x ?_
      rw [hps, List.length_cons] at hx
      rcases Nat.eq_zero_or_pos x with h0 | hxpos
      · rw [h0]
        exact List.mem_cons_self _ _
      · exact List.mem_cons_of_mem _ (List.mem_range'_1.2 (by omega))

/-- C25, evaluated on a loaded model whose first process sends to a mailbox
that is not in the table: no request is ever refused, and the first come first
served run returns for no amount of fuel (the search of `process_send_message`
runs off the mailbox list and the source dereferences `NULL`), so the second
process never executes its instruction. -/
theorem fcfs_stops_at_missing_mailbox :
    requests_satisfied 8 0 (firstResource ["R1"]) exNoBox = true ∧
      (∀ fuel, schedule_processes fuel (firstResource ["R1"]) 0 0 exNoBox = none) ∧
      instrs exNoBox 1 = some [rcv "M"] := by
  refine ⟨by decide, fun fuel => ?_, by decide⟩
  cases fuel with
  | zero => rfl
  | succ n => rfl

/-- The run of `exInTurn` under first come first served, by the general
statement: it returns, and the log is the block of `P1` followed by the block
of `P2`. -/
theorem fcfs_runs_in_creation_order_example :
    ∃ s1 blocks,
      schedule_processes 8 (firstResource ["R1"]) 0 0 (load exInTurn ["R1"] ["M"]) = some s1 ∧
      s1.out = blocks.flatten ∧
      List.Forall₂ (fun pr blk => List.Forall₂ (fun e i => Event.logs pr.1 i e) blk pr.2)
        exInTurn blocks ∧
      (∀ x, x < exInTurn.length → instrs s1 x = some []) ∧
      s1.readyQueue.items = [] :=
  fcfs_runs_in_creation_order exInTurn ["R1"] ["M"] 8 0 (by decide) (by decide) (by decide)
    (by decide)

/-! ## A turn of the round-robin loop without a blocked instruction -/

/-- A process without an instruction left makes no step in the quantum loop. -/
theorem quantum_walk_done (p : Nat) (resource : Option Nat) (n : Nat) (s : State)
    (b : processControlBlock) (hp : s.procs[p]? = some b) (hnil : b.nextInstruction = []) :
    quantum_walk n p resource s = some s := by
  cases n with
  | zero => rfl
  | succ n => simp [quantum_walk, hp, hnil]

/-- One process that is not WAITING makes the deadlock check fail. -/
theorem processes_deadlocked_of_not_waiting (ps : List processControlBlock) (p : Nat)
    (b : processControlBlock) (hp : ps[p]? = some b) (hb : b.processState ≠ WAITING) :
    processes_deadlocked ps = 0 :=
  (processes_deadlocked_all_or_not ps).2.2 ⟨b, List.getElem?_mem hp, hb⟩

/-- The quantum loop on a well-formed state returns, and when it has left the
waiting queue as it was, no instruction has blocked or failed: the process has
executed the next `n` instructions of its list (all that are left, if fewer),
one logged event each, and only its own control block has changed. -/
theorem quantum_walk_exec (p : Nat) (resource : Option Nat) :
    ∀ (n : Nat) (s : State) (b : processControlBlock),
      HeapOK resource s → MailOK s → s.procs[p]? = some b →
      ∃ sa, quantum_walk n p resource s = some sa ∧ HeapOK resource sa ∧ MailOK sa ∧
        (sa.waitingQueue = s.waitingQueue →
          ∃ blk ba, sa.procs[p]? = some ba ∧
            ba.nextInstruction = b.nextInstruction.drop n ∧ ba.name = b.name ∧
            sa.out = s.out ++ blk ∧
            List.Forall₂ (fun e i => Event.logs b.name i e) blk (b.nextInstruction.take n) ∧
            sa.readyQueue = s.readyQueue ∧ sa.procs.length = s.procs.length ∧
            (∀ x, x ≠ p → sa.procs[x]? = s.procs[x]?) ∧
            (0 < n → b.nextInstruction ≠ [] → ba.processState ≠ WAITING) ∧
            (0 < n → b.nextInstruction.drop n ≠ [] → ba.processState = RUNNING) ∧
            (0 < n → b.nextInstruction.drop n = [] →
              ∀ i, b.nextInstruction.getLast? = some i → i.type = InstrType.REL_V →
                ba.processState = TERMINATED ∧
                  sa.terminatedQueue = enqueue s.terminatedQueue p)) := by
  intro n
  induction n with
  | zero =>
    intro s b hok hmail hp
    refine ⟨s, rfl, hok, hmail, fun _ => ⟨[], b, hp, rfl, rfl, by simp, ?_, rfl, rfl,
      fun _ _ => rfl, fun h => absurd h (Nat.lt_irrefl 0), fun h => absurd h (Nat.lt_irrefl 0),
      fun h => absurd h (Nat.lt_irrefl 0)⟩⟩
    rw [List.take_zero]
    exact List.Forall₂.nil
  | succ n ih =>
    intro s b hok hmail hp
    cases hnext : b.nextInstruction with
    | nil =>
      refine ⟨s, quantum_walk_done p resource _ s b hp hnext, hok, hmail, fun _ =>
        ⟨[], b, hp, by simp [hnext], rfl, by simp, by simp, rfl, rfl,
          fun _ _ => rfl, fun _ h => absurd rfl h, fun _ h => absurd (by simp) h,
          fun _ _ i hi => by simp at hi⟩⟩
    | cons i rest =>
      obtain ⟨s2, hd, hok2, hmail2⟩ := dispatch_total p i resource s b rest hok hmail hp hnext
      obtain ⟨pcb1, ⟨hrq, hlen, hothers, hp1, hname, _⟩, ho⟩ :=
        dispatch_outcome p i resource s s2 b rest hp hnext hd
      obtain ⟨sa, hwalk, hoka, hmaila, hrest⟩ := ih s2 pcb1 hok2 hmail2 hp1
      refine ⟨sa, by simp [quantum_walk, hp, hnext, hd, hwalk], hoka, hmaila, fun hw => ?_⟩
      have hw2 : s2.waitingQueue = s.waitingQueue := by
        rcases dispatch_waiting p i resource s s2 b rest hp hnext hd with h | h
        · exact h
        · exfalso
          obtain ⟨⟨m, hm⟩, _⟩ := quantum_walk_waiting p resource n s2 sa hwalk
          rw [hw, h] at hm
          have := congrArg List.length hm
          simp [enqueue] at this
      have hgood : pcb1.nextInstruction = rest ∧
          (pcb1.processState = RUNNING ∧ s2.terminatedQueue = s.terminatedQueue ∧
              (i.type = InstrType.REL_V → rest ≠ []) ∨
            pcb1.processState = TERMINATED ∧ rest = [] ∧
              s2.terminatedQueue = enqueue s.terminatedQueue p) ∧
          ∃ e, s2.out = s.out ++ [e] ∧ Event.logs b.name i e := by
        rcases ho with ho | ho | ho | ho
        · obtain ⟨e, he, hl, _⟩ := ho.2.2.2.2.2
          exact ⟨ho.1, Or.inl ⟨ho.2.1, ho.2.2.2.1, ho.2.2.2.2.1⟩, e, he, hl⟩
        · obtain ⟨e, he, hl, _⟩ := ho.2.2.2.2.2.2
          exact ⟨by rw [ho.2.2.1, ho.2.1], Or.inr ⟨ho.2.2.2.1, ho.2.1, ho.2.2.2.2.2.1⟩, e, he, hl⟩
        · exact absurd (hw2.symm.trans ho.2.2.2.1) (Ne.symm (enqueue_ne _ _))
        · exact absurd (hw2.symm.trans ho.2.2.2.1) (Ne.symm (enqueue_ne _ _))
      obtain ⟨hcur1, hstate, e, hout, hlog⟩ := hgood
      obtain ⟨blk, ba, hba, hbacur, hbaname, hbaout, hbalog, hbaready, hbalen, hbaothers,
        q2, q1, q3⟩ := hrest (hw.trans hw2.symm)
      rw [hcur1] at hbacur hbalog q1 q2 q3
      rw [hname] at hbalog
      refine ⟨e :: blk, ba, hba, by simpa using hbacur, hbaname.trans hname,
        by rw [hbaout, hout]; simp, by rw [List.take_succ_cons]; exact List.Forall₂.cons hlog hbalog,
        hbaready.trans hrq, hbalen.trans hlen,
        fun x hx => (hbaothers x hx).trans (hothers x hx), ?_, ?_, ?_⟩
      · intro _ _
        by_cases hr0 : rest = []
        · have hsa : sa = s2 := by
            have := quantum_walk_done p resource n s2 pcb1 hp1 (hcur1.trans hr0)
            rw [hwalk, Option.some.injEq] at this
            exact this
          subst hsa
          rw [hp1, Option.some.injEq] at hba
          subst hba
          rcases hstate with h | h
          · rw [h.1]; decide
          · rw [h.1]; decide
        · cases n with
          | zero =>
            simp only [quantum_walk, Option.some.injEq] at hwalk
            subst hwalk
            rw [hp1, Option.some.injEq] at hba
            subst hba
            rcases hstate with h | h
            · rw [h.1]; decide
            · exact absurd h.2.1 hr0
          | succ n => exact q2 (Nat.succ_pos n) hr0
      · intro _ hdrop
        simp only [List.drop_succ_cons] at hdrop
        cases n with
        | zero =>
          simp only [quantum_walk, Option.some.injEq] at hwalk
          subst hwalk
          rw [hp1, Option.some.injEq] at hba
          subst hba
          rcases hstate with h | h
          · exact h.1
          · exact absurd (by rw [h.2.1]; rfl) hdrop
        | succ n => exact q1 (Nat.succ_pos n) hdrop
      · intro _ hdrop j hj hty
        simp only [List.drop_succ_cons] at hdrop
        by_cases hr0 : rest = []
        · have hsa : sa = s2 := by
            have := quantum_walk_done p resource n s2 pcb1 hp1 (hcur1.trans hr0)
            rw [hwalk, Option.some.injEq] at this
            exact this
          subst hsa
          rw [hp1, Option.some.injEq] at hba
          subst hba
          subst hr0
          simp only [List.getLast?_singleton, Option.some.injEq] at hj
          subst hj
          rcases hstate with h | h
          · exact absurd rfl (h.2.2 hty)
          · exact ⟨h.1, h.2.2⟩
        · have hj2 : rest.getLast? = some j := by
            cases rest with
            | nil => exact absurd rfl hr0
            | cons r0 rs =>
              rw [List.getLast?_cons_cons] at hj
              exact hj
          cases n with
          | zero =>
            exact absurd (by simpa using hdrop) hr0
          | succ n =>
            rcases hstate with h | h
            · have := q3 (Nat.succ_pos n) hdrop j hj2 hty
              rw [h.2.1] at this
              exact this
            · exact absurd h.2.1 hr0

/-- A turn whose quantum loop and drain return, and after which the deadlock
check does not fire, returns the state after the re-filing. -/
theorem rr_turn_of_stages (quantum : Int) (resource : Option Nat) (s sa sb : State) (p : Nat)
    (R : List Nat) (pcb : processControlBlock) (hR : s.readyQueue.items = p :: R)
    (ha : quantum_walk (effective_quantum quantum).toNat p resource (afterDequeue R s) = some sa)
    (hb : send_processes_to_readyq resource sa = some sb)
    (hpcb : sb.procs[p]? = some pcb)
    (hdl : processes_deadlocked (refile p pcb sb).procs = 0) :
    rr_turn quantum resource s = some (refile p pcb sb) := by
  have hdq : dequeue s.readyQueue = some (p, { items := R, n := s.readyQueue.n - 1 }) := by
    simp [dequeue, hR]
  have ha' : quantum_walk (effective_quantum quantum).toNat p resource
      { s with readyQueue := { items := R, n := s.readyQueue.n - 1 } } = some sa := ha
  unfold rr_turn
  simp only [hdq, ha', hb, hpcb]
  show (if processes_deadlocked (refile p pcb sb).procs ≠ 0 then
      recover_walk ((refile p pcb sb).procs.length + 1) 0 resource (refile p pcb sb)
      else some (refile p pcb sb)) = some (refile p pcb sb)
  rw [if_neg (by simpa using hdl)]

/-- A state with the same mailboxes and the same cursors names the same
mailboxes. -/
theorem MailOK.of_instrs {s s1 : State} (hm : MailOK s) (hmail : s1.mail = s.mail)
    (hi : ∀ q, instrs s1 q = instrs s q) : MailOK s1 := by
  intro q b1 hb1 i hmem hty
  have h1 := hi q
  unfold instrs at h1
  rw [hb1] at h1
  cases hb : s.procs[q]? with
  | none => rw [hb] at h1; simp at h1
  | some b0 =>
    rw [hb] at h1
    simp only [Option.map_some', Option.some.injEq] at h1
    rw [hmail]
    exact hm q b0 hb i (by rw [← h1]; exact hmem) hty

/-- A state with the same heap and the same list pointers has a well-formed
heap. -/
theorem HeapOK.of_ptrs (resource : Option Nat) {s s1 : State} (hok : HeapOK resource s)
    (hheap : s1.heap = s.heap) (hptr : ∀ q, ptr s1 q = ptr s q) : HeapOK resource s1 := by
  refine hok.of_same resource hheap ?_
  intro q b1 hb1
  have h1 := hptr q
  unfold ptr at h1
  rw [hb1] at h1
  cases hb : s.procs[q]? with
  | none => rw [hb] at h1; simp at h1
  | some b0 =>
    rw [hb] at h1
    simp only [Option.map_some', Option.some.injEq] at h1
    exact ⟨b0, rfl, h1⟩

/-- Claim C21: for a quantum `q ≥ 1`, take the `k`-th turn of a process `p`
with the instruction list `L`, that is, a turn that `p` starts at the head of
the ready queue with `(k - 1) * q` instructions executed, on a well-formed state,
and in which no instruction of `p` blocks (the quantum loop leaves the waiting
queue as it was).  The turn returns; it executes exactly the instructions
`(k - 1) * q + 1 .. min (k * q) m` of `L`, one logged event each, and leaves the
cursor behind them; no other cursor moves; `p` is appended to the ready queue,
behind the processes the drain has promoted, exactly when instructions are
left; none is left exactly from turn `⌈m / q⌉` on; and when the last instruction
is a release, the turn that executes it leaves `p` TERMINATED at the tail of
the terminated queue.  The state after the turn is well formed again. -/
theorem turn_executes_next_quantum (q : Nat) (resource : Option Nat) (s : State)
    (p : Nat) (R : List Nat) (b : processControlBlock) (L : List instruction) (k : Nat)
    (hq : 1 ≤ q) (hk : 1 ≤ k)
    (hok : HeapOK resource s) (hmail : MailOK s) (hw : WaitingOK s)
    (hR : s.readyQueue.items = p :: R)
    (hp : s.procs[p]? = some b)
    (hcur : b.nextInstruction = L.drop ((k - 1) * q))
    (hleft : (k - 1) * q < L.length)
    (hpw : p ∉ s.waitingQueue.items)
    (hnb : ∀ sa, quantum_walk q p resource (afterDequeue R s) = some sa →
      sa.waitingQueue = s.waitingQueue) :
    ∃ s1 blk X,
      rr_turn q resource s = some s1 ∧
      s1.out = s.out ++ blk ∧
      List.Forall₂ (fun e i => Event.logs b.name i e) blk ((L.drop ((k - 1) * q)).take q) ∧
      instrs s1 p = some (L.drop (k * q)) ∧
      (∀ x, x ≠ p → instrs s1 x = instrs s x) ∧
      (k * q < L.length → s1.readyQueue.items = R ++ X ++ [p] ∧ stateOf s1 p = some READY) ∧
      (L.length ≤ k * q → s1.readyQueue.items = R ++ X) ∧
      (L.length ≤ k * q ↔ (L.length + q - 1) / q ≤ k) ∧
      (L.length ≤ k * q → ∀ i, L.getLast? = some i → i.type = InstrType.REL_V →
        stateOf s1 p = some TERMINATED ∧
          s1.terminatedQueue.items = s.terminatedQueue.items ++ [p]) ∧
      HeapOK resource s1 ∧ MailOK s1 ∧ WaitingOK s1 ∧ p ∉ s1.waitingQueue.items := by
  obtain ⟨k0, hk0⟩ : ∃ k0, k = k0 + 1 := ⟨k - 1, by omega⟩
  subst hk0
  simp only [Nat.add_sub_cancel] at hcur hleft ⊢
  have hkq : (k0 + 1) * q = k0 * q + q := Nat.succ_mul k0 q
  have heff : (effective_quantum (q : Int)).toNat = q := by
    unfold effective_quantum
    rw [if_neg (by omega)]
    exact Int.toNat_ofNat q
  obtain ⟨sa, hwalk, hoka, hmaila, hrest⟩ :=
    quantum_walk_exec p resource q (afterDequeue R s) b (hok.same_procs resource _ rfl rfl)
      hmail hp
  have hwq : sa.waitingQueue = s.waitingQueue := hnb sa hwalk
  obtain ⟨blk, ba, hba, hbacur, hbaname, hbaout, hbalog, hbaready, hbalen, hbaothers,
    q2, q1, q3⟩ := hrest hwq
  rw [hcur] at hbacur hbalog q1 q2 q3
  have hLne : L.drop (k0 * q) ≠ [] := by
    intro h
    rw [List.drop_eq_nil_iff] at h
    omega
  have hdd : (L.drop (k0 * q)).drop q = L.drop ((k0 + 1) * q) := by
    rw [List.drop_drop, hkq]
  rw [hdd] at hbacur q1 q3
  have hinstr_a : ∀ x, x ≠ p → instrs sa x = instrs s x := by
    intro x hx
    unfold instrs
    rw [hbaothers x hx]
    rfl
  obtain ⟨rank, hr⟩ := hoka.1
  obtain ⟨sb, hdrain⟩ := send_processes_to_readyq_total rank sa resource hr hoka.2.1
    (by rw [hwq]; exact hw.1)
    (by
      intro x hx
      rw [hwq] at hx
      have hxp : x ≠ p := fun e => hpw (e ▸ hx)
      rw [hinstr_a x hxp]
      exact hw.2 x hx)
  obtain ⟨hdheap, hdterm, hdmail, hdout, hdlen, hdinstr, hdptr, _, _, _⟩ :=
    send_processes_to_readyq_drained resource sa sb hdrain
  obtain ⟨⟨X, hX⟩, hkeep⟩ := send_processes_to_readyq_effect resource sa sb hdrain
  have hbp : sb.procs[p]? = some ba := by
    rw [hkeep p (by rw [hwq]; exact hpw)]
    exact hba
  have hwb : sb.waitingQueue.items =
      sa.waitingQueue.items.filter (fun x => !pending_available sa resource x) :=
    (send_processes_to_readyq_ready resource sa sb (by
      show Counted sa.waitingQueue
      rw [hwq]
      exact hw.1) hdrain).2
  have hcb : Counted sb.waitingQueue :=
    send_processes_to_readyq_counted resource sa sb hdrain (by rw [hwq]; exact hw.1)
  have hsub : ∀ x, x ∈ sb.waitingQueue.items → x ∈ s.waitingQueue.items := by
    intro x hx
    rw [hwb] at hx
    rw [← hwq]
    exact (List.mem_filter.1 hx).1
  have hokb : HeapOK resource sb := hoka.of_ptrs resource hdheap hdptr
  have hmailb : MailOK sb := hmaila.of_instrs hdmail hdinstr
  have hRa : sa.readyQueue.items = R := by rw [hbaready]; rfl
  have hnw : ba.processState ≠ WAITING := q2 hq hLne
  -- the re-filing
  by_cases hmore : (k0 + 1) * q < L.length
  · have hne : ba.nextInstruction ≠ [] := by
      rw [hbacur]
      intro h
      rw [List.drop_eq_nil_iff] at h
      omega
    have hrun : ba.processState = RUNNING := q1 hq (by rw [← hbacur]; exact hne)
    have href : refile p ba sb = process_to_readyq p sb := by
      unfold refile
      rw [if_pos ⟨hrun, hne⟩]
    have hself := procs_process_to_readyq_self sb p ba hbp
    have hdl : processes_deadlocked (refile p ba sb).procs = 0 := by
      rw [href]
      exact processes_deadlocked_of_not_waiting _ p _ hself
        (show READY ≠ WAITING by decide)
    have hturn := rr_turn_of_stages q resource s sa sb p R ba hR (by rw [heff]; exact hwalk)
      hdrain hbp hdl
    have hothers := (rr_turn_before_check none q resource s sa sb p R ba
      (by rw [heff]; exact hwalk) hdrain).2
    rw [href] at hturn hothers
    have hkq1 := (KeepsQueued.queued_readyq p sb).2.1
    refine ⟨process_to_readyq p sb, blk, X, hturn, ?_, hbalog, ?_, hothers, ?_, ?_, ?_, ?_,
      hokb.ok_readyq resource p, hmailb.of_instrs rfl hkq1, ⟨hcb, ?_⟩, ?_⟩
    · show sb.out = _
      rw [hdout, hbaout]
      rfl
    · rw [hkq1 p]
      unfold instrs
      rw [hbp]
      simp [hbacur]
    · intro _
      refine ⟨?_, ?_⟩
      · show (enqueue sb.readyQueue p).items = _
        simp [enqueue, hX, hRa]
      · unfold stateOf
        rw [hself]
        rfl
    · intro h
      omega
    · constructor
      · intro h
        omega
      · intro h
        exfalso
        have h1 : L.length + q - 1 < (k0 + 1 + 1) * q := by
          have := (Nat.div_lt_iff_lt_mul (Nat.lt_of_lt_of_le Nat.zero_lt_one hq)).1
            (Nat.lt_succ_of_le h)
          exact this
        rw [Nat.succ_mul] at h1
        omega
    · intro h
      omega
    · intro x hx
      have hx' : x ∈ sb.waitingQueue.items := hx
      have hxs := hsub x hx'
      have hxp : x ≠ p := fun e => hpw (e ▸ hxs)
      rw [hothers x hxp]
      exact hw.2 x hxs
    · intro hx
      exact hpw (hsub p hx)
  · have hnil : ba.nextInstruction = [] := by
      rw [hbacur, List.drop_eq_nil_iff]
      omega
    have href : refile p ba sb = sb := by
      unfold refile
      rw [if_neg (fun h => h.2 hnil)]
    have hdl : processes_deadlocked (refile p ba sb).procs = 0 := by
      rw [href]
      exact processes_deadlocked_of_not_waiting _ p _ hbp hnw
    have hturn := rr_turn_of_stages q resource s sa sb p R ba hR (by rw [heff]; exact hwalk)
      hdrain hbp hdl
    have hothers := (rr_turn_before_check none q resource s sa sb p R ba
      (by rw [heff]; exact hwalk) hdrain).2
    rw [href] at hturn hothers
    refine ⟨sb, blk, X, hturn, ?_, hbalog, ?_, hothers, ?_, ?_, ?_, ?_,
      hokb, hmailb, ⟨hcb, ?_⟩, ?_⟩
    · rw [hdout, hbaout]
      rfl
    · unfold instrs
      rw [hbp]
      simp [hbacur]
    · intro h
      exact absurd h hmore
    · intro _
      rw [hX, hRa]
    · constructor
      · intro h
        have h1 : L.length + q - 1 < (k0 + 1 + 1) * q := by
          rw [Nat.succ_mul]
          omega
        exact Nat.le_of_lt_succ
          ((Nat.div_lt_iff_lt_mul (Nat.lt_of_lt_of_le Nat.zero_lt_one hq)).2 h1)
      · intro _
        omega
    · intro _ i hi hty
      have hlast : (L.drop (k0 * q)).getLast? = some i := by
        rw [List.getLast?_drop, if_neg (by omega)]
        exact hi
      obtain ⟨hst, hterm⟩ := q3 hq (by rw [← hbacur]; exact hnil) i hlast hty
      refine ⟨?_, ?_⟩
      · unfold stateOf
        rw [hbp]
        simp [hst]
      · rw [hdterm, hterm]
        rfl
    · intro x hx
      have hxs := hsub x hx
      have hxp : x ≠ p := fun e => hpw (e ▸ hxs)
      rw [hothers x hxp]
      exact hw.2 x hxs
    · intro hx
      exact hpw (hsub p hx)

/-- A quantum loop whose waiting queue has been evaluated leaves that waiting
queue. -/
theorem waiting_of_walk (n p : Nat) (resource : Option Nat) (s : State) (w : queue)
    (h : (quantum_walk n p resource s).map (fun x => x.waitingQueue) = some w) :
    ∀ sa, quantum_walk n p resource s = some sa → sa.waitingQueue = w := by
  intro sa ha
  rw [ha] at h
  simpa using h

/-- The waiting queue of a loaded model is empty. -/
theorem load_waitingOK (processes : List (String × List instruction))
    (resources mailboxes : List String) : WaitingOK (load processes resources mailboxes) :=
  ⟨rfl, fun _ hq => by cases hq⟩

/-- The mailboxes of `exQ0` are those its instructions name. -/
theorem exQ0_mailOK : MailOK exQ0 :=
  load_mailOK _ _ _ (by decide)

/-- The round-robin run of `exQ0` with quantum 2: the statement at the third
turn of `P1`, reached through the four turns before it, and the cursors, ready
queues and log lengths along the run; the turns of `P1` execute 2, 2 and 1
instructions and the final release leaves `P1` TERMINATED. -/
theorem turn_executes_next_quantum_witness :
    (1 ≤ 2 ∧ 1 ≤ 3 ∧
      HeapOK (firstResource ["R1"]) exQ4 ∧ MailOK exQ4 ∧ WaitingOK exQ4 ∧
      exQ4.readyQueue.items = [0] ∧ exQ4.procs[0]? = some exQ4P1 ∧
      exQ4P1.nextInstruction = exFive.drop ((3 - 1) * 2) ∧ (3 - 1) * 2 < exFive.length ∧
      0 ∉ exQ4.waitingQueue.items ∧
      ∀ sa, quantum_walk 2 0 (firstResource ["R1"]) (afterDequeue [] exQ4) = some sa →
        sa.waitingQueue = exQ4.waitingQueue) ∧
    (∃ s1 blk X,
      rr_turn (2 : Nat) (firstResource ["R1"]) exQ4 = some s1 ∧
      s1.out = exQ4.out ++ blk ∧
      List.Forall₂ (fun e i => Event.logs exQ4P1.name i e) blk
        ((exFive.drop ((3 - 1) * 2)).take 2) ∧
      instrs s1 0 = some (exFive.drop (3 * 2)) ∧
      (∀ x, x ≠ 0 → instrs s1 x = instrs exQ4 x) ∧
      (3 * 2 < exFive.length →
        s1.readyQueue.items = [] ++ X ++ [0] ∧ stateOf s1 0 = some READY) ∧
      (exFive.length ≤ 3 * 2 → s1.readyQueue.items = [] ++ X) ∧
      (exFive.length ≤ 3 * 2 ↔ (exFive.length + 2 - 1) / 2 ≤ 3) ∧
      (exFive.length ≤ 3 * 2 → ∀ i, exFive.getLast? = some i → i.type = InstrType.REL_V →
        stateOf s1 0 = some TERMINATED ∧
          s1.terminatedQueue.items = exQ4.terminatedQueue.items ++ [0]) ∧
      HeapOK (firstResource ["R1"]) s1 ∧ MailOK s1 ∧ WaitingOK s1 ∧
      0 ∉ s1.waitingQueue.items) ∧
    instrs exQ0 0 = some exFive ∧ instrs exQ1 0 = some (exFive.drop 2) ∧
    instrs exQ2 0 = some (exFive.drop 2) ∧ instrs exQ3 0 = some (exFive.drop 4) ∧
    instrs exQ4 0 = some (exFive.drop 4) ∧
    exQ1.readyQueue.items = [1, 0] ∧ exQ3.readyQueue.items = [1, 0] ∧
    (exQ1.out.length, exQ2.out.length, exQ3.out.length, exQ4.out.length) = (2, 4, 6, 7) ∧
    (rr_turn 2 (firstResource ["R1"]) exQ4).map
        (fun s => (instrs s 0, stateOf s 0, s.terminatedQueue.items, s.out.length))
      = some (some [], some TERMINATED, [0], 8) := by
  -- first turn: P1 executes its instructions 1 and 2
  obtain ⟨s1, _, _, ht1, _, _, _, _, _, _, _, _, hok1, hmail1, hw1, _⟩ :=
    turn_executes_next_quantum 2 (firstResource ["R1"]) exQ0 0 [1] _ exFive 1
      (by decide) (by decide) (load_heapOK _ _ _) exQ0_mailOK (load_waitingOK _ _ _)
      (by decide) (Option.some_get (by decide : (exQ0.procs[0]?).isSome = true)).symm
      (by decide) (by decide) (by decide)
      (waiting_of_walk 2 0 _ _ _ (by decide))
  have e1 : s1 = exQ1 := Option.some.inj (ht1.symm.trans (Option.some_get _).symm)
  subst e1
  -- second turn: P2
  obtain ⟨s2, _, _, ht2, _, _, _, _, _, _, _, _, hok2, hmail2, hw2, _⟩ :=
    turn_executes_next_quantum 2 (firstResource ["R1"]) exQ1 1 [0] _ exThree 1
      (by decide) (by decide) hok1 hmail1 hw1
      (by decide) (Option.some_get (by decide : (exQ1.procs[1]?).isSome = true)).symm
      (by decide) (by decide) (by decide)
      (waiting_of_walk 2 1 _ _ _ (by decide))
  have e2 : s2 = exQ2 := Option.some.inj (ht2.symm.trans (Option.some_get _).symm)
  subst e2
  -- third turn: P1 executes its instructions 3 and 4
  obtain ⟨s3, _, _, ht3, _, _, _, _, _, _, _, _, hok3, hmail3, hw3, _⟩ :=
    turn_executes_next_quantum 2 (firstResource ["R1"]) exQ2 0 [1] _ exFive 2
      (by decide) (by decide) hok2 hmail2 hw2
      (by decide) (Option.some_get (by decide : (exQ2.procs[0]?).isSome = true)).symm
      (by decide) (by decide) (by decide)
      (waiting_of_walk 2 0 _ _ _ (by decide))
  have e3 : s3 = exQ3 := Option.some.inj (ht3.symm.trans (Option.some_get _).symm)
  subst e3
  -- fourth turn: P2 executes its last instruction
  obtain ⟨s4, _, _, ht4, _, _, _, _, _, _, _, _, hok4, hmail4, hw4, _⟩ :=
    turn_executes_next_quantum 2 (firstResource ["R1"]) exQ3 1 [0] _ exThree 2
      (by decide) (by decide) hok3 hmail3 hw3
      (by decide) (Option.some_get (by decide : (exQ3.procs[1]?).isSome = true)).symm
      (by decide) (by decide) (by decide)
      (waiting_of_walk 2 1 _ _ _ (by decide))
  have e4 : s4 = exQ4 := Option.some.inj (ht4.symm.trans (Option.some_get _).symm)
  subst e4
  -- fifth turn: P1 executes its instruction 5, the final release
  have hp4 : exQ4.procs[0]? = some exQ4P1 := (Option.some_get _).symm
  have hnb4 := waiting_of_walk 2 0 (firstResource ["R1"]) (afterDequeue [] exQ4)
    exQ4.waitingQueue (by decide)
  exact ⟨⟨by decide, by decide, hok4, hmail4, hw4, by decide, hp4, by decide, by decide,
      by decide, hnb4⟩,
    turn_executes_next_quantum 2 (firstResource ["R1"]) exQ4 0 [] exQ4P1 exFive 3
      (by decide) (by decide) hok4 hmail4 hw4 (by decide) hp4 (by decide) (by decide)
      (by decide) hnb4,
    by decide, by decide, by decide, by decide, by decide, by decide, by decide, by decide,
    by decide⟩

/-! ## Availability and acquisition -/

/-- What `acquire_resource` returns is what `is_resource_available` returns on
the heap it is called with: both follow the same nodes and make the same
tests. -/
theorem acquire_resource_available (r : String) (p : Nat) :
    ∀ (fuel : Nat) (p0 : Option Nat) (s s1 : State) (a : Nat),
      acquire_resource fuel r p0 p s = some (a, s1) →
      is_resource_available fuel r p0 s.heap = some a := by
  intro fuel
  induction fuel with
  | zero => intro p0 s s1 a h; simp [acquire_resource] at h
  | succ fuel ih =>
    intro p0 s s1 a h
    cases p0 with
    | none =>
      simp only [acquire_resource, Option.some.injEq, Prod.mk.injEq] at h
      simp [is_resource_available, h.1]
    | some x =>
      simp only [acquire_resource] at h
      simp only [is_resource_available]
      cases hn : s.heap[x]? with
      | none => rw [hn] at h; simp at h
      | some node =>
        rw [hn] at h
        simp only at h ⊢
        by_cases hname : node.name = r
        · rw [if_pos hname] at h ⊢
          by_cases hav : node.available = 1
          · rw [if_pos hav] at h ⊢
            cases hadd : add_resource_to_process p x s with
            | none => rw [hadd] at h; simp at h
            | some s2 =>
              rw [hadd] at h
              simp only [Option.some.injEq, Prod.mk.injEq] at h
              rw [h.1]
          · rw [if_neg hav] at h ⊢
            exact ih _ s s1 a h
        · rw [if_neg hname] at h ⊢
          exact ih _ s s1 a h

/-- Claim C38: on a well-formed heap, for every name `r` and process `p`,
`acquire_resource` returns the value that `is_resource_available` returns on
the same table (1 or 0), and when that value is 0 it returns the state
unchanged.  `is_resource_available` only reads the table: it returns a number
and no table.  Hence a process that the drain promotes, because
`is_resource_available` is true for its pending instruction, and whose pending
request is dispatched on the same heap, has the request satisfied: the cursor
moves on, the process is RUNNING and it is not put on the waiting queue. -/
theorem available_iff_acquired (r : String) (resource : Option Nat) (p : Nat) (t : State)
    (pcb : processControlBlock) (hok : HeapOK resource t) (hp : t.procs[p]? = some pcb) :
    ∃ b t1, is_resource_available (walkFuel t.heap) r resource t.heap = some b ∧
      acquire_resource (walkFuel t.heap) r resource p t = some (b, t1) ∧
      (b = TRUE ∨ b = FALSE) ∧ (b = FALSE → t1 = t) ∧
      ∀ (s : State) (i : instruction) (rest : List instruction),
        s.heap = t.heap → instrs s p = instrs t p → pending_available s resource p = true →
        pcb.nextInstruction = i :: rest → i.type = InstrType.REQ_V →
        ∃ t2, process_request p i resource t = some t2 ∧ instrs t2 p = some rest ∧
          t2.waitingQueue = t.waitingQueue ∧ stateOf t2 p = some RUNNING := by
  obtain ⟨b, t1, hacq, _⟩ := acquire_resource_total r resource p t pcb hok hp
  have hav := acquire_resource_available r p _ resource t t1 b hacq
  have hb := (acquire_resource_effect r p _ resource t t1 b hacq).2
  refine ⟨b, t1, hav, hacq, ?_, ?_, ?_⟩
  · rcases hb with h | h
    · exact Or.inr h.1
    · exact Or.inl h
  · intro h0
    rcases hb with h | h
    · exact h.2
    · rw [h] at h0
      exact absurd h0 (by decide)
  · intro s i rest hheap hinstr hpend hnext htype
    -- what the drain has seen
    have hsp : ∃ c, s.procs[p]? = some c ∧ c.nextInstruction = i :: rest := by
      unfold instrs at hinstr
      rw [hp] at hinstr
      cases hc : s.procs[p]? with
      | none => rw [hc] at hinstr; simp at hinstr
      | some c =>
        rw [hc] at hinstr
        simp only [Option.map_some', Option.some.injEq] at hinstr
        exact ⟨c, rfl, hinstr.trans hnext⟩
    obtain ⟨c, hc, hcn⟩ := hsp
    have hseen : ∃ v, is_resource_available (walkFuel t.heap) i.resource resource t.heap
        = some v ∧ v ≠ 0 := by
      unfold pending_available at hpend
      rw [hc] at hpend
      simp only [hcn, hheap] at hpend
      cases hv : is_resource_available (walkFuel t.heap) i.resource resource t.heap with
      | none => rw [hv] at hpend; simp at hpend
      | some v =>
        rw [hv] at hpend
        exact ⟨v, rfl, by simpa using hpend⟩
    obtain ⟨v, hv, hv0⟩ := hseen
    obtain ⟨t2, hreq, _, _⟩ := process_request_total p i resource t pcb rest hok hp hnext
    obtain ⟨acquired, t3, pcb1, hacq2, hframe, hcase⟩ :=
      process_request_outcome p i resource t t2 pcb rest hp hnext htype hreq
    have hav2 := acquire_resource_available i.resource p _ resource _ t3 acquired hacq2
    have hav3 : is_resource_available (walkFuel t.heap) i.resource resource t.heap
        = some acquired := hav2
    rw [hv, Option.some.injEq] at hav3
    rcases hcase with ⟨_, hran⟩ | ⟨h0, _⟩
    · refine ⟨t2, hreq, ?_, hran.2.2.1, ?_⟩
      · unfold instrs
        rw [hframe.2.2.2.1]
        simp [hran.1]
      · unfold stateOf
        rw [hframe.2.2.2.1]
        simp [hran.2.1]
    · exact absurd (hav3.trans h0) hv0

/-- The agreement of `is_resource_available` and `acquire_resource` on the
loaded model `exBlocked`, for its first process and the resource `R`. -/
theorem available_iff_acquired_witness :
    HeapOK (firstResource ["R"]) exBlocked ∧
    exBlocked.procs[0]? = some (Option.get exBlocked.procs[0]? (by decide)) ∧
    ∃ b t1, is_resource_available (walkFuel exBlocked.heap) "R" (firstResource ["R"])
        exBlocked.heap = some b ∧
      acquire_resource (walkFuel exBlocked.heap) "R" (firstResource ["R"]) 0 exBlocked
        = some (b, t1) ∧
      (b = TRUE ∨ b = FALSE) ∧ (b = FALSE → t1 = exBlocked) ∧
      ∀ (s : State) (i : instruction) (rest : List instruction),
        s.heap = exBlocked.heap → instrs s 0 = instrs exBlocked 0 →
        pending_available s (firstResource ["R"]) 0 = true →
        (Option.get exBlocked.procs[0]? (by decide)).nextInstruction = i :: rest →
        i.type = InstrType.REQ_V →
        ∃ t2, process_request 0 i (firstResource ["R"]) exBlocked = some t2 ∧
          instrs t2 0 = some rest ∧
          t2.waitingQueue = exBlocked.waitingQueue ∧ stateOf t2 0 = some RUNNING :=
  ⟨load_heapOK _ _ _, (Option.some_get _).symm,
    available_iff_acquired "R" (firstResource ["R"]) 0 exBlocked _ (load_heapOK _ _ _)
      (Option.some_get _).symm⟩

/-! ## The recovery loop runs once -/

/-- The recorded loop is the recovery loop: it returns the same state. -/
theorem recover_victims_state :
    ∀ (fuel copy : Nat) (resource : Option Nat) (s : State),
      (recover_victims fuel copy resource s).map (fun x => x.2) =
        recover_walk fuel copy resource s := by
  intro fuel
  induction fuel with
  | zero => intro copy resource s; rfl
  | succ fuel ih =>
    intro copy resource s
    simp only [recover_victims, recover_walk]
    split
    · cases h1 : release_all_resources_from_process copy s with
      | none => rfl
      | some s1 =>
        simp only
        cases h2 : send_processes_to_readyq resource (process_to_terminateq copy s1) with
        | none => rfl
        | some s2 =>
          simp only
          rw [← ih (copy + 1) resource s2]
          cases recover_victims fuel (copy + 1) resource s2 with
          | none => rfl
          | some x => rfl
    · rfl

/-- Claim C37: when the deadlock check fires, on a well-formed heap and
waiting queue, the recovery loop returns after exactly one execution of its
body, and its one victim is the first process of the process list: the record
of the loop is `[0]`.  After that iteration the first process is TERMINATED, or
READY and on the ready queue, where the drain has put it; so the deadlock
check is false, the loop ends, and `firstPCB_copy`, advanced once, is never
used again: no process behind the first is a victim and no `next` pointer is
followed past the end of the list. -/
theorem recovery_loop_runs_once (rank : Nat → Nat) (resource : Option Nat) (s : State)
    (hfire : processes_deadlocked s.procs ≠ 0) (hne : s.procs ≠ [])
    (hr : Ranked rank s.heap) (hres : ValidPtr s.heap resource)
    (hptr : ∀ b, s.procs[0]? = some b → ValidPtr s.heap b.resourceListPtr)
    (hn : Counted s.waitingQueue)
    (hpend : ∀ q ∈ s.waitingQueue.items, ∃ i rest, instrs s q = some (i :: rest)) :
    ∃ s1 s2 b2, release_all_resources_from_process 0 s = some s1 ∧
      send_processes_to_readyq resource (process_to_terminateq 0 s1) = some s2 ∧
      recover_victims (s.procs.length + 1) 0 resource s = some ([0], s2) ∧
      recover_walk (s.procs.length + 1) 0 resource s = some s2 ∧
      s2.procs[0]? = some b2 ∧
      (b2.processState = TERMINATED ∨
        (b2.processState = READY ∧ 0 ∈ s2.readyQueue.items)) ∧
      b2.processState ≠ WAITING ∧
      processes_deadlocked s2.procs = 0 ∧
      s2.terminatedQueue.items = s.terminatedQueue.items ++ [0] := by
  have hlen0 : 0 < s.procs.length := List.length_pos.2 hne
  have hp : s.procs[0]? = some (s.procs.get ⟨0, hlen0⟩) := List.getElem?_eq_getElem hlen0
  obtain ⟨s1, h1, hr1, hl1⟩ := release_all_resources_from_process_total rank 0 _ s hr hp
    (hptr _ hp)
  obtain ⟨f1, _, f3, _, _⟩ := release_all_resources_from_process_frame 0 s s1 h1
  have hins : ∀ q, instrs (process_to_terminateq 0 s1) q = instrs s q := by
    intro q
    rw [show instrs s q = instrs s1 q by unfold instrs; rw [f1]]
    exact instrs_setPcb s1 0 q _ (fun _ => rfl)
  obtain ⟨s2, h2⟩ := send_processes_to_readyq_total rank (process_to_terminateq 0 s1) resource
    hr1 (by intro a ha; exact hl1 ▸ hres a ha)
    (by
      show s1.waitingQueue.n = s1.waitingQueue.items.length
      rw [f3]
      exact hn)
    (by
      intro q hq
      have hq1 : q ∈ s.waitingQueue.items := by
        rw [← f3]
        exact hq
      obtain ⟨i, rest, hi⟩ := hpend q hq1
      exact ⟨i, rest, (hins q).trans hi⟩)
  obtain ⟨hterm, ⟨b2, hb2, hst⟩, hdl⟩ :=
    first_not_waiting_after_recovery resource s s1 s2 hne h1 h2
  have hd := send_processes_to_readyq_drained resource _ _ h2
  have hstate : b2.processState = TERMINATED ∨
      (b2.processState = READY ∧ 0 ∈ s2.readyQueue.items) := by
    have hb0 : (process_to_terminateq 0 s1).procs[0]? =
        some { s.procs.get ⟨0, hlen0⟩ with processState := TERMINATED } :=
      procs_process_to_terminateq_self s1 0 _ (by rw [f1]; exact hp)
    rcases hd.2.2.2.2.2.2.2.1 0 b2 hb2 with h | h
    · rw [hb0, Option.some.injEq] at h
      exact Or.inl (by rw [← h])
    · exact Or.inr h
  obtain ⟨k, hk⟩ : ∃ k, s.procs.length = k + 1 := ⟨s.procs.length - 1, by omega⟩
  have hwalk : recover_walk (s.procs.length + 1) 0 resource s = some s2 := by
    rw [hk]
    simp only [recover_walk, hfire, ne_eq, not_false_eq_true, if_true, h1, h2, hdl,
      not_true_eq_false, if_false]
  have hvict : recover_victims (s.procs.length + 1) 0 resource s = some ([0], s2) := by
    rw [hk]
    simp only [recover_victims, hfire, ne_eq, not_false_eq_true, if_true, h1, h2, hdl,
      not_true_eq_false, if_false]
  refine ⟨s1, s2, b2, h1, h2, hvict, hwalk, hb2, hstate, ?_, hdl, hterm⟩
  rcases hstate with h | h
  · rw [h]; decide
  · rw [h.1]; decide

/-- Claim C37 at `exCycle`, the state of `exDeadlock` in which the deadlock
check fires. -/
theorem recovery_loop_runs_once_witness :
    (exDeadlocked = some exCycle ∧ processes_deadlocked exCycle.procs ≠ 0 ∧
      exCycle.procs ≠ [] ∧ Ranked exCycleRank exCycle.heap ∧
      ValidPtr exCycle.heap (some 0) ∧ Counted exCycle.waitingQueue) ∧
    ∃ s1 s2 b2, release_all_resources_from_process 0 exCycle = some s1 ∧
      send_processes_to_readyq (some 0) (process_to_terminateq 0 s1) = some s2 ∧
      recover_victims (exCycle.procs.length + 1) 0 (some 0) exCycle = some ([0], s2) ∧
      recover_walk (exCycle.procs.length + 1) 0 (some 0) exCycle = some s2 ∧
      s2.procs[0]? = some b2 ∧
      (b2.processState = TERMINATED ∨
        (b2.processState = READY ∧ 0 ∈ s2.readyQueue.items)) ∧
      b2.processState ≠ WAITING ∧
      processes_deadlocked s2.procs = 0 ∧
      s2.terminatedQueue.items = exCycle.terminatedQueue.items ++ [0] :=
  ⟨⟨by decide, by decide, by decide, exCycle_ranked, by intro a ha; cases ha; decide,
      show exCycle.waitingQueue.n = exCycle.waitingQueue.items.length by decide⟩,
   recovery_loop_runs_once exCycleRank (some 0) exCycle (by decide) (by decide)
    exCycle_ranked (by intro a ha; cases ha; decide) exCycle_first_ptr
    (show exCycle.waitingQueue.n = exCycle.waitingQueue.items.length by decide)
    exCycle_pending⟩

/-! ## Return of the round-robin run -/

/-- A round-robin run that returns has emptied the ready queue. -/
theorem schedule_processes_rr_ready_empty (quantum : Int) (resource : Option Nat) :
    ∀ (fuel : Nat) (s s1 : State), schedule_processes_rr fuel quantum resource s = some s1 →
      s1.readyQueue.items = [] := by
  intro fuel
  induction fuel with
  | zero => intro s s1 h; simp [schedule_processes_rr] at h
  | succ fuel ih =>
    intro s s1 h
    simp only [schedule_processes_rr] at h
    cases hR : s.readyQueue.items with
    | nil =>
      rw [hR] at h
      simp only [Option.some.injEq] at h
      rw [← h]
      exact hR
    | cons p R =>
      rw [hR] at h
      simp only at h
      cases ht : rr_turn quantum resource s with
      | none => rw [ht] at h; simp at h
      | some s2 =>
        rw [ht] at h
        exact ih s2 s1 h

/-- Claim C35: the round-robin run returns exactly when the ready queue is
empty.  A run that returns ends with an empty ready queue; on an empty ready
queue the run returns at once, with the state it was given, whatever the
states of the processes; on a ready queue that is not empty it makes a turn
and goes on.  Not all processes need be TERMINATED then: the run of
`exStarved` (`P1 = [req R]`, `P2 = [req R]`, one instance of `R`, quantum 1)
returns with `P1` RUNNING, `P2` WAITING and on the waiting queue, and no
process TERMINATED. -/
theorem rr_returns_when_ready_queue_empty (fuel : Nat) (quantum : Int) (resource : Option Nat)
    (s s1 : State) (h : schedule_processes_rr fuel quantum resource s = some s1) :
    s1.readyQueue.items = [] ∧
    (s.readyQueue.items = [] → s1 = s) ∧
    (s.readyQueue.items ≠ [] → ∃ f s2, fuel = f + 1 ∧ rr_turn quantum resource s = some s2 ∧
      schedule_processes_rr f quantum resource s2 = some s1) ∧
    (∀ t : State, t.readyQueue.items = [] →
      schedule_processes_rr (fuel + 1) quantum resource t = some t) ∧
    (schedule_processes_rr 3 1 (firstResource ["R"]) exStarved = some exStarvedEnd ∧
      exStarvedEnd.readyQueue.items = [] ∧ states exStarvedEnd = [RUNNING, WAITING] ∧
      exStarvedEnd.waitingQueue.items = [1] ∧ exStarvedEnd.terminatedQueue.items = [] ∧
      processes_finished exStarvedEnd.procs = 0) := by
  refine ⟨schedule_processes_rr_ready_empty quantum resource fuel s s1 h, ?_, ?_, ?_,
    (Option.some_get _).symm, by decide, by decide, by decide, by decide, by decide⟩
  · intro hR
    cases fuel with
    | zero => simp [schedule_processes_rr] at h
    | succ f =>
      simp only [schedule_processes_rr, hR, Option.some.injEq] at h
      exact h.symm
  · intro hR
    cases fuel with
    | zero => simp [schedule_processes_rr] at h
    | succ f =>
      simp only [schedule_processes_rr] at h
      cases hi : s.readyQueue.items with
      | nil => exact absurd hi hR
      | cons p R =>
        rw [hi] at h
        simp only at h
        cases ht : rr_turn quantum resource s with
        | none => rw [ht] at h; simp at h
        | some s2 =>
          rw [ht] at h
          exact ⟨f, s2, rfl, rfl, h⟩
  · intro t ht
    simp [schedule_processes_rr, ht]

/-- Claim C35 at the run of `exStarved`. -/
theorem rr_returns_when_ready_queue_empty_witness :
    schedule_processes_rr 3 1 (firstResource ["R"]) exStarved = some exStarvedEnd ∧
    exStarvedEnd.readyQueue.items = [] ∧
    (exStarved.readyQueue.items = [] → exStarvedEnd = exStarved) ∧
    (exStarved.readyQueue.items ≠ [] → ∃ f s2, 3 = f + 1 ∧
      rr_turn 1 (firstResource ["R"]) exStarved = some s2 ∧
      schedule_processes_rr f 1 (firstResource ["R"]) s2 = some exStarvedEnd) ∧
    (∀ t : State, t.readyQueue.items = [] →
      schedule_processes_rr (3 + 1) 1 (firstResource ["R"]) t = some t) ∧
    (schedule_processes_rr 3 1 (firstResource ["R"]) exStarved = some exStarvedEnd ∧
      exStarvedEnd.readyQueue.items = [] ∧ states exStarvedEnd = [RUNNING, WAITING] ∧
      exStarvedEnd.waitingQueue.items = [1] ∧ exStarvedEnd.terminatedQueue.items = [] ∧
      processes_finished exStarvedEnd.procs = 0) :=
  ⟨(Option.some_get _).symm,
    rr_returns_when_ready_queue_empty 3 1 (firstResource ["R"]) exStarved exStarvedEnd
      (Option.some_get _).symm⟩

/-! ## Requests of an absent resource -/

/-- Claim C31 fails as stated: the request of `Q`, a name absent from the
resource table, by the first process of `exUnknown` logs `waiting`, appends
the process to the waiting queue, sets its state to WAITING and leaves its
cursor on the request.  The round-robin run goes on with the second process
and returns with the first process still waiting on that request. -/
theorem request_of_absent_resource_waits :
    (process_request 0 (req "Q") (firstResource ["R"]) exUnknown).map (fun s => s.out) =
      some [Event.req_waiting "P1" "Q"] ∧
    (process_request 0 (req "Q") (firstResource ["R"]) exUnknown).map
      (fun s => s.waitingQueue) = some { items := [0], n := 1 } ∧
    (process_request 0 (req "Q") (firstResource ["R"]) exUnknown).map states =
      some [WAITING, READY] ∧
    (process_request 0 (req "Q") (firstResource ["R"]) exUnknown).map (fun s => instrs s 0) =
      some (some [req "Q", req "R"]) ∧
    (schedule_processes_rr 3 1 (firstResource ["R"]) exUnknown).map (fun s => s.out) =
      some [Event.req_waiting "P1" "Q", Event.req_acquired "P2" "R" []] ∧
    (schedule_processes_rr 3 1 (firstResource ["R"]) exUnknown).map (fun s => instrs s 0) =
      some (some [req "Q", req "R"]) ∧
    (schedule_processes_rr 3 1 (firstResource ["R"]) exUnknown).map
      (fun s => s.waitingQueue.items) = some [0] := by
  exact ⟨by decide, by decide, by decide, by decide, by decide, by decide, by decide⟩

/-- Claim C31, amended: a request that names a resource absent from a
well-formed resource table is handled as a request of an unavailable
resource.  `process_request` returns; it logs `waiting`, appends the process
to the waiting queue and sets its state to WAITING; the cursor stays on the
request; the heap, the ready queue and the other processes are unchanged, so
the run goes on with the other processes; and the drain does not promote the
process on that heap. -/
theorem absent_request_waits_as_unavailable (s : State) (resource : Option Nat) (p : Nat)
    (pcb : processControlBlock) (i : instruction) (rest : List instruction)
    (addrs : List Nat)
    (hT : chain (walkFuel s.heap) s.heap resource = some addrs)
    (habs : ∀ a ∈ addrs, ∀ node, s.heap[a]? = some node → node.name ≠ i.resource)
    (hp : s.procs[p]? = some pcb) (hnext : pcb.nextInstruction = i :: rest)
    (htype : i.type = InstrType.REQ_V) :
    ∃ s1, process_request p i resource s = some s1 ∧
      s1.out = s.out ++ [Event.req_waiting pcb.name i.resource] ∧
      s1.waitingQueue = enqueue s.waitingQueue p ∧
      stateOf s1 p = some WAITING ∧
      instrs s1 p = some (i :: rest) ∧
      s1.heap = s.heap ∧ s1.readyQueue = s.readyQueue ∧
      s1.terminatedQueue = s.terminatedQueue ∧
      (∀ q, q ≠ p → s1.procs[q]? = s.procs[q]?) ∧
      pending_available s1 resource p = false := by
  have hacq : acquire_resource (walkFuel s.heap) i.resource resource p
      (s.setPcb p (fun b => { b with processState := RUNNING })) =
      some (0, s.setPcb p (fun b => { b with processState := RUNNING })) :=
    acquire_resource_unavailable (s.setPcb p (fun b => { b with processState := RUNNING }))
      resource p i.resource addrs hT (fun a ha node hn h => habs a ha node hn h.1)
  have hacq' : acquire_resource
      (walkFuel (s.setPcb p (fun b => { b with processState := RUNNING })).heap) i.resource
      resource p (s.setPcb p (fun b => { b with processState := RUNNING })) =
      some (0, s.setPcb p (fun b => { b with processState := RUNNING })) := hacq
  have hret : ∃ s1, process_request p i resource s = some s1 := by
    unfold process_request
    simp only [hp, hacq', if_true]
    exact ⟨_, rfl⟩
  obtain ⟨s1, hreq⟩ := hret
  obtain ⟨acquired, s2, pcb1, hacq2, hframe, hcase⟩ :=
    process_request_outcome p i resource s s1 pcb rest hp hnext htype hreq
  rw [hacq, Option.some.injEq, Prod.mk.injEq] at hacq2
  rcases hcase with ⟨hne, _⟩ | ⟨_, hb⟩
  · exact absurd hacq2.1.symm hne
  · obtain ⟨_, hcur, hst, hwq, htq, hheap, _, hout⟩ := hb
    have hav := acquire_resource_available i.resource p _ resource _ _ 0 hacq
    have hav' : is_resource_available (walkFuel s1.heap) i.resource resource s1.heap
        = some 0 := by
      rw [hheap]
      exact hav
    refine ⟨s1, hreq, hout, hwq, ?_, ?_, hheap, hframe.1, htq, hframe.2.2.1, ?_⟩
    · unfold stateOf
      rw [hframe.2.2.2.1]
      simp [hst]
    · unfold instrs
      rw [hframe.2.2.2.1]
      simp [hcur]
    · unfold pending_available
      rw [hframe.2.2.2.1]
      simp only [hcur, hav']
      decide

/-- Claim C31, amended, at the first instruction of `exUnknown`. -/
theorem absent_request_waits_as_unavailable_witness :
    (chain (walkFuel exUnknown.heap) exUnknown.heap (firstResource ["R"]) = some [0] ∧
      (∀ a ∈ [0], ∀ node, exUnknown.heap[a]? = some node → node.name ≠ (req "Q").resource) ∧
      exUnknown.procs[0]? = some (Option.get exUnknown.procs[0]? (by decide)) ∧
      (Option.get exUnknown.procs[0]? (by decide)).nextInstruction = req "Q" :: [req "R"] ∧
      (req "Q").type = InstrType.REQ_V) ∧
    ∃ s1, process_request 0 (req "Q") (firstResource ["R"]) exUnknown = some s1 ∧
      s1.out = exUnknown.out ++
        [Event.req_waiting (Option.get exUnknown.procs[0]? (by decide)).name (req "Q").resource] ∧
      s1.waitingQueue = enqueue exUnknown.waitingQueue 0 ∧
      stateOf s1 0 = some WAITING ∧
      instrs s1 0 = some (req "Q" :: [req "R"]) ∧
      s1.heap = exUnknown.heap ∧ s1.readyQueue = exUnknown.readyQueue ∧
      s1.terminatedQueue = exUnknown.terminatedQueue ∧
      (∀ q, q ≠ 0 → s1.procs[q]? = exUnknown.procs[q]?) ∧
      pending_available s1 (firstResource ["R"]) 0 = false :=
  ⟨⟨by decide, by decide, (Option.some_get _).symm, by decide, by decide⟩,
    absent_request_waits_as_unavailable exUnknown (firstResource ["R"]) 0 _ (req "Q")
      [req "R"] [0] (by decide) (by decide) (Option.some_get _).symm (by decide) (by decide)⟩

/-! ## Runs that do not return -/

/-- A round-robin run does not return when one of its turns does not return. -/
theorem schedule_processes_rr_aborts (quantum : Int) (resource : Option Nat) :
    ∀ (k : Nat) (s t : State), rr_turns k quantum resource s = some t →
      t.readyQueue.items ≠ [] → rr_turn quantum resource t = none →
      ∀ fuel, schedule_processes_rr fuel quantum resource s = none := by
  intro k
  induction k with
  | zero =>
    intro s t h hne hturn fuel
    simp only [rr_turns, Option.some.injEq] at h
    subst h
    cases fuel with
    | zero => rfl
    | succ f =>
      simp only [schedule_processes_rr]
      cases hi : s.readyQueue.items with
      | nil => exact absurd hi hne
      | cons p R => simp only [hturn]
  | succ k ih =>
    intro s t h hne hturn fuel
    simp only [rr_turns] at h
    cases hi : s.readyQueue.items with
    | nil =>
      rw [hi] at h
      simp only [Option.some.injEq] at h
      subst h
      exact absurd hi hne
    | cons p R =>
      rw [hi] at h
      simp only at h
      cases ht : rr_turn quantum resource s with
      | none => rw [ht] at h; simp at h
      | some s1 =>
        rw [ht] at h
        cases fuel with
        | zero => rfl
        | succ f =>
          simp only [schedule_processes_rr, hi, ht]
          exact ih s1 t h hne hturn f

/-- Claim C32, evaluated on two loaded models.  In `exNoBox` the first
process sends to the mailbox `X`, which is not in the table: the search of
`process_send_message` runs off the list, the first turn of the round-robin
loop does not return (the source dereferences the `NULL` mailbox pointer) and
neither does the run, for any fuel; a receive from `X` fares the same.  In
`exLastRelease` the only instruction of the first process releases the absent
resource `Q`: the release fails, the process is put on the waiting queue with
no instruction left, and the drain of the same turn does not return (the
source reads `nextInstruction->resource` of a `NULL` instruction). -/
theorem rr_run_stops_at_missing_mailbox_or_instruction :
    (find_mailbox "X" exNoBox.mail = none ∧
      process_send_message 0 (snd "X" "hello") exNoBox = none ∧
      process_receive_message 1 (rcv "X") exNoBox = none ∧
      rr_turn 1 (firstResource ["R1"]) exNoBox = none ∧
      ∀ fuel, schedule_processes_rr fuel 1 (firstResource ["R1"]) exNoBox = none) ∧
    ((process_release 0 (rel "Q") (firstResource ["R"]) exLastRelease).map
        (fun s => (s.waitingQueue.items, instrs s 0)) = some ([0], some []) ∧
      (process_release 0 (rel "Q") (firstResource ["R"]) exLastRelease).map
        (fun s => (send_processes_to_readyq (firstResource ["R"]) s).isSome) = some false ∧
      rr_turn 1 (firstResource ["R"]) exLastRelease = none ∧
      ∀ fuel, schedule_processes_rr fuel 1 (firstResource ["R"]) exLastRelease = none) := by
  refine ⟨⟨by decide, by decide, by decide, by decide, ?_⟩, ⟨by decide, by decide, by decide, ?_⟩⟩
  · exact schedule_processes_rr_aborts 1 _ 0 exNoBox exNoBox rfl (by decide) (by decide)
  · exact schedule_processes_rr_aborts 1 _ 0 exLastRelease exLastRelease rfl (by decide)
      (by decide)

/-- Claim C36, evaluated on the loaded model `exLostInstance`, in which every
resource named by an instruction is in the table.  The first release of `C`
by `P1` unlinks the instance `C` from the resource table (the table is then
`A`, `B`); the second release of `C` finds no such name and fails, which leaves
`P1` on the waiting queue with no instruction left; the drain of that turn,
the fifth, does not return, and the round-robin run returns for no fuel. -/
theorem rr_run_stops_after_lost_instance :
    (∀ nm ∈ ["A", "C", "B"], nm ∈ ["A", "B", "C"]) ∧
    chain (walkFuel exLostInstance.heap) exLostInstance.heap (firstResource ["A", "B", "C"]) =
      some [0, 1, 2] ∧
    (rr_turns 4 1 (firstResource ["A", "B", "C"]) exLostInstance).map
        (fun s => chain (walkFuel s.heap) s.heap (firstResource ["A", "B", "C"])) =
      some (some [0, 1]) ∧
    (rr_turns 4 1 (firstResource ["A", "B", "C"]) exLostInstance).map
        (fun s => (s.readyQueue.items, instrs s 0)) = some ([0], some [rel "C"]) ∧
    (rr_turns 4 1 (firstResource ["A", "B", "C"]) exLostInstance).map
        (fun s => (rr_turn 1 (firstResource ["A", "B", "C"]) s).isSome) = some false ∧
    ∀ fuel, schedule_processes_rr fuel 1 (firstResource ["A", "B", "C"]) exLostInstance
      = none := by
  refine ⟨by decide, by decide, by decide, by decide, by decide, ?_⟩
  exact schedule_processes_rr_aborts 1 _ 4 exLostInstance
    (Option.get (rr_turns 4 1 (firstResource ["A", "B", "C"]) exLostInstance) (by decide))
    (Option.some_get _).symm (by decide) (by decide)

/-! ## The linked queue of `queue.c` -/

theorem linked_path_lt (cells : List queueItem) :
    ∀ (l : List (Nat × Nat)) (p : Option Nat), Linked.Path cells p l →
      ∀ ax ∈ l, ax.1 < cells.length := by
  intro l
  induction l with
  | nil => intro p _ ax hax; cases hax
  | cons hd l ih =>
    intro p hp ax hax
    obtain ⟨a, x⟩ := hd
    obtain ⟨_, c, hc, _, hrest⟩ := hp
    rcases List.mem_cons.1 hax with h | h
    · rw [h]
      exact (List.getElem?_eq_some.1 hc).1
    · exact ih _ hrest ax h

theorem linked_walk_of_path (cells : List queueItem) :
    ∀ (l : List (Nat × Nat)) (p : Option Nat) (fuel : Nat), Linked.Path cells p l →
      l.length < fuel → Linked.walk fuel cells p = some (l.map Prod.snd) := by
  intro l
  induction l with
  | nil =>
    intro p fuel hp hf
    have hp' : p = none := hp
    subst hp'
    cases fuel with
    | zero => exact absurd hf (Nat.lt_irrefl 0)
    | succ f => rfl
  | cons hd l ih =>
    intro p fuel hp hf
    obtain ⟨a, x⟩ := hd
    obtain ⟨hpa, c, hc, hx, hrest⟩ := hp
    subst hpa
    cases fuel with
    | zero => exact absurd hf (Nat.not_lt_zero _)
    | succ f =>
      simp only [Linked.walk, hc]
      rw [ih c.next f hrest (by simpa using hf)]
      simp [hx]

theorem linked_path_length_le (cells : List queueItem) (l : List (Nat × Nat)) (p : Option Nat)
    (hp : Linked.Path cells p l) (hnd : (l.map Prod.fst).Nodup) : l.length ≤ cells.length := by
  have hsub : (l.map Prod.fst).Subperm (List.range cells.length) := by
    refine List.Nodup.subperm hnd ?_
    intro a ha
    obtain ⟨ax, hax, rfl⟩ := List.mem_map.1 ha
    exact List.mem_range.2 (linked_path_lt cells l p hp ax hax)
  have := hsub.length_le
  simpa using this

/-- The last cell of a path has `next == NULL`. -/
theorem linked_path_last (cells : List queueItem) (t y : Nat) :
    ∀ (l : List (Nat × Nat)) (p : Option Nat), Linked.Path cells p (l ++ [(t, y)]) →
      ∃ tc, cells[t]? = some tc ∧ tc.item = y ∧ tc.next = none := by
  intro l
  induction l with
  | nil =>
    intro p hp
    obtain ⟨_, c, hc, hx, hrest⟩ := hp
    exact ⟨c, hc, hx, hrest⟩
  | cons hd l ih =>
    intro p hp
    obtain ⟨a, x⟩ := hd
    obtain ⟨_, c, _, _, hrest⟩ := hp
    exact ih _ hrest

/-- Linking a fresh cell behind the last cell of a path extends the path. -/
theorem linked_path_snoc (cells : List queueItem) (t y x : Nat) (tc : queueItem)
    (htc : cells[t]? = some tc) :
    ∀ (l : List (Nat × Nat)) (p : Option Nat), Linked.Path cells p (l ++ [(t, y)]) →
      ((l ++ [(t, y)]).map Prod.fst).Nodup →
      Linked.Path ((cells ++ [({ item := x, next := none } : queueItem)]).set t
          { tc with next := some cells.length }) p
        ((l ++ [(t, y)]) ++ [(cells.length, x)]) := by
  have htl : t < cells.length := (List.getElem?_eq_some.1 htc).1
  intro l
  induction l with
  | nil =>
    intro p hp _
    obtain ⟨hpa, c, hc, hx, hrest⟩ := hp
    rw [htc, Option.some.injEq] at hc
    subst hc
    refine ⟨hpa, { tc with next := some cells.length }, ?_, hx, rfl, ?_⟩
    · rw [List.getElem?_set]
      simp [htl, Nat.lt_succ_of_lt htl]
    · refine ⟨{ item := x, next := none }, ?_, rfl, rfl⟩
      rw [List.getElem?_set_ne (Nat.ne_of_lt htl)]
      simp
  | cons hd l ih =>
    intro p hp hnd
    obtain ⟨a, z⟩ := hd
    obtain ⟨hpa, c, hc, hz, hrest⟩ := hp
    have hnd' : ((l ++ [(t, y)]).map Prod.fst).Nodup := by
      simp only [List.cons_append, List.map_cons, List.nodup_cons] at hnd
      exact hnd.2
    have hat : a ≠ t := by
      simp only [List.cons_append, List.map_cons, List.nodup_cons] at hnd
      intro e
      apply hnd.1
      rw [e]
      simp
    have hal : a < cells.length := (List.getElem?_eq_some.1 hc).1
    refine ⟨hpa, c, ?_, hz, ih _ hrest hnd'⟩
    rw [List.getElem?_set_ne (Ne.symm hat), List.getElem?_append_left hal]
    exact hc

/-- The function `enqueue` keeps the representation: the list grows by the
new cell at its end. -/
theorem linked_enqueue_inv (q : Linked.queue) (l : List (Nat × Nat)) (x : Nat)
    (h : Linked.Inv q l) :
    ∃ q1, Linked.enqueue q x = some q1 ∧ Linked.Inv q1 (l ++ [(q.cells.length, x)]) := by
  obtain ⟨hpath, hnd, htail, hn⟩ := h
  have hfresh : q.cells.length ∉ l.map Prod.fst := by
    intro hmem
    obtain ⟨ax, hax, he⟩ := List.mem_map.1 hmem
    have := linked_path_lt q.cells l q.head hpath ax hax
    omega
  rcases List.eq_nil_or_concat l with hl | ⟨l0, ty, hl⟩
  · subst hl
    have hh : q.head = none := hpath
    have he : ∃ q1, Linked.enqueue q x = some q1 ∧
        q1.cells = q.cells ++ [{ item := x, next := none }] ∧
        q1.head = some q.cells.length ∧ q1.tail = some q.cells.length ∧ q1.n = q.n + 1 := by
      simp only [Linked.enqueue, hh]
      exact ⟨_, rfl, rfl, rfl, rfl, rfl⟩
    obtain ⟨q1, he, hcells, hhead1, htail1, hn1⟩ := he
    refine ⟨q1, he, ?_, by simp, ?_, ?_⟩
    · show Linked.Path q1.cells q1.head _
      rw [hcells, hhead1]
      exact ⟨rfl, { item := x, next := none }, by simp, rfl, rfl⟩
    · intro ax hax
      simp only [List.nil_append, List.getLast?_singleton, Option.some.injEq] at hax
      rw [← hax]
      exact htail1
    · rw [hn1, hn]
      simp
  · obtain ⟨t, y⟩ := ty
    have hl' : l = l0 ++ [(t, y)] := by simpa using hl
    subst hl'
    obtain ⟨tc, htc, _, _⟩ := linked_path_last q.cells t y l0 q.head hpath
    have htq : q.tail = some t := htail (t, y) (by simp)
    obtain ⟨a0, hhead⟩ : ∃ a0, q.head = some a0 := by
      cases l0 with
      | nil => exact ⟨t, hpath.1⟩
      | cons hd l1 => exact ⟨hd.1, hpath.1⟩
    have he : ∃ q1, Linked.enqueue q x = some q1 ∧
        q1.cells = (q.cells ++ [({ item := x, next := none } : queueItem)]).set t
          { tc with next := some q.cells.length } ∧
        q1.head = q.head ∧ q1.tail = some q.cells.length ∧ q1.n = q.n + 1 := by
      simp only [Linked.enqueue, hhead, htq, htc]
      exact ⟨_, rfl, rfl, rfl, rfl, rfl⟩
    obtain ⟨q1, he, hcells, hhead1, htail1, hn1⟩ := he
    refine ⟨q1, he, ?_, ?_, ?_, ?_⟩
    · show Linked.Path q1.cells q1.head _
      rw [hcells, hhead1]
      exact linked_path_snoc q.cells t y x tc htc l0 q.head hpath hnd
    · rw [List.map_append, List.nodup_append]
      refine ⟨hnd, by simp, ?_⟩
      intro a ha hb
      simp only [List.map_cons, List.map_nil, List.mem_singleton] at hb
      exact hfresh (hb ▸ ha)
    · intro ax hax
      have hax' : some (q.cells.length, x) = some ax := by simpa using hax
      rw [Option.some.injEq] at hax'
      rw [← hax']
      exact htail1
    · rw [hn1, hn]
      simp only [List.length_append, List.length_singleton, Nat.cast_add, Nat.cast_one]

/-- The function `dequeue` keeps the representation: on the empty list it
returns `NULL` and the queue as it was; otherwise it returns the first cell,
which holds the oldest item, and leaves the rest of the list. -/
theorem linked_dequeue_inv (q : Linked.queue) (l : List (Nat × Nat)) (h : Linked.Inv q l) :
    (l = [] → Linked.dequeue q = some (none, q)) ∧
    ∀ a x l1, l = (a, x) :: l1 →
      ∃ q1, Linked.dequeue q = some (some a, q1) ∧ Linked.Inv q1 l1 ∧
        Linked.item q1 (some a) = some x := by
  obtain ⟨hpath, hnd, htail, hn⟩ := h
  refine ⟨?_, ?_⟩
  · intro hl
    subst hl
    have hh : q.head = none := hpath
    simp only [Linked.dequeue, hh]
  · intro a x l1 hl
    subst hl
    obtain ⟨hh, c, hc, hx, hrest⟩ := hpath
    refine ⟨{ q with head := c.next, n := q.n - 1 }, by simp only [Linked.dequeue, hh, hc],
      ⟨hrest, ?_, ?_, ?_⟩, ?_⟩
    · simp only [List.map_cons, List.nodup_cons] at hnd
      exact hnd.2
    · intro ax hax
      refine htail ax ?_
      cases l1 with
      | nil => simp at hax
      | cons hd l2 =>
        rw [List.getLast?_cons_cons]
        exact hax
    · show q.n - 1 = _
      rw [hn]
      simp
    · show (some a).bind (fun a => (q.cells[a]?).map (fun c => c.item)) = some x
      simp [hc, hx]

/-- A sequence of operations on a linked queue that represents a list returns,
with the results and the final list of the abstract FIFO list. -/
theorem linked_run_inv :
    ∀ (ops : List QueueOp) (q : Linked.queue) (l : List (Nat × Nat)), Linked.Inv q l →
      ∃ rs q1 l1, Linked.run ops q = some (rs, q1) ∧ Linked.Inv q1 l1 ∧
        rs = (fifo_run ops (l.map Prod.snd)).1 ∧
        l1.map Prod.snd = (fifo_run ops (l.map Prod.snd)).2 := by
  intro ops
  induction ops with
  | nil => intro q l h; exact ⟨[], q, l, rfl, h, rfl, rfl⟩
  | cons op ops ih =>
    intro q l h
    cases op with
    | enq x =>
      obtain ⟨q1, he, hinv⟩ := linked_enqueue_inv q l x h
      obtain ⟨rs, q2, l2, hrun, hinv2, hrs, hl2⟩ := ih q1 _ hinv
      refine ⟨rs, q2, l2, by simp only [Linked.run, he, hrun], hinv2, ?_, ?_⟩
      · rw [hrs]
        simp [fifo_run]
      · rw [hl2]
        simp [fifo_run]
    | deq =>
      obtain ⟨hempty, hcons⟩ := linked_dequeue_inv q l h
      cases l with
      | nil =>
        have hd := hempty rfl
        obtain ⟨rs, q2, l2, hrun, hinv2, hrs, hl2⟩ := ih q [] h
        refine ⟨none :: rs, q2, l2, by simp only [Linked.run, hd, hrun, Linked.item]; rfl,
          hinv2, ?_, ?_⟩
        · simp only [List.map_nil, fifo_run]
          rw [hrs]
          rfl
        · rw [hl2]
          simp [fifo_run]
      | cons hd l1 =>
        obtain ⟨a, x⟩ := hd
        obtain ⟨q1, hdq, hinv1, hitem⟩ := hcons a x l1 rfl
        obtain ⟨rs, q2, l2, hrun, hinv2, hrs, hl2⟩ := ih q1 l1 hinv1
        refine ⟨some x :: rs, q2, l2, by simp only [Linked.run, hdq, hrun, hitem],
          hinv2, ?_, ?_⟩
        · simp only [List.map_cons, fifo_run]
          rw [hrs]
        · rw [hl2]
          simp [fifo_run]

/-- The items reachable from the head of a linked queue that represents `l`
are the items of `l`. -/
theorem linked_items_of_inv (q : Linked.queue) (l : List (Nat × Nat)) (h : Linked.Inv q l) :
    Linked.items q = some (l.map Prod.snd) :=
  linked_walk_of_path q.cells l q.head _ h.1
    (Nat.lt_succ_of_le (linked_path_length_le q.cells l q.head h.1 h.2.1))

/-- An empty queue, `head == NULL` and `n == 0`, represents the empty list,
whatever its `tail` and the cells allocated before. -/
theorem linked_empty_inv (cells : List queueItem) (tail : Option Nat) :
    Linked.Inv { cells := cells, head := none, tail := tail, n := 0 } [] :=
  ⟨rfl, by simp, fun ax hax => by simp at hax, rfl⟩

/-- The queue of the scheduler model is the abstract FIFO list, and its
counter stays the number of its items. -/
theorem queue_run_fifo :
    ∀ (ops : List QueueOp) (q : queue),
      (queue_run ops q).1 = (fifo_run ops q.items).1 ∧
      (queue_run ops q).2.items = (fifo_run ops q.items).2 ∧
      (Counted q → Counted (queue_run ops q).2) := by
  intro ops
  induction ops with
  | nil => intro q; exact ⟨rfl, rfl, fun h => h⟩
  | cons op ops ih =>
    intro q
    cases op with
    | enq x =>
      obtain ⟨h1, h2, h3⟩ := ih (enqueue q x)
      refine ⟨h1, h2, fun hc => h3 ?_⟩
      unfold Counted at hc ⊢
      simp [enqueue, hc]
    | deq =>
      cases hq : q.items with
      | nil =>
        obtain ⟨h1, h2, h3⟩ := ih q
        rw [hq] at h1 h2
        have hd : dequeue q = none := by simp [dequeue, hq]
        simp only [queue_run, hd, fifo_run]
        exact ⟨by rw [h1], h2, h3⟩
      | cons x l =>
        have hd : dequeue q = some (x, { items := l, n := q.n - 1 }) := by simp [dequeue, hq]
        obtain ⟨h1, h2, h3⟩ := ih { items := l, n := q.n - 1 }
        simp only [queue_run, hd, fifo_run]
        refine ⟨by rw [h1], h2, fun hc => h3 ?_⟩
        unfold Counted at hc ⊢
        rw [hc, hq]
        simp

/-- Claim C33: for every sequence of `enqueue` and `dequeue` operations on an
initially empty linked queue (`head == NULL`, `n == 0`, any `tail`), the
operations return, the dequeues return what the dequeues of the abstract FIFO
list return (the oldest item not yet dequeued, or the empty result), and the
items reachable from `head` afterwards are the abstract list.  A dequeue on a
queue with `head == NULL` returns `NULL` and the queue as it was.  Since the
initial `tail` is arbitrary, the same holds for a queue that was emptied and is
refilled: `enqueue` resets `tail` when `head == NULL` and never reads the old
one; the sequence `exRefill` shows it.  The queue of the scheduler model
returns the same results. -/
theorem linked_queue_is_fifo (ops : List QueueOp) (cells : List queueItem)
    (tail : Option Nat) :
    (∃ rs q1, Linked.run ops (Linked.empty cells tail) = some (rs, q1) ∧
      rs = (fifo_run ops []).1 ∧ Linked.items q1 = some (fifo_run ops []).2 ∧
      (queue_run ops { items := [], n := 0 }).1 = rs ∧
      (queue_run ops { items := [], n := 0 }).2.items = (fifo_run ops []).2) ∧
    (∀ (c : List queueItem) (t : Option Nat) (n : Int),
      Linked.dequeue { cells := c, head := none, tail := t, n := n } =
        some (none, { cells := c, head := none, tail := t, n := n })) ∧
    (Linked.run exRefill (Linked.empty [] none)).map (fun x => x.1) =
      some [some 1, some 2, none, some 3] ∧
    (fifo_run exRefill []).1 = [some 1, some 2, none, some 3] ∧
    ((Linked.run (exRefill.take 5) (Linked.empty [] none)).map
      (fun x => (x.2.head, x.2.tail))) = some (none, some 1) := by
  refine ⟨?_, ?_, by decide, by decide, by decide⟩
  · obtain ⟨rs, q1, l1, hrun, hinv, hrs, hl1⟩ :=
      linked_run_inv ops (Linked.empty cells tail) [] (linked_empty_inv cells tail)
    obtain ⟨g1, g2, _⟩ := queue_run_fifo ops { items := [], n := 0 }
    refine ⟨rs, q1, hrun, hrs, ?_, ?_, g2⟩
    · rw [linked_items_of_inv q1 l1 hinv, hl1]
      rfl
    · rw [g1, hrs]
      rfl
  · intro c t n
    rfl

/-- Claim C34: after every operation of every sequence of `enqueue` and
`dequeue` operations on an initially empty linked queue with `n == 0` (after
the first `k` operations, for every `k`), the counter `n` is the number of
items reachable from `head`; so `n` is never negative, and `n == 0` exactly
when `head == NULL`.  The counter of the queue of the scheduler model is the
number of its items as well. -/
theorem linked_queue_counts_items (ops : List QueueOp) (cells : List queueItem)
    (tail : Option Nat) (k : Nat) :
    ∃ rs q1 items, Linked.run (ops.take k) (Linked.empty cells tail) = some (rs, q1) ∧
      Linked.items q1 = some items ∧ q1.n = items.length ∧ 0 ≤ q1.n ∧
      (q1.n = 0 ↔ q1.head = none) ∧
      (queue_run (ops.take k) { items := [], n := 0 }).2.items = items ∧
      Counted (queue_run (ops.take k) { items := [], n := 0 }).2 := by
  obtain ⟨rs, q1, l1, hrun, hinv, _, hl1⟩ :=
    linked_run_inv (ops.take k) (Linked.empty cells tail) [] (linked_empty_inv cells tail)
  obtain ⟨_, g2, g3⟩ := queue_run_fifo (ops.take k) { items := [], n := 0 }
  have hn : q1.n = (l1.map Prod.snd).length := by
    rw [hinv.2.2.2]
    simp
  refine ⟨rs, q1, l1.map Prod.snd, hrun, linked_items_of_inv q1 l1 hinv, hn, ?_, ?_, ?_,
    g3 rfl⟩
  · rw [hn]
    exact Int.natCast_nonneg _
  · rw [hinv.2.2.2]
    cases l1 with
    | nil =>
      have hh : q1.head = none := hinv.1
      simp [hh]
    | cons hd l2 =>
      have hh : q1.head = some hd.1 := hinv.1.1
      simp only [hh, List.length_cons]
      constructor
      · intro h
        omega
      · intro h
        cases h
  · rw [g2, hl1]
    rfl

end ProcSched
